import Mathlib

/-!
# CPU_Scheduler: a verification development of `backend/main.go`

A shallow embedding of the scheduling engines of `backend/main.go`
(`runFCFS`, `runSJF`, `runSRTF`, `runRoundRobin`, `runNonPreemptivePriority`,
`runPreemptivePriority`) and theorems about them.

Modelling conventions.

* Go `int` is the 64-bit two's-complement integer of the platforms the server
  is built for.  A value is an `Int`; every sum and difference that the code
  computes on `int`s is reduced to 64 bits by `wrap`, so a sum that leaves the
  range wraps around as it does in Go.  The two loop counters
  (`remainingProcesses`, `completedCount`) stay between 0 and `len(procs)` and
  are natural numbers.
* The namespace `Exact` repeats the engines with the sums and differences taken
  in `Int`.  Those are not the code; they agree with it on the inputs whose
  times stay in range (`InRange`), and are the means to reason about it there.
* A Go slice is a `List`; `procs[i].f = v` is `List.set`.
* An index variable that holds `-1` for "nothing selected" (`selectedIdx`,
  `nextIndex`, `currentProcess`) is an `Option Nat`: an index is never
  negative, so `none` stands for `-1` exactly.  A *value* variable with the
  sentinel `-1` (`minBurstTime`, `highestPriority`, `nextArrival`) stays an
  `Int` compared with `-1`, as in the source.
* The `for cond { ... }` loops take a fuel argument: `iterate` runs the loop
  body at most `fuel + 1` times and returns `none` when the fuel runs out or
  when the body faults (an index out of range, a run-time error in Go).
* `sort.Slice` belongs to the Go standard library, not to this repository;
  `runFCFS` takes it as a parameter.
* `handleSimulation` computes its three averages in `float64`.  The type of
  the floating-point values, the conversion `float64(...)` and the division
  belong to the Go language, not to this repository; `averageTimes` takes them
  as parameters.  With the rationals for them, the averages are exact.
-/

namespace CPUScheduler

/-- Go struct `Process`.  The `int` fields are `Int`s; on a process that Go hands
to an engine each of them holds a value of Go `int` (`GoInts`). -/
structure Process where
  ID : String
  ArrivalTime : Int
  BurstTime : Int
  RemainingTime : Int
  Priority : Int
  StartTime : Int
  IsStarted : Bool
  CompletionTime : Int
  TurnaroundTime : Int
  WaitingTime : Int
  ResponseTime : Int
  deriving DecidableEq, Repr, Inhabited

/-- Go struct `TimelineSegment`. -/
structure TimelineSegment where
  ProcessID : String
  StartTime : Int
  EndTime : Int
  deriving DecidableEq, Repr, Inhabited

/-- Go struct `SimulationResponse`, without the three averages, which the
engines leave at zero and `handleSimulation` fills in. -/
structure SimulationResponse where
  Processes : List Process
  Timeline : List TimelineSegment
  deriving DecidableEq, Repr, Inhabited

/-- A process as the JSON decoder and `handleSimulation` hand it to an engine:
the given id, arrival, burst and priority, `RemainingTime = BurstTime`, every
other field zero. -/
def mkProcess (id : String) (arrival burst priority : Int) : Process :=
  { ID := id, ArrivalTime := arrival, BurstTime := burst, RemainingTime := burst,
    Priority := priority, StartTime := 0, IsStarted := false, CompletionTime := 0,
    TurnaroundTime := 0, WaitingTime := 0, ResponseTime := 0 }

/-! ## Go `int` -/

/-- The value that Go keeps of the integer `x` in an `int`: `x` reduced modulo
`2^64` into the range from `-2^63` to `2^63 - 1`. -/
def wrap (x : Int) : Int :=
  (x + 2 ^ 63) % 2 ^ 64 - 2 ^ 63

/-! ## Loops -/

/-- What one pass through a loop body does. -/
inductive Step (σ : Type) where
  /-- the body ran to its end (or hit `continue`): test the condition again -/
  | next (s : σ)
  /-- the loop is left: its condition is false, or the body hit `break` -/
  | done (s : σ)
  /-- a run-time error (index out of range) -/
  | fault

/-- A `for cond { body }` loop, run for at most `fuel + 1` passes. -/
def iterate {σ : Type} (step : σ → Step σ) : Nat → σ → Option σ
  | 0, s =>
    match step s with
    | .done r => some r
    | _ => none
  | fuel + 1, s =>
    match step s with
    | .done r => some r
    | .next t => iterate step fuel t
    | .fault => none

/-! ## Scans shared by the engines -/

/-- The loop `for _, p := range procs { if p.ArrivalTime < earliestArrival {...} }`,
started from `earliestArrival`. -/
def earliestArrivalFrom (earliestArrival : Int) : List Process → Int
  | [] => earliestArrival
  | p :: ps =>
    if p.ArrivalTime < earliestArrival then earliestArrivalFrom p.ArrivalTime ps
    else earliestArrivalFrom earliestArrival ps

/-- The statement `earliestArrival := procs[0].ArrivalTime` and the loop after it;
`none` is the index-out-of-range error of `procs[0]` on an empty slice. -/
def earliestArrival : List Process → Option Int
  | [] => none
  | p :: ps => some (earliestArrivalFrom p.ArrivalTime (p :: ps))

/-- The selection scan of `runSJF`, `runSRTF` and the two priority engines:
`for i, p := range procs { if p.RemainingTime > 0 && p.ArrivalTime <= currentTime {
if best == -1 || key(p) < best { best = key(p); selectedIdx = i } } }`,
on the processes from index `i` on, with the pair `(best, selectedIdx)` so far. -/
def selectFrom (key : Process → Int) (currentTime : Int) :
    List Process → Nat → Int × Option Nat → Int × Option Nat
  | [], _, acc => acc
  | p :: ps, i, (best, selectedIdx) =>
    if p.RemainingTime > 0 ∧ p.ArrivalTime ≤ currentTime then
      if best = -1 ∨ key p < best then selectFrom key currentTime ps (i + 1) (key p, some i)
      else selectFrom key currentTime ps (i + 1) (best, selectedIdx)
    else selectFrom key currentTime ps (i + 1) (best, selectedIdx)

/-- The value of `selectedIdx` after the selection scan. -/
def selectIdx (key : Process → Int) (currentTime : Int) (procs : List Process) : Option Nat :=
  (selectFrom key currentTime procs 0 (-1, none)).2

/-- The scan `for _, p := range procs { if p.RemainingTime > 0 {
if nextArrival == -1 || p.ArrivalTime < nextArrival { nextArrival = p.ArrivalTime } } }`. -/
def nextArrivalFrom (nextArrival : Int) : List Process → Int
  | [] => nextArrival
  | p :: ps =>
    if p.RemainingTime > 0 then
      if nextArrival = -1 ∨ p.ArrivalTime < nextArrival then nextArrivalFrom p.ArrivalTime ps
      else nextArrivalFrom nextArrival ps
    else nextArrivalFrom nextArrival ps

/-- The value of `nextArrival` after the idle-advance scan. -/
def nextArrival (procs : List Process) : Int :=
  nextArrivalFrom (-1) procs

/-- The block `if !procs[i].IsStarted { StartTime = currentTime;
ResponseTime = currentTime - ArrivalTime; IsStarted = true }` on one process. -/
def markStarted (currentTime : Int) (p : Process) : Process :=
  if p.IsStarted then p
  else { p with StartTime := currentTime, ResponseTime := wrap (currentTime - p.ArrivalTime),
                IsStarted := true }

/-- The three assignments `CompletionTime = currentTime; TurnaroundTime =
CompletionTime - ArrivalTime; WaitingTime = TurnaroundTime - BurstTime`. -/
def setMetrics (currentTime : Int) (p : Process) : Process :=
  { p with CompletionTime := currentTime,
           TurnaroundTime := wrap (currentTime - p.ArrivalTime),
           WaitingTime := wrap (wrap (currentTime - p.ArrivalTime) - p.BurstTime) }

/-- The loop `for i := range procs { procs[i].IsStarted = false }`. -/
def resetStarted (procs : List Process) : List Process :=
  procs.map fun p => { p with IsStarted := false }

/-! ## First Come First Served -/

/-- The loop of `runFCFS` over the sorted processes, from the clock
`currentTime`: the processes with their metrics, and the segments appended. -/
def fcfsLoop : Int → List Process → List Process × List TimelineSegment
  | _, [] => ([], [])
  | currentTime, p :: ps =>
    let start := if currentTime < p.ArrivalTime then p.ArrivalTime else currentTime
    let p1 := { p with StartTime := start, ResponseTime := wrap (start - p.ArrivalTime) }
    let segment : TimelineSegment :=
      { ProcessID := p1.ID, StartTime := start, EndTime := wrap (start + p1.BurstTime) }
    let finish := wrap (start + p1.BurstTime)
    let p2 := setMetrics finish p1
    let rest := fcfsLoop finish ps
    (p2 :: rest.1, segment :: rest.2)

/-- Go `runFCFS`.  `sortSlice less procs` stands for the standard library call
`sort.Slice(procs, less)`, with `less` given on elements. -/
def runFCFS (sortSlice : (Process → Process → Bool) → List Process → List Process)
    (processes : List Process) : SimulationResponse :=
  let procs := sortSlice (fun a b => decide (a.ArrivalTime < b.ArrivalTime)) processes
  let r := fcfsLoop 0 procs
  { Processes := r.1, Timeline := r.2 }

/-! ## Shortest Job First and non-preemptive Priority

`runSJF` and `runNonPreemptivePriority` are the same text up to the selection
key (`p.BurstTime` against `p.Priority`) and the returned process list
(`completed` against `procs`). -/

/-- The local variables of `runSJF` / `runNonPreemptivePriority`. -/
structure NPState where
  procs : List Process
  timeline : List TimelineSegment
  completed : List Process
  currentTime : Int
  remainingProcesses : Nat
  deriving DecidableEq, Repr

/-- One pass of `for remainingProcesses > 0 { ... }` in `runSJF`
(`key = BurstTime`) and `runNonPreemptivePriority` (`key = Priority`). -/
def npStep (key : Process → Int) (s : NPState) : Step NPState :=
  if s.remainingProcesses > 0 then
    match selectIdx key s.currentTime s.procs with
    | none => .next { s with currentTime := nextArrival s.procs }
    | some i =>
      match s.procs[i]? with
      | none => .fault
      | some p =>
        let p1 := markStarted s.currentTime p
        let segment : TimelineSegment :=
          { ProcessID := p1.ID, StartTime := s.currentTime,
            EndTime := wrap (s.currentTime + p1.RemainingTime) }
        let now := wrap (s.currentTime + p1.RemainingTime)
        let p2 := { setMetrics now p1 with RemainingTime := 0 }
        .next { procs := s.procs.set i p2,
                timeline := s.timeline ++ [segment],
                completed := s.completed ++ [p2],
                currentTime := now,
                remainingProcesses := s.remainingProcesses - 1 }
  else .done s

/-- The state of `runSJF` / `runNonPreemptivePriority` on entry to the loop. -/
def npInit (processes : List Process) : Option NPState :=
  match earliestArrival processes with
  | none => none
  | some t =>
    some { procs := processes, timeline := [], completed := [], currentTime := t,
           remainingProcesses := processes.length }

/-- Go `runSJF`. -/
def runSJF (fuel : Nat) (processes : List Process) : Option SimulationResponse :=
  match npInit processes with
  | none => none
  | some s0 =>
    match iterate (npStep fun p => p.BurstTime) fuel s0 with
    | none => none
    | some s => some { Processes := s.completed, Timeline := s.timeline }

/-- Go `runNonPreemptivePriority`. -/
def runNonPreemptivePriority (fuel : Nat) (processes : List Process) :
    Option SimulationResponse :=
  match npInit processes with
  | none => none
  | some s0 =>
    match iterate (npStep fun p => p.Priority) fuel s0 with
    | none => none
    | some s => some { Processes := s.procs, Timeline := s.timeline }

/-! ## Shortest Remaining Time First and preemptive Priority

`runSRTF` and `runPreemptivePriority` are the same text up to the selection key
(`p.RemainingTime` against `p.Priority`) and the test that lets a later arrival
cut the time slice. -/

/-- The local variables of `runSRTF` / `runPreemptivePriority`. -/
structure PState where
  procs : List Process
  timeline : List TimelineSegment
  currentTime : Int
  remainingProcesses : Nat
  currentProcess : Option Nat
  currentSegmentStart : Int
  deriving DecidableEq, Repr

/-- The scan `for _, p := range procs { if p.RemainingTime > 0 &&
p.ArrivalTime > currentTime && p.ArrivalTime < currentTime+timeSlice {
if preempts(p) { timeSlice = p.ArrivalTime - currentTime } } }`, with the
`timeSlice` so far; `sel` is `procs[selectedIdx]`. -/
def timeSliceFrom (preempts : Process → Process → Int → Bool) (sel : Process)
    (currentTime : Int) : Int → List Process → Int
  | timeSlice, [] => timeSlice
  | timeSlice, p :: ps =>
    if p.RemainingTime > 0 ∧ p.ArrivalTime > currentTime ∧
        p.ArrivalTime < wrap (currentTime + timeSlice) then
      if preempts p sel currentTime then
        timeSliceFrom preempts sel currentTime (wrap (p.ArrivalTime - currentTime)) ps
      else timeSliceFrom preempts sel currentTime timeSlice ps
    else timeSliceFrom preempts sel currentTime timeSlice ps

/-- The test of `runSRTF`:
`p.BurstTime < procs[selectedIdx].RemainingTime-(p.ArrivalTime-currentTime)`. -/
def srtfPreempts (p sel : Process) (currentTime : Int) : Bool :=
  decide (p.BurstTime < wrap (sel.RemainingTime - wrap (p.ArrivalTime - currentTime)))

/-- The test of `runPreemptivePriority`: `p.Priority < procs[selectedIdx].Priority`. -/
def priorityPreempts (p sel : Process) (_currentTime : Int) : Bool :=
  decide (p.Priority < sel.Priority)

/-- The branch `if selectedIdx == -1 { ... continue }` of the preemptive engines. -/
def pIdle (s : PState) : Step PState :=
  let next := nextArrival s.procs
  match s.currentProcess with
  | none => .next { s with currentTime := next }
  | some c =>
    match s.procs[c]? with
    | none => .fault
    | some pc =>
      .next { s with
        timeline := s.timeline ++
          [{ ProcessID := pc.ID, StartTime := s.currentSegmentStart, EndTime := s.currentTime }],
        currentProcess := none,
        currentTime := next }

/-- The rest of the body of the preemptive engines, for `selectedIdx = i` and
`p = procs[i]`. -/
def pRun (preempts : Process → Process → Int → Bool) (s : PState) (i : Nat) (p : Process) :
    Step PState :=
  let p1 := markStarted s.currentTime p
  let procs1 := s.procs.set i p1
  -- the process switch
  let switched : Option (List TimelineSegment × Int) :=
    match s.currentProcess with
    | none => some (s.timeline, s.currentTime)
    | some c =>
      if c ≠ i then
        match procs1[c]? with
        | none => none
        | some pc =>
          some (s.timeline ++
            [{ ProcessID := pc.ID, StartTime := s.currentSegmentStart,
               EndTime := s.currentTime }], s.currentTime)
      else some (s.timeline, s.currentSegmentStart)
  match switched with
  | none => .fault
  | some (timeline1, segmentStart) =>
    let timeSlice := timeSliceFrom preempts p1 s.currentTime p1.RemainingTime procs1
    let now := wrap (s.currentTime + timeSlice)
    let p2 := { p1 with RemainingTime := wrap (p1.RemainingTime - timeSlice) }
    if p2.RemainingTime = 0 then
      .next { procs := procs1.set i (setMetrics now p2),
              timeline := timeline1 ++
                [{ ProcessID := p2.ID, StartTime := segmentStart, EndTime := now }],
              currentTime := now,
              remainingProcesses := s.remainingProcesses - 1,
              currentProcess := none,
              currentSegmentStart := segmentStart }
    else
      .next { procs := procs1.set i p2,
              timeline := timeline1,
              currentTime := now,
              remainingProcesses := s.remainingProcesses,
              currentProcess := some i,
              currentSegmentStart := segmentStart }

/-- One pass of `for remainingProcesses > 0 { ... }` in `runSRTF`
(`key = RemainingTime`, `preempts = srtfPreempts`) and `runPreemptivePriority`
(`key = Priority`, `preempts = priorityPreempts`). -/
def pStep (key : Process → Int) (preempts : Process → Process → Int → Bool) (s : PState) :
    Step PState :=
  if s.remainingProcesses > 0 then
    match selectIdx key s.currentTime s.procs with
    | none => pIdle s
    | some i =>
      match s.procs[i]? with
      | none => .fault
      | some p => pRun preempts s i p
  else .done s

/-- The state of `runSRTF` / `runPreemptivePriority` on entry to the loop. -/
def pInit (processes : List Process) : Option PState :=
  let procs := resetStarted processes
  match earliestArrival procs with
  | none => none
  | some t =>
    some { procs := procs, timeline := [], currentTime := t,
           remainingProcesses := procs.length, currentProcess := none,
           currentSegmentStart := 0 }

/-- Go `runSRTF`. -/
def runSRTF (fuel : Nat) (processes : List Process) : Option SimulationResponse :=
  match pInit processes with
  | none => none
  | some s0 =>
    match iterate (pStep (fun p => p.RemainingTime) srtfPreempts) fuel s0 with
    | none => none
    | some s => some { Processes := s.procs, Timeline := s.timeline }

/-- Go `runPreemptivePriority`. -/
def runPreemptivePriority (fuel : Nat) (processes : List Process) :
    Option SimulationResponse :=
  match pInit processes with
  | none => none
  | some s0 =>
    match iterate (pStep (fun p => p.Priority) priorityPreempts) fuel s0 with
    | none => none
    | some s => some { Processes := s.procs, Timeline := s.timeline }

/-! ## Round Robin -/

/-- The local variables of `runRoundRobin`. -/
structure RRState where
  procs : List Process
  timeline : List TimelineSegment
  readyQueue : List Nat
  currentTime : Int
  completedCount : Nat
  deriving DecidableEq, Repr

/-- Go `contains`. -/
def contains : List Nat → Nat → Bool
  | [], _ => false
  | item :: rest, val => if item = val then true else contains rest val

/-- The loop `for i, p := range procs { if p.ArrivalTime <= currentTime {
readyQueue = append(readyQueue, i) } }` on the processes from index `i` on. -/
def initialQueueFrom (currentTime : Int) : List Process → Nat → List Nat → List Nat
  | [], _, readyQueue => readyQueue
  | p :: ps, i, readyQueue =>
    if p.ArrivalTime ≤ currentTime then initialQueueFrom currentTime ps (i + 1) (readyQueue ++ [i])
    else initialQueueFrom currentTime ps (i + 1) readyQueue

/-- The scan for the next arrival when the ready queue is empty:
`for i, p := range procs { if p.RemainingTime > 0 && p.ArrivalTime > currentTime {
if nextArrival == -1 || p.ArrivalTime < nextArrival { nextArrival = p.ArrivalTime;
nextIndex = i } } }`, with the pair `(nextArrival, nextIndex)` so far. -/
def findNextFrom (currentTime : Int) : List Process → Nat → Int × Option Nat → Int × Option Nat
  | [], _, acc => acc
  | p :: ps, i, (nextArrival, nextIndex) =>
    if p.RemainingTime > 0 ∧ p.ArrivalTime > currentTime then
      if nextArrival = -1 ∨ p.ArrivalTime < nextArrival then
        findNextFrom currentTime ps (i + 1) (p.ArrivalTime, some i)
      else findNextFrom currentTime ps (i + 1) (nextArrival, nextIndex)
    else findNextFrom currentTime ps (i + 1) (nextArrival, nextIndex)

/-- The scan `for i, p := range procs { if p.RemainingTime > 0 &&
p.ArrivalTime > currentTime-executeTime && p.ArrivalTime <= currentTime &&
!contains(readyQueue, i) { readyQueue = append(readyQueue, i) } }`, on the
processes from index `i` on; `currentTime` is the clock after the slice. -/
def arrivalsFrom (currentTime executeTime : Int) : List Process → Nat → List Nat → List Nat
  | [], _, readyQueue => readyQueue
  | p :: ps, i, readyQueue =>
    if p.RemainingTime > 0 ∧ p.ArrivalTime > wrap (currentTime - executeTime) ∧
        p.ArrivalTime ≤ currentTime ∧ contains readyQueue i = false then
      arrivalsFrom currentTime executeTime ps (i + 1) (readyQueue ++ [i])
    else arrivalsFrom currentTime executeTime ps (i + 1) readyQueue

/-- The part of the body of `runRoundRobin` from `currentProcessIdx :=
readyQueue[0]` on, for the clock `currentTime` and the queue
`currentProcessIdx :: readyQueue`, and `p = procs[currentProcessIdx]`. -/
def rrDispatch (timeQuantum : Int) (s : RRState) (currentTime : Int)
    (currentProcessIdx : Nat) (readyQueue : List Nat) (p : Process) : RRState :=
  let p1 := markStarted currentTime p
  let executeTime := if p1.RemainingTime < timeQuantum then p1.RemainingTime else timeQuantum
  let segment : TimelineSegment :=
    { ProcessID := p1.ID, StartTime := currentTime, EndTime := wrap (currentTime + executeTime) }
  let now := wrap (currentTime + executeTime)
  let p2 := { p1 with RemainingTime := wrap (p1.RemainingTime - executeTime) }
  let procs2 := s.procs.set currentProcessIdx p2
  let queue2 := arrivalsFrom now executeTime procs2 0 readyQueue
  if p2.RemainingTime > 0 then
    { procs := procs2, timeline := s.timeline ++ [segment],
      readyQueue := queue2 ++ [currentProcessIdx], currentTime := now,
      completedCount := s.completedCount }
  else
    { procs := s.procs.set currentProcessIdx (setMetrics now p2),
      timeline := s.timeline ++ [segment],
      readyQueue := queue2, currentTime := now,
      completedCount := s.completedCount + 1 }

/-- One pass of `for completedCount < len(procs) { ... }` in `runRoundRobin`,
with the quantum already clamped. -/
def rrStep (timeQuantum : Int) (s : RRState) : Step RRState :=
  if s.completedCount < s.procs.length then
    -- the refill of an empty ready queue; `none` is the `break`
    let refill : Option (Int × List Nat) :=
      match s.readyQueue with
      | [] =>
        match (findNextFrom s.currentTime s.procs 0 (-1, none)) with
        | (_, none) => none
        | (next, some nextIndex) => some (next, [nextIndex])
      | q :: qs => some (s.currentTime, q :: qs)
    match refill with
    | none => .done s
    | some (_, []) => .fault
    | some (currentTime, currentProcessIdx :: readyQueue) =>
      match s.procs[currentProcessIdx]? with
      | none => .fault
      | some p => .next (rrDispatch timeQuantum s currentTime currentProcessIdx readyQueue p)
  else .done s

/-- The state of `runRoundRobin` on entry to the loop. -/
def rrInit (processes : List Process) : Option RRState :=
  let procs := resetStarted processes
  match earliestArrival procs with
  | none => none
  | some t =>
    some { procs := procs, timeline := [], readyQueue := initialQueueFrom t procs 0 [],
           currentTime := t, completedCount := 0 }

/-- Go `runRoundRobin`. -/
def runRoundRobin (fuel : Nat) (processes : List Process) (timeQuantum : Int) :
    Option SimulationResponse :=
  let timeQuantum := if timeQuantum ≤ 0 then 1 else timeQuantum
  match rrInit processes with
  | none => none
  | some s0 =>
    match iterate (rrStep timeQuantum) fuel s0 with
    | none => none
    | some s => some { Processes := s.procs, Timeline := s.timeline }

/-! ## Vocabulary of the specification -/

/-- The Go call modelled by `run` returns `r`: every run with enough fuel does. -/
def Returns {α : Type} (run : Nat → Option α) (r : α) : Prop :=
  ∃ N, ∀ fuel, N ≤ fuel → run fuel = some r

/-- The fields of a process that no engine writes. -/
def static (p : Process) : String × Int × Int × Int :=
  (p.ID, p.ArrivalTime, p.BurstTime, p.Priority)

/-- The duration `endTime - startTime` of a segment. -/
def TimelineSegment.duration (seg : TimelineSegment) : Int :=
  seg.EndTime - seg.StartTime

/-- The sum of the durations of the segments of `timeline` that carry `id`. -/
def cpuTime (id : String) (timeline : List TimelineSegment) : Int :=
  ((timeline.filter fun seg => seg.ProcessID = id).map TimelineSegment.duration).sum

/-- The input every engine is specified for: a non-empty process list with
`burstTime > 0`, `arrivalTime >= 0` and `remainingTime = burstTime`. -/
def WellFormed (processes : List Process) : Prop :=
  processes ≠ [] ∧
    ∀ p ∈ processes, 0 < p.BurstTime ∧ 0 ≤ p.ArrivalTime ∧ p.RemainingTime = p.BurstTime

/-- The ids of the processes are pairwise distinct. -/
def DistinctIds (processes : List Process) : Prop :=
  (processes.map fun p => p.ID).Nodup

instance (processes : List Process) : Decidable (WellFormed processes) := by
  unfold WellFormed
  exact inferInstance

instance (processes : List Process) : Decidable (DistinctIds processes) := by
  unfold DistinctIds
  exact inferInstance

/-- What the documentation of the Go standard library promises of
`sort.Slice(x, less)`, for a `less` that compares an integer key: `x` is
permuted into ascending order of the key.  ("The sort is not guaranteed to be
stable: equal elements may be reversed from their original order.") -/
def SortSliceSpec (sortSlice : (Process → Process → Bool) → List Process → List Process) :
    Prop :=
  ∀ (key : Process → Int) (l : List Process),
    (sortSlice (fun a b => decide (key a < key b)) l).Perm l ∧
    (sortSlice (fun a b => decide (key a < key b)) l).Pairwise fun a b => key a ≤ key b

/-- Insertion of `p` into a sorted list, after the elements that are not
greater. -/
def insertBy (less : Process → Process → Bool) (p : Process) : List Process → List Process
  | [] => [p]
  | q :: qs =>
    if less p q then p :: q :: qs
    else q :: insertBy less p qs

/-- A sort that meets `SortSliceSpec`: insertion sort, which keeps equal elements
in their input order.  It stands for `sort.Slice` where a theorem is evaluated
at an input on which a sort has one possible result. -/
def stableSortSlice (less : Process → Process → Bool) (l : List Process) : List Process :=
  l.reverse.foldr (fun p acc => insertBy less p acc) []

/-- Non-overlap of a timeline: every segment has `startTime < endTime`, and of
two consecutive segments the first ends no later than the second starts. -/
def NonOverlapping (timeline : List TimelineSegment) : Prop :=
  (∀ seg ∈ timeline, seg.StartTime < seg.EndTime) ∧
    timeline.Chain' fun a b => a.EndTime ≤ b.StartTime

/-- No early dispatch: every segment carries the id of a process of the input,
and starts no earlier than the arrival of each process with that id. -/
def NoEarlyDispatch (processes : List Process) (timeline : List TimelineSegment) : Prop :=
  ∀ seg ∈ timeline, (∃ p ∈ processes, p.ID = seg.ProcessID) ∧
    ∀ p ∈ processes, p.ID = seg.ProcessID → p.ArrivalTime ≤ seg.StartTime

/-- The request `[{A, arrival 0, burst 1}, {B, arrival 5, burst 1},
{C, arrival 5, burst 1}]`: after `A` the processor idles until two processes
arrive together. -/
def idleThenTwoArrivals : List Process :=
  [mkProcess "A" 0 1 0, mkProcess "B" 5 1 0, mkProcess "C" 5 1 0]

/-- What `runRoundRobin` returns on `idleThenTwoArrivals` with quantum 2:
`A` and `B` have run, `C` is as it came. -/
def idleThenTwoArrivalsResult : SimulationResponse :=
  { Processes :=
      [{ ID := "A", ArrivalTime := 0, BurstTime := 1, RemainingTime := 0, Priority := 0,
         StartTime := 0, IsStarted := true, CompletionTime := 1, TurnaroundTime := 1,
         WaitingTime := 0, ResponseTime := 0 },
       { ID := "B", ArrivalTime := 5, BurstTime := 1, RemainingTime := 0, Priority := 0,
         StartTime := 5, IsStarted := true, CompletionTime := 6, TurnaroundTime := 1,
         WaitingTime := 0, ResponseTime := 0 },
       { ID := "C", ArrivalTime := 5, BurstTime := 1, RemainingTime := 1, Priority := 0,
         StartTime := 0, IsStarted := false, CompletionTime := 0, TurnaroundTime := 0,
         WaitingTime := 0, ResponseTime := 0 }],
    Timeline :=
      [{ ProcessID := "A", StartTime := 0, EndTime := 1 },
       { ProcessID := "B", StartTime := 5, EndTime := 6 }] }

/-- The Round-Robin quantum bound: no segment is longer than `q`, and a
segment that is followed, later in the timeline, by a segment of the same
process (so is not that process's last segment) has duration exactly `q`. -/
def QuantumBound (q : Int) (timeline : List TimelineSegment) : Prop :=
  (∀ seg ∈ timeline, seg.duration ≤ q) ∧
    timeline.Pairwise fun a b => a.ProcessID = b.ProcessID → a.duration = q

/-- The Round-Robin tie-break between new arrivals and the returning process.
Whenever the timeline has a slice `seg` of a process `P` after which `P` is
unfinished (the segments of `P` up to and including `seg` sum to less than its
burst time), and `Q` is another process that arrives during the slice
(`seg.StartTime < arrival(Q) <= seg.EndTime`), then after `seg` the timeline
reads `mid1, segQ, mid2, segP, ...` where `segQ` is the first segment of `Q` in
the whole timeline and `segP` is the next segment of `P` after `seg`. -/
def TieBreakOrder (processes : List Process) (timeline : List TimelineSegment) : Prop :=
  ∀ (pre post : List TimelineSegment) (seg : TimelineSegment) (P Q : Process),
    timeline = pre ++ seg :: post → P ∈ processes → Q ∈ processes →
    seg.ProcessID = P.ID → cpuTime P.ID (pre ++ [seg]) < P.BurstTime →
    Q.ID ≠ P.ID → seg.StartTime < Q.ArrivalTime → Q.ArrivalTime ≤ seg.EndTime →
    ∃ mid1 segQ mid2 segP post2,
      post = mid1 ++ segQ :: (mid2 ++ segP :: post2) ∧
      segQ.ProcessID = Q.ID ∧ segP.ProcessID = P.ID ∧
      (∀ x ∈ pre ++ seg :: mid1, x.ProcessID ≠ Q.ID) ∧
      (∀ x ∈ mid1 ++ segQ :: mid2, x.ProcessID ≠ P.ID)

/-- The CPU time that `timeline` gives the process `id` before the time `t`:
each segment `[s, e)` of `id` counts for the part of it that lies before `t`. -/
def cpuBefore (id : String) (t : Int) (timeline : List TimelineSegment) : Int :=
  ((timeline.filter fun seg => seg.ProcessID = id).map
    fun seg => max 0 (min seg.EndTime t - seg.StartTime)).sum

/-- The remaining time of `p` at the time `t` under `timeline`: its burst time
minus the CPU time the timeline gave it before `t`. -/
def remainingAt (p : Process) (t : Int) (timeline : List TimelineSegment) : Int :=
  p.BurstTime - cpuBefore p.ID t timeline

/-- Shortest remaining time first: at every integer time `t` inside a segment,
the process `P` that occupies the segment has a remaining time at `t` that is at
most that of every process `Q` that has arrived by `t` and is not complete at
`t`. -/
def ShortestRemainingFirst (processes : List Process) (timeline : List TimelineSegment) :
    Prop :=
  ∀ seg ∈ timeline, ∀ t : Int, seg.StartTime ≤ t → t < seg.EndTime →
    ∀ P ∈ processes, P.ID = seg.ProcessID →
    ∀ Q ∈ processes, Q.ArrivalTime ≤ t → 0 < remainingAt Q t timeline →
      remainingAt P t timeline ≤ remainingAt Q t timeline

/-- The run length of SRTF: every segment `[s, e)` of a process `P` is as long as
the minimum of the time to completion of `P` at `s` and the time to the
earliest arrival after `s` of a process whose burst time is less than what
remains of `P` at that arrival: it is at most the one, at most each of the
others, and equal to one of them. -/
def RunLengthRule (processes : List Process) (timeline : List TimelineSegment)
    (seg : TimelineSegment) : Prop :=
  ∀ P ∈ processes, P.ID = seg.ProcessID →
    seg.duration ≤ remainingAt P seg.StartTime timeline ∧
    (∀ Q ∈ processes, seg.StartTime < Q.ArrivalTime →
      Q.BurstTime < remainingAt P seg.StartTime timeline - (Q.ArrivalTime - seg.StartTime) →
      seg.duration ≤ Q.ArrivalTime - seg.StartTime) ∧
    (seg.duration = remainingAt P seg.StartTime timeline ∨
      ∃ Q ∈ processes, seg.StartTime < Q.ArrivalTime ∧
        Q.BurstTime < remainingAt P seg.StartTime timeline - (Q.ArrivalTime - seg.StartTime) ∧
        seg.duration = Q.ArrivalTime - seg.StartTime)

/-! ## Predicates used by the invariants -/

/-- A process that the selection scans accept at `currentTime`. -/
def Ready (currentTime : Int) (p : Process) : Prop :=
  p.RemainingTime > 0 ∧ p.ArrivalTime ≤ currentTime

/-- Every segment is non-empty and ends by `now`, and each segment ends before
the next one starts. -/
def TimelineOK (timeline : List TimelineSegment) (now : Int) : Prop :=
  (∀ seg ∈ timeline, seg.StartTime < seg.EndTime ∧ seg.EndTime ≤ now) ∧
    timeline.Chain' fun a b => a.EndTime ≤ b.StartTime

/-- The number of passes the loops of `runSJF` and `runNonPreemptivePriority`
still need: two per unfinished process, one more when the next pass idles. -/
def npMeasure (key : Process → Int) (s : NPState) : Nat :=
  2 * s.remainingProcesses +
    (if selectIdx key s.currentTime s.procs = none then 1 else 0)

/-- Invariant of the loop of `runSJF` and `runNonPreemptivePriority`, started on
the processes `ps0`. -/
structure NPInv (ps0 : List Process) (s : NPState) : Prop where
  static_eq : s.procs.map static = ps0.map static
  arrival : ∀ p ∈ s.procs, 0 ≤ p.ArrivalTime
  rem : ∀ p ∈ s.procs, 0 < p.BurstTime ∧
    (p.RemainingTime = p.BurstTime ∨ p.RemainingTime = 0)
  count : s.remainingProcesses = s.procs.countP fun p => decide (p.RemainingTime > 0)
  timeline : TimelineOK s.timeline s.currentTime
  early : ∀ seg ∈ s.timeline, ∃ q ∈ ps0, q.ID = seg.ProcessID ∧ q.ArrivalTime ≤ seg.StartTime

/-- The sum of the remaining times. -/
def totalRemaining (procs : List Process) : Int :=
  (procs.map fun p => p.RemainingTime).sum

/-- The number of passes the loops of `runSRTF` and `runPreemptivePriority`
still need: two per unit of remaining time, one more when the next pass idles. -/
def pMeasure (key : Process → Int) (s : PState) : Nat :=
  2 * (totalRemaining s.procs).toNat +
    (if selectIdx key s.currentTime s.procs = none then 1 else 0)

/-- The time by which every segment already in the timeline has ended: the start
of the segment in progress, or the clock when none is. -/
def PState.horizon (s : PState) : Int :=
  match s.currentProcess with
  | none => s.currentTime
  | some _ => s.currentSegmentStart

/-- Invariant of the loop of `runSRTF` and `runPreemptivePriority`, started on
the processes `ps0`. -/
structure PInv (ps0 : List Process) (s : PState) : Prop where
  static_eq : s.procs.map static = ps0.map static
  arrival : ∀ p ∈ s.procs, 0 ≤ p.ArrivalTime
  rem : ∀ p ∈ s.procs, 0 < p.BurstTime ∧ 0 ≤ p.RemainingTime ∧ p.RemainingTime ≤ p.BurstTime
  count : s.remainingProcesses = s.procs.countP fun p => decide (p.RemainingTime > 0)
  current : ∀ c, s.currentProcess = some c →
    ∃ p, s.procs[c]? = some p ∧ Ready s.currentTime p ∧
      s.currentSegmentStart < s.currentTime ∧ p.ArrivalTime ≤ s.currentSegmentStart
  timeline : TimelineOK s.timeline s.horizon
  early : ∀ seg ∈ s.timeline, ∃ q ∈ ps0, q.ID = seg.ProcessID ∧ q.ArrivalTime ≤ seg.StartTime

/-- The indices that the arrival scan of `runRoundRobin` appends to `queue`:
those, from `i` on, of the unfinished processes that arrived in
`(currentTime - executeTime, currentTime]` and are not in `queue`. -/
def newArrivals (currentTime executeTime : Int) (queue : List Nat) :
    List Process → Nat → List Nat
  | [], _ => []
  | p :: ps, i =>
    if p.RemainingTime > 0 ∧ p.ArrivalTime > currentTime - executeTime ∧
        p.ArrivalTime ≤ currentTime ∧ contains queue i = false then
      i :: newArrivals currentTime executeTime queue ps (i + 1)
    else newArrivals currentTime executeTime queue ps (i + 1)

/-- The number of passes the loop of `runRoundRobin` still needs. -/
def rrMeasure (s : RRState) : Nat :=
  (totalRemaining s.procs).toNat

/-- Invariant of the loop of `runRoundRobin`, started on the processes `ps0`. -/
structure RRInv (ps0 : List Process) (s : RRState) : Prop where
  static_eq : s.procs.map static = ps0.map static
  rem : ∀ p ∈ s.procs, 0 < p.BurstTime ∧ 0 ≤ p.RemainingTime ∧ p.RemainingTime ≤ p.BurstTime
  count : s.completedCount = s.procs.countP fun p => decide (p.RemainingTime = 0)
  queue_nodup : s.readyQueue.Nodup
  queue : ∀ i ∈ s.readyQueue, ∃ p, s.procs[i]? = some p ∧ Ready s.currentTime p
  timeline : TimelineOK s.timeline s.currentTime
  early : ∀ seg ∈ s.timeline, ∃ q ∈ ps0, q.ID = seg.ProcessID ∧ q.ArrivalTime ≤ seg.StartTime

/-- Invariant of the loop of `runRoundRobin` behind the quantum bound: a segment
shorter than the quantum belongs to a process that is finished. -/
structure RRQuantum (q : Int) (procs : List Process) (timeline : List TimelineSegment) :
    Prop where
  bound : ∀ seg ∈ timeline, seg.duration ≤ q
  short : ∀ seg ∈ timeline, seg.duration < q →
    ∀ (i : Nat) (a : Process), procs[i]? = some a → a.ID = seg.ProcessID →
      a.RemainingTime = 0
  full : timeline.Pairwise fun a b => a.ProcessID = b.ProcessID → a.duration = q

/-- Invariant of the loop of `runSRTF` and `runPreemptivePriority` behind the
total CPU time: what the timeline and the segment in progress have given a
process is what its remaining time has lost. -/
def PAccount (s : PState) : Prop :=
  ∀ (i : Nat) (p : Process), s.procs[i]? = some p →
    cpuTime p.ID s.timeline +
        (if s.currentProcess = some i then s.currentTime - s.currentSegmentStart else 0) =
      p.BurstTime - p.RemainingTime

/-- Invariant of the loop of `runRoundRobin`: what the timeline has given a
process is what its remaining time has lost. -/
def RRAccount (procs : List Process) (timeline : List TimelineSegment) : Prop :=
  ∀ (i : Nat) (p : Process), procs[i]? = some p →
    cpuTime p.ID timeline = p.BurstTime - p.RemainingTime

/-- Where the processes with ids `idP` (index `iP`) and `idQ` (index `jQ`) stand
after a slice `seg` of `idP` during which `idQ` arrived: both have run again in
the right order; or `idQ` has run and `idP` waits in the ready queue; or neither
has run and `idQ` is ahead of `idP` in the ready queue. -/
def TieState (readyQueue : List Nat) (timeline pre post : List TimelineSegment)
    (seg : TimelineSegment) (idP idQ : String) (iP jQ : Nat) : Prop :=
  (∃ mid1 segQ mid2 segP post2,
      post = mid1 ++ segQ :: (mid2 ++ segP :: post2) ∧
      segQ.ProcessID = idQ ∧ segP.ProcessID = idP ∧
      (∀ x ∈ pre ++ seg :: mid1, x.ProcessID ≠ idQ) ∧
      (∀ x ∈ mid1 ++ segQ :: mid2, x.ProcessID ≠ idP)) ∨
  (∃ mid1 segQ mid2,
      post = mid1 ++ segQ :: mid2 ∧ segQ.ProcessID = idQ ∧
      (∀ x ∈ pre ++ seg :: mid1, x.ProcessID ≠ idQ) ∧
      (∀ x ∈ mid1 ++ segQ :: mid2, x.ProcessID ≠ idP) ∧ iP ∈ readyQueue) ∨
  ((∀ x ∈ timeline, x.ProcessID ≠ idQ) ∧ (∀ x ∈ post, x.ProcessID ≠ idP) ∧
    ∃ q1 q2, readyQueue = q1 ++ jQ :: q2 ∧ iP ∈ q2)

/-- Invariant of the loop of `runRoundRobin` behind the tie-break: `TieState`
for every slice of the timeline so far. -/
def RRTie (ps0 : List Process) (s : RRState) : Prop :=
  ∀ (pre post : List TimelineSegment) (seg : TimelineSegment) (iP jQ : Nat) (P Q : Process),
    s.timeline = pre ++ seg :: post → ps0[iP]? = some P → ps0[jQ]? = some Q →
    seg.ProcessID = P.ID → cpuTime P.ID (pre ++ [seg]) < P.BurstTime →
    Q.ID ≠ P.ID → seg.StartTime < Q.ArrivalTime → Q.ArrivalTime ≤ seg.EndTime →
    TieState s.readyQueue s.timeline pre post seg P.ID Q.ID iP jQ

/-- The timeline of a state of `runSRTF` / `runPreemptivePriority` together with
the segment in progress, closed at the clock. -/
def PState.effective (s : PState) : List TimelineSegment :=
  match s.currentProcess with
  | none => s.timeline
  | some c =>
    match s.procs[c]? with
    | none => s.timeline
    | some pc =>
      s.timeline ++
        [{ ProcessID := pc.ID, StartTime := s.currentSegmentStart, EndTime := s.currentTime }]

/-- Invariant of the loop of `runSRTF` behind shortest-remaining-first. -/
structure SRTFInv (ps0 : List Process) (s : PState) : Prop where
  account : ∀ (i : Nat) (p : Process), s.procs[i]? = some p →
    cpuBefore p.ID s.currentTime s.effective = p.BurstTime - p.RemainingTime
  fresh : ∀ p ∈ s.procs, s.currentTime ≤ p.ArrivalTime → p.RemainingTime = p.BurstTime
  optimal : ShortestRemainingFirst ps0 s.effective

/-- Invariant of the loop of `runSRTF` behind the run length: the closed
segments obey the rule, and a segment in progress has been stopped at the clock
by an arrival that preempts it, and by no earlier one. -/
structure SRTFRun (ps0 : List Process) (s : PState) : Prop where
  closed : ∀ seg ∈ s.timeline, RunLengthRule ps0 s.effective seg
  inProgress : ∀ (c : Nat) (pc : Process), s.currentProcess = some c → s.procs[c]? = some pc →
    (∀ q ∈ s.procs, s.currentSegmentStart < q.ArrivalTime →
      q.BurstTime < pc.RemainingTime + (s.currentTime - q.ArrivalTime) →
      s.currentTime ≤ q.ArrivalTime) ∧
    ∃ q ∈ s.procs, q.ArrivalTime = s.currentTime ∧ q.BurstTime < pc.RemainingTime

/-! ## The averages of `handleSimulation` -/

/-- The fields `AverageWaitingTime`, `AverageTurnaroundTime` and
`AverageResponseTime` of Go `SimulationResponse`.  Go holds them as `float64`;
`F` is the type that stands for `float64`. -/
structure Averages (F : Type) where
  AverageWaitingTime : F
  AverageTurnaroundTime : F
  AverageResponseTime : F

/-- The loop `for _, p := range response.Processes { totalWaitingTime +=
p.WaitingTime; totalTurnaroundTime += p.TurnaroundTime; totalResponseTime +=
p.ResponseTime }` of `handleSimulation`, with the three totals so far.  The
totals are Go `int`s: each `+=` wraps around. -/
def totalsFrom : Int × Int × Int → List Process → Int × Int × Int
  | totals, [] => totals
  | (totalWaitingTime, totalTurnaroundTime, totalResponseTime), p :: ps =>
    totalsFrom (wrap (totalWaitingTime + p.WaitingTime),
      wrap (totalTurnaroundTime + p.TurnaroundTime),
      wrap (totalResponseTime + p.ResponseTime)) ps

/-- The block "Calculate average times" of `handleSimulation` (lines 111-122), on
the processes that the engine returned.  `float64 x` stands for the Go
conversion `float64(x)` of an `int`, `div a b` for the `float64` division
`a / b`. -/
def averageTimes {F : Type} (float64 : Int → F) (div : F → F → F)
    (processes : List Process) : Averages F :=
  let totals := totalsFrom (0, 0, 0) processes
  let numProcesses := float64 (processes.length : Int)
  { AverageWaitingTime := div (float64 totals.1) numProcesses,
    AverageTurnaroundTime := div (float64 totals.2.1) numProcesses,
    AverageResponseTime := div (float64 totals.2.2) numProcesses }

/-! ## The states of a loop -/

/-- The state in which a loop enters its pass number `n` (counted from 0), when
it makes that many passes. -/
def stateAt {σ : Type} (step : σ → Step σ) : Nat → σ → Option σ
  | 0, s => some s
  | n + 1, s =>
    match step s with
    | .next t => stateAt step n t
    | _ => none

/-! ## The ready queue inside a pass of `runRoundRobin` -/

/-- The block `if len(readyQueue) == 0 { ... }` at the head of a pass of
`runRoundRobin`: the clock and the ready queue after it; `none` is the `break`. -/
def rrRefill (s : RRState) : Option (Int × List Nat) :=
  match s.readyQueue with
  | [] =>
    match (findNextFrom s.currentTime s.procs 0 (-1, none)) with
    | (_, none) => none
    | (next, some nextIndex) => some (next, [nextIndex])
  | q :: qs => some (s.currentTime, q :: qs)

/-- The ready queue of a pass of `runRoundRobin` after the scan for new arrivals,
before the dispatched process `p = procs[currentProcessIdx]` is put back or
completed; the clock was `currentTime` and the queue `currentProcessIdx ::
readyQueue` when the process was taken from it. -/
def rrQueueAfterScan (timeQuantum : Int) (s : RRState) (currentTime : Int)
    (currentProcessIdx : Nat) (readyQueue : List Nat) (p : Process) : List Nat :=
  let p1 := markStarted currentTime p
  let executeTime := if p1.RemainingTime < timeQuantum then p1.RemainingTime else timeQuantum
  let now := wrap (currentTime + executeTime)
  let p2 := { p1 with RemainingTime := wrap (p1.RemainingTime - executeTime) }
  arrivalsFrom now executeTime (s.procs.set currentProcessIdx p2) 0 readyQueue

/-- The ready-queue invariant of `runRoundRobin` in a state `s` at the head of a
pass: the queue holds no index twice; it holds only indices of processes with
`RemainingTime > 0` and `ArrivalTime <= currentTime`; and when the pass
dispatches the process at `idx`, that index is neither in the queue from which
it was taken nor in the queue after the scan for new arrivals. -/
def QueueInvariant (timeQuantum : Int) (s : RRState) : Prop :=
  s.readyQueue.Nodup ∧
  (∀ i ∈ s.readyQueue, ∃ p, s.procs[i]? = some p ∧
    p.RemainingTime > 0 ∧ p.ArrivalTime ≤ s.currentTime) ∧
  ∀ t, rrStep timeQuantum s = .next t →
    ∃ ct idx rest p, rrRefill s = some (ct, idx :: rest) ∧ s.procs[idx]? = some p ∧
      t = rrDispatch timeQuantum s ct idx rest p ∧
      idx ∉ rest ∧ idx ∉ rrQueueAfterScan timeQuantum s ct idx rest p

/-! ## The selection rule of `runSJF` -/

/-- One segment per process: the ids of the segments are the ids of the
processes, each as often as it occurs there, and the segment of a process has
the duration `burstTime`. -/
def OneSegmentEach (processes : List Process) (timeline : List TimelineSegment) : Prop :=
  (timeline.map fun seg => seg.ProcessID).Perm (processes.map fun p => p.ID) ∧
    ∀ seg ∈ timeline, ∀ P ∈ processes, P.ID = seg.ProcessID → seg.duration = P.BurstTime

/-- The selection rule of SJF: the process `P` (at index `i` of the input) of a
segment that starts at `s` has the least burst time among the processes `Q` (at
index `j`) that have arrived by `s` and were not completed before `s` (no
segment of `Q` ends by `s`), and the lowest index among those of that burst
time. -/
def SJFSelection (processes : List Process) (timeline : List TimelineSegment) : Prop :=
  ∀ seg ∈ timeline, ∀ (i j : Nat) (P Q : Process),
    processes[i]? = some P → processes[j]? = some Q → P.ID = seg.ProcessID →
    Q.ArrivalTime ≤ seg.StartTime →
    (∀ x ∈ timeline, x.ProcessID = Q.ID → seg.StartTime < x.EndTime) →
    P.BurstTime ≤ Q.BurstTime ∧ (P.BurstTime = Q.BurstTime → i ≤ j)

/-- Invariant of the loop of `runSJF` behind the selection rule. -/
structure SJFInv (ps0 : List Process) (s : NPState) : Prop where
  segments : (s.timeline.map fun seg => seg.ProcessID).Perm
    ((s.procs.filter fun p => decide (p.RemainingTime = 0)).map fun p => p.ID)
  duration : ∀ seg ∈ s.timeline, ∀ P ∈ ps0, P.ID = seg.ProcessID → seg.duration = P.BurstTime
  selection : SJFSelection ps0 s.timeline

/-! ## The preemption trigger of `runPreemptivePriority` -/

/-- The preemption trigger of preemptive Priority.  The timeline lists the
segments in the order in which they were run, so the process of a segment is
not yet complete at the end of that segment exactly when a later segment of the
timeline is its own.  Such a segment `seg` of a process `P` ends at the arrival
time of another process, whose priority value is strictly lower than that of
`P`. -/
def PreemptionTrigger (processes : List Process) (timeline : List TimelineSegment) : Prop :=
  ∀ (pre post : List TimelineSegment) (seg : TimelineSegment) (P : Process),
    timeline = pre ++ seg :: post → P ∈ processes → P.ID = seg.ProcessID →
    (∃ x ∈ post, x.ProcessID = P.ID) →
    ∃ Q ∈ processes, Q.ID ≠ P.ID ∧ Q.ArrivalTime = seg.EndTime ∧ Q.Priority < P.Priority

/-- No arrival of equal or greater priority value ends a segment early: when
every other process that arrives at the end of a segment of `P` has a priority
value that is not lower than that of `P`, then `P` is complete at the end of
the segment: no later segment is its own. -/
def NoOtherTrigger (processes : List Process) (timeline : List TimelineSegment) : Prop :=
  ∀ (pre post : List TimelineSegment) (seg : TimelineSegment) (P : Process),
    timeline = pre ++ seg :: post → P ∈ processes → P.ID = seg.ProcessID →
    (∀ Q ∈ processes, Q.ID ≠ P.ID → Q.ArrivalTime = seg.EndTime → P.Priority ≤ Q.Priority) →
    ∀ x ∈ post, x.ProcessID ≠ P.ID

/-- Every record of the process `id` in the working copy `procs` is finished. -/
def DoneIn (procs : List Process) (id : String) : Prop :=
  ∀ p ∈ procs, p.ID = id → p.RemainingTime = 0

/-- The segment `seg` ends at the arrival time of a process other than its own,
of a priority value strictly lower than that of its own. -/
def TriggerAt (processes : List Process) (seg : TimelineSegment) : Prop :=
  ∃ Q ∈ processes, Q.ArrivalTime = seg.EndTime ∧
    ∀ P ∈ processes, P.ID = seg.ProcessID → Q.ID ≠ P.ID ∧ Q.Priority < P.Priority

/-- The closed segments of a timeline against the working copy `procs`: a
segment ends at a trigger, or its process is finished and no later segment is
its own. -/
def ClosedSegments (ps0 procs : List Process) (timeline : List TimelineSegment) : Prop :=
  ∀ (pre post : List TimelineSegment) (seg : TimelineSegment),
    timeline = pre ++ seg :: post →
    TriggerAt ps0 seg ∨ (DoneIn procs seg.ProcessID ∧ ∀ x ∈ post, x.ProcessID ≠ seg.ProcessID)

/-- Invariant of the loop of `runPreemptivePriority` behind the preemption
trigger: the closed segments are as `ClosedSegments` says, and a segment in
progress has been stopped at the clock by the arrival of a process of strictly
lower priority value. -/
structure PriorityInv (ps0 : List Process) (s : PState) : Prop where
  closed : ClosedSegments ps0 s.procs s.timeline
  inProgress : ∀ (c : Nat) (pc : Process), s.currentProcess = some c → s.procs[c]? = some pc →
    TriggerAt ps0 { ProcessID := pc.ID, StartTime := s.currentSegmentStart,
                    EndTime := s.currentTime }

/-! ## The first dispatch of a process -/

/-- The record `p` holds the first dispatch of its process in `timeline`: its
`StartTime` is the start of a segment of the process, no segment of the process
starts earlier, and its `ResponseTime` is `StartTime - ArrivalTime`. -/
def FirstAt (p : Process) (timeline : List TimelineSegment) : Prop :=
  (∃ seg ∈ timeline, seg.ProcessID = p.ID ∧ seg.StartTime = p.StartTime) ∧
  (∀ seg ∈ timeline, seg.ProcessID = p.ID → p.StartTime ≤ seg.StartTime) ∧
  p.ResponseTime = p.StartTime - p.ArrivalTime

/-- Response time is captured at first dispatch: every returned process that has
a segment in the timeline holds its first dispatch. -/
def FirstDispatch (processes : List Process) (timeline : List TimelineSegment) : Prop :=
  ∀ p ∈ processes, (∃ seg ∈ timeline, seg.ProcessID = p.ID) → FirstAt p timeline

/-- Invariant of the loops of `runSRTF`, `runPreemptivePriority` and
`runRoundRobin` behind the first dispatch: a process that is not started has no
segment, and a started one holds its first dispatch. -/
def Started (procs : List Process) (timeline : List TimelineSegment) : Prop :=
  ∀ (i : Nat) (p : Process), procs[i]? = some p →
    (p.IsStarted = false → ∀ seg ∈ timeline, seg.ProcessID ≠ p.ID) ∧
    (p.IsStarted = true → FirstAt p timeline)

/-! ## Work conservation -/

/-- In the timeline `pre ++ seg :: post`, the processes `id1` and `id2` run for
the first time after the slice `seg`, and the first segment of `id1` precedes
the first segment of `id2`. -/
def RunsFirst (pre post : List TimelineSegment) (seg : TimelineSegment) (id1 id2 : String) :
    Prop :=
  ∃ mid1 seg1 mid2 seg2 post2,
    post = mid1 ++ seg1 :: (mid2 ++ seg2 :: post2) ∧
    seg1.ProcessID = id1 ∧ seg2.ProcessID = id2 ∧
    (∀ x ∈ pre ++ seg :: mid1, x.ProcessID ≠ id1) ∧
    (∀ x ∈ pre ++ seg :: (mid1 ++ seg1 :: mid2), x.ProcessID ≠ id2)

/-- The order of the arrivals of one slice by arrival time: of two processes that
arrive inside the same slice `(seg.StartTime, seg.EndTime]`, the one that
arrives earlier runs first. -/
def ArrivalsInTimeOrder (processes : List Process) (timeline : List TimelineSegment) : Prop :=
  ∀ (pre post : List TimelineSegment) (seg : TimelineSegment) (Q1 Q2 : Process),
    timeline = pre ++ seg :: post → Q1 ∈ processes → Q2 ∈ processes →
    seg.StartTime < Q1.ArrivalTime → Q1.ArrivalTime ≤ seg.EndTime →
    seg.StartTime < Q2.ArrivalTime → Q2.ArrivalTime ≤ seg.EndTime →
    Q1.ArrivalTime < Q2.ArrivalTime → RunsFirst pre post seg Q1.ID Q2.ID

/-- The order of the arrivals of one slice by index: of two processes that
arrive inside the same slice `(seg.StartTime, seg.EndTime]`, the one at the
lower index of the input runs first. -/
def ArrivalsInIndexOrder (processes : List Process) (timeline : List TimelineSegment) : Prop :=
  ∀ (pre post : List TimelineSegment) (seg : TimelineSegment) (i j : Nat) (Q1 Q2 : Process),
    timeline = pre ++ seg :: post → processes[i]? = some Q1 → processes[j]? = some Q2 →
    seg.StartTime < Q1.ArrivalTime → Q1.ArrivalTime ≤ seg.EndTime →
    seg.StartTime < Q2.ArrivalTime → Q2.ArrivalTime ≤ seg.EndTime →
    i < j → RunsFirst pre post seg Q1.ID Q2.ID

/-- Invariant of the loop of `runRoundRobin` behind the order of the arrivals of
one slice: neither process has run by the end of the slice, and `TieState` holds
with the process at the lower index ahead. -/
def RROrder (ps0 : List Process) (s : RRState) : Prop :=
  ∀ (pre post : List TimelineSegment) (seg : TimelineSegment) (i j : Nat) (Q1 Q2 : Process),
    s.timeline = pre ++ seg :: post → ps0[i]? = some Q1 → ps0[j]? = some Q2 →
    seg.StartTime < Q1.ArrivalTime → Q1.ArrivalTime ≤ seg.EndTime →
    seg.StartTime < Q2.ArrivalTime → Q2.ArrivalTime ≤ seg.EndTime → i < j →
    (∀ x ∈ pre ++ [seg], x.ProcessID ≠ Q2.ID) ∧
      TieState s.readyQueue s.timeline pre post seg Q2.ID Q1.ID j i

/-! ## The order of the returned processes -/

/-- The list returned by `runSJF`: a permutation of the input (in the fields
that no engine writes), in strictly increasing order of `CompletionTime`, whose
elements carry, one by one, the ids of the segments of the timeline. -/
def CompletionOrder (processes returned : List Process) (timeline : List TimelineSegment) :
    Prop :=
  (returned.map static).Perm (processes.map static) ∧
  returned.Pairwise (fun a b => a.CompletionTime < b.CompletionTime) ∧
  returned.map (fun p => p.ID) = timeline.map fun seg => seg.ProcessID

/-- The list returned by the engines that return `procs`: as long as the input,
and its element at every index has the id, arrival time, burst time and
priority of the input process at that index. -/
def InputOrder (processes returned : List Process) : Prop :=
  returned.length = processes.length ∧
  ∀ (i : Nat) (p P : Process), returned[i]? = some p → processes[i]? = some P →
    p.ID = P.ID ∧ p.ArrivalTime = P.ArrivalTime ∧ p.BurstTime = P.BurstTime ∧
      p.Priority = P.Priority

/-- Invariant of the loop of `runSJF` behind the order of `completed`. -/
structure SJFOrder (s : NPState) : Prop where
  finished : s.completed.Perm (s.procs.filter fun p => decide (p.RemainingTime = 0))
  increasing : s.completed.Pairwise fun a b => a.CompletionTime < b.CompletionTime
  ids : s.completed.map (fun p => p.ID) = s.timeline.map fun seg => seg.ProcessID
  ends : s.completed.map (fun p => p.CompletionTime) = s.timeline.map fun seg => seg.EndTime

/-! ## Inputs at which claims are evaluated -/

/-- The request `[{A, arrival 0, burst 2, priority -1}, {B, arrival 0, burst 3,
priority -1}]`: two processes that arrive together with the same priority, the
value `-1` that the selection scan of the priority engines also uses for
"nothing selected yet". -/
def tiedAtMinusOne : List Process :=
  [mkProcess "A" 0 2 (-1), mkProcess "B" 0 3 (-1)]

/-- The request `[{A, arrival 0, burst 3}, {B, arrival 2, burst 1}, {C, arrival
1, burst 1}]`: `B` and `C` arrive during the first slice of `A` (quantum 3),
`C` earlier than `B` but at the higher index. -/
def laterAtLowerIndex : List Process :=
  [mkProcess "A" 0 3 0, mkProcess "B" 2 1 0, mkProcess "C" 1 1 0]

/-- The timeline that `runRoundRobin` returns on `laterAtLowerIndex` with
quantum 3. -/
def laterAtLowerIndexTimeline : List TimelineSegment :=
  [{ ProcessID := "A", StartTime := 0, EndTime := 3 },
   { ProcessID := "B", StartTime := 3, EndTime := 4 },
   { ProcessID := "C", StartTime := 4, EndTime := 5 }]

/-! ## The engines in exact arithmetic

The definitions of this section repeat those engine functions that add or
subtract times, with the sums and differences taken in `Int` and not reduced
to 64 bits.  They are not the code: they describe what the code computes as
long as no sum leaves the range of a Go `int` (`InRange`), and the theorems
about the code are obtained from them through that agreement. -/

namespace Exact

/-- Exact twin of `markStarted`: the response time `currentTime - ArrivalTime` is
not reduced to 64 bits. -/
def markStarted (currentTime : Int) (p : Process) : Process :=
  if p.IsStarted then p
  else { p with StartTime := currentTime, ResponseTime := currentTime - p.ArrivalTime,
                IsStarted := true }

/-- Exact twin of `setMetrics`: the two differences are not reduced to 64 bits. -/
def setMetrics (currentTime : Int) (p : Process) : Process :=
  { p with CompletionTime := currentTime,
           TurnaroundTime := currentTime - p.ArrivalTime,
           WaitingTime := currentTime - p.ArrivalTime - p.BurstTime }

/-- Exact twin of `fcfsLoop`: the sum `start + BurstTime` and the difference
`start - ArrivalTime` are not reduced to 64 bits. -/
def fcfsLoop : Int → List Process → List Process × List TimelineSegment
  | _, [] => ([], [])
  | currentTime, p :: ps =>
    let start := if currentTime < p.ArrivalTime then p.ArrivalTime else currentTime
    let p1 := { p with StartTime := start, ResponseTime := start - p.ArrivalTime }
    let segment : TimelineSegment :=
      { ProcessID := p1.ID, StartTime := start, EndTime := start + p1.BurstTime }
    let finish := start + p1.BurstTime
    let p2 := setMetrics finish p1
    let rest := fcfsLoop finish ps
    (p2 :: rest.1, segment :: rest.2)

/-- Exact twin of `runFCFS`, over the exact twin of `fcfsLoop`. -/
def runFCFS (sortSlice : (Process → Process → Bool) → List Process → List Process)
    (processes : List Process) : SimulationResponse :=
  let procs := sortSlice (fun a b => decide (a.ArrivalTime < b.ArrivalTime)) processes
  let r := fcfsLoop 0 procs
  { Processes := r.1, Timeline := r.2 }

/-- Exact twin of `npStep`: the sum `currentTime + RemainingTime` is not reduced
to 64 bits. -/
def npStep (key : Process → Int) (s : NPState) : Step NPState :=
  if s.remainingProcesses > 0 then
    match selectIdx key s.currentTime s.procs with
    | none => .next { s with currentTime := nextArrival s.procs }
    | some i =>
      match s.procs[i]? with
      | none => .fault
      | some p =>
        let p1 := markStarted s.currentTime p
        let segment : TimelineSegment :=
          { ProcessID := p1.ID, StartTime := s.currentTime,
            EndTime := s.currentTime + p1.RemainingTime }
        let now := s.currentTime + p1.RemainingTime
        let p2 := { setMetrics now p1 with RemainingTime := 0 }
        .next { procs := s.procs.set i p2,
                timeline := s.timeline ++ [segment],
                completed := s.completed ++ [p2],
                currentTime := now,
                remainingProcesses := s.remainingProcesses - 1 }
  else .done s

/-- Exact twin of `runSJF`, over the exact twin of `npStep`. -/
def runSJF (fuel : Nat) (processes : List Process) : Option SimulationResponse :=
  match npInit processes with
  | none => none
  | some s0 =>
    match iterate (npStep fun p => p.BurstTime) fuel s0 with
    | none => none
    | some s => some { Processes := s.completed, Timeline := s.timeline }

/-- Exact twin of `runNonPreemptivePriority`, over the exact twin of `npStep`. -/
def runNonPreemptivePriority (fuel : Nat) (processes : List Process) :
    Option SimulationResponse :=
  match npInit processes with
  | none => none
  | some s0 =>
    match iterate (npStep fun p => p.Priority) fuel s0 with
    | none => none
    | some s => some { Processes := s.procs, Timeline := s.timeline }

/-- Exact twin of `timeSliceFrom`: the sum `currentTime + timeSlice` and the
difference `ArrivalTime - currentTime` are not reduced to 64 bits. -/
def timeSliceFrom (preempts : Process → Process → Int → Bool) (sel : Process)
    (currentTime : Int) : Int → List Process → Int
  | timeSlice, [] => timeSlice
  | timeSlice, p :: ps =>
    if p.RemainingTime > 0 ∧ p.ArrivalTime > currentTime ∧
        p.ArrivalTime < currentTime + timeSlice then
      if preempts p sel currentTime then
        timeSliceFrom preempts sel currentTime (p.ArrivalTime - currentTime) ps
      else timeSliceFrom preempts sel currentTime timeSlice ps
    else timeSliceFrom preempts sel currentTime timeSlice ps

/-- Exact twin of `srtfPreempts`: the two differences are not reduced to 64
bits. -/
def srtfPreempts (p sel : Process) (currentTime : Int) : Bool :=
  decide (p.BurstTime < sel.RemainingTime - (p.ArrivalTime - currentTime))

/-- Exact twin of `pRun`: the sum `currentTime + timeSlice` and the difference
`RemainingTime - timeSlice` are not reduced to 64 bits. -/
def pRun (preempts : Process → Process → Int → Bool) (s : PState) (i : Nat) (p : Process) :
    Step PState :=
  let p1 := markStarted s.currentTime p
  let procs1 := s.procs.set i p1
  -- the process switch
  let switched : Option (List TimelineSegment × Int) :=
    match s.currentProcess with
    | none => some (s.timeline, s.currentTime)
    | some c =>
      if c ≠ i then
        match procs1[c]? with
        | none => none
        | some pc =>
          some (s.timeline ++
            [{ ProcessID := pc.ID, StartTime := s.currentSegmentStart,
               EndTime := s.currentTime }], s.currentTime)
      else some (s.timeline, s.currentSegmentStart)
  match switched with
  | none => .fault
  | some (timeline1, segmentStart) =>
    let timeSlice := timeSliceFrom preempts p1 s.currentTime p1.RemainingTime procs1
    let now := s.currentTime + timeSlice
    let p2 := { p1 with RemainingTime := p1.RemainingTime - timeSlice }
    if p2.RemainingTime = 0 then
      .next { procs := procs1.set i (setMetrics now p2),
              timeline := timeline1 ++
                [{ ProcessID := p2.ID, StartTime := segmentStart, EndTime := now }],
              currentTime := now,
              remainingProcesses := s.remainingProcesses - 1,
              currentProcess := none,
              currentSegmentStart := segmentStart }
    else
      .next { procs := procs1.set i p2,
              timeline := timeline1,
              currentTime := now,
              remainingProcesses := s.remainingProcesses,
              currentProcess := some i,
              currentSegmentStart := segmentStart }

/-- Exact twin of `pStep`, over the exact twin of `pRun`. -/
def pStep (key : Process → Int) (preempts : Process → Process → Int → Bool) (s : PState) :
    Step PState :=
  if s.remainingProcesses > 0 then
    match selectIdx key s.currentTime s.procs with
    | none => pIdle s
    | some i =>
      match s.procs[i]? with
      | none => .fault
      | some p => pRun preempts s i p
  else .done s

/-- Exact twin of `runSRTF`, over the exact twin of `pStep`. -/
def runSRTF (fuel : Nat) (processes : List Process) : Option SimulationResponse :=
  match pInit processes with
  | none => none
  | some s0 =>
    match iterate (pStep (fun p => p.RemainingTime) srtfPreempts) fuel s0 with
    | none => none
    | some s => some { Processes := s.procs, Timeline := s.timeline }

/-- Exact twin of `runPreemptivePriority`, over the exact twin of `pStep`. -/
def runPreemptivePriority (fuel : Nat) (processes : List Process) :
    Option SimulationResponse :=
  match pInit processes with
  | none => none
  | some s0 =>
    match iterate (pStep (fun p => p.Priority) priorityPreempts) fuel s0 with
    | none => none
    | some s => some { Processes := s.procs, Timeline := s.timeline }

/-- Exact twin of `arrivalsFrom`: the difference `currentTime - executeTime` is
not reduced to 64 bits. -/
def arrivalsFrom (currentTime executeTime : Int) : List Process → Nat → List Nat → List Nat
  | [], _, readyQueue => readyQueue
  | p :: ps, i, readyQueue =>
    if p.RemainingTime > 0 ∧ p.ArrivalTime > currentTime - executeTime ∧
        p.ArrivalTime ≤ currentTime ∧ contains readyQueue i = false then
      arrivalsFrom currentTime executeTime ps (i + 1) (readyQueue ++ [i])
    else arrivalsFrom currentTime executeTime ps (i + 1) readyQueue

/-- Exact twin of `rrDispatch`: the sum `currentTime + executeTime` and the
difference `RemainingTime - executeTime` are not reduced to 64 bits. -/
def rrDispatch (timeQuantum : Int) (s : RRState) (currentTime : Int)
    (currentProcessIdx : Nat) (readyQueue : List Nat) (p : Process) : RRState :=
  let p1 := markStarted currentTime p
  let executeTime := if p1.RemainingTime < timeQuantum then p1.RemainingTime else timeQuantum
  let segment : TimelineSegment :=
    { ProcessID := p1.ID, StartTime := currentTime, EndTime := currentTime + executeTime }
  let now := currentTime + executeTime
  let p2 := { p1 with RemainingTime := p1.RemainingTime - executeTime }
  let procs2 := s.procs.set currentProcessIdx p2
  let queue2 := arrivalsFrom now executeTime procs2 0 readyQueue
  if p2.RemainingTime > 0 then
    { procs := procs2, timeline := s.timeline ++ [segment],
      readyQueue := queue2 ++ [currentProcessIdx], currentTime := now,
      completedCount := s.completedCount }
  else
    { procs := s.procs.set currentProcessIdx (setMetrics now p2),
      timeline := s.timeline ++ [segment],
      readyQueue := queue2, currentTime := now,
      completedCount := s.completedCount + 1 }

/-- Exact twin of `rrStep`, over the exact twin of `rrDispatch`. -/
def rrStep (timeQuantum : Int) (s : RRState) : Step RRState :=
  if s.completedCount < s.procs.length then
    -- the refill of an empty ready queue; `none` is the `break`
    let refill : Option (Int × List Nat) :=
      match s.readyQueue with
      | [] =>
        match (findNextFrom s.currentTime s.procs 0 (-1, none)) with
        | (_, none) => none
        | (next, some nextIndex) => some (next, [nextIndex])
      | q :: qs => some (s.currentTime, q :: qs)
    match refill with
    | none => .done s
    | some (_, []) => .fault
    | some (currentTime, currentProcessIdx :: readyQueue) =>
      match s.procs[currentProcessIdx]? with
      | none => .fault
      | some p => .next (rrDispatch timeQuantum s currentTime currentProcessIdx readyQueue p)
  else .done s

/-- Exact twin of `runRoundRobin`, over the exact twin of `rrStep`. -/
def runRoundRobin (fuel : Nat) (processes : List Process) (timeQuantum : Int) :
    Option SimulationResponse :=
  let timeQuantum := if timeQuantum ≤ 0 then 1 else timeQuantum
  match rrInit processes with
  | none => none
  | some s0 =>
    match iterate (rrStep timeQuantum) fuel s0 with
    | none => none
    | some s => some { Processes := s.procs, Timeline := s.timeline }

/-- Exact twin of `rrQueueAfterScan`: the sum and the difference are not reduced
to 64 bits. -/
def rrQueueAfterScan (timeQuantum : Int) (s : RRState) (currentTime : Int)
    (currentProcessIdx : Nat) (readyQueue : List Nat) (p : Process) : List Nat :=
  let p1 := markStarted currentTime p
  let executeTime := if p1.RemainingTime < timeQuantum then p1.RemainingTime else timeQuantum
  let now := currentTime + executeTime
  let p2 := { p1 with RemainingTime := p1.RemainingTime - executeTime }
  arrivalsFrom now executeTime (s.procs.set currentProcessIdx p2) 0 readyQueue

/-- Exact twin of `QueueInvariant`, over the exact twins of `rrStep`,
`rrDispatch` and `rrQueueAfterScan`. -/
def QueueInvariant (timeQuantum : Int) (s : RRState) : Prop :=
  s.readyQueue.Nodup ∧
  (∀ i ∈ s.readyQueue, ∃ p, s.procs[i]? = some p ∧
    p.RemainingTime > 0 ∧ p.ArrivalTime ≤ s.currentTime) ∧
  ∀ t, rrStep timeQuantum s = .next t →
    ∃ ct idx rest p, rrRefill s = some (ct, idx :: rest) ∧ s.procs[idx]? = some p ∧
      t = rrDispatch timeQuantum s ct idx rest p ∧
      idx ∉ rest ∧ idx ∉ rrQueueAfterScan timeQuantum s ct idx rest p

end Exact

/-! ## The range of Go `int` -/

/-- The sum of the burst times. -/
def totalBurst (processes : List Process) : Int :=
  (processes.map fun p => p.BurstTime).sum

/-- No time of the simulation leaves the range of a Go `int`: every arrival
time plus the sum of all burst times is at most `2^63 - 1`.  (No engine moves
its clock beyond the latest arrival plus the sum of the burst times.) -/
def InRange (processes : List Process) : Prop :=
  ∀ p ∈ processes, p.ArrivalTime + totalBurst processes < 2 ^ 63

instance (processes : List Process) : Decidable (InRange processes) := by
  unfold InRange
  exact inferInstance

/-- The clock and the working copy of an engine are in range: the clock is not
negative, and neither the clock nor an arrival time, plus all the remaining
time, leaves the range of a Go `int`; nor does a burst time. -/
def ClockInRange (procs : List Process) (currentTime : Int) : Prop :=
  0 ≤ currentTime ∧ currentTime + totalRemaining procs < 2 ^ 63 ∧
    ∀ p ∈ procs, p.ArrivalTime + totalRemaining procs < 2 ^ 63 ∧ p.BurstTime < 2 ^ 63 ∧
      0 ≤ p.ArrivalTime

/-- The time-slice test `pw` of the code and its exact twin `pe` agree on an
arrival inside the slice. -/
def PreemptsAgree (pw pe : Process → Process → Int → Bool) : Prop :=
  ∀ (p sel : Process) (ct : Int), ct < p.ArrivalTime →
    p.ArrivalTime < ct + sel.RemainingTime → sel.RemainingTime < 2 ^ 63 →
    pw p sel ct = pe p sel ct



/-- The integer `x` is a value of Go `int`. -/
def IsInt (x : Int) : Prop :=
  -2 ^ 63 ≤ x ∧ x < 2 ^ 63

instance (x : Int) : Decidable (IsInt x) := by
  unfold IsInt
  exact inferInstance

/-- The processes are Go values: every `int` field of every process is a value
of Go `int`.  (An engine is never handed anything else.) -/
def GoInts (processes : List Process) : Prop :=
  ∀ p ∈ processes, IsInt p.ArrivalTime ∧ IsInt p.BurstTime ∧ IsInt p.RemainingTime ∧
    IsInt p.Priority ∧ IsInt p.StartTime ∧ IsInt p.CompletionTime ∧ IsInt p.TurnaroundTime ∧
    IsInt p.WaitingTime ∧ IsInt p.ResponseTime

instance (processes : List Process) : Decidable (GoInts processes) := by
  unfold GoInts
  exact inferInstance

/-! ## Invariants that hold whatever the clock does -/

/-- Invariant of the loop of `runSJF` and `runNonPreemptivePriority`, started on
the processes `ps0`, that does not depend on the clock: the part of `NPInv`
about the working copy. -/
structure NPCore (ps0 : List Process) (s : NPState) : Prop where
  static_eq : s.procs.map static = ps0.map static
  arrival : ∀ p ∈ s.procs, 0 ≤ p.ArrivalTime
  rem : ∀ p ∈ s.procs, 0 < p.BurstTime ∧
    (p.RemainingTime = p.BurstTime ∨ p.RemainingTime = 0)
  count : s.remainingProcesses = s.procs.countP fun p => decide (p.RemainingTime > 0)



/-- An arrival that cuts the time slice of the process `sel`, dispatched at
`currentTime`, down to `timeSlice`: an unfinished process that arrives
`timeSlice` after `currentTime`, inside the range of a Go `int`, and passes the test
`preempts`. -/
def Cuts (preempts : Process → Process → Int → Bool) (sel : Process) (currentTime : Int)
    (timeSlice : Int) (q : Process) : Prop :=
  q.RemainingTime > 0 ∧ currentTime < q.ArrivalTime ∧ q.ArrivalTime = currentTime + timeSlice ∧
    currentTime + timeSlice < 2 ^ 63 ∧ preempts q sel currentTime = true

/-- Invariant of the loop of `runSRTF` and `runPreemptivePriority`, started on
the processes `ps0`, that does not depend on the clock having kept its
direction. -/
structure PCore (ps0 : List Process) (s : PState) : Prop where
  static_eq : s.procs.map static = ps0.map static
  arrival : ∀ p ∈ s.procs, 0 ≤ p.ArrivalTime
  rem : ∀ p ∈ s.procs, 0 < p.BurstTime ∧ 0 ≤ p.RemainingTime ∧
    p.RemainingTime ≤ p.BurstTime ∧ p.BurstTime < 2 ^ 63
  count : s.remainingProcesses = s.procs.countP fun p => decide (p.RemainingTime > 0)
  current : ∀ c, s.currentProcess = some c →
    ∃ p, s.procs[c]? = some p ∧ Ready s.currentTime p



/-- Invariant of the loop of `runRoundRobin`, started on the processes `ps0`,
that does not depend on the clock: the working copy, and a ready queue of
indices into it. -/
structure RRCore (ps0 : List Process) (s : RRState) : Prop where
  static_eq : s.procs.map static = ps0.map static
  rem : ∀ p ∈ s.procs, 0 < p.BurstTime ∧ 0 ≤ p.RemainingTime ∧
    p.RemainingTime ≤ p.BurstTime ∧ p.BurstTime < 2 ^ 63
  queue : ∀ i ∈ s.readyQueue, i < s.procs.length

/-- The number of passes the loop of `runRoundRobin` still needs, whatever the
clock does: a pass takes a unit of remaining time from a process or, if the
process it dispatches has none left, it still raises `completedCount`. -/
def rrPasses (s : RRState) : Nat :=
  (totalRemaining s.procs -
      (s.procs.countP fun p => decide (p.RemainingTime > 0) : Nat)).toNat +
    (s.procs.length - s.completedCount)



/-! ## Inputs at which the clock leaves the range -/

/-- The request `[{A, arrival 9223372036854775807, burst 1}]`: one process that
arrives at the last instant that a Go `int` can hold, `2^63 - 1`. -/
def lastInstant : List Process :=
  [mkProcess "A" 9223372036854775807 1 0]

/-- The request `[{A, arrival 9223372036854775807, burst 2}]`. -/
def lastInstantTwice : List Process :=
  [mkProcess "A" 9223372036854775807 2 0]

/-- The request `[{A, arrival 9223372036854775806, burst 5}]`. -/
def nearLastInstant : List Process :=
  [mkProcess "A" 9223372036854775806 5 0]

/-- The request `[{A, arrival 3, burst 2^63 - 1}, {B, 3, 10}, {C, 3, 2^63 - 1},
{D, 4, 1}]`, for Round Robin with the quantum `2^63 - 3`: the first slice of `A`
takes the clock around, and the first slice of `C` starts before `C` arrives. -/
def aroundTheClock : List Process :=
  [mkProcess "A" 3 9223372036854775807 0, mkProcess "B" 3 10 0,
   mkProcess "C" 3 9223372036854775807 0, mkProcess "D" 4 1 0]

/-- The timeline that `runRoundRobin` returns on `aroundTheClock` with the
quantum `2^63 - 3`. -/
def aroundTheClockTimeline : List TimelineSegment :=
  [{ ProcessID := "A", StartTime := 3, EndTime := -9223372036854775808 },
   { ProcessID := "B", StartTime := -9223372036854775808, EndTime := -9223372036854775798 },
   { ProcessID := "C", StartTime := -9223372036854775798, EndTime := 7 },
   { ProcessID := "A", StartTime := 7, EndTime := 9 },
   { ProcessID := "C", StartTime := 9, EndTime := 11 },
   { ProcessID := "D", StartTime := 11, EndTime := 12 }]

/-- The request `[{A, arrival 0, burst 2^62, priority 0}, {B, 0, 2^61, 1},
{C, 0, 1, 2}, {D, 0, 1, 3}]`: four processes that arrive together and, under
non-preemptive Priority, run in this order.  The clock stays below `2^63`, but
the waiting times add up to `2^64 + 1`. -/
def longWaits : List Process :=
  [mkProcess "A" 0 4611686018427387904 0, mkProcess "B" 0 2305843009213693952 1,
   mkProcess "C" 0 1 2, mkProcess "D" 0 1 3]

/-- The request `[{Q1, arrival 3, burst 2^63 - 1}, {Q2, 0, 2^63 - 1}, {R, 0, 10}]`,
for Round Robin with the quantum `2^63 - 1`: the slice of `R` takes the clock
around. -/
def wrappedSlice : List Process :=
  [mkProcess "Q1" 3 9223372036854775807 0, mkProcess "Q2" 0 9223372036854775807 0,
   mkProcess "R" 0 10 0]

/-- The timeline that `runRoundRobin` returns on `wrappedSlice` with the quantum
`2^63 - 1`. -/
def wrappedSliceTimeline : List TimelineSegment :=
  [{ ProcessID := "Q2", StartTime := 0, EndTime := 9223372036854775807 },
   { ProcessID := "R", StartTime := 9223372036854775807, EndTime := -9223372036854775799 },
   { ProcessID := "Q1", StartTime := -9223372036854775799, EndTime := 8 }]

/-- The request `[{A, arrival 5, burst 1}, {B, arrival 2^63 - 1, burst 1}]`: the
second process arrives at the last instant that a Go `int` can hold. -/
def lateArrival : List Process :=
  [mkProcess "A" 5 1 0, mkProcess "B" 9223372036854775807 1 0]

/-! ## Loops: fuel and invariants -/

theorem iterate_succ_of_some {σ : Type} (step : σ → Step σ) :
    ∀ (fuel : Nat) (s r : σ), iterate step fuel s = some r →
      iterate step (fuel + 1) s = some r := by
  intro fuel
  induction fuel with
  | zero =>
    intro s r h
    simp only [iterate] at h ⊢
    cases hs : step s with
    | next t => simp [hs] at h
    | done t => simpa [hs] using h
    | fault => simp [hs] at h
  | succ n ih =>
    intro s r h
    rw [iterate] at h ⊢
    cases hs : step s with
    | next t =>
      simp only [hs] at h ⊢
      exact ih t r h
    | done t => simpa [hs] using h
    | fault => simp [hs] at h

theorem iterate_mono {σ : Type} (step : σ → Step σ) (fuel : Nat) (s r : σ)
    (h : iterate step fuel s = some r) :
    ∀ fuel2, fuel ≤ fuel2 → iterate step fuel2 s = some r := by
  intro fuel2 hle
  induction fuel2, hle using Nat.le_induction with
  | base => exact h
  | succ n _ ih => exact iterate_succ_of_some step n s r ih

/-- A loop whose body keeps `Inv`, never faults under `Inv` and decreases the
measure `μ` ends, in a state that satisfies `Inv` and from which the loop is left. -/
theorem iterate_of_inv {σ : Type} (step : σ → Step σ) (Inv : σ → Prop) (μ : σ → Nat)
    (hnext : ∀ s t, Inv s → step s = .next t → Inv t ∧ μ t < μ s)
    (hfault : ∀ s, Inv s → step s ≠ .fault)
    (hdone : ∀ s r, step s = .done r → r = s) :
    ∀ (fuel : Nat) (s : σ), Inv s → μ s ≤ fuel →
      ∃ r, iterate step fuel s = some r ∧ Inv r ∧ step r = .done r := by
  intro fuel
  induction fuel with
  | zero =>
    intro s hs hμ
    cases h : step s with
    | next t =>
      have := (hnext s t hs h).2
      omega
    | done r =>
      have hr := hdone s r h
      subst hr
      exact ⟨r, by simp [iterate, h], hs, h⟩
    | fault => exact absurd h (hfault s hs)
  | succ n ih =>
    intro s hs hμ
    cases h : step s with
    | next t =>
      obtain ⟨ht, hlt⟩ := hnext s t hs h
      obtain ⟨r, hr, hinv, hd⟩ := ih t ht (by omega)
      exact ⟨r, by rw [iterate]; simpa [h] using hr, hinv, hd⟩
    | done r =>
      have hr := hdone s r h
      subst hr
      exact ⟨r, by simp [iterate, h], hs, h⟩
    | fault => exact absurd h (hfault s hs)

/-- The form in which the engines use `iterate_of_inv`. -/
theorem returns_of_inv {σ : Type} (step : σ → Step σ) (Inv : σ → Prop) (μ : σ → Nat)
    (hnext : ∀ s t, Inv s → step s = .next t → Inv t ∧ μ t < μ s)
    (hfault : ∀ s, Inv s → step s ≠ .fault)
    (hdone : ∀ s r, step s = .done r → r = s)
    (s : σ) (hs : Inv s) :
    ∃ r, Returns (fun fuel => iterate step fuel s) r ∧ Inv r ∧ step r = .done r := by
  obtain ⟨r, hr, hinv, hd⟩ := iterate_of_inv step Inv μ hnext hfault hdone (μ s) s hs le_rfl
  exact ⟨r, ⟨μ s, fun fuel hle => iterate_mono step (μ s) s r hr fuel hle⟩, hinv, hd⟩

theorem Returns.unique {α : Type} {run : Nat → Option α} {r1 r2 : α}
    (h1 : Returns run r1) (h2 : Returns run r2) : r1 = r2 := by
  obtain ⟨N1, h1⟩ := h1
  obtain ⟨N2, h2⟩ := h2
  have a := h1 (max N1 N2) (le_max_left _ _)
  have b := h2 (max N1 N2) (le_max_right _ _)
  rw [a] at b
  exact Option.some.inj b

/-! ## The scans -/

theorem earliestArrivalFrom_le_init (ps : List Process) :
    ∀ a : Int, earliestArrivalFrom a ps ≤ a := by
  induction ps with
  | nil => intro a; simp [earliestArrivalFrom]
  | cons p ps ih =>
    intro a
    simp only [earliestArrivalFrom]
    split
    · have := ih p.ArrivalTime; omega
    · exact ih a

theorem earliestArrivalFrom_le (ps : List Process) :
    ∀ a : Int, ∀ q ∈ ps, earliestArrivalFrom a ps ≤ q.ArrivalTime := by
  induction ps with
  | nil => intro a q hq; simp at hq
  | cons p ps ih =>
    intro a q hq
    simp only [earliestArrivalFrom]
    rcases List.mem_cons.1 hq with rfl | hq
    · split
      · exact earliestArrivalFrom_le_init ps _
      · have := earliestArrivalFrom_le_init ps a; omega
    · split
      · exact ih _ q hq
      · exact ih _ q hq

theorem earliestArrivalFrom_mem (ps : List Process) :
    ∀ a : Int, earliestArrivalFrom a ps = a ∨ ∃ q ∈ ps, earliestArrivalFrom a ps = q.ArrivalTime := by
  induction ps with
  | nil => intro a; simp [earliestArrivalFrom]
  | cons p ps ih =>
    intro a
    simp only [earliestArrivalFrom]
    split
    · rcases ih p.ArrivalTime with h | ⟨q, hq, h⟩
      · exact Or.inr ⟨p, by simp, h⟩
      · exact Or.inr ⟨q, by simp [hq], h⟩
    · rcases ih a with h | ⟨q, hq, h⟩
      · exact Or.inl h
      · exact Or.inr ⟨q, by simp [hq], h⟩

/-- On a non-empty list `earliestArrival` is the least arrival time. -/
theorem earliestArrival_spec {ps : List Process} (hne : ps ≠ []) :
    ∃ t, earliestArrival ps = some t ∧ (∀ q ∈ ps, t ≤ q.ArrivalTime) ∧
      ∃ q ∈ ps, q.ArrivalTime = t := by
  cases ps with
  | nil => exact absurd rfl hne
  | cons p ps =>
    refine ⟨_, rfl, earliestArrivalFrom_le _ _, ?_⟩
    rcases earliestArrivalFrom_mem (p :: ps) p.ArrivalTime with h | ⟨q, hq, h⟩
    · exact ⟨p, by simp, h.symm⟩
    · exact ⟨q, hq, h.symm⟩

theorem selectFrom_none (key : Process → Int) (ct : Int) (ps : List Process) :
    ∀ (i : Nat) (best : Int) (sel : Option Nat), (sel = none → best = -1) →
      ((selectFrom key ct ps i (best, sel)).2 = none ↔
        sel = none ∧ ∀ p ∈ ps, ¬ Ready ct p) := by
  induction ps with
  | nil => intro i best sel _; simp [selectFrom]
  | cons p ps ih =>
    intro i best sel hb
    simp only [selectFrom]
    split
    · rename_i hr
      split
      · rw [ih _ _ _ (by simp)]
        constructor
        · rintro ⟨h, _⟩; simp at h
        · rintro ⟨_, h⟩; exact absurd hr (h p (by simp))
      · rename_i hnb
        rw [ih _ _ _ hb]
        constructor
        · rintro ⟨h, _⟩; exact absurd (Or.inl (hb h)) hnb
        · rintro ⟨_, h⟩; exact absurd hr (h p (by simp))
    · rename_i hr
      rw [ih _ _ _ hb]
      constructor
      · rintro ⟨h1, h2⟩
        refine ⟨h1, ?_⟩
        intro q hq
        rcases List.mem_cons.1 hq with rfl | hq
        · exact hr
        · exact h2 q hq
      · rintro ⟨h1, h2⟩
        exact ⟨h1, fun q hq => h2 q (by simp [hq])⟩

theorem selectFrom_some (key : Process → Int) (ct : Int) (ps : List Process) :
    ∀ (i : Nat) (best : Int) (sel : Option Nat) (j : Nat),
      (selectFrom key ct ps i (best, sel)).2 = some j →
        sel = some j ∨ (i ≤ j ∧ ∃ p, ps[j - i]? = some p ∧ Ready ct p) := by
  induction ps with
  | nil => intro i best sel j h; simp [selectFrom] at h; exact Or.inl h
  | cons p ps ih =>
    intro i best sel j h
    simp only [selectFrom] at h
    have key2 : ∀ (b : Int) (s : Option Nat),
        (selectFrom key ct ps (i + 1) (b, s)).2 = some j →
        s = some j ∨ (i ≤ j ∧ ∃ q, (p :: ps)[j - i]? = some q ∧ Ready ct q) := by
      intro b s hs
      rcases ih (i + 1) b s j hs with h1 | ⟨h1, q, hq, hrq⟩
      · exact Or.inl h1
      · refine Or.inr ⟨by omega, q, ?_, hrq⟩
        have : j - i = (j - (i + 1)) + 1 := by omega
        rw [this]
        simpa using hq
    split at h
    · rename_i hr
      split at h
      · rcases key2 _ _ h with h1 | h1
        · have hij : i = j := by simpa using h1
          subst hij
          exact Or.inr ⟨le_rfl, p, by simp, hr⟩
        · exact Or.inr h1
      · exact key2 _ _ h
    · exact key2 _ _ h

/-- Nothing is selected exactly when no process is ready. -/
theorem selectIdx_none (key : Process → Int) (ct : Int) (procs : List Process) :
    selectIdx key ct procs = none ↔ ∀ p ∈ procs, ¬ Ready ct p := by
  unfold selectIdx
  rw [selectFrom_none key ct procs 0 (-1) none (fun _ => rfl)]
  simp

/-- The selected index is the index of a ready process. -/
theorem selectIdx_some (key : Process → Int) (ct : Int) (procs : List Process) (j : Nat)
    (h : selectIdx key ct procs = some j) :
    ∃ p, procs[j]? = some p ∧ Ready ct p := by
  unfold selectIdx at h
  rcases selectFrom_some key ct procs 0 (-1) none j h with h1 | ⟨_, p, hp, hr⟩
  · simp at h1
  · exact ⟨p, by simpa using hp, hr⟩

/-! ### The idle advance -/

theorem nextArrivalFrom_spec (ps : List Process)
    (harr : ∀ p ∈ ps, 0 ≤ p.ArrivalTime) :
    ∀ a : Int, (a = -1 ∨ 0 ≤ a) →
      ((a = -1 ∧ (∀ p ∈ ps, ¬ p.RemainingTime > 0) ∧ nextArrivalFrom a ps = -1) ∨
       (0 ≤ nextArrivalFrom a ps ∧ (a ≠ -1 → nextArrivalFrom a ps ≤ a) ∧
        (∀ p ∈ ps, p.RemainingTime > 0 → nextArrivalFrom a ps ≤ p.ArrivalTime) ∧
        ((a ≠ -1 ∧ nextArrivalFrom a ps = a) ∨
          ∃ p ∈ ps, p.RemainingTime > 0 ∧ p.ArrivalTime = nextArrivalFrom a ps))) := by
  induction ps with
  | nil =>
    intro a ha
    rcases ha with ha | ha
    · left; simp [nextArrivalFrom, ha]
    · right
      refine ⟨by simpa [nextArrivalFrom] using ha, by simp [nextArrivalFrom], by simp, ?_⟩
      left; exact ⟨by omega, by simp [nextArrivalFrom]⟩
  | cons p ps ih =>
    intro a ha
    have harr2 : ∀ q ∈ ps, 0 ≤ q.ArrivalTime := fun q hq => harr q (by simp [hq])
    have hp0 := harr p (by simp)
    simp only [nextArrivalFrom]
    split
    · rename_i hrem
      split
      · rename_i hlt
        right
        rcases ih harr2 p.ArrivalTime (Or.inr hp0) with ⟨h1, _⟩ | ⟨h1, h2, h3, h4⟩
        · omega
        · have h2 := h2 (by omega)
          have hle : a ≠ -1 → nextArrivalFrom p.ArrivalTime ps ≤ a := by
            intro hne
            rcases hlt with h | h
            · exact absurd h hne
            · omega
          refine ⟨h1, hle, ?_, ?_⟩
          · intro q hq hqr
            rcases List.mem_cons.1 hq with rfl | hq
            · exact h2
            · exact h3 q hq hqr
          · right
            rcases h4 with ⟨_, h4⟩ | ⟨q, hq, hqr, h4⟩
            · exact ⟨p, by simp, hrem, h4.symm⟩
            · exact ⟨q, by simp [hq], hqr, h4⟩
      · rename_i hnlt
        have hane : a ≠ -1 := fun h => hnlt (Or.inl h)
        have hale : a ≤ p.ArrivalTime := by
          by_contra hc
          exact hnlt (Or.inr (by omega))
        right
        rcases ih harr2 a ha with ⟨h1, _⟩ | ⟨h1, h2, h3, h4⟩
        · exact absurd h1 hane
        · have h2' := h2 hane
          refine ⟨h1, fun _ => h2', ?_, ?_⟩
          · intro q hq hqr
            rcases List.mem_cons.1 hq with rfl | hq
            · omega
            · exact h3 q hq hqr
          · rcases h4 with h4 | ⟨q, hq, hqr, h4⟩
            · exact Or.inl h4
            · exact Or.inr ⟨q, by simp [hq], hqr, h4⟩
    · rename_i hrem
      rcases ih harr2 a ha with ⟨h1, h2, h3⟩ | ⟨h1, h2, h3, h4⟩
      · left
        refine ⟨h1, ?_, h3⟩
        intro q hq
        rcases List.mem_cons.1 hq with rfl | hq
        · exact hrem
        · exact h2 q hq
      · right
        refine ⟨h1, h2, ?_, ?_⟩
        · intro q hq hqr
          rcases List.mem_cons.1 hq with rfl | hq
          · exact absurd hqr hrem
          · exact h3 q hq hqr
        · rcases h4 with h4 | ⟨q, hq, hqr, h4⟩
          · exact Or.inl h4
          · exact Or.inr ⟨q, by simp [hq], hqr, h4⟩

/-- With arrival times `≥ 0` and an unfinished process left, `nextArrival` is
the least arrival time of an unfinished process. -/
theorem nextArrival_spec (procs : List Process)
    (harr : ∀ p ∈ procs, 0 ≤ p.ArrivalTime)
    (hex : ∃ p ∈ procs, p.RemainingTime > 0) :
    (∀ p ∈ procs, p.RemainingTime > 0 → nextArrival procs ≤ p.ArrivalTime) ∧
      ∃ p ∈ procs, p.RemainingTime > 0 ∧ p.ArrivalTime = nextArrival procs := by
  unfold nextArrival
  rcases nextArrivalFrom_spec procs harr (-1) (Or.inl rfl) with ⟨_, h, _⟩ | ⟨_, _, h3, h4⟩
  · obtain ⟨p, hp, hr⟩ := hex
    exact absurd hr (h p hp)
  · refine ⟨h3, ?_⟩
    rcases h4 with ⟨h, _⟩ | h
    · exact absurd rfl h
    · exact h

/-! ### The time slice of the preemptive engines -/

namespace Exact

theorem timeSliceFrom_pos (preempts : Process → Process → Int → Bool) (sel : Process)
    (ct : Int) (ps : List Process) :
    ∀ ts : Int, 0 < ts →
      0 < timeSliceFrom preempts sel ct ts ps ∧ timeSliceFrom preempts sel ct ts ps ≤ ts := by
  induction ps with
  | nil => intro ts h; simp [timeSliceFrom, h]
  | cons p ps ih =>
    intro ts h
    simp only [timeSliceFrom]
    split
    · rename_i hc
      split
      · have := ih (p.ArrivalTime - ct) (by omega)
        omega
      · exact ih ts h
    · exact ih ts h

end Exact

/-! ## Lists under `List.set` -/

theorem forall_mem_set {α : Type} {P : α → Prop} {l : List α} {i : Nat} {x : α}
    (hl : ∀ a ∈ l, P a) (hx : P x) : ∀ a ∈ l.set i x, P a := by
  intro a ha
  rcases List.mem_or_eq_of_mem_set ha with h | h
  · exact hl a h
  · exact h ▸ hx

theorem map_set_same {α β : Type} (f : α → β) :
    ∀ (l : List α) (i : Nat) (p x : α), l[i]? = some p → f x = f p →
      (l.set i x).map f = l.map f := by
  intro l
  induction l with
  | nil => intro i p x h; simp at h
  | cons a l ih =>
    intro i p x h hf
    cases i with
    | zero =>
      simp at h
      subst h
      simp [hf]
    | succ i =>
      simp at h
      simp [ih i p x h hf]

theorem countP_set_same {α : Type} (f : α → Bool) :
    ∀ (l : List α) (i : Nat) (p x : α), l[i]? = some p → f x = f p →
      (l.set i x).countP f = l.countP f := by
  intro l
  induction l with
  | nil => intro i p x h; simp at h
  | cons a l ih =>
    intro i p x h hf
    cases i with
    | zero =>
      simp at h
      subst h
      simp [List.countP_cons, hf]
    | succ i =>
      simp at h
      simp [List.countP_cons, ih i p x h hf]

theorem countP_set_drop {α : Type} (f : α → Bool) :
    ∀ (l : List α) (i : Nat) (p x : α), l[i]? = some p → f p = true → f x = false →
      (l.set i x).countP f + 1 = l.countP f := by
  intro l
  induction l with
  | nil => intro i p x h; simp at h
  | cons a l ih =>
    intro i p x h hp hx
    cases i with
    | zero =>
      simp at h
      subst h
      simp [List.countP_cons, hp, hx]
    | succ i =>
      simp at h
      have := ih i p x h hp hx
      simp only [List.set_cons_succ, List.countP_cons]
      omega

theorem sum_map_set {α : Type} (g : α → Int) :
    ∀ (l : List α) (i : Nat) (p x : α), l[i]? = some p →
      ((l.set i x).map g).sum = (l.map g).sum - g p + g x := by
  intro l
  induction l with
  | nil => intro i p x h; simp at h
  | cons a l ih =>
    intro i p x h
    cases i with
    | zero =>
      simp at h
      subst h
      simp
      omega
    | succ i =>
      simp at h
      have := ih i p x h
      simp only [List.set_cons_succ, List.map_cons, List.sum_cons, this]
      omega

theorem mem_of_getElem?_eq {α : Type} {l : List α} {i : Nat} {p : α} (h : l[i]? = some p) :
    p ∈ l := by
  rw [List.getElem?_eq_some] at h
  obtain ⟨hi, rfl⟩ := h
  exact List.getElem_mem hi

theorem exists_of_countP_pos {α : Type} (f : α → Bool) (l : List α) (h : 0 < l.countP f) :
    ∃ a ∈ l, f a = true := by
  rw [List.countP_pos_iff] at h
  exact h

/-- Two processes of a list with distinct ids that carry the same id are equal. -/
theorem eq_of_same_id {ps : List Process} (hd : DistinctIds ps) {p q : Process}
    (hp : p ∈ ps) (hq : q ∈ ps) (h : p.ID = q.ID) : p = q := by
  unfold DistinctIds at hd
  exact List.inj_on_of_nodup_map hd hp hq h

/-! ## Field lemmas -/

namespace Exact

@[simp] theorem markStarted_ID (t : Int) (p : Process) : (markStarted t p).ID = p.ID := by
  unfold markStarted; split <;> rfl

@[simp] theorem markStarted_ArrivalTime (t : Int) (p : Process) :
    (markStarted t p).ArrivalTime = p.ArrivalTime := by
  unfold markStarted; split <;> rfl

@[simp] theorem markStarted_BurstTime (t : Int) (p : Process) :
    (markStarted t p).BurstTime = p.BurstTime := by
  unfold markStarted; split <;> rfl

@[simp] theorem markStarted_RemainingTime (t : Int) (p : Process) :
    (markStarted t p).RemainingTime = p.RemainingTime := by
  unfold markStarted; split <;> rfl

@[simp] theorem markStarted_Priority (t : Int) (p : Process) :
    (markStarted t p).Priority = p.Priority := by
  unfold markStarted; split <;> rfl

@[simp] theorem markStarted_static (t : Int) (p : Process) :
    static (markStarted t p) = static p := by
  simp [static]

@[simp] theorem setMetrics_ID (t : Int) (p : Process) : (setMetrics t p).ID = p.ID := rfl

@[simp] theorem setMetrics_ArrivalTime (t : Int) (p : Process) :
    (setMetrics t p).ArrivalTime = p.ArrivalTime := rfl

@[simp] theorem setMetrics_BurstTime (t : Int) (p : Process) :
    (setMetrics t p).BurstTime = p.BurstTime := rfl

@[simp] theorem setMetrics_RemainingTime (t : Int) (p : Process) :
    (setMetrics t p).RemainingTime = p.RemainingTime := rfl

@[simp] theorem setMetrics_Priority (t : Int) (p : Process) :
    (setMetrics t p).Priority = p.Priority := rfl

@[simp] theorem setMetrics_static (t : Int) (p : Process) :
    static (setMetrics t p) = static p := rfl

end Exact

/-- Elements at the same index of two lists with the same `static` image. -/
theorem static_getElem? {procs ps0 : List Process}
    (h : procs.map static = ps0.map static) {i : Nat} {p : Process} (hp : procs[i]? = some p) :
    ∃ q, ps0[i]? = some q ∧ static q = static p := by
  have h1 : (procs.map static)[i]? = some (static p) := by simp [hp]
  rw [h] at h1
  simp only [List.getElem?_map, Option.map_eq_some'] at h1
  exact h1

/-- With distinct ids in the input, two processes of the working copy that carry
the same id sit at the same index. -/
theorem index_eq_of_same_id {procs ps0 : List Process} (hd : DistinctIds ps0)
    (h : procs.map static = ps0.map static) {i j : Nat} {a b : Process}
    (ha : procs[i]? = some a) (hb : procs[j]? = some b) (hab : a.ID = b.ID) : i = j := by
  have hids : procs.map (fun p => p.ID) = ps0.map (fun p => p.ID) := by
    have := congrArg (List.map (fun x : String × Int × Int × Int => x.1)) h
    simpa [List.map_map, Function.comp_def, static] using this
  have hnd : (procs.map fun p => p.ID).Nodup := by
    rw [hids]
    exact hd
  have hi : i < (procs.map fun p => p.ID).length := by
    rw [List.getElem?_eq_some] at ha
    simpa using ha.1
  have hj : j < (procs.map fun p => p.ID).length := by
    rw [List.getElem?_eq_some] at hb
    simpa using hb.1
  have e1 : (procs.map fun p => p.ID)[i] = a.ID := by
    rw [List.getElem?_eq_some] at ha
    obtain ⟨_, ha⟩ := ha
    simp [ha]
  have e2 : (procs.map fun p => p.ID)[j] = b.ID := by
    rw [List.getElem?_eq_some] at hb
    obtain ⟨_, hb⟩ := hb
    simp [hb]
  exact (@List.Nodup.getElem_inj_iff _ _ hnd i hi j hj).1 (by rw [e1, e2, hab])

/-! ## Timelines -/

theorem timelineOK_mono {tl : List TimelineSegment} {t u : Int} (h : TimelineOK tl t)
    (htu : t ≤ u) : TimelineOK tl u :=
  ⟨fun seg hs => ⟨(h.1 seg hs).1, le_trans (h.1 seg hs).2 htu⟩, h.2⟩

theorem timelineOK_nil (t : Int) : TimelineOK [] t :=
  ⟨by simp, List.chain'_nil⟩

theorem timelineOK_append {tl : List TimelineSegment} {t : Int} (h : TimelineOK tl t)
    (seg : TimelineSegment) (hs : t ≤ seg.StartTime) (hd : seg.StartTime < seg.EndTime) :
    TimelineOK (tl ++ [seg]) seg.EndTime := by
  refine ⟨?_, ?_⟩
  · intro x hx
    rcases List.mem_append.1 hx with hx | hx
    · have := h.1 x hx
      exact ⟨this.1, by omega⟩
    · simp at hx
      subst hx
      exact ⟨hd, le_rfl⟩
  · refine List.Chain'.append h.2 (List.chain'_singleton seg) ?_
    intro x hx y hy
    simp at hy
    subst hy
    have hmem : x ∈ tl := List.mem_of_mem_getLast? hx
    have := h.1 x hmem
    omega

namespace Exact

/-! ## The loop of `runSJF` and `runNonPreemptivePriority` -/

/-- The state after a pass that dispatches `p = procs[i]`. -/
theorem npStep_cases (key : Process → Int) (s t : NPState) (h : npStep key s = .next t) :
    0 < s.remainingProcesses ∧
    ((selectIdx key s.currentTime s.procs = none ∧
        t = { s with currentTime := nextArrival s.procs }) ∨
     (∃ i p, selectIdx key s.currentTime s.procs = some i ∧ s.procs[i]? = some p ∧
        Ready s.currentTime p ∧
        t = { procs := s.procs.set i
                { setMetrics (s.currentTime + p.RemainingTime) (markStarted s.currentTime p)
                  with RemainingTime := 0 },
              timeline := s.timeline ++
                [{ ProcessID := p.ID, StartTime := s.currentTime,
                   EndTime := s.currentTime + p.RemainingTime }],
              completed := s.completed ++
                [{ setMetrics (s.currentTime + p.RemainingTime) (markStarted s.currentTime p)
                  with RemainingTime := 0 }],
              currentTime := s.currentTime + p.RemainingTime,
              remainingProcesses := s.remainingProcesses - 1 })) := by
  unfold npStep at h
  split at h
  · rename_i hpos
    refine ⟨hpos, ?_⟩
    split at h
    · rename_i hsel
      left
      exact ⟨hsel, by injection h with h; exact h.symm⟩
    · rename_i i hsel
      obtain ⟨p, hp, hr⟩ := selectIdx_some key _ _ i hsel
      right
      refine ⟨i, p, hsel, hp, hr, ?_⟩
      simp only [hp] at h
      injection h with h
      rw [← h]
      simp
  · exact absurd h (by simp)

theorem npStep_no_fault (key : Process → Int) (s : NPState) : npStep key s ≠ .fault := by
  unfold npStep
  split
  · split
    · simp
    · rename_i i hsel
      obtain ⟨p, hp, _⟩ := selectIdx_some key _ _ i hsel
      simp [hp]
  · simp

theorem npStep_done (key : Process → Int) (s r : NPState) (h : npStep key s = .done r) :
    r = s ∧ s.remainingProcesses = 0 := by
  unfold npStep at h
  split at h
  · split at h
    · simp at h
    · split at h <;> simp at h
  · rename_i hz
    injection h with h
    exact ⟨h.symm, by omega⟩

theorem npInv_step (key : Process → Int) (ps0 : List Process) (s t : NPState)
    (hinv : NPInv ps0 s) (h : npStep key s = .next t) :
    NPInv ps0 t ∧ npMeasure key t < npMeasure key s := by
  obtain ⟨hpos, hc⟩ := npStep_cases key s t h
  have hex : ∃ p ∈ s.procs, p.RemainingTime > 0 := by
    have hc := hinv.count
    have hc2 : 0 < s.procs.countP fun p => decide (p.RemainingTime > 0) := by omega
    obtain ⟨a, ha, hf⟩ := exists_of_countP_pos _ s.procs hc2
    exact ⟨a, ha, by simpa using hf⟩
  rcases hc with ⟨hsel, rfl⟩ | ⟨i, p, hsel, hp, hr, rfl⟩
  · -- idle advance
    obtain ⟨hmin, q, hq, hqr, hqa⟩ := nextArrival_spec s.procs hinv.arrival hex
    have hnot := (selectIdx_none key _ _).1 hsel
    have hlt : s.currentTime < nextArrival s.procs := by
      have := hnot q hq
      simp only [Ready, not_and, not_le] at this
      have := this hqr
      omega
    refine ⟨⟨hinv.static_eq, hinv.arrival, hinv.rem, hinv.count,
      timelineOK_mono hinv.timeline (le_of_lt hlt), hinv.early⟩, ?_⟩
    have hsel2 : selectIdx key (nextArrival s.procs) s.procs ≠ none := by
      intro hn
      have := (selectIdx_none key _ _).1 hn q hq
      exact this ⟨hqr, by omega⟩
    simp only [npMeasure, hsel, hsel2, if_true, if_false]
    omega
  · -- dispatch of `p`
    have hpm : p ∈ s.procs := mem_of_getElem?_eq hp
    have hrem := hinv.rem p hpm
    have hpr : p.RemainingTime = p.BurstTime := by
      rcases hrem.2 with h1 | h1
      · exact h1
      · have := hr.1; omega
    refine ⟨⟨?_, ?_, ?_, ?_, ?_, ?_⟩, ?_⟩
    · rw [map_set_same static s.procs i p _ hp (by simp [static])]
      exact hinv.static_eq
    · exact forall_mem_set hinv.arrival (by simpa using hinv.arrival p hpm)
    · exact forall_mem_set hinv.rem (by simpa using hrem.1)
    · have key2 : ∀ x : Process, x.RemainingTime = 0 → s.remainingProcesses - 1 =
          List.countP (fun p => decide (p.RemainingTime > 0)) (s.procs.set i x) := by
        intro x hx
        have := countP_set_drop (fun p : Process => decide (p.RemainingTime > 0)) s.procs i p x
          hp (by simpa using hr.1) (by simp [hx])
        have hc := hinv.count
        omega
      exact key2 _ rfl
    · exact timelineOK_append hinv.timeline
        { ProcessID := p.ID, StartTime := s.currentTime,
          EndTime := s.currentTime + p.RemainingTime } le_rfl (by have := hr.1; simp; omega)
    · intro seg hseg
      rcases List.mem_append.1 hseg with hseg | hseg
      · exact hinv.early seg hseg
      · simp at hseg
        subst hseg
        obtain ⟨q, hq, hqs⟩ := static_getElem? hinv.static_eq hp
        simp only [static, Prod.mk.injEq] at hqs
        exact ⟨q, mem_of_getElem?_eq hq, hqs.1, by have := hr.2; simp; omega⟩
    · simp only [npMeasure]
      split <;> split <;> omega

/-- The state in which `runSJF` and `runNonPreemptivePriority` enter their loop
satisfies the invariant. -/
theorem npInit_inv (ps0 : List Process) (hne : ps0 ≠ [])
    (hwf : ∀ p ∈ ps0, 0 < p.BurstTime ∧ 0 ≤ p.ArrivalTime ∧ p.RemainingTime = p.BurstTime) :
    ∃ s0, npInit ps0 = some s0 ∧ NPInv ps0 s0 := by
  obtain ⟨t, ht, _, _⟩ := earliestArrival_spec hne
  refine ⟨{ procs := ps0, timeline := [], completed := [], currentTime := t,
             remainingProcesses := ps0.length }, by simp [npInit, ht], ⟨rfl,
    fun p hp => (hwf p hp).2.1,
    fun p hp => ⟨(hwf p hp).1, Or.inl (hwf p hp).2.2⟩, ?_, timelineOK_nil _, by simp⟩⟩
  show ps0.length = ps0.countP fun p => decide (p.RemainingTime > 0)
  symm
  rw [List.countP_eq_length]
  intro p hp
  have := hwf p hp
  simp
  omega

/-- The loop of `runSJF` and `runNonPreemptivePriority` ends, in a state that
satisfies the invariant, has no unfinished process, and has any further
property `Extra` that the entry state has and the passes keep. -/
theorem np_returns_with (key : Process → Int) (ps0 : List Process) (hne : ps0 ≠ [])
    (hwf : ∀ p ∈ ps0, 0 < p.BurstTime ∧ 0 ≤ p.ArrivalTime ∧ p.RemainingTime = p.BurstTime)
    (Extra : NPState → Prop)
    (hinit : ∀ s0, npInit ps0 = some s0 → Extra s0)
    (hstep : ∀ s t, NPInv ps0 s → Extra s → npStep key s = .next t → Extra t) :
    ∃ s0 r, npInit ps0 = some s0 ∧
      Returns (fun fuel => iterate (npStep key) fuel s0) r ∧ NPInv ps0 r ∧ Extra r ∧
      r.remainingProcesses = 0 := by
  obtain ⟨s0, hs0, hinv⟩ := npInit_inv ps0 hne hwf
  obtain ⟨r, hret, hr, hd⟩ := returns_of_inv (npStep key)
    (fun s => NPInv ps0 s ∧ Extra s) (npMeasure key)
    (fun s t hs hst =>
      ⟨⟨(npInv_step key ps0 s t hs.1 hst).1, hstep s t hs.1 hs.2 hst⟩,
        (npInv_step key ps0 s t hs.1 hst).2⟩)
    (fun s _ => npStep_no_fault key s)
    (fun s r h => (npStep_done key s r h).1) s0 ⟨hinv, hinit s0 hs0⟩
  exact ⟨s0, r, hs0, hret, hr.1, hr.2, (npStep_done key r r hd).2⟩

/-- The loop of `runSJF` and `runNonPreemptivePriority` ends, in a state that
satisfies the invariant and has no unfinished process. -/
theorem np_returns (key : Process → Int) (ps0 : List Process) (hne : ps0 ≠ [])
    (hwf : ∀ p ∈ ps0, 0 < p.BurstTime ∧ 0 ≤ p.ArrivalTime ∧ p.RemainingTime = p.BurstTime) :
    ∃ s0 r, npInit ps0 = some s0 ∧
      Returns (fun fuel => iterate (npStep key) fuel s0) r ∧ NPInv ps0 r ∧
      r.remainingProcesses = 0 := by
  obtain ⟨s0, r, h0, hret, hinv, _, hz⟩ := np_returns_with key ps0 hne hwf
    (fun _ => True) (fun _ _ => trivial) (fun _ _ _ _ _ => trivial)
  exact ⟨s0, r, h0, hret, hinv, hz⟩

end Exact

namespace Exact

/-! ## The loop of `runSRTF` and `runPreemptivePriority` -/

/-- What a dispatching pass does: the segment closed by a process switch, then
the time slice, then the completion test. -/
theorem pRun_cases (preempts : Process → Process → Int → Bool) (s t : PState) (i : Nat)
    (p : Process) (h : pRun preempts s i p = .next t) :
    ∃ tl1 start1,
      ((s.currentProcess = none ∧ tl1 = s.timeline ∧ start1 = s.currentTime) ∨
       (s.currentProcess = some i ∧ tl1 = s.timeline ∧ start1 = s.currentSegmentStart) ∨
       (∃ c pc, s.currentProcess = some c ∧ c ≠ i ∧ s.procs[c]? = some pc ∧
          tl1 = s.timeline ++ [{ ProcessID := pc.ID, StartTime := s.currentSegmentStart,
                                 EndTime := s.currentTime }] ∧
          start1 = s.currentTime)) ∧
      ∃ ts, ts = timeSliceFrom preempts (markStarted s.currentTime p) s.currentTime
                  p.RemainingTime (s.procs.set i (markStarted s.currentTime p)) ∧
        ((p.RemainingTime - ts = 0 ∧
          t = { procs := s.procs.set i
                  (setMetrics (s.currentTime + ts)
                    { markStarted s.currentTime p with RemainingTime := p.RemainingTime - ts }),
                timeline := tl1 ++ [{ ProcessID := p.ID, StartTime := start1,
                                       EndTime := s.currentTime + ts }],
                currentTime := s.currentTime + ts,
                remainingProcesses := s.remainingProcesses - 1,
                currentProcess := none,
                currentSegmentStart := start1 }) ∨
         (p.RemainingTime - ts ≠ 0 ∧
          t = { procs := s.procs.set i
                  { markStarted s.currentTime p with RemainingTime := p.RemainingTime - ts },
                timeline := tl1,
                currentTime := s.currentTime + ts,
                remainingProcesses := s.remainingProcesses,
                currentProcess := some i,
                currentSegmentStart := start1 })) := by
  unfold pRun at h
  simp only at h
  split at h
  · exact absurd h (by simp)
  · rename_i tl1 start1 hsw
    refine ⟨tl1, start1, ?_, _, rfl, ?_⟩
    · split at hsw
      · rename_i hcur
        simp only [Option.some.injEq, Prod.mk.injEq] at hsw
        exact Or.inl ⟨hcur, hsw.1.symm, hsw.2.symm⟩
      · rename_i c hcur
        split at hsw
        · rename_i hci
          split at hsw
          · exact absurd hsw (by simp)
          · rename_i pc hpc
            simp only [Option.some.injEq, Prod.mk.injEq] at hsw
            rw [List.getElem?_set_ne (Ne.symm hci)] at hpc
            exact Or.inr (Or.inr ⟨c, pc, hcur, hci, hpc, hsw.1.symm, hsw.2.symm⟩)
        · rename_i hci
          simp only [Option.some.injEq, Prod.mk.injEq] at hsw
          have hci : c = i := by simpa using hci
          subst hci
          exact Or.inr (Or.inl ⟨hcur, hsw.1.symm, hsw.2.symm⟩)
    · simp only [markStarted_RemainingTime] at h
      split at h
      · rename_i hz
        left
        refine ⟨hz, ?_⟩
        injection h with h
        rw [← h]
        simp [List.set_set]
      · rename_i hz
        right
        refine ⟨hz, ?_⟩
        injection h with h
        rw [← h]
        simp [List.set_set]

theorem pStep_cases (key : Process → Int) (preempts : Process → Process → Int → Bool)
    (s t : PState) (h : pStep key preempts s = .next t) :
    0 < s.remainingProcesses ∧
    ((selectIdx key s.currentTime s.procs = none ∧ pIdle s = .next t) ∨
     (∃ i p, selectIdx key s.currentTime s.procs = some i ∧ s.procs[i]? = some p ∧
        Ready s.currentTime p ∧ pRun preempts s i p = .next t)) := by
  unfold pStep at h
  split at h
  · rename_i hpos
    refine ⟨hpos, ?_⟩
    split at h
    · rename_i hsel
      exact Or.inl ⟨hsel, h⟩
    · rename_i i hsel
      obtain ⟨p, hp, hr⟩ := selectIdx_some key _ _ i hsel
      simp only [hp] at h
      exact Or.inr ⟨i, p, hsel, hp, hr, h⟩
  · exact absurd h (by simp)

theorem pStep_done (key : Process → Int) (preempts : Process → Process → Int → Bool)
    (s r : PState) (h : pStep key preempts s = .done r) :
    r = s ∧ s.remainingProcesses = 0 := by
  unfold pStep at h
  split at h
  · split at h
    · unfold pIdle at h
      simp only at h
      split at h
      · simp at h
      · split at h <;> simp at h
    · split at h
      · simp at h
      · unfold pRun at h
        simp only at h
        split at h
        · simp at h
        · split at h <;> simp at h
  · injection h with h
    exact ⟨h.symm, by omega⟩

/-- A ready process is found by the selection scan. -/
theorem selectIdx_ne_none_of_ready (key : Process → Int) (ct : Int) (procs : List Process)
    (p : Process) (hp : p ∈ procs) (hr : Ready ct p) : selectIdx key ct procs ≠ none := by
  intro hn
  exact (selectIdx_none key ct procs).1 hn p hp hr

theorem totalRemaining_set (procs : List Process) (i : Nat) (p x : Process)
    (hp : procs[i]? = some p) :
    totalRemaining (procs.set i x) = totalRemaining procs - p.RemainingTime + x.RemainingTime := by
  unfold totalRemaining
  exact sum_map_set (fun p => p.RemainingTime) procs i p x hp

theorem totalRemaining_ge_of_mem (procs : List Process)
    (h : ∀ p ∈ procs, 0 ≤ p.RemainingTime) (p : Process) (hp : p ∈ procs) :
    p.RemainingTime ≤ totalRemaining procs := by
  unfold totalRemaining
  apply List.single_le_sum
  · intro x hx
    simp only [List.mem_map] at hx
    obtain ⟨q, hq, rfl⟩ := hx
    exact h q hq
  · exact List.mem_map.2 ⟨p, hp, rfl⟩

theorem pInv_step (key : Process → Int) (preempts : Process → Process → Int → Bool)
    (ps0 : List Process) (s t : PState)
    (hinv : PInv ps0 s) (h : pStep key preempts s = .next t) :
    PInv ps0 t ∧ pMeasure key t < pMeasure key s := by
  obtain ⟨hpos, hc⟩ := pStep_cases key preempts s t h
  have hex : ∃ p ∈ s.procs, p.RemainingTime > 0 := by
    have hc := hinv.count
    have hc2 : 0 < s.procs.countP fun p => decide (p.RemainingTime > 0) := by omega
    obtain ⟨a, ha, hf⟩ := exists_of_countP_pos _ s.procs hc2
    exact ⟨a, ha, by simpa using hf⟩
  rcases hc with ⟨hsel, hidle⟩ | ⟨i, p, hsel, hp, hr, hrun⟩
  · -- idle advance: no segment is in progress
    have hcur : s.currentProcess = none := by
      cases hcp : s.currentProcess with
      | none => rfl
      | some c =>
        obtain ⟨pc, hpc, hrc, _⟩ := hinv.current c hcp
        exact absurd hsel (selectIdx_ne_none_of_ready key _ _ pc (mem_of_getElem?_eq hpc) hrc)
    unfold pIdle at hidle
    simp only [hcur] at hidle
    injection hidle with hidle
    subst hidle
    obtain ⟨hmin, q, hq, hqr, hqa⟩ := nextArrival_spec s.procs hinv.arrival hex
    have hnot := (selectIdx_none key _ _).1 hsel
    have hlt : s.currentTime < nextArrival s.procs := by
      have := hnot q hq
      simp only [Ready, not_and, not_le] at this
      have := this hqr
      omega
    refine ⟨⟨hinv.static_eq, hinv.arrival, hinv.rem, hinv.count, ?_, ?_, hinv.early⟩, ?_⟩
    · intro c hc
      simp [hcur] at hc
    · have := hinv.timeline
      simp only [PState.horizon, hcur] at this ⊢
      exact timelineOK_mono this (le_of_lt hlt)
    · have hsel2 : selectIdx key (nextArrival s.procs) s.procs ≠ none :=
        selectIdx_ne_none_of_ready key _ _ q hq ⟨hqr, by omega⟩
      simp only [pMeasure, hsel, hsel2, if_true, if_false]
      omega
  · -- dispatch of `p`
    have hpm : p ∈ s.procs := mem_of_getElem?_eq hp
    have hrem := hinv.rem p hpm
    obtain ⟨tl1, start1, hsw, ts, hts, hfin⟩ := pRun_cases preempts s t i p hrun
    obtain ⟨htspos, htsle⟩ := timeSliceFrom_pos preempts (markStarted s.currentTime p)
      s.currentTime (s.procs.set i (markStarted s.currentTime p)) p.RemainingTime hr.1
    rw [← hts] at htspos htsle
    obtain ⟨q0, hq0, hq0s⟩ := static_getElem? hinv.static_eq hp
    simp only [static, Prod.mk.injEq] at hq0s
    have hq0m : q0 ∈ ps0 := mem_of_getElem?_eq hq0
    -- the timeline after the process switch
    have hsw2 : TimelineOK tl1 start1 ∧ start1 ≤ s.currentTime ∧ p.ArrivalTime ≤ start1 ∧
        (∀ seg ∈ tl1, ∃ q ∈ ps0, q.ID = seg.ProcessID ∧ q.ArrivalTime ≤ seg.StartTime) := by
      rcases hsw with ⟨hcur, rfl, rfl⟩ | ⟨hcur, rfl, rfl⟩ | ⟨c, pc, hcur, hci, hpc, rfl, rfl⟩
      · have := hinv.timeline
        simp only [PState.horizon, hcur] at this
        exact ⟨this, le_rfl, hr.2, hinv.early⟩
      · have := hinv.timeline
        simp only [PState.horizon, hcur] at this
        obtain ⟨pc, hpc, _, hlt, harr⟩ := hinv.current i hcur
        rw [hp] at hpc
        injection hpc with hpc
        subst hpc
        exact ⟨this, le_of_lt hlt, harr, hinv.early⟩
      · have := hinv.timeline
        simp only [PState.horizon, hcur] at this
        obtain ⟨pc2, hpc2, _, hlt, harr⟩ := hinv.current c hcur
        rw [hpc] at hpc2
        injection hpc2 with hpc2
        subst hpc2
        refine ⟨timelineOK_append this
          { ProcessID := pc.ID, StartTime := s.currentSegmentStart, EndTime := s.currentTime }
          le_rfl hlt, le_rfl, hr.2, ?_⟩
        intro seg hseg
        rcases List.mem_append.1 hseg with hseg | hseg
        · exact hinv.early seg hseg
        · simp at hseg
          subst hseg
          obtain ⟨q, hq, hqs⟩ := static_getElem? hinv.static_eq hpc
          simp only [static, Prod.mk.injEq] at hqs
          exact ⟨q, mem_of_getElem?_eq hq, hqs.1, by simp; omega⟩
    obtain ⟨htl1, hs1, ha1, he1⟩ := hsw2
    have hstat : ∀ x : Process, static x = static p →
        (s.procs.set i x).map static = ps0.map static := by
      intro x hx
      rw [map_set_same static s.procs i p x hp hx]
      exact hinv.static_eq
    have hremx : ∀ x : Process, x.BurstTime = p.BurstTime →
        x.RemainingTime = p.RemainingTime - ts →
        ∀ a ∈ s.procs.set i x,
          0 < a.BurstTime ∧ 0 ≤ a.RemainingTime ∧ a.RemainingTime ≤ a.BurstTime := by
      intro x hb hx
      exact forall_mem_set hinv.rem ⟨by omega, by omega, by omega⟩
    have hμ : ∀ x : Process, x.RemainingTime = p.RemainingTime - ts → ∀ k : Nat, k ≤ 1 →
        2 * (totalRemaining (s.procs.set i x)).toNat + k < pMeasure key s := by
      intro x hx k hk
      have h1 := totalRemaining_set s.procs i p x hp
      have h2 := totalRemaining_ge_of_mem s.procs (fun a ha => (hinv.rem a ha).2.1) p hpm
      simp only [pMeasure]
      split <;> omega
    rcases hfin with ⟨hz, rfl⟩ | ⟨hz, rfl⟩
    · -- `p` completes
      refine ⟨⟨hstat _ (by simp [static]), ?_, hremx _ (by simp) (by simp), ?_, ?_, ?_, ?_⟩, ?_⟩
      · exact forall_mem_set hinv.arrival (by simpa using hinv.arrival p hpm)
      · have key2 : ∀ x : Process, x.RemainingTime = 0 → s.remainingProcesses - 1 =
            List.countP (fun p => decide (p.RemainingTime > 0)) (s.procs.set i x) := by
          intro x hx
          have := countP_set_drop (fun p : Process => decide (p.RemainingTime > 0)) s.procs i p x
            hp (by simpa using hr.1) (by simp [hx])
          have hc := hinv.count
          omega
        exact key2 _ (by simpa using hz)
      · intro c hc
        simp at hc
      · simp only [PState.horizon]
        exact timelineOK_append htl1
          { ProcessID := p.ID, StartTime := start1, EndTime := s.currentTime + ts } le_rfl
          (by simp; omega)
      · intro seg hseg
        rcases List.mem_append.1 hseg with hseg | hseg
        · exact he1 seg hseg
        · simp at hseg
          subst hseg
          exact ⟨q0, hq0m, hq0s.1, by simp; omega⟩
      · simp only [pMeasure]
        have := hμ (setMetrics (s.currentTime + ts)
          { markStarted s.currentTime p with RemainingTime := p.RemainingTime - ts })
          (by simp)
        split
        · exact this 1 le_rfl
        · exact this 0 (by omega)
    · -- `p` stays in progress
      refine ⟨⟨hstat _ (by simp [static]), ?_, hremx _ (by simp) (by simp), ?_, ?_, ?_, he1⟩, ?_⟩
      · exact forall_mem_set hinv.arrival (by simpa using hinv.arrival p hpm)
      · have key2 : ∀ x : Process, x.RemainingTime > 0 → s.remainingProcesses =
            List.countP (fun p => decide (p.RemainingTime > 0)) (s.procs.set i x) := by
          intro x hx
          have := countP_set_same (fun p : Process => decide (p.RemainingTime > 0)) s.procs i p x
            hp (by have := hr.1; simp [hx, this])
          have hc := hinv.count
          omega
        exact key2 _ (by simp; omega)
      · intro c hc
        simp only [Option.some.injEq] at hc
        subst hc
        have hil : i < s.procs.length := by
          rw [List.getElem?_eq_some] at hp
          exact hp.1
        have hget : ∀ x : Process, (s.procs.set i x)[i]? = some x := by
          intro x
          simp [List.getElem?_set, hil]
        refine ⟨_, hget _, ⟨?_, ?_⟩, ?_, ?_⟩
        · simp only [markStarted_RemainingTime]
          omega
        · simp only [markStarted_ArrivalTime]
          have := hr.2
          omega
        · simp only
          omega
        · simpa using ha1
      · simpa [PState.horizon] using htl1
      · simp only [pMeasure]
        have := hμ
          { markStarted s.currentTime p with RemainingTime := p.RemainingTime - ts } (by simp)
        split
        · exact this 1 le_rfl
        · exact this 0 (by omega)

theorem pStep_no_fault (key : Process → Int) (preempts : Process → Process → Int → Bool)
    (ps0 : List Process) (s : PState) (hinv : PInv ps0 s) :
    pStep key preempts s ≠ .fault := by
  unfold pStep
  split
  · split
    · rename_i hsel
      have hcur : s.currentProcess = none := by
        cases hcp : s.currentProcess with
        | none => rfl
        | some c =>
          obtain ⟨pc, hpc, hrc, _⟩ := hinv.current c hcp
          exact absurd hsel (selectIdx_ne_none_of_ready key _ _ pc (mem_of_getElem?_eq hpc) hrc)
      simp [pIdle, hcur]
    · rename_i i hsel
      obtain ⟨p, hp, _⟩ := selectIdx_some key _ _ i hsel
      simp only [hp]
      unfold pRun
      simp only
      split
      · rename_i hsw
        split at hsw
        · simp at hsw
        · rename_i c hcur
          split at hsw
          · rename_i hci
            obtain ⟨pc, hpc, _⟩ := hinv.current c hcur
            rw [List.getElem?_set_ne (Ne.symm hci), hpc] at hsw
            simp at hsw
          · simp at hsw
      · split <;> simp
  · simp

theorem resetStarted_static (ps : List Process) :
    (resetStarted ps).map static = ps.map static := by
  unfold resetStarted
  rw [List.map_map]
  rfl

theorem mem_resetStarted {ps : List Process} {p : Process} (h : p ∈ resetStarted ps) :
    ∃ q ∈ ps, p = { q with IsStarted := false } := by
  unfold resetStarted at h
  obtain ⟨q, hq, rfl⟩ := List.mem_map.1 h
  exact ⟨q, hq, rfl⟩

theorem resetStarted_ne_nil {ps : List Process} (h : ps ≠ []) : resetStarted ps ≠ [] := by
  unfold resetStarted
  simpa using h

/-- The state in which `runSRTF` and `runPreemptivePriority` enter their loop
satisfies the invariant. -/
theorem pInit_inv (ps0 : List Process) (hne : ps0 ≠ [])
    (hwf : ∀ p ∈ ps0, 0 < p.BurstTime ∧ 0 ≤ p.ArrivalTime ∧ p.RemainingTime = p.BurstTime) :
    ∃ s0, pInit ps0 = some s0 ∧ PInv ps0 s0 ∧ s0.procs = resetStarted ps0 ∧
      s0.timeline = [] ∧ s0.currentProcess = none := by
  obtain ⟨t, ht, _, _⟩ := earliestArrival_spec (resetStarted_ne_nil hne)
  have hwf2 : ∀ p ∈ resetStarted ps0,
      0 < p.BurstTime ∧ 0 ≤ p.ArrivalTime ∧ p.RemainingTime = p.BurstTime := by
    intro p hp
    obtain ⟨q, hq, rfl⟩ := mem_resetStarted hp
    exact hwf q hq
  refine ⟨{ procs := resetStarted ps0, timeline := [], currentTime := t,
            remainingProcesses := (resetStarted ps0).length, currentProcess := none,
            currentSegmentStart := 0 }, by simp [pInit, ht],
    ⟨resetStarted_static ps0, fun p hp => (hwf2 p hp).2.1,
     fun p hp => ⟨(hwf2 p hp).1, by have := hwf2 p hp; omega, by have := hwf2 p hp; omega⟩,
     ?_, by simp, timelineOK_nil _, by simp⟩, rfl, rfl, rfl⟩
  show (resetStarted ps0).length = (resetStarted ps0).countP fun p => decide (p.RemainingTime > 0)
  symm
  rw [List.countP_eq_length]
  intro p hp
  have := hwf2 p hp
  simp
  omega

/-- In a state that satisfies the invariant and has no unfinished process,
no segment is in progress and every remaining time is zero. -/
theorem pInv_final (ps0 : List Process) (r : PState) (hinv : PInv ps0 r)
    (hz : r.remainingProcesses = 0) :
    r.currentProcess = none ∧ ∀ p ∈ r.procs, p.RemainingTime = 0 := by
  have hc := hinv.count
  rw [hz] at hc
  have hall : ∀ p ∈ r.procs, p.RemainingTime = 0 := by
    intro p hp
    have h0 := List.countP_eq_zero.1 hc.symm p hp
    have := (hinv.rem p hp).2.1
    simp at h0
    omega
  refine ⟨?_, hall⟩
  cases hcp : r.currentProcess with
  | none => rfl
  | some c =>
    obtain ⟨pc, hpc, hrc, _⟩ := hinv.current c hcp
    have := hall pc (mem_of_getElem?_eq hpc)
    have := hrc.1
    omega

/-- The loop of `runSRTF` and `runPreemptivePriority` ends, in a state that
satisfies the invariant, has no unfinished process, and has any further
property `Extra` that the entry state has and the passes keep. -/
theorem p_returns_with (key : Process → Int) (preempts : Process → Process → Int → Bool)
    (ps0 : List Process) (hne : ps0 ≠ [])
    (hwf : ∀ p ∈ ps0, 0 < p.BurstTime ∧ 0 ≤ p.ArrivalTime ∧ p.RemainingTime = p.BurstTime)
    (Extra : PState → Prop)
    (hinit : ∀ s0, pInit ps0 = some s0 → s0.procs = resetStarted ps0 → s0.timeline = [] →
      s0.currentProcess = none → Extra s0)
    (hstep : ∀ s t, PInv ps0 s → Extra s → pStep key preempts s = .next t → Extra t) :
    ∃ s0 r, pInit ps0 = some s0 ∧
      Returns (fun fuel => iterate (pStep key preempts) fuel s0) r ∧ PInv ps0 r ∧ Extra r ∧
      r.remainingProcesses = 0 := by
  obtain ⟨s0, hs0, hinv, hp0, ht0, hc0⟩ := pInit_inv ps0 hne hwf
  obtain ⟨r, hret, hr, hd⟩ := returns_of_inv (pStep key preempts)
    (fun s => PInv ps0 s ∧ Extra s) (pMeasure key)
    (fun s t hs hst =>
      ⟨⟨(pInv_step key preempts ps0 s t hs.1 hst).1, hstep s t hs.1 hs.2 hst⟩,
        (pInv_step key preempts ps0 s t hs.1 hst).2⟩)
    (fun s hs => pStep_no_fault key preempts ps0 s hs.1)
    (fun s r h => (pStep_done key preempts s r h).1) s0 ⟨hinv, hinit s0 hs0 hp0 ht0 hc0⟩
  exact ⟨s0, r, hs0, hret, hr.1, hr.2, (pStep_done key preempts r r hd).2⟩

/-- The loop of `runSRTF` and `runPreemptivePriority` ends, in a state that
satisfies the invariant and has no unfinished process. -/
theorem p_returns (key : Process → Int) (preempts : Process → Process → Int → Bool)
    (ps0 : List Process) (hne : ps0 ≠ [])
    (hwf : ∀ p ∈ ps0, 0 < p.BurstTime ∧ 0 ≤ p.ArrivalTime ∧ p.RemainingTime = p.BurstTime) :
    ∃ s0 r, pInit ps0 = some s0 ∧
      Returns (fun fuel => iterate (pStep key preempts) fuel s0) r ∧ PInv ps0 r ∧
      r.remainingProcesses = 0 := by
  obtain ⟨s0, r, h0, hret, hinv, _, hz⟩ := p_returns_with key preempts ps0 hne hwf
    (fun _ => True) (fun _ _ _ _ _ => trivial) (fun _ _ _ _ _ => trivial)
  exact ⟨s0, r, h0, hret, hinv, hz⟩

end Exact

namespace Exact

/-! ## The scans of `runRoundRobin` -/

theorem contains_iff (l : List Nat) (v : Nat) : contains l v = true ↔ v ∈ l := by
  induction l with
  | nil => simp [contains]
  | cons a l ih =>
    simp only [contains, List.mem_cons]
    split
    · rename_i h
      simp [h]
    · rename_i h
      rw [ih]
      constructor
      · exact Or.inr
      · rintro (h1 | h1)
        · exact absurd h1.symm h
        · exact h1

theorem contains_false_iff (l : List Nat) (v : Nat) : contains l v = false ↔ v ∉ l := by
  rw [← contains_iff]
  simp

/-- The arrival scan appends `newArrivals` to the queue. -/
theorem arrivalsFrom_eq (now ex : Int) (queue : List Nat) (ps : List Process) :
    ∀ (i : Nat) (acc : List Nat), (∀ j ∈ acc, j < i) →
      arrivalsFrom now ex ps i (queue ++ acc) = queue ++ acc ++ newArrivals now ex queue ps i := by
  induction ps with
  | nil => intro i acc _; simp [arrivalsFrom, newArrivals]
  | cons p ps ih =>
    intro i acc hacc
    have hc : contains (queue ++ acc) i = contains queue i := by
      cases h : contains queue i with
      | true =>
        rw [contains_iff] at h ⊢
        exact List.mem_append.2 (Or.inl h)
      | false =>
        rw [contains_false_iff] at h ⊢
        intro hm
        rcases List.mem_append.1 hm with hm | hm
        · exact h hm
        · exact absurd (hacc i hm) (lt_irrefl i)
    simp only [arrivalsFrom, newArrivals, hc]
    split
    · have := ih (i + 1) (acc ++ [i]) (by
        intro j hj
        rcases List.mem_append.1 hj with hj | hj
        · exact Nat.lt_succ_of_lt (hacc j hj)
        · simp at hj; omega)
      simp only [← List.append_assoc] at this
      rw [this]
      simp
    · exact ih (i + 1) acc (fun j hj => Nat.lt_succ_of_lt (hacc j hj))

theorem arrivalsFrom_eq_append (now ex : Int) (queue : List Nat) (ps : List Process) :
    arrivalsFrom now ex ps 0 queue = queue ++ newArrivals now ex queue ps 0 := by
  have := arrivalsFrom_eq now ex queue ps 0 [] (by simp)
  simpa using this

theorem mem_newArrivals (now ex : Int) (queue : List Nat) (ps : List Process) :
    ∀ (i j : Nat), j ∈ newArrivals now ex queue ps i ↔
      i ≤ j ∧ j ∉ queue ∧ ∃ p, ps[j - i]? = some p ∧ p.RemainingTime > 0 ∧
        p.ArrivalTime > now - ex ∧ p.ArrivalTime ≤ now := by
  induction ps with
  | nil => intro i j; simp [newArrivals]
  | cons p ps ih =>
    intro i j
    have hrec : j ∈ newArrivals now ex queue ps (i + 1) ↔
        i < j ∧ j ∉ queue ∧ ∃ q, (p :: ps)[j - i]? = some q ∧ q.RemainingTime > 0 ∧
          q.ArrivalTime > now - ex ∧ q.ArrivalTime ≤ now := by
      rw [ih (i + 1) j]
      constructor
      · rintro ⟨h1, h2, q, hq, h3⟩
        refine ⟨by omega, h2, q, ?_, h3⟩
        have : j - i = (j - (i + 1)) + 1 := by omega
        rw [this]
        simpa using hq
      · rintro ⟨h1, h2, q, hq, h3⟩
        refine ⟨by omega, h2, q, ?_, h3⟩
        have : j - i = (j - (i + 1)) + 1 := by omega
        rw [this] at hq
        simpa using hq
    simp only [newArrivals]
    split
    · rename_i hc
      rw [List.mem_cons, hrec]
      constructor
      · rintro (h | h)
        · subst h
          exact ⟨le_rfl, (contains_false_iff _ _).1 hc.2.2.2, p, by simp, hc.1, hc.2.1, hc.2.2.1⟩
        · exact ⟨by omega, h.2⟩
      · rintro ⟨h1, h2⟩
        rcases Nat.eq_or_lt_of_le h1 with h | h
        · exact Or.inl h.symm
        · exact Or.inr ⟨h, h2⟩
    · rename_i hc
      rw [hrec]
      constructor
      · rintro ⟨h1, h2⟩
        exact ⟨by omega, h2⟩
      · rintro ⟨h1, h2, q, hq, h3⟩
        rcases Nat.eq_or_lt_of_le h1 with h | h
        · subst h
          simp at hq
          subst hq
          exact absurd ⟨h3.1, h3.2.1, h3.2.2, (contains_false_iff _ _).2 h2⟩ hc
        · exact ⟨h, h2, q, hq, h3⟩

theorem newArrivals_sorted (now ex : Int) (queue : List Nat) (ps : List Process) :
    ∀ i : Nat, (newArrivals now ex queue ps i).Pairwise (· < ·) := by
  induction ps with
  | nil => intro i; simp [newArrivals]
  | cons p ps ih =>
    intro i
    simp only [newArrivals]
    split
    · rw [List.pairwise_cons]
      refine ⟨?_, ih (i + 1)⟩
      intro j hj
      have := ((mem_newArrivals now ex queue ps (i + 1) j).1 hj).1
      omega
    · exact ih (i + 1)

theorem newArrivals_nodup (now ex : Int) (queue : List Nat) (ps : List Process) (i : Nat) :
    (newArrivals now ex queue ps i).Nodup :=
  (newArrivals_sorted now ex queue ps i).imp (fun h => Nat.ne_of_lt h)

/-- The pair found by the next-arrival scan belongs to an unfinished process that
arrives after `ct`. -/
theorem findNextFrom_some (ct : Int) (ps : List Process) :
    ∀ (i : Nat) (a : Int) (sel : Option Nat) (b : Int) (j : Nat),
      findNextFrom ct ps i (a, sel) = (b, some j) →
        (sel = some j ∧ b = a) ∨
        (i ≤ j ∧ ∃ p, ps[j - i]? = some p ∧ p.RemainingTime > 0 ∧ p.ArrivalTime > ct ∧
          p.ArrivalTime = b) := by
  induction ps with
  | nil =>
    intro i a sel b j h
    simp only [findNextFrom, Prod.mk.injEq] at h
    exact Or.inl ⟨h.2, h.1.symm⟩
  | cons p ps ih =>
    intro i a sel b j h
    simp only [findNextFrom] at h
    have key2 : ∀ (a2 : Int) (s2 : Option Nat),
        findNextFrom ct ps (i + 1) (a2, s2) = (b, some j) →
        (s2 = some j ∧ b = a2) ∨
        (i ≤ j ∧ ∃ q, (p :: ps)[j - i]? = some q ∧ q.RemainingTime > 0 ∧ q.ArrivalTime > ct ∧
          q.ArrivalTime = b) := by
      intro a2 s2 hs
      rcases ih (i + 1) a2 s2 b j hs with h1 | ⟨h1, q, hq, hrq⟩
      · exact Or.inl h1
      · refine Or.inr ⟨by omega, q, ?_, hrq⟩
        have : j - i = (j - (i + 1)) + 1 := by omega
        rw [this]
        simpa using hq
    split at h
    · rename_i hr
      split at h
      · rcases key2 _ _ h with ⟨h1, h2⟩ | h1
        · have hij : i = j := by simpa using h1
          subst hij
          exact Or.inr ⟨le_rfl, p, by simp, hr.1, hr.2, h2.symm⟩
        · exact Or.inr h1
      · exact key2 _ _ h
    · exact key2 _ _ h

theorem mem_initialQueueFrom (t : Int) (ps : List Process) :
    ∀ (i : Nat) (acc : List Nat) (j : Nat), j ∈ initialQueueFrom t ps i acc →
      j ∈ acc ∨ (i ≤ j ∧ ∃ p, ps[j - i]? = some p ∧ p.ArrivalTime ≤ t) := by
  induction ps with
  | nil => intro i acc j h; simp [initialQueueFrom] at h; exact Or.inl h
  | cons p ps ih =>
    intro i acc j h
    simp only [initialQueueFrom] at h
    have key2 : ∀ acc2 : List Nat, j ∈ initialQueueFrom t ps (i + 1) acc2 →
        j ∈ acc2 ∨ (i ≤ j ∧ ∃ q, (p :: ps)[j - i]? = some q ∧ q.ArrivalTime ≤ t) := by
      intro acc2 hs
      rcases ih (i + 1) acc2 j hs with h1 | ⟨h1, q, hq, hrq⟩
      · exact Or.inl h1
      · refine Or.inr ⟨by omega, q, ?_, hrq⟩
        have : j - i = (j - (i + 1)) + 1 := by omega
        rw [this]
        simpa using hq
    split at h
    · rename_i hr
      rcases key2 _ h with h1 | h1
      · rcases List.mem_append.1 h1 with h1 | h1
        · exact Or.inl h1
        · simp at h1
          subst h1
          exact Or.inr ⟨le_rfl, p, by simp, hr⟩
      · exact Or.inr h1
    · exact key2 _ h

theorem initialQueueFrom_nodup (t : Int) (ps : List Process) :
    ∀ (i : Nat) (acc : List Nat), acc.Nodup → (∀ j ∈ acc, j < i) →
      (initialQueueFrom t ps i acc).Nodup := by
  induction ps with
  | nil => intro i acc h _; simpa [initialQueueFrom] using h
  | cons p ps ih =>
    intro i acc hnd hlt
    simp only [initialQueueFrom]
    split
    · apply ih
      · rw [List.nodup_append]
        refine ⟨hnd, by simp, ?_⟩
        intro a ha hb
        simp at hb
        subst hb
        have := hlt a ha
        omega
      · intro j hj
        rcases List.mem_append.1 hj with hj | hj
        · exact Nat.lt_succ_of_lt (hlt j hj)
        · simp at hj; omega
    · exact ih _ _ hnd (fun j hj => Nat.lt_succ_of_lt (hlt j hj))

/-! ## The loop of `runRoundRobin` -/

/-- The time for which `rrDispatch` runs the process `p`. -/
theorem rrDispatch_eq (q : Int) (s : RRState) (ct : Int) (idx : Nat) (rest : List Nat)
    (p : Process) :
    ∃ ex, ex = (if p.RemainingTime < q then p.RemainingTime else q) ∧
      rrDispatch q s ct idx rest p =
        if p.RemainingTime - ex > 0 then
          { procs := s.procs.set idx
              { markStarted ct p with RemainingTime := p.RemainingTime - ex },
            timeline := s.timeline ++
              [{ ProcessID := p.ID, StartTime := ct, EndTime := ct + ex }],
            readyQueue := rest ++ newArrivals (ct + ex) ex rest
              (s.procs.set idx { markStarted ct p with RemainingTime := p.RemainingTime - ex }) 0
                ++ [idx],
            currentTime := ct + ex,
            completedCount := s.completedCount }
        else
          { procs := s.procs.set idx (setMetrics (ct + ex)
              { markStarted ct p with RemainingTime := p.RemainingTime - ex }),
            timeline := s.timeline ++
              [{ ProcessID := p.ID, StartTime := ct, EndTime := ct + ex }],
            readyQueue := rest ++ newArrivals (ct + ex) ex rest
              (s.procs.set idx { markStarted ct p with RemainingTime := p.RemainingTime - ex }) 0,
            currentTime := ct + ex,
            completedCount := s.completedCount + 1 } := by
  refine ⟨_, rfl, ?_⟩
  unfold rrDispatch
  simp only [markStarted_RemainingTime, markStarted_ID, arrivalsFrom_eq_append]

theorem rrStep_cases (q : Int) (s t : RRState) (h : rrStep q s = .next t) :
    s.completedCount < s.procs.length ∧
    ∃ ct idx rest p,
      ((s.readyQueue = idx :: rest ∧ ct = s.currentTime) ∨
       (s.readyQueue = [] ∧ rest = [] ∧
          findNextFrom s.currentTime s.procs 0 (-1, none) = (ct, some idx))) ∧
      s.procs[idx]? = some p ∧ t = rrDispatch q s ct idx rest p := by
  unfold rrStep at h
  split at h
  · rename_i hlt
    refine ⟨hlt, ?_⟩
    simp only at h
    split at h
    · simp at h
    · simp at h
    · rename_i ct idx rest href
      split at h
      · simp at h
      · rename_i p hp
        injection h with h
        refine ⟨ct, idx, rest, p, ?_, hp, h.symm⟩
        split at href
        · rename_i hq
          split at href
          · simp at href
          · rename_i a j hf
            simp only [Option.some.injEq, Prod.mk.injEq, List.cons.injEq] at href
            obtain ⟨h1, h2, h3⟩ := href
            subst h1 h2 h3
            exact Or.inr ⟨hq, rfl, hf⟩
        · rename_i a b hq
          simp only [Option.some.injEq, Prod.mk.injEq, List.cons.injEq] at href
          obtain ⟨h1, h2, h3⟩ := href
          subst h1 h2 h3
          exact Or.inl ⟨hq, rfl⟩
  · simp at h

theorem rrStep_done (q : Int) (s r : RRState) (h : rrStep q s = .done r) : r = s := by
  unfold rrStep at h
  split at h
  · simp only at h
    split at h
    · injection h with h; exact h.symm
    · simp at h
    · split at h <;> simp at h
  · injection h with h; exact h.symm

theorem rrStep_no_fault (q : Int) (ps0 : List Process) (s : RRState) (hinv : RRInv ps0 s) :
    rrStep q s ≠ .fault := by
  unfold rrStep
  split
  · simp only
    split
    · simp
    · rename_i href
      split at href
      · split at href <;> simp at href
      · simp at href
    · rename_i ct idx rest href
      have hidx : ∃ p, s.procs[idx]? = some p := by
        split at href
        · split at href
          · simp at href
          · rename_i a j hf
            simp only [Option.some.injEq, Prod.mk.injEq, List.cons.injEq] at href
            obtain ⟨h1, h2, h3⟩ := href
            subst h1 h2 h3
            rcases findNextFrom_some _ _ _ _ _ _ _ hf with ⟨h1, _⟩ | ⟨_, p, hp, _⟩
            · simp at h1
            · exact ⟨p, by simpa using hp⟩
        · rename_i a b hq
          simp only [Option.some.injEq, Prod.mk.injEq, List.cons.injEq] at href
          obtain ⟨h1, h2, h3⟩ := href
          subst h1 h2 h3
          obtain ⟨p, hp, _⟩ := hinv.queue a (by simp [hq])
          exact ⟨p, hp⟩
      obtain ⟨p, hp⟩ := hidx
      simp [hp]
  · simp

/-- The indices appended by the arrival scan after a slice `[ct, ct + ex)` of
`procs[idx]`: exactly the unfinished processes, other than `idx` and those of
`rest`, that arrived during the slice. -/
theorem mem_newArrivals_dispatch (procs : List Process) (ct ex : Int) (idx : Nat)
    (rest : List Nat) (p x : Process) (hp : procs[idx]? = some p)
    (hx : x.ArrivalTime = p.ArrivalTime) (hpa : p.ArrivalTime ≤ ct) (j : Nat) :
    j ∈ newArrivals (ct + ex) ex rest (procs.set idx x) 0 ↔
      j ∉ rest ∧ j ≠ idx ∧ ∃ a, procs[j]? = some a ∧ a.RemainingTime > 0 ∧
        a.ArrivalTime > ct ∧ a.ArrivalTime ≤ ct + ex := by
  have hil : idx < procs.length := by
    rw [List.getElem?_eq_some] at hp
    exact hp.1
  rw [mem_newArrivals]
  simp only [Nat.zero_le, true_and, Nat.sub_zero]
  have e : ct + ex - ex = ct := by omega
  rw [e]
  constructor
  · rintro ⟨h1, a, ha, h2, h3, h4⟩
    have hne : j ≠ idx := by
      intro hji
      subst hji
      simp [List.getElem?_set, hil] at ha
      subst ha
      omega
    rw [List.getElem?_set_ne (Ne.symm hne)] at ha
    exact ⟨h1, hne, a, ha, h2, h3, h4⟩
  · rintro ⟨h1, hne, a, ha, h2, h3, h4⟩
    refine ⟨h1, a, ?_, h2, h3, h4⟩
    rw [List.getElem?_set_ne (Ne.symm hne)]
    exact ha

theorem rrInv_dispatch (q : Int) (hq : 0 < q) (ps0 : List Process) (s : RRState) (ct : Int)
    (idx : Nat) (rest : List Nat) (p : Process)
    (hinv : RRInv ps0 s) (hct : s.currentTime ≤ ct) (hp : s.procs[idx]? = some p)
    (hr : Ready ct p) (hnd : (idx :: rest).Nodup)
    (hrest : ∀ i ∈ rest, ∃ a, s.procs[i]? = some a ∧ Ready ct a) :
    RRInv ps0 (rrDispatch q s ct idx rest p) ∧
      rrMeasure (rrDispatch q s ct idx rest p) < rrMeasure s := by
  obtain ⟨ex, hex, heq⟩ := rrDispatch_eq q s ct idx rest p
  rw [heq]
  have hpm : p ∈ s.procs := mem_of_getElem?_eq hp
  have hrem := hinv.rem p hpm
  have hil : idx < s.procs.length := by
    rw [List.getElem?_eq_some] at hp
    exact hp.1
  have hex0 : 0 < ex ∧ ex ≤ p.RemainingTime ∧ ex ≤ q := by
    have := hr.1
    rw [hex]
    split <;> omega
  obtain ⟨q0, hq0, hq0s⟩ := static_getElem? hinv.static_eq hp
  simp only [static, Prod.mk.injEq] at hq0s
  have hq0m : q0 ∈ ps0 := mem_of_getElem?_eq hq0
  have hnd2 := List.nodup_cons.1 hnd
  have hstat : ∀ x : Process, static x = static p →
      (s.procs.set idx x).map static = ps0.map static := by
    intro x hx
    rw [map_set_same static s.procs idx p x hp hx]
    exact hinv.static_eq
  have hremx : ∀ x : Process, x.BurstTime = p.BurstTime →
      x.RemainingTime = p.RemainingTime - ex →
      ∀ a ∈ s.procs.set idx x,
        0 < a.BurstTime ∧ 0 ≤ a.RemainingTime ∧ a.RemainingTime ≤ a.BurstTime := by
    intro x hb hx
    exact forall_mem_set hinv.rem ⟨by omega, by omega, by omega⟩
  have hμ : ∀ x : Process, x.RemainingTime = p.RemainingTime - ex →
      (totalRemaining (s.procs.set idx x)).toNat < rrMeasure s := by
    intro x hx
    have h1 := totalRemaining_set s.procs idx p x hp
    have h2 := totalRemaining_ge_of_mem s.procs (fun a ha => (hinv.rem a ha).2.1) p hpm
    simp only [rrMeasure]
    omega
  have htl : TimelineOK (s.timeline ++ [{ ProcessID := p.ID, StartTime := ct, EndTime := ct + ex }])
      (ct + ex) :=
    timelineOK_append hinv.timeline { ProcessID := p.ID, StartTime := ct, EndTime := ct + ex }
      hct (by simp; omega)
  have hearly : ∀ seg ∈ s.timeline ++ [{ ProcessID := p.ID, StartTime := ct, EndTime := ct + ex }],
      ∃ q ∈ ps0, q.ID = seg.ProcessID ∧ q.ArrivalTime ≤ seg.StartTime := by
    intro seg hseg
    rcases List.mem_append.1 hseg with hseg | hseg
    · exact hinv.early seg hseg
    · simp at hseg
      subst hseg
      exact ⟨q0, hq0m, hq0s.1, by have := hr.2; simp; omega⟩
  have hmem := mem_newArrivals_dispatch s.procs ct ex idx rest p
    { markStarted ct p with RemainingTime := p.RemainingTime - ex } hp (by simp) hr.2
  -- the queue after the arrival scan
  have hqnd : (rest ++ newArrivals (ct + ex) ex rest
      (s.procs.set idx { markStarted ct p with RemainingTime := p.RemainingTime - ex }) 0).Nodup := by
    rw [List.nodup_append]
    refine ⟨hnd2.2, newArrivals_nodup _ _ _ _ _, ?_⟩
    intro a ha hb
    exact ((hmem a).1 hb).1 ha
  have hqidx : idx ∉ rest ++ newArrivals (ct + ex) ex rest
      (s.procs.set idx { markStarted ct p with RemainingTime := p.RemainingTime - ex }) 0 := by
    intro hm
    rcases List.mem_append.1 hm with hm | hm
    · exact hnd2.1 hm
    · exact ((hmem idx).1 hm).2.1 rfl
  have hqv : ∀ x : Process, ∀ i ∈ rest ++ newArrivals (ct + ex) ex rest
      (s.procs.set idx { markStarted ct p with RemainingTime := p.RemainingTime - ex }) 0,
      ∃ a, (s.procs.set idx x)[i]? = some a ∧ Ready (ct + ex) a := by
    intro x i hi
    have hne : i ≠ idx := fun h => hqidx (h ▸ hi)
    rw [List.getElem?_set_ne (Ne.symm hne)]
    rcases List.mem_append.1 hi with hi | hi
    · obtain ⟨a, ha, har⟩ := hrest i hi
      exact ⟨a, ha, har.1, by have := har.2; omega⟩
    · obtain ⟨_, _, a, ha, h2, _, h4⟩ := (hmem i).1 hi
      exact ⟨a, ha, h2, h4⟩
  split
  · rename_i hpos
    refine ⟨⟨hstat _ (by simp [static]), hremx _ (by simp) (by simp), ?_, ?_, ?_, htl, hearly⟩,
      hμ _ (by simp)⟩
    · have key2 : ∀ x : Process, x.RemainingTime > 0 → s.completedCount =
          List.countP (fun p => decide (p.RemainingTime = 0)) (s.procs.set idx x) := by
        intro x hx
        have := countP_set_same (fun p : Process => decide (p.RemainingTime = 0)) s.procs idx p x
          hp (by
            have := hr.1
            have h1 : x.RemainingTime ≠ 0 := by omega
            have h2 : p.RemainingTime ≠ 0 := by omega
            simp [h1, h2])
        have hc := hinv.count
        omega
      exact key2 _ (by simpa using hpos)
    · rw [List.nodup_append]
      refine ⟨hqnd, by simp, ?_⟩
      intro a ha hb
      simp at hb
      subst hb
      exact hqidx ha
    · intro i hi
      rcases List.mem_append.1 hi with hi | hi
      · exact hqv _ i hi
      · simp at hi
        subst hi
        have hget : ∀ x : Process, (s.procs.set i x)[i]? = some x := by
          intro x
          simp [List.getElem?_set, hil]
        refine ⟨_, hget _, ?_, ?_⟩
        · simpa using hpos
        · have := hr.2
          simp only [markStarted_ArrivalTime]
          omega
  · rename_i hpos
    refine ⟨⟨hstat _ (by simp [static]), hremx _ (by simp) (by simp), ?_, hqnd, hqv _, htl,
      hearly⟩, hμ _ (by simp)⟩
    have key2 : ∀ x : Process, x.RemainingTime = 0 → s.completedCount + 1 =
        List.countP (fun p => decide (p.RemainingTime = 0)) (s.procs.set idx x) := by
      intro x hx
      have h1 := countP_set_drop (fun p : Process => !decide (p.RemainingTime = 0)) s.procs idx p x
        hp (by
          have := hr.1
          have h2 : p.RemainingTime ≠ 0 := by omega
          simp [h2]) (by simp [hx])
      have h2 := List.length_eq_countP_add_countP (fun p : Process => decide (p.RemainingTime = 0))
        s.procs
      have h3 := List.length_eq_countP_add_countP (fun p : Process => decide (p.RemainingTime = 0))
        (s.procs.set idx x)
      have hc := hinv.count
      simp only [List.length_set] at h3
      have e1 : (fun a : Process => decide ¬ (decide (a.RemainingTime = 0)) = true) =
          (fun p : Process => !decide (p.RemainingTime = 0)) := by
        funext a
        simp
      rw [e1] at h2 h3
      omega
    exact key2 _ (by simp; omega)

/-- A pass of the loop that does not leave it dispatches the process at the
head of the ready queue, or, when the queue is empty, the next process to
arrive. -/
theorem rrStep_dispatch (q : Int) (ps0 : List Process) (s t : RRState)
    (hinv : RRInv ps0 s) (h : rrStep q s = .next t) :
    ∃ ct idx rest p, t = rrDispatch q s ct idx rest p ∧ s.currentTime ≤ ct ∧
      s.procs[idx]? = some p ∧ Ready ct p ∧ (idx :: rest).Nodup ∧
      (∀ i ∈ rest, ∃ a, s.procs[i]? = some a ∧ Ready ct a) ∧
      ((s.readyQueue = idx :: rest ∧ ct = s.currentTime) ∨
       (s.readyQueue = [] ∧ rest = [] ∧ s.currentTime < ct ∧ p.ArrivalTime = ct)) := by
  obtain ⟨_, ct, idx, rest, p, hc, hp, rfl⟩ := rrStep_cases q s t h
  rcases hc with ⟨hqueue, rfl⟩ | ⟨hqueue, rfl, hf⟩
  · have hnd := hinv.queue_nodup
    rw [hqueue] at hnd
    obtain ⟨a, ha, har⟩ := hinv.queue idx (by simp [hqueue])
    rw [hp] at ha
    injection ha with ha
    subst ha
    exact ⟨s.currentTime, idx, rest, p, rfl, le_rfl, hp, har, hnd,
      fun i hi => hinv.queue i (by simp [hqueue, hi]), Or.inl ⟨hqueue, rfl⟩⟩
  · rcases findNextFrom_some _ _ _ _ _ _ _ hf with ⟨h1, _⟩ | ⟨_, a, ha, h1, h2, h3⟩
    · simp at h1
    · simp only [Nat.sub_zero] at ha
      rw [hp] at ha
      injection ha with ha
      subst ha
      exact ⟨ct, idx, [], p, rfl, by omega, hp, ⟨h1, by omega⟩, by simp, by simp,
        Or.inr ⟨hqueue, rfl, by omega, h3⟩⟩

theorem rrInv_step (q : Int) (hq : 0 < q) (ps0 : List Process) (s t : RRState)
    (hinv : RRInv ps0 s) (h : rrStep q s = .next t) :
    RRInv ps0 t ∧ rrMeasure t < rrMeasure s := by
  obtain ⟨ct, idx, rest, p, rfl, hct, hp, hr, hnd, hrest, _⟩ := rrStep_dispatch q ps0 s t hinv h
  exact rrInv_dispatch q hq ps0 s ct idx rest p hinv hct hp hr hnd hrest

/-- The state in which `runRoundRobin` enters its loop satisfies the invariant. -/
theorem rrInit_inv (ps0 : List Process) (hne : ps0 ≠ [])
    (hwf : ∀ p ∈ ps0, 0 < p.BurstTime ∧ 0 ≤ p.ArrivalTime ∧ p.RemainingTime = p.BurstTime) :
    ∃ s0, rrInit ps0 = some s0 ∧ RRInv ps0 s0 ∧ s0.procs = resetStarted ps0 ∧
      s0.timeline = [] := by
  obtain ⟨t, ht, _, _⟩ := earliestArrival_spec (resetStarted_ne_nil hne)
  have hwf2 : ∀ p ∈ resetStarted ps0,
      0 < p.BurstTime ∧ 0 ≤ p.ArrivalTime ∧ p.RemainingTime = p.BurstTime := by
    intro p hp
    obtain ⟨q, hq, rfl⟩ := mem_resetStarted hp
    exact hwf q hq
  refine ⟨{ procs := resetStarted ps0, timeline := [],
            readyQueue := initialQueueFrom t (resetStarted ps0) 0 [],
            currentTime := t, completedCount := 0 }, by simp [rrInit, ht],
    ⟨resetStarted_static ps0,
     fun p hp => ⟨(hwf2 p hp).1, by have := hwf2 p hp; omega, by have := hwf2 p hp; omega⟩,
     ?_, initialQueueFrom_nodup _ _ _ _ (by simp) (by simp), ?_, timelineOK_nil _, by simp⟩,
    rfl, rfl⟩
  · show 0 = (resetStarted ps0).countP fun p => decide (p.RemainingTime = 0)
    symm
    rw [List.countP_eq_zero]
    intro p hp
    have := hwf2 p hp
    simp
    omega
  · intro i hi
    rcases mem_initialQueueFrom _ _ _ _ _ hi with h1 | ⟨_, p, hp, hpa⟩
    · simp at h1
    · simp only [Nat.sub_zero] at hp
      have := hwf2 p (mem_of_getElem?_eq hp)
      exact ⟨p, hp, by omega, hpa⟩

/-- The loop of `runRoundRobin` ends, in a state that satisfies the invariant,
and any further property `Extra` that the entry state has and the passes keep. -/
theorem rr_returns_with (q : Int) (hq : 0 < q) (ps0 : List Process) (hne : ps0 ≠ [])
    (hwf : ∀ p ∈ ps0, 0 < p.BurstTime ∧ 0 ≤ p.ArrivalTime ∧ p.RemainingTime = p.BurstTime)
    (Extra : RRState → Prop)
    (hinit : ∀ s0, rrInit ps0 = some s0 → s0.procs = resetStarted ps0 → s0.timeline = [] →
      Extra s0)
    (hstep : ∀ s t, RRInv ps0 s → Extra s → rrStep q s = .next t → Extra t) :
    ∃ s0 r, rrInit ps0 = some s0 ∧
      Returns (fun fuel => iterate (rrStep q) fuel s0) r ∧ RRInv ps0 r ∧ Extra r ∧
      rrStep q r = .done r := by
  obtain ⟨s0, hs0, hinv, hp0, ht0⟩ := rrInit_inv ps0 hne hwf
  obtain ⟨r, hret, hr, hd⟩ := returns_of_inv (rrStep q)
    (fun s => RRInv ps0 s ∧ Extra s) rrMeasure
    (fun s t hs hst =>
      ⟨⟨(rrInv_step q hq ps0 s t hs.1 hst).1, hstep s t hs.1 hs.2 hst⟩,
        (rrInv_step q hq ps0 s t hs.1 hst).2⟩)
    (fun s hs => rrStep_no_fault q ps0 s hs.1)
    (fun s r h => rrStep_done q s r h) s0 ⟨hinv, hinit s0 hs0 hp0 ht0⟩
  exact ⟨s0, r, hs0, hret, hr.1, hr.2, hd⟩

/-- The loop of `runRoundRobin` ends, in a state that satisfies the invariant. -/
theorem rr_returns (q : Int) (hq : 0 < q) (ps0 : List Process) (hne : ps0 ≠ [])
    (hwf : ∀ p ∈ ps0, 0 < p.BurstTime ∧ 0 ≤ p.ArrivalTime ∧ p.RemainingTime = p.BurstTime) :
    ∃ s0 r, rrInit ps0 = some s0 ∧
      Returns (fun fuel => iterate (rrStep q) fuel s0) r ∧ RRInv ps0 r := by
  obtain ⟨s0, r, h0, hret, hinv, _, _⟩ := rr_returns_with q hq ps0 hne hwf (fun _ => True)
    (fun _ _ _ _ => trivial) (fun _ _ _ _ _ => trivial)
  exact ⟨s0, r, h0, hret, hinv⟩

end Exact

namespace Exact

/-! ## Insertion sort meets the contract of `sort.Slice` -/

theorem insertBy_perm (less : Process → Process → Bool) (p : Process) :
    ∀ l : List Process, (insertBy less p l).Perm (p :: l) := by
  intro l
  induction l with
  | nil => simp [insertBy]
  | cons q qs ih =>
    simp only [insertBy]
    split
    · exact List.Perm.refl _
    · exact (List.Perm.cons q ih).trans (List.Perm.swap p q qs)

theorem insertBy_sorted (key : Process → Int) (p : Process) :
    ∀ l : List Process, l.Pairwise (fun a b => key a ≤ key b) →
      (insertBy (fun a b => decide (key a < key b)) p l).Pairwise
        fun a b => key a ≤ key b := by
  intro l
  induction l with
  | nil => intro _; simp [insertBy]
  | cons q qs ih =>
    intro h
    rw [List.pairwise_cons] at h
    simp only [insertBy]
    split
    · rename_i hc
      have hpq : key p ≤ key q := by
        simp at hc; omega
      rw [List.pairwise_cons]
      refine ⟨?_, List.pairwise_cons.2 h⟩
      intro a ha
      rcases List.mem_cons.1 ha with rfl | ha
      · exact hpq
      · exact le_trans hpq (h.1 a ha)
    · rename_i hc
      have hqp : key q ≤ key p := by
        simp at hc; omega
      rw [List.pairwise_cons]
      refine ⟨?_, ih h.2⟩
      intro a ha
      have := (insertBy_perm (fun a b => decide (key a < key b)) p qs).subset ha
      rcases List.mem_cons.1 this with rfl | ha
      · exact hqp
      · exact h.1 a ha

theorem foldr_insertBy_spec (key : Process → Int) :
    ∀ l : List Process,
      (l.foldr (fun p acc => insertBy (fun a b => decide (key a < key b)) p acc) []).Perm l ∧
      (l.foldr (fun p acc => insertBy (fun a b => decide (key a < key b)) p acc) []).Pairwise
        fun a b => key a ≤ key b := by
  intro l
  induction l with
  | nil => simp
  | cons p ps ih =>
    simp only [List.foldr_cons]
    exact ⟨(insertBy_perm _ _ _).trans (List.Perm.cons p ih.1), insertBy_sorted key p _ ih.2⟩

theorem stableSortSlice_spec : SortSliceSpec stableSortSlice := by
  intro key l
  obtain ⟨h1, h2⟩ := foldr_insertBy_spec key l.reverse
  exact ⟨h1.trans (List.reverse_perm l), h2⟩

/-! ## The loop of `runFCFS` -/

theorem fcfsLoop_timeline (ps : List Process) (hb : ∀ p ∈ ps, 0 < p.BurstTime) :
    ∀ ct : Int, (∀ seg ∈ (fcfsLoop ct ps).2, seg.StartTime < seg.EndTime ∧ ct ≤ seg.StartTime) ∧
      (fcfsLoop ct ps).2.Chain' fun a b => a.EndTime ≤ b.StartTime := by
  induction ps with
  | nil => intro ct; simp [fcfsLoop]
  | cons p ps ih =>
    intro ct
    have hp := hb p (by simp)
    simp only [fcfsLoop, setMetrics_BurstTime]
    obtain ⟨h1, h2⟩ := ih (fun q hq => hb q (by simp [hq]))
      ((if ct < p.ArrivalTime then p.ArrivalTime else ct) + p.BurstTime)
    refine ⟨?_, ?_⟩
    · intro seg hseg
      rcases List.mem_cons.1 hseg with rfl | hseg
      · simp only
        split <;> omega
      · have := h1 seg hseg
        refine ⟨this.1, ?_⟩
        have h3 := this.2
        split at h3 <;> omega
    · rw [List.chain'_cons']
      refine ⟨?_, h2⟩
      intro y hy
      exact (h1 y (List.mem_of_mem_head? hy)).2

theorem fcfsLoop_early (ps : List Process) :
    ∀ ct : Int, ∀ seg ∈ (fcfsLoop ct ps).2,
      ∃ q ∈ ps, q.ID = seg.ProcessID ∧ q.ArrivalTime ≤ seg.StartTime := by
  induction ps with
  | nil => intro ct seg h; simp [fcfsLoop] at h
  | cons p ps ih =>
    intro ct seg hseg
    simp only [fcfsLoop] at hseg
    rcases List.mem_cons.1 hseg with rfl | hseg
    · refine ⟨p, by simp, rfl, ?_⟩
      simp only
      split <;> omega
    · obtain ⟨q, hq, h⟩ := ih _ seg hseg
      exact ⟨q, by simp [hq], h⟩

theorem runSJF_returns {ps : List Process} {s0 r : NPState} (h0 : npInit ps = some s0)
    (h : Returns (fun fuel => iterate (npStep fun p => p.BurstTime) fuel s0) r) :
    Returns (fun fuel => runSJF fuel ps) { Processes := r.completed, Timeline := r.timeline } := by
  obtain ⟨N, hN⟩ := h
  exact ⟨N, fun fuel hf => by simp [runSJF, h0, hN fuel hf]⟩

theorem runNonPreemptivePriority_returns {ps : List Process} {s0 r : NPState}
    (h0 : npInit ps = some s0)
    (h : Returns (fun fuel => iterate (npStep fun p => p.Priority) fuel s0) r) :
    Returns (fun fuel => runNonPreemptivePriority fuel ps)
      { Processes := r.procs, Timeline := r.timeline } := by
  obtain ⟨N, hN⟩ := h
  exact ⟨N, fun fuel hf => by simp [runNonPreemptivePriority, h0, hN fuel hf]⟩

theorem runSRTF_returns {ps : List Process} {s0 r : PState} (h0 : pInit ps = some s0)
    (h : Returns (fun fuel =>
      iterate (pStep (fun p => p.RemainingTime) srtfPreempts) fuel s0) r) :
    Returns (fun fuel => runSRTF fuel ps) { Processes := r.procs, Timeline := r.timeline } := by
  obtain ⟨N, hN⟩ := h
  exact ⟨N, fun fuel hf => by simp [runSRTF, h0, hN fuel hf]⟩

theorem runPreemptivePriority_returns {ps : List Process} {s0 r : PState}
    (h0 : pInit ps = some s0)
    (h : Returns (fun fuel =>
      iterate (pStep (fun p => p.Priority) priorityPreempts) fuel s0) r) :
    Returns (fun fuel => runPreemptivePriority fuel ps)
      { Processes := r.procs, Timeline := r.timeline } := by
  obtain ⟨N, hN⟩ := h
  exact ⟨N, fun fuel hf => by simp [runPreemptivePriority, h0, hN fuel hf]⟩

theorem runRoundRobin_returns {ps : List Process} {s0 r : RRState} (timeQuantum : Int)
    (h0 : rrInit ps = some s0)
    (h : Returns (fun fuel =>
      iterate (rrStep (if timeQuantum ≤ 0 then 1 else timeQuantum)) fuel s0) r) :
    Returns (fun fuel => runRoundRobin fuel ps timeQuantum)
      { Processes := r.procs, Timeline := r.timeline } := by
  obtain ⟨N, hN⟩ := h
  exact ⟨N, fun fuel hf => by simp [runRoundRobin, h0, hN fuel hf]⟩

theorem clamp_pos (timeQuantum : Int) : 0 < (if timeQuantum ≤ 0 then 1 else timeQuantum) := by
  split <;> omega

theorem nonOverlapping_of_timelineOK {tl : List TimelineSegment} {t : Int}
    (h : TimelineOK tl t) : NonOverlapping tl :=
  ⟨fun seg hs => (h.1 seg hs).1, h.2⟩

theorem noEarlyDispatch_of_early {ps : List Process} (hd : DistinctIds ps)
    {tl : List TimelineSegment}
    (h : ∀ seg ∈ tl, ∃ q ∈ ps, q.ID = seg.ProcessID ∧ q.ArrivalTime ≤ seg.StartTime) :
    NoEarlyDispatch ps tl := by
  intro seg hseg
  obtain ⟨q, hq, hid, harr⟩ := h seg hseg
  refine ⟨⟨q, hq, hid⟩, ?_⟩
  intro p hp hpid
  have : p = q := eq_of_same_id hd hp hq (by rw [hpid, hid])
  subst this
  exact harr

end Exact

namespace Exact

/-! ## Round Robin: the quantum and the length of a segment -/

theorem rrQuantum_append (q : Int) (ps0 procs : List Process) (tl : List TimelineSegment)
    (hd : DistinctIds ps0) (hst : procs.map static = ps0.map static)
    (hq : RRQuantum q procs tl) (idx : Nat) (p x : Process) (ct ex : Int)
    (hp : procs[idx]? = some p) (hpos : 0 < p.RemainingTime)
    (hex : ex ≤ q) (hexr : ex < q → ex = p.RemainingTime)
    (hxid : x.ID = p.ID) (hxr : x.RemainingTime = p.RemainingTime - ex) :
    RRQuantum q (procs.set idx x)
      (tl ++ [{ ProcessID := p.ID, StartTime := ct, EndTime := ct + ex }]) := by
  have hil : idx < procs.length := by
    rw [List.getElem?_eq_some] at hp
    exact hp.1
  have hdur : ({ ProcessID := p.ID, StartTime := ct, EndTime := ct + ex } :
      TimelineSegment).duration = ex := by
    simp [TimelineSegment.duration]
  -- an earlier segment of `p` is not short
  have hfullp : ∀ seg ∈ tl, seg.ProcessID = p.ID → seg.duration = q := by
    intro seg hseg hid
    by_contra hne
    have hlt : seg.duration < q := lt_of_le_of_ne (hq.bound seg hseg) hne
    have := hq.short seg hseg hlt idx p hp hid.symm
    omega
  refine ⟨?_, ?_, ?_⟩
  · intro seg hseg
    rcases List.mem_append.1 hseg with hseg | hseg
    · exact hq.bound seg hseg
    · simp at hseg
      subst hseg
      rw [hdur]
      exact hex
  · intro seg hseg hlt i a ha haid
    rcases List.mem_append.1 hseg with hseg | hseg
    · by_cases hi : i = idx
      · subst hi
        simp [List.getElem?_set, hil] at ha
        subst ha
        have := hfullp seg hseg (by rw [← haid, hxid])
        omega
      · rw [List.getElem?_set_ne (Ne.symm hi)] at ha
        exact hq.short seg hseg hlt i a ha haid
    · simp at hseg
      subst hseg
      rw [hdur] at hlt
      by_cases hi : i = idx
      · subst hi
        simp [List.getElem?_set, hil] at ha
        subst ha
        have := hexr hlt
        omega
      · rw [List.getElem?_set_ne (Ne.symm hi)] at ha
        exact absurd (index_eq_of_same_id hd hst ha hp haid) hi
  · rw [List.pairwise_append]
    refine ⟨hq.full, by simp, ?_⟩
    intro a ha b hb hab
    simp at hb
    subst hb
    exact hfullp a ha hab

theorem rrQuantum_step (q : Int) (ps0 : List Process) (hd : DistinctIds ps0)
    (s t : RRState) (hinv : RRInv ps0 s) (hq : RRQuantum q s.procs s.timeline)
    (h : rrStep q s = .next t) : RRQuantum q t.procs t.timeline := by
  obtain ⟨ct, idx, rest, p, rfl, hct, hp, hr, hnd, hrest, _⟩ := rrStep_dispatch q ps0 s t hinv h
  obtain ⟨ex, hex, heq⟩ := rrDispatch_eq q s ct idx rest p
  rw [heq]
  have hex0 : ex ≤ q ∧ (ex < q → ex = p.RemainingTime) := by
    rw [hex]
    split <;> constructor <;> intros <;> omega
  split
  · exact rrQuantum_append q ps0 s.procs s.timeline hd hinv.static_eq hq idx p _ ct ex hp hr.1
      hex0.1 hex0.2 (by simp) (by simp)
  · exact rrQuantum_append q ps0 s.procs s.timeline hd hinv.static_eq hq idx p _ ct ex hp hr.1
      hex0.1 hex0.2 (by simp) (by simp)

end Exact

namespace Exact

/-! ## The preemptive engines: the CPU time given to a process -/

theorem cpuTime_nil (id : String) : cpuTime id [] = 0 := rfl

theorem cpuTime_append_single (id : String) (tl : List TimelineSegment) (seg : TimelineSegment) :
    cpuTime id (tl ++ [seg]) =
      cpuTime id tl + (if seg.ProcessID = id then seg.duration else 0) := by
  unfold cpuTime
  rw [List.filter_append, List.map_append, List.sum_append]
  by_cases h : seg.ProcessID = id
  · simp [List.filter_cons, h]
  · simp [List.filter_cons, h]

/-- The idle branch is taken only when no segment is in progress. -/
theorem pIdle_next (key : Process → Int) (ps0 : List Process) (s t : PState)
    (hinv : PInv ps0 s) (hsel : selectIdx key s.currentTime s.procs = none)
    (h : pIdle s = .next t) :
    s.currentProcess = none ∧ t = { s with currentTime := nextArrival s.procs } := by
  have hcur : s.currentProcess = none := by
    cases hcp : s.currentProcess with
    | none => rfl
    | some c =>
      obtain ⟨pc, hpc, hrc, _⟩ := hinv.current c hcp
      exact absurd hsel (selectIdx_ne_none_of_ready key _ _ pc (mem_of_getElem?_eq hpc) hrc)
  refine ⟨hcur, ?_⟩
  unfold pIdle at h
  split at h
  · injection h with h
    exact h.symm
  · rename_i c hc
    rw [hcur] at hc
    simp at hc

theorem pAccount_step (key : Process → Int) (preempts : Process → Process → Int → Bool)
    (ps0 : List Process) (hd : DistinctIds ps0) (s t : PState)
    (hinv : PInv ps0 s) (hacc : PAccount s) (h : pStep key preempts s = .next t) :
    PAccount t := by
  obtain ⟨_, hc⟩ := pStep_cases key preempts s t h
  rcases hc with ⟨hsel, hidle⟩ | ⟨i, p, hsel, hp, hr, hrun⟩
  · obtain ⟨hcur, rfl⟩ := pIdle_next key ps0 s t hinv hsel hidle
    intro j a ha
    have := hacc j a ha
    simp only [hcur] at this ⊢
    simpa using this
  · obtain ⟨tl1, start1, hsw, ts, _, hfin⟩ := pRun_cases preempts s t i p hrun
    have hil : i < s.procs.length := by
      rw [List.getElem?_eq_some] at hp
      exact hp.1
    -- the accounts after the process switch
    have hA : ∀ (j : Nat) (a : Process), s.procs[j]? = some a →
        cpuTime a.ID tl1 + (if j = i then s.currentTime - start1 else 0) =
          a.BurstTime - a.RemainingTime := by
      intro j a ha
      have h0 := hacc j a ha
      rcases hsw with ⟨hcur, rfl, rfl⟩ | ⟨hcur, rfl, rfl⟩ | ⟨c, pc, hcur, hci, hpc, rfl, rfl⟩
      · simp only [hcur] at h0
        split <;> simp at h0 ⊢ <;> omega
      · simp only [hcur, Option.some.injEq] at h0
        by_cases hji : j = i
        · subst hji
          simpa using h0
        · have hij : ¬ i = j := fun h => hji h.symm
          simpa [hji, hij] using h0
      · simp only [hcur, Option.some.injEq] at h0
        rw [cpuTime_append_single]
        by_cases hjc : j = c
        · subst hjc
          rw [hpc] at ha
          injection ha with ha
          subst ha
          have hji : ¬ j = i := hci
          simp [hji, TimelineSegment.duration] at h0 ⊢
          omega
        · have hid : ¬ pc.ID = a.ID := by
            intro hid
            exact hjc (index_eq_of_same_id hd hinv.static_eq ha hpc hid.symm)
          have hcj : ¬ c = j := fun h => hjc h.symm
          simp only [hid, hcj, if_false, add_zero] at h0 ⊢
          split <;> omega
    have hfinal : ∀ x : Process, x.ID = p.ID → x.BurstTime = p.BurstTime →
        x.RemainingTime = p.RemainingTime - ts →
        ∀ (j : Nat) (a : Process), (s.procs.set i x)[j]? = some a →
          (cpuTime a.ID tl1 + (if j = i then s.currentTime + ts - start1 else 0) =
            a.BurstTime - a.RemainingTime) ∧ (j ≠ i → a.ID ≠ p.ID) := by
      intro x hxid hxb hxr j a ha
      by_cases hji : j = i
      · subst hji
        simp [List.getElem?_set, hil] at ha
        subst ha
        have := hA j p hp
        simp only [if_true] at this ⊢
        rw [hxid, hxb, hxr]
        exact ⟨by omega, fun h => absurd rfl h⟩
      · rw [List.getElem?_set_ne (Ne.symm hji)] at ha
        have := hA j a ha
        simp only [hji, if_false] at this ⊢
        exact ⟨this, fun _ hid => hji (index_eq_of_same_id hd hinv.static_eq ha hp hid)⟩
    rcases hfin with ⟨hz, rfl⟩ | ⟨hz, rfl⟩
    · intro j a ha
      obtain ⟨h1, h2⟩ := hfinal _ (by simp) (by simp) (by simp) j a ha
      simp only [cpuTime_append_single, TimelineSegment.duration]
      by_cases hji : j = i
      · subst hji
        simp [List.getElem?_set, hil] at ha
        subst ha
        simp at h1 ⊢
        omega
      · have hid : ¬ p.ID = a.ID := fun h => h2 hji h.symm
        simp [hji, hid] at h1 ⊢
        omega
    · intro j a ha
      obtain ⟨h1, _⟩ := hfinal _ (by simp) (by simp) (by simp) j a ha
      by_cases hji : j = i
      · subst hji
        simp at h1 ⊢
        omega
      · have hij : ¬ i = j := fun h => hji h.symm
        simp [hji, hij] at h1 ⊢
        omega

/-- Total CPU time for the loop shared by `runSRTF` and `runPreemptivePriority`. -/
theorem preemptive_accounts (key : Process → Int) (preempts : Process → Process → Int → Bool)
    (ps0 : List Process) (hne : ps0 ≠ [])
    (hwf : ∀ p ∈ ps0, 0 < p.BurstTime ∧ 0 ≤ p.ArrivalTime ∧ p.RemainingTime = p.BurstTime)
    (hd : DistinctIds ps0) :
    ∃ s0 r, pInit ps0 = some s0 ∧
      Returns (fun fuel => iterate (pStep key preempts) fuel s0) r ∧
      (∀ p ∈ ps0, cpuTime p.ID r.timeline = p.BurstTime) ∧
      ∀ p ∈ r.procs, p.RemainingTime = 0 := by
  obtain ⟨s0, r, h0, hret, hinv, hacc, hz⟩ := p_returns_with key preempts ps0 hne hwf PAccount
    (fun s0 _ hp0 ht0 hc0 => by
      intro i p hp
      rw [hp0] at hp
      obtain ⟨q, hq, rfl⟩ := mem_resetStarted (mem_of_getElem?_eq hp)
      have := (hwf q hq).2.2
      simp only [ht0, hc0, cpuTime_nil]
      simp
      omega)
    (fun s t hs he hst => pAccount_step key preempts ps0 hd s t hs he hst)
  obtain ⟨hcur, hall⟩ := pInv_final ps0 r hinv hz
  refine ⟨s0, r, h0, hret, ?_, hall⟩
  intro q hq
  obtain ⟨i, hi, hqi⟩ := List.mem_iff_getElem.1 hq
  have hq2 : ps0[i]? = some q := by
    rw [List.getElem?_eq_some]
    exact ⟨hi, hqi⟩
  obtain ⟨p, hp, hps⟩ := static_getElem? hinv.static_eq.symm hq2
  simp only [static, Prod.mk.injEq] at hps
  have h1 := hacc i p hp
  have h2 := hall p (mem_of_getElem?_eq hp)
  simp only [hcur] at h1
  rw [← hps.1, ← hps.2.2.1]
  simp at h1
  omega

end Exact

namespace Exact

/-! ## Round Robin: the CPU time given to a process, and the order of the ready queue -/

theorem rrAccount_append (ps0 procs : List Process) (tl : List TimelineSegment)
    (hd : DistinctIds ps0) (hst : procs.map static = ps0.map static)
    (hacc : RRAccount procs tl) (idx : Nat) (p x : Process) (ct ex : Int)
    (hp : procs[idx]? = some p)
    (hxid : x.ID = p.ID) (hxb : x.BurstTime = p.BurstTime)
    (hxr : x.RemainingTime = p.RemainingTime - ex) :
    RRAccount (procs.set idx x)
      (tl ++ [{ ProcessID := p.ID, StartTime := ct, EndTime := ct + ex }]) := by
  have hil : idx < procs.length := by
    rw [List.getElem?_eq_some] at hp
    exact hp.1
  intro j a ha
  rw [cpuTime_append_single]
  by_cases hji : j = idx
  · subst hji
    simp [List.getElem?_set, hil] at ha
    subst ha
    have := hacc j p hp
    simp [hxid, hxb, hxr, TimelineSegment.duration, this]
    omega
  · rw [List.getElem?_set_ne (Ne.symm hji)] at ha
    have hid : ¬ p.ID = a.ID := fun h => hji (index_eq_of_same_id hd hst ha hp h.symm)
    simp only [hid, if_false, add_zero]
    exact hacc j a ha

theorem rrAccount_step (q : Int) (ps0 : List Process) (hd : DistinctIds ps0)
    (s t : RRState) (hinv : RRInv ps0 s) (hacc : RRAccount s.procs s.timeline)
    (h : rrStep q s = .next t) : RRAccount t.procs t.timeline := by
  obtain ⟨ct, idx, rest, p, rfl, hct, hp, hr, hnd, hrest, _⟩ := rrStep_dispatch q ps0 s t hinv h
  obtain ⟨ex, hex, heq⟩ := rrDispatch_eq q s ct idx rest p
  rw [heq]
  split
  · exact rrAccount_append ps0 s.procs s.timeline hd hinv.static_eq hacc idx p _ ct ex hp
      (by simp) (by simp) (by simp)
  · exact rrAccount_append ps0 s.procs s.timeline hd hinv.static_eq hacc idx p _ ct ex hp
      (by simp) (by simp) (by simp)

/-- A process that has no segment has been given no CPU time. -/
theorem cpuTime_eq_zero_of_not_mem (id : String) (tl : List TimelineSegment)
    (h : ∀ x ∈ tl, x.ProcessID ≠ id) : cpuTime id tl = 0 := by
  unfold cpuTime
  have : tl.filter (fun seg => decide (seg.ProcessID = id)) = [] := by
    rw [List.filter_eq_nil_iff]
    intro x hx
    simpa using h x hx
  rw [this]
  rfl

/-- The two ways to cut a timeline that ends in `x` at one of its segments. -/
theorem split_append_single (pre post tl : List TimelineSegment) (seg x : TimelineSegment)
    (h : tl ++ [x] = pre ++ seg :: post) :
    (post = [] ∧ pre = tl ∧ seg = x) ∨
    (∃ post2, post = post2 ++ [x] ∧ tl = pre ++ seg :: post2) := by
  rcases List.eq_nil_or_concat post with hnil | ⟨post2, y, hpost⟩
  · subst hnil
    left
    have h2 : tl ++ [x] = pre ++ [seg] := h
    have := List.append_inj' h2 rfl
    exact ⟨rfl, this.1.symm, by simpa using this.2.symm⟩
  · right
    subst hpost
    have h2 : tl ++ [x] = (pre ++ seg :: post2) ++ [y] := by
      rw [h]
      simp
    have := List.append_inj' h2 rfl
    refine ⟨post2, ?_, this.1⟩
    have hxy : x = y := by simpa using this.2
    rw [hxy]
    simp

/-- The loop of `runRoundRobin` is left with an empty ready queue. -/
theorem rrStep_done_queue (q : Int) (ps0 : List Process) (r : RRState) (hinv : RRInv ps0 r)
    (h : rrStep q r = .done r) : r.readyQueue = [] := by
  unfold rrStep at h
  split at h
  · simp only at h
    split at h
    · rename_i href
      split at href
      · rename_i hq
        exact hq
      · simp at href
    · simp at h
    · split at h <;> simp at h
  · rename_i hlt
    have hc := hinv.count
    have hle := List.countP_le_length (fun p : Process => decide (p.RemainingTime = 0))
      (l := r.procs)
    have heq : r.procs.countP (fun p : Process => decide (p.RemainingTime = 0)) =
        r.procs.length := by omega
    rw [List.countP_eq_length] at heq
    cases hq : r.readyQueue with
    | nil => rfl
    | cons i rest =>
      obtain ⟨a, ha, har⟩ := hinv.queue i (by simp [hq])
      have := heq a (mem_of_getElem?_eq ha)
      have := har.1
      simp at *
      omega

/-- The timeline and the ready queue after a dispatch. -/
theorem rrDispatch_fields (q : Int) (s : RRState) (ct : Int) (idx : Nat) (rest : List Nat)
    (p : Process) :
    ∃ ex x, ex = (if p.RemainingTime < q then p.RemainingTime else q) ∧
      x.ArrivalTime = p.ArrivalTime ∧
      (rrDispatch q s ct idx rest p).timeline =
        s.timeline ++ [{ ProcessID := p.ID, StartTime := ct, EndTime := ct + ex }] ∧
      (rrDispatch q s ct idx rest p).readyQueue =
        rest ++ newArrivals (ct + ex) ex rest (s.procs.set idx x) 0 ++
          (if p.RemainingTime - ex > 0 then [idx] else []) := by
  obtain ⟨ex, hex, heq⟩ := rrDispatch_eq q s ct idx rest p
  refine ⟨ex, { markStarted ct p with RemainingTime := p.RemainingTime - ex }, hex, by simp, ?_⟩
  rw [heq]
  split
  · exact ⟨rfl, rfl⟩
  · exact ⟨rfl, by simp⟩

/-- The process at an index of the working copy has the id, arrival and burst
time of the process at that index of the input. -/
theorem static_at {procs ps0 : List Process} (h : procs.map static = ps0.map static)
    {i : Nat} {a P : Process} (ha : procs[i]? = some a) (hP : ps0[i]? = some P) :
    a.ID = P.ID ∧ a.ArrivalTime = P.ArrivalTime ∧ a.BurstTime = P.BurstTime := by
  obtain ⟨b, hb, hbs⟩ := static_getElem? h ha
  rw [hP] at hb
  injection hb with hb
  subst hb
  simp only [static, Prod.mk.injEq] at hbs
  exact ⟨hbs.1.symm, hbs.2.1.symm, hbs.2.2.1.symm⟩

theorem exists_at {procs ps0 : List Process} (h : procs.map static = ps0.map static)
    {i : Nat} {P : Process} (hP : ps0[i]? = some P) :
    ∃ a, procs[i]? = some a ∧ a.ID = P.ID ∧ a.ArrivalTime = P.ArrivalTime ∧
      a.BurstTime = P.BurstTime := by
  obtain ⟨a, ha, _⟩ := static_getElem? h.symm hP
  exact ⟨a, ha, static_at h ha hP⟩

theorem rrTie_step (q : Int) (ps0 : List Process) (hd : DistinctIds ps0)
    (s t : RRState) (hinv : RRInv ps0 s) (hacc : RRAccount s.procs s.timeline)
    (htie : RRTie ps0 s) (h : rrStep q s = .next t) : RRTie ps0 t := by
  obtain ⟨ct, idx, rest, p, rfl, hct, hp, hr, hnd, hrest, hsrc⟩ :=
    rrStep_dispatch q ps0 s t hinv h
  obtain ⟨ex, x, hex, hxa, htl, hqueue⟩ := rrDispatch_fields q s ct idx rest p
  obtain ⟨segX, hX⟩ : ∃ segX : TimelineSegment,
      segX = { ProcessID := p.ID, StartTime := ct, EndTime := ct + ex } := ⟨_, rfl⟩
  rw [← hX] at htl
  have hXid : segX.ProcessID = p.ID := by rw [hX]
  have hXs : segX.StartTime = ct := by rw [hX]
  have hXe : segX.EndTime = ct + ex := by rw [hX]
  have hnd2 := List.nodup_cons.1 hnd
  intro pre post seg iP jQ P Q hcut hP hQ hsegP hcpu hne hlo hhi
  rw [hqueue, htl]
  rw [htl] at hcut
  obtain ⟨a, ha, haid, haarr, hab⟩ := exists_at hinv.static_eq hP
  obtain ⟨b, hb, hbid, hbarr, hbb⟩ := exists_at hinv.static_eq hQ
  -- the segment of a dispatch carries the id of `P` only if `P` is dispatched
  have hidP : p.ID = P.ID → idx = iP := fun hid =>
    index_eq_of_same_id hd hinv.static_eq hp ha (by rw [hid, haid])
  have hidQ : p.ID = Q.ID → idx = jQ := fun hid =>
    index_eq_of_same_id hd hinv.static_eq hp hb (by rw [hid, hbid])
  rcases split_append_single pre post s.timeline seg segX hcut with
    ⟨rfl, rfl, rfl⟩ | ⟨post2, rfl, hcut2⟩
  · -- the slice just dispatched
    have hiP : idx = iP := hidP (hXid.symm.trans hsegP)
    subst hiP
    rw [hp] at ha
    injection ha with ha
    subst ha
    have hunfinished : p.RemainingTime - ex > 0 := by
      have h1 := hacc idx p hp
      rw [cpuTime_append_single] at hcpu
      simp only [TimelineSegment.duration, hXs, hXe, hsegP, if_true] at hcpu
      rw [← haid, ← hab] at hcpu
      omega
    have hnoQ : ∀ y ∈ s.timeline, y.ProcessID ≠ Q.ID := by
      intro y hy hyid
      obtain ⟨q2, hq2, hq2id, hq2arr⟩ := hinv.early y hy
      have : q2 = Q := eq_of_same_id hd hq2 (mem_of_getElem?_eq hQ) (by rw [hq2id, hyid])
      subst this
      have := hinv.timeline.1 y hy
      omega
    have hbrem : b.RemainingTime > 0 := by
      have h1 := hacc jQ b hb
      rw [hbid, cpuTime_eq_zero_of_not_mem Q.ID s.timeline hnoQ] at h1
      have := (hinv.rem b (mem_of_getElem?_eq hb)).1
      omega
    have hjne : jQ ≠ idx := by
      intro hj
      subst hj
      rw [hp] at hb
      injection hb with hb
      subst hb
      exact hne (by rw [← hbid, ← haid])
    have hjmem : jQ ∈ rest ++ newArrivals (ct + ex) ex rest (s.procs.set idx x) 0 := by
      by_cases hjr : jQ ∈ rest
      · exact List.mem_append.2 (Or.inl hjr)
      · refine List.mem_append.2 (Or.inr ?_)
        rw [mem_newArrivals_dispatch s.procs ct ex idx rest p x hp hxa hr.2]
        exact ⟨hjr, hjne, b, hb, hbrem, by omega, by omega⟩
    obtain ⟨q1, q2, hsplit⟩ := List.append_of_mem hjmem
    right; right
    refine ⟨?_, by simp, q1, q2 ++ [idx], ?_, by simp⟩
    · intro y hy
      rcases List.mem_append.1 hy with hy | hy
      · exact hnoQ y hy
      · simp only [List.mem_singleton] at hy
        subst hy
        intro h2
        exact hne (h2.symm.trans hsegP)
    · simp only [hunfinished, if_true]
      rw [hsplit]
      simp
  · -- an earlier slice
    have hold := htie pre post2 seg iP jQ P Q hcut2 hP hQ hsegP hcpu hne hlo hhi
    rcases hold with ⟨mid1, segQ, mid2, segP, post3, rfl, h1, h2, h3, h4⟩ |
      ⟨mid1, segQ, mid2, rfl, h1, h3, h4, hmem⟩ | ⟨hnoQ, hnoP, q1, q2, hq, hmem⟩
    · left
      exact ⟨mid1, segQ, mid2, segP, post3 ++ [segX], by simp, h1, h2, h3, h4⟩
    · have hqs : s.readyQueue = idx :: rest := by
        rcases hsrc with ⟨h5, _⟩ | ⟨h5, _⟩
        · exact h5
        · rw [h5] at hmem
          simp at hmem
      rw [hqs] at hmem
      by_cases hi : idx = iP
      · subst hi
        rw [hp] at ha
        injection ha with ha
        subst ha
        left
        exact ⟨mid1, segQ, mid2, segX, [], by simp, h1, hXid.trans haid, h3, h4⟩
      · right; left
        have hmr : iP ∈ rest := by
          rcases List.mem_cons.1 hmem with h5 | h5
          · exact absurd h5.symm hi
          · exact h5
        refine ⟨mid1, segQ, mid2 ++ [segX], by simp, h1, h3, ?_, ?_⟩
        · intro y hy
          rw [← List.cons_append, ← List.append_assoc] at hy
          rcases List.mem_append.1 hy with hy | hy
          · exact h4 y hy
          · simp only [List.mem_singleton] at hy
            subst hy
            exact fun h5 => hi (hidP (hXid.symm.trans h5))
        · simp [hmr]
    · have hqs : s.readyQueue = idx :: rest := by
        rcases hsrc with ⟨h5, _⟩ | ⟨h5, _⟩
        · exact h5
        · rw [h5] at hq
          simp at hq
      rw [hqs] at hq
      cases q1 with
      | nil =>
        simp only [List.nil_append, List.cons.injEq] at hq
        obtain ⟨hij, hrq⟩ := hq
        subst hij
        subst hrq
        rw [hp] at hb
        injection hb with hb
        subst hb
        right; left
        refine ⟨post2, segX, [], by simp, hXid.trans hbid, ?_, ?_, ?_⟩
        · rw [← hcut2]
          exact hnoQ
        · intro y hy
          rcases List.mem_append.1 hy with hy | hy
          · exact hnoP y hy
          · simp only [List.mem_singleton] at hy
            subst hy
            rw [hXid, hbid]
            exact hne
        · simp [hmem]
      | cons c q1 =>
        simp only [List.cons_append, List.cons.injEq] at hq
        obtain ⟨hic, hrq⟩ := hq
        subst hic
        have hjr : jQ ∈ rest := by rw [hrq]; simp
        have hir : iP ∈ rest := by rw [hrq]; simp [hmem]
        have hne1 : idx ≠ jQ := fun h5 => hnd2.1 (h5 ▸ hjr)
        have hne2 : idx ≠ iP := fun h5 => hnd2.1 (h5 ▸ hir)
        right; right
        refine ⟨?_, ?_, q1, q2 ++ newArrivals (ct + ex) ex rest (s.procs.set idx x) 0 ++
          (if p.RemainingTime - ex > 0 then [idx] else []), ?_, ?_⟩
        · intro y hy
          rcases List.mem_append.1 hy with hy | hy
          · exact hnoQ y hy
          · simp only [List.mem_singleton] at hy
            subst hy
            exact fun h5 => hne1 (hidQ (hXid.symm.trans h5))
        · intro y hy
          rcases List.mem_append.1 hy with hy | hy
          · exact hnoP y hy
          · simp only [List.mem_singleton] at hy
            subst hy
            exact fun h5 => hne2 (hidP (hXid.symm.trans h5))
        · rw [hrq]
          simp
        · simp [hmem]

end Exact

namespace Exact

/-! ## SRTF: the process that runs has the shortest remaining time -/

theorem cpuBefore_nil (id : String) (t : Int) : cpuBefore id t [] = 0 := rfl

theorem cpuBefore_append_single (id : String) (t : Int) (tl : List TimelineSegment)
    (seg : TimelineSegment) :
    cpuBefore id t (tl ++ [seg]) =
      cpuBefore id t tl +
        (if seg.ProcessID = id then max 0 (min seg.EndTime t - seg.StartTime) else 0) := by
  unfold cpuBefore
  rw [List.filter_append, List.map_append, List.sum_append]
  by_cases h : seg.ProcessID = id
  · simp [List.filter_cons, h]
  · simp [List.filter_cons, h]

/-- Once every segment has ended, the CPU time given no longer grows. -/
theorem cpuBefore_saturated (id : String) (tl : List TimelineSegment) (u t : Int)
    (hends : ∀ seg ∈ tl, seg.EndTime ≤ u) (hut : u ≤ t) :
    cpuBefore id t tl = cpuBefore id u tl := by
  induction tl with
  | nil => rfl
  | cons seg tl ih =>
    have h1 := hends seg (by simp)
    have h2 := ih (fun x hx => hends x (by simp [hx]))
    unfold cpuBefore at h2 ⊢
    by_cases h : seg.ProcessID = id
    · simp only [List.filter_cons, h, decide_True, if_true, List.map_cons, List.sum_cons, h2]
      have e1 : min seg.EndTime t = seg.EndTime := by omega
      have e2 : min seg.EndTime u = seg.EndTime := by omega
      rw [e1, e2]
    · simp only [List.filter_cons, h, decide_False, if_false]
      exact h2

/-! ### The selection scan picks a minimum -/

theorem selectFrom_le (key : Process → Int) (ct : Int) (ps : List Process)
    (hkey : ∀ q ∈ ps, Ready ct q → key q ≠ -1) :
    ∀ (i : Nat) (b : Int) (sel : Option Nat),
      (b ≠ -1 → (selectFrom key ct ps i (b, sel)).1 ≤ b ∧
        (selectFrom key ct ps i (b, sel)).1 ≠ -1) ∧
      ∀ q ∈ ps, Ready ct q → (selectFrom key ct ps i (b, sel)).1 ≤ key q := by
  induction ps with
  | nil => intro i b sel; simp [selectFrom]
  | cons p ps ih =>
    intro i b sel
    have hkey2 : ∀ q ∈ ps, Ready ct q → key q ≠ -1 := fun q hq => hkey q (by simp [hq])
    simp only [selectFrom]
    split
    · rename_i hr
      have hkp : key p ≠ -1 := hkey p (by simp) hr
      split
      · rename_i hc
        obtain ⟨h1, h2⟩ := ih hkey2 (i + 1) (key p) (some i)
        have h1 := h1 hkp
        refine ⟨fun hb => ⟨?_, h1.2⟩, ?_⟩
        · rcases hc with hc | hc
          · exact absurd hc hb
          · omega
        · intro q hq hrq
          rcases List.mem_cons.1 hq with rfl | hq
          · exact h1.1
          · exact h2 q hq hrq
      · rename_i hc
        have hb : b ≠ -1 := fun h => hc (Or.inl h)
        have hle : b ≤ key p := by
          by_contra h
          exact hc (Or.inr (by omega))
        obtain ⟨h1, h2⟩ := ih hkey2 (i + 1) b sel
        have h1 := h1 hb
        refine ⟨fun _ => h1, ?_⟩
        intro q hq hrq
        rcases List.mem_cons.1 hq with rfl | hq
        · omega
        · exact h2 q hq hrq
    · rename_i hr
      obtain ⟨h1, h2⟩ := ih hkey2 (i + 1) b sel
      refine ⟨h1, ?_⟩
      intro q hq hrq
      rcases List.mem_cons.1 hq with rfl | hq
      · exact absurd hrq hr
      · exact h2 q hq hrq

theorem selectFrom_key (key : Process → Int) (ct : Int) (ps : List Process) :
    ∀ (i : Nat) (b : Int) (sel : Option Nat) (j : Nat),
      (selectFrom key ct ps i (b, sel)).2 = some j →
        (sel = some j ∧ (selectFrom key ct ps i (b, sel)).1 = b) ∨
        (i ≤ j ∧ ∃ p, ps[j - i]? = some p ∧ Ready ct p ∧
          key p = (selectFrom key ct ps i (b, sel)).1) := by
  induction ps with
  | nil =>
    intro i b sel j h
    simp only [selectFrom] at h ⊢
    exact Or.inl ⟨h, trivial⟩
  | cons p ps ih =>
    intro i b sel j h
    simp only [selectFrom] at h ⊢
    have lift : ∀ (b2 : Int) (s2 : Option Nat),
        (i + 1 ≤ j ∧ ∃ q, ps[j - (i + 1)]? = some q ∧ Ready ct q ∧
          key q = (selectFrom key ct ps (i + 1) (b2, s2)).1) →
        (i ≤ j ∧ ∃ q, (p :: ps)[j - i]? = some q ∧ Ready ct q ∧
          key q = (selectFrom key ct ps (i + 1) (b2, s2)).1) := by
      rintro b2 s2 ⟨h1, q, hq, hrq⟩
      refine ⟨by omega, q, ?_, hrq⟩
      have : j - i = (j - (i + 1)) + 1 := by omega
      rw [this]
      simpa using hq
    split at h
    · rename_i hr
      split at h
      · rename_i hc
        simp only [hr, hc, and_self, if_true]
        rcases ih (i + 1) (key p) (some i) j h with ⟨h1, h2⟩ | h1
        · have hij : i = j := by simpa using h1
          subst hij
          exact Or.inr ⟨le_rfl, p, by simp, hr, h2.symm⟩
        · exact Or.inr (lift _ _ h1)
      · rename_i hc
        simp only [hr, hc, and_self, if_true, if_false]
        rcases ih (i + 1) b sel j h with h1 | h1
        · exact Or.inl h1
        · exact Or.inr (lift _ _ h1)
    · rename_i hr
      simp only [hr, if_false]
      rcases ih (i + 1) b sel j h with h1 | h1
      · exact Or.inl h1
      · exact Or.inr (lift _ _ h1)

/-- When no ready process has the key `-1` (the value that the scan takes for
"nothing selected yet"), the selected process has the least key among the ready
processes. -/
theorem selectIdx_min (key : Process → Int) (ct : Int) (procs : List Process)
    (hkey : ∀ q ∈ procs, Ready ct q → key q ≠ -1) (i : Nat) (p : Process)
    (hsel : selectIdx key ct procs = some i) (hp : procs[i]? = some p) :
    ∀ q ∈ procs, Ready ct q → key p ≤ key q := by
  unfold selectIdx at hsel
  intro q hq hrq
  have hle := (selectFrom_le key ct procs hkey 0 (-1) none).2 q hq hrq
  rcases selectFrom_key key ct procs 0 (-1) none i hsel with ⟨h1, _⟩ | ⟨_, p2, hp2, _, hk⟩
  · simp at h1
  · simp only [Nat.sub_zero] at hp2
    rw [hp] at hp2
    injection hp2 with hp2
    subst hp2
    omega

/-! ### The time slice stops at the first arrival that preempts -/

theorem timeSliceFrom_not_preempted (preempts : Process → Process → Int → Bool)
    (sel : Process) (ct : Int) (ps : List Process) :
    ∀ ts : Int, 0 < ts → ∀ q ∈ ps, q.RemainingTime > 0 → q.ArrivalTime > ct →
      q.ArrivalTime < ct + timeSliceFrom preempts sel ct ts ps →
      preempts q sel ct = false := by
  induction ps with
  | nil => intro ts _ q hq; simp at hq
  | cons p ps ih =>
    intro ts hts q hq hqr hqa hqw
    simp only [timeSliceFrom] at hqw
    split at hqw
    · rename_i hc
      split at hqw
      · rename_i hpre
        have hle := (timeSliceFrom_pos preempts sel ct ps (p.ArrivalTime - ct) (by omega)).2
        rcases List.mem_cons.1 hq with rfl | hq
        · omega
        · exact ih (q.ArrivalTime - ct + (p.ArrivalTime - q.ArrivalTime)) (by omega) q hq hqr hqa
            (by
              have e : q.ArrivalTime - ct + (p.ArrivalTime - q.ArrivalTime) =
                  p.ArrivalTime - ct := by omega
              rw [e]
              exact hqw)
      · rename_i hpre
        rcases List.mem_cons.1 hq with rfl | hq
        · simpa using hpre
        · exact ih ts hts q hq hqr hqa hqw
    · rename_i hc
      have hle := (timeSliceFrom_pos preempts sel ct ps ts hts).2
      rcases List.mem_cons.1 hq with rfl | hq
      · exact absurd ⟨hqr, hqa, by omega⟩ hc
      · exact ih ts hts q hq hqr hqa hqw

/-! ### The timeline with the segment in progress -/

theorem effective_of_none {s : PState} (h : s.currentProcess = none) :
    s.effective = s.timeline := by
  unfold PState.effective
  rw [h]

theorem effective_of_some {s : PState} {c : Nat} {pc : Process} (h : s.currentProcess = some c)
    (hpc : s.procs[c]? = some pc) :
    s.effective = s.timeline ++
      [{ ProcessID := pc.ID, StartTime := s.currentSegmentStart, EndTime := s.currentTime }] := by
  unfold PState.effective
  rw [h]
  simp only [hpc]

/-- Every segment, the one in progress included, has ended by the clock. -/
theorem effective_ends (ps0 : List Process) (s : PState) (hinv : PInv ps0 s) :
    ∀ seg ∈ s.effective, seg.EndTime ≤ s.currentTime := by
  intro seg hseg
  cases hcp : s.currentProcess with
  | none =>
    rw [effective_of_none hcp] at hseg
    have := hinv.timeline
    simp only [PState.horizon, hcp] at this
    exact (this.1 seg hseg).2
  | some c =>
    obtain ⟨pc, hpc, _, hlt, _⟩ := hinv.current c hcp
    rw [effective_of_some hcp hpc] at hseg
    have := hinv.timeline
    simp only [PState.horizon, hcp] at this
    rcases List.mem_append.1 hseg with hseg | hseg
    · have := (this.1 seg hseg).2
      omega
    · simp only [List.mem_singleton] at hseg
      subst hseg
      exact le_rfl

/-- A dispatching pass gives the selected process the slice `[ct, ct + ts)`:
as a new last segment, or by extending the segment in progress. -/
theorem pRun_effective (preempts : Process → Process → Int → Bool) (ps0 : List Process)
    (s t : PState) (i : Nat) (p : Process) (hinv : PInv ps0 s) (hp : s.procs[i]? = some p)
    (hr : Ready s.currentTime p) (h : pRun preempts s i p = .next t) :
    ∃ ts x, ts = timeSliceFrom preempts (markStarted s.currentTime p) s.currentTime
                  p.RemainingTime (s.procs.set i (markStarted s.currentTime p)) ∧
      0 < ts ∧ ts ≤ p.RemainingTime ∧ t.currentTime = s.currentTime + ts ∧
      t.procs = s.procs.set i x ∧ x.ID = p.ID ∧ x.ArrivalTime = p.ArrivalTime ∧
      x.BurstTime = p.BurstTime ∧ x.RemainingTime = p.RemainingTime - ts ∧
      ((t.effective = s.effective ++
          [{ ProcessID := p.ID, StartTime := s.currentTime, EndTime := s.currentTime + ts }]) ∨
       (∃ tl a, a < s.currentTime ∧
          s.effective = tl ++ [{ ProcessID := p.ID, StartTime := a, EndTime := s.currentTime }] ∧
          t.effective = tl ++
            [{ ProcessID := p.ID, StartTime := a, EndTime := s.currentTime + ts }])) := by
  obtain ⟨tl1, start1, hsw, ts, hts, hfin⟩ := pRun_cases preempts s t i p h
  obtain ⟨htspos, htsle⟩ := timeSliceFrom_pos preempts (markStarted s.currentTime p)
    s.currentTime (s.procs.set i (markStarted s.currentTime p)) p.RemainingTime hr.1
  rw [← hts] at htspos htsle
  have hil : i < s.procs.length := by
    rw [List.getElem?_eq_some] at hp
    exact hp.1
  have hget : ∀ x : Process, (s.procs.set i x)[i]? = some x := by
    intro x
    simp [List.getElem?_set, hil]
  -- the timeline after the pass, with the segment in progress
  have heff : t.effective = tl1 ++
      [{ ProcessID := p.ID, StartTime := start1, EndTime := s.currentTime + ts }] ∧
      t.currentTime = s.currentTime + ts ∧
      ∃ x, t.procs = s.procs.set i x ∧ x.ID = p.ID ∧ x.ArrivalTime = p.ArrivalTime ∧
        x.BurstTime = p.BurstTime ∧ x.RemainingTime = p.RemainingTime - ts := by
    rcases hfin with ⟨_, rfl⟩ | ⟨_, rfl⟩
    · exact ⟨effective_of_none rfl, rfl, _, rfl, by simp, by simp, by simp, by simp⟩
    · refine ⟨?_, rfl, _, rfl, by simp, by simp, by simp, by simp⟩
      rw [effective_of_some rfl (hget _)]
      simp
  obtain ⟨heff1, hct, x, hprocs, hx1, hx2, hx3, hx4⟩ := heff
  refine ⟨ts, x, hts, htspos, htsle, hct, hprocs, hx1, hx2, hx3, hx4, ?_⟩
  rcases hsw with ⟨hcur, rfl, rfl⟩ | ⟨hcur, rfl, rfl⟩ | ⟨c, pc, hcur, hci, hpc, rfl, rfl⟩
  · left
    rw [heff1, effective_of_none hcur]
  · right
    obtain ⟨_, _, _, hlt, _⟩ := hinv.current i hcur
    exact ⟨s.timeline, s.currentSegmentStart, hlt, effective_of_some hcur hp, heff1⟩
  · left
    rw [heff1, effective_of_some hcur hpc]

/-- What the slice `[ct, ct + ts)` of `id0` adds to the CPU time given before `u`,
whichever way the slice entered the timeline. -/
theorem cpuBefore_slice (eff eff2 : List TimelineSegment) (id0 : String) (ct ts : Int)
    (hts : 0 < ts)
    (h : (eff2 = eff ++ [{ ProcessID := id0, StartTime := ct, EndTime := ct + ts }]) ∨
       (∃ tl a, a < ct ∧
          eff = tl ++ [{ ProcessID := id0, StartTime := a, EndTime := ct }] ∧
          eff2 = tl ++ [{ ProcessID := id0, StartTime := a, EndTime := ct + ts }]))
    (id : String) (u : Int) :
    cpuBefore id u eff2 =
      cpuBefore id u eff + (if id0 = id then max 0 (min (ct + ts) u - ct) else 0) := by
  rcases h with rfl | ⟨tl, a, ha, rfl, rfl⟩
  · rw [cpuBefore_append_single]
  · rw [cpuBefore_append_single, cpuBefore_append_single]
    simp only
    split
    · omega
    · omega

/-- The segments after the slice `[ct, ct + ts)` of `id0`: those before it, and
the one that holds the slice. -/
theorem mem_slice (eff eff2 : List TimelineSegment) (id0 : String) (ct ts : Int)
    (h : (eff2 = eff ++ [{ ProcessID := id0, StartTime := ct, EndTime := ct + ts }]) ∨
       (∃ tl a, a < ct ∧
          eff = tl ++ [{ ProcessID := id0, StartTime := a, EndTime := ct }] ∧
          eff2 = tl ++ [{ ProcessID := id0, StartTime := a, EndTime := ct + ts }]))
    (seg : TimelineSegment) (hseg : seg ∈ eff2) :
    seg ∈ eff ∨
      (seg.ProcessID = id0 ∧ seg.EndTime = ct + ts ∧
        (seg.StartTime = ct ∨
          (seg.StartTime < ct ∧
            ({ ProcessID := id0, StartTime := seg.StartTime, EndTime := ct } :
              TimelineSegment) ∈ eff))) := by
  rcases h with rfl | ⟨tl, a, ha, rfl, rfl⟩
  · rcases List.mem_append.1 hseg with hseg | hseg
    · exact Or.inl hseg
    · simp only [List.mem_singleton] at hseg
      subst hseg
      exact Or.inr ⟨rfl, rfl, Or.inl rfl⟩
  · rcases List.mem_append.1 hseg with hseg | hseg
    · exact Or.inl (List.mem_append.2 (Or.inl hseg))
    · simp only [List.mem_singleton] at hseg
      subst hseg
      exact Or.inr ⟨rfl, rfl, Or.inr ⟨ha, by simp⟩⟩

theorem srtfInv_step (ps0 : List Process) (hd : DistinctIds ps0) (s t : PState)
    (hinv : PInv ps0 s) (hs : SRTFInv ps0 s)
    (h : pStep (fun p => p.RemainingTime) srtfPreempts s = .next t) : SRTFInv ps0 t := by
  obtain ⟨_, hc⟩ := pStep_cases _ _ s t h
  have hends := effective_ends ps0 s hinv
  rcases hc with ⟨hsel, hidle⟩ | ⟨i, p, hsel, hp, hr, hrun⟩
  · -- idle advance
    obtain ⟨hcur, rfl⟩ := pIdle_next _ ps0 s t hinv hsel hidle
    have hnot := (selectIdx_none _ _ _).1 hsel
    have hex : ∃ p ∈ s.procs, p.RemainingTime > 0 := by
      have hc := hinv.count
      have hc2 : 0 < s.procs.countP fun p => decide (p.RemainingTime > 0) := by omega
      obtain ⟨a, ha, hf⟩ := exists_of_countP_pos _ s.procs hc2
      exact ⟨a, ha, by simpa using hf⟩
    obtain ⟨hmin, q, hq, hqr, hqa⟩ := nextArrival_spec s.procs hinv.arrival hex
    have hlt : s.currentTime < nextArrival s.procs := by
      have := hnot q hq
      simp only [Ready, not_and, not_le] at this
      have := this hqr
      omega
    have heff : PState.effective { s with currentTime := nextArrival s.procs } = s.effective := by
      rw [effective_of_none (s := s) hcur]
      exact effective_of_none (s := { s with currentTime := nextArrival s.procs }) hcur
    refine ⟨?_, ?_, ?_⟩
    · intro j a ha
      rw [heff]
      simp only
      rw [cpuBefore_saturated a.ID s.effective s.currentTime _ hends (le_of_lt hlt)]
      exact hs.account j a ha
    · intro a ha hlt2
      exact hs.fresh a ha (by simp only at hlt2; omega)
    · rw [heff]
      exact hs.optimal
  · -- dispatch of `p`
    obtain ⟨ts, x, hts, htspos, htsle, hct, hprocs, hx1, hx2, hx3, hx4, hslice⟩ :=
      pRun_effective srtfPreempts ps0 s t i p hinv hp hr hrun
    have hil : i < s.procs.length := by
      rw [List.getElem?_eq_some] at hp
      exact hp.1
    have hcpu := cpuBefore_slice s.effective t.effective p.ID s.currentTime ts htspos hslice
    have hmem := mem_slice s.effective t.effective p.ID s.currentTime ts hslice
    -- the accounts at the old clock, seen from any later time
    have hsat : ∀ (id : String) (u : Int), s.currentTime ≤ u →
        cpuBefore id u s.effective = cpuBefore id s.currentTime s.effective :=
      fun id u hu => cpuBefore_saturated id s.effective s.currentTime u hends hu
    refine ⟨?_, ?_, ?_⟩
    · intro j a ha
      rw [hprocs] at ha
      rw [hct, hcpu, hsat _ _ (by omega)]
      by_cases hji : j = i
      · subst hji
        simp [List.getElem?_set, hil] at ha
        subst ha
        have := hs.account j p hp
        rw [hx1, hx3, hx4, this]
        simp only [if_true]
        omega
      · rw [List.getElem?_set_ne (Ne.symm hji)] at ha
        have hid : ¬ p.ID = a.ID := fun h2 =>
          hji (index_eq_of_same_id hd hinv.static_eq ha hp h2.symm)
        simp only [hid, if_false, add_zero]
        exact hs.account j a ha
    · intro a ha hlt
      rw [hprocs] at ha
      rw [hct] at hlt
      rcases List.mem_or_eq_of_mem_set ha with ha | ha
      · exact hs.fresh a ha (by omega)
      · subst ha
        have := hr.2
        omega
    · intro seg hseg u hlo hhi P hP hPid Q hQ hQarr hQrem
      unfold remainingAt at hQrem ⊢
      rw [hcpu] at hQrem ⊢
      rw [hcpu]
      by_cases hu : u < s.currentTime
      · -- a time before the slice: nothing has changed there
        have hzero : max 0 (min (s.currentTime + ts) u - s.currentTime) = 0 := by omega
        simp only [hzero, ite_self, add_zero] at hQrem ⊢
        rcases hmem seg hseg with hold | ⟨hsid, hse, hstart | ⟨hstart, hold⟩⟩
        · exact hs.optimal seg hold u hlo hhi P hP hPid Q hQ hQarr hQrem
        · omega
        · exact hs.optimal _ hold u hlo hu P hP (by rw [hPid, hsid]) Q hQ hQarr hQrem
      · -- a time inside the slice
        have hu2 : s.currentTime ≤ u := by omega
        have hnew : seg.ProcessID = p.ID ∧ seg.EndTime = s.currentTime + ts := by
          rcases hmem seg hseg with hold | ⟨hsid, hse, _⟩
          · have := hends seg hold
            omega
          · exact ⟨hsid, hse⟩
        obtain ⟨hnew1, hnew2⟩ := hnew
        have huhi : u < s.currentTime + ts := by omega
        have hmin : max 0 (min (s.currentTime + ts) u - s.currentTime) = u - s.currentTime := by
          omega
        rw [hsat _ _ hu2] at hQrem ⊢
        rw [hsat _ _ hu2]
        rw [hmin] at hQrem ⊢
        have hPp : P.ID = p.ID := by rw [hPid, hnew1]
        -- `P` is the process dispatched
        obtain ⟨iP, hiP, hPi⟩ := List.mem_iff_getElem.1 hP
        have hP2 : ps0[iP]? = some P := by
          rw [List.getElem?_eq_some]
          exact ⟨hiP, hPi⟩
        obtain ⟨a, ha, haid, haarr, hab⟩ := exists_at hinv.static_eq hP2
        have hiPi : iP = i := index_eq_of_same_id hd hinv.static_eq ha hp (by rw [haid, hPp])
        subst hiPi
        rw [hp] at ha
        injection ha with ha
        subst ha
        have hPacc := hs.account iP p hp
        by_cases hQP : Q.ID = P.ID
        · have : Q = P := eq_of_same_id hd hQ hP hQP
          subst this
          exact le_rfl
        · obtain ⟨jQ, hjQ, hQj⟩ := List.mem_iff_getElem.1 hQ
          have hQ2 : ps0[jQ]? = some Q := by
            rw [List.getElem?_eq_some]
            exact ⟨hjQ, hQj⟩
          obtain ⟨b, hb, hbid, hbarr, hbb⟩ := exists_at hinv.static_eq hQ2
          have hQacc := hs.account jQ b hb
          have hne1 : ¬ p.ID = Q.ID := fun h2 => hQP (by rw [← h2, haid])
          have hne2 : ¬ p.ID = P.ID → False := fun h2 => h2 haid
          rw [← hbid] at hne1
          rw [← hbid, ← hbb] at hQrem ⊢
          rw [← haid, ← hab]
          simp only [hne1, if_false, add_zero, if_true] at hQrem ⊢
          rw [hQacc] at hQrem ⊢
          rw [hPacc]
          have hbm : b ∈ s.procs := mem_of_getElem?_eq hb
          have hbpos : 0 < b.RemainingTime := by omega
          by_cases hba : b.ArrivalTime ≤ s.currentTime
          · have := selectIdx_min (fun p => p.RemainingTime) s.currentTime s.procs
              (fun q _ hq => by
                have := hq.1
                show q.RemainingTime ≠ -1
                omega) iP p hsel hp b hbm ⟨hbpos, hba⟩
            simp only at this
            omega
          · have hfresh := hs.fresh b hbm (by omega)
            have hjne : jQ ≠ iP := by
              intro hj
              subst hj
              rw [hp] at hb
              injection hb with hb
              subst hb
              exact hne1 rfl
            have hbm2 : b ∈ s.procs.set iP (markStarted s.currentTime p) := by
              have : (s.procs.set iP (markStarted s.currentTime p))[jQ]? = some b := by
                rw [List.getElem?_set_ne (Ne.symm hjne)]
                exact hb
              exact mem_of_getElem?_eq this
            have hwin : b.ArrivalTime < s.currentTime + ts := by omega
            have hnp := timeSliceFrom_not_preempted srtfPreempts (markStarted s.currentTime p)
              s.currentTime (s.procs.set iP (markStarted s.currentTime p)) p.RemainingTime
              hr.1 b hbm2 hbpos (by omega) (by rw [← hts]; exact hwin)
            simp only [srtfPreempts, markStarted_RemainingTime, decide_eq_false_iff_not,
              not_lt] at hnp
            omega

theorem srtfInv_init (ps0 : List Process)
    (hwf : ∀ p ∈ ps0, 0 < p.BurstTime ∧ 0 ≤ p.ArrivalTime ∧ p.RemainingTime = p.BurstTime)
    (s0 : PState) (hp0 : s0.procs = resetStarted ps0) (ht0 : s0.timeline = [])
    (hc0 : s0.currentProcess = none) : SRTFInv ps0 s0 := by
  have heff : s0.effective = [] := by rw [effective_of_none hc0, ht0]
  have hrem : ∀ p ∈ s0.procs, p.RemainingTime = p.BurstTime := by
    intro p hp
    rw [hp0] at hp
    obtain ⟨q, hq, rfl⟩ := mem_resetStarted hp
    exact (hwf q hq).2.2
  refine ⟨?_, fun p hp _ => hrem p hp, ?_⟩
  · intro i p hp
    rw [heff, cpuBefore_nil, hrem p (mem_of_getElem?_eq hp)]
    omega
  · rw [heff]
    intro seg hseg
    simp at hseg

end Exact

namespace Exact

/-! ### The run length of SRTF -/

/-- A time slice that was cut short ends at the arrival of a process that
preempts. -/
theorem timeSliceFrom_preempter (preempts : Process → Process → Int → Bool)
    (sel : Process) (ct : Int) (ps : List Process) :
    ∀ ts : Int, timeSliceFrom preempts sel ct ts ps = ts ∨
      ∃ q ∈ ps, q.RemainingTime > 0 ∧ q.ArrivalTime > ct ∧
        q.ArrivalTime - ct = timeSliceFrom preempts sel ct ts ps ∧
        preempts q sel ct = true := by
  induction ps with
  | nil => intro ts; left; rfl
  | cons p ps ih =>
    intro ts
    simp only [timeSliceFrom]
    split
    · rename_i hc
      split
      · rename_i hpre
        rcases ih (p.ArrivalTime - ct) with h | ⟨q, hq, h⟩
        · right
          exact ⟨p, by simp, hc.1, hc.2.1, h.symm, hpre⟩
        · right
          exact ⟨q, by simp [hq], h⟩
      · rcases ih ts with h | ⟨q, hq, h⟩
        · exact Or.inl h
        · exact Or.inr ⟨q, by simp [hq], h⟩
    · rcases ih ts with h | ⟨q, hq, h⟩
      · exact Or.inl h
      · exact Or.inr ⟨q, by simp [hq], h⟩

/-- The rule for a segment looks at the timeline only through the CPU time given
before the segment starts. -/
theorem runLengthRule_congr (ps0 : List Process) (eff eff2 : List TimelineSegment)
    (seg : TimelineSegment)
    (h : ∀ id : String, cpuBefore id seg.StartTime eff2 = cpuBefore id seg.StartTime eff)
    (hr : RunLengthRule ps0 eff seg) : RunLengthRule ps0 eff2 seg := by
  intro P hP hPid
  have e : remainingAt P seg.StartTime eff2 = remainingAt P seg.StartTime eff := by
    unfold remainingAt
    rw [h]
  rw [e]
  exact hr P hP hPid

/-- The CPU time given to the process in progress before its segment started. -/
theorem cpuBefore_segment_start (ps0 : List Process) (s : PState) (hinv : PInv ps0 s)
    (c : Nat) (pc : Process) (hcur : s.currentProcess = some c) (hpc : s.procs[c]? = some pc) :
    cpuBefore pc.ID s.currentSegmentStart s.effective =
      cpuBefore pc.ID s.currentTime s.effective - (s.currentTime - s.currentSegmentStart) := by
  obtain ⟨pc2, hpc2, _, hlt, _⟩ := hinv.current c hcur
  rw [effective_of_some hcur hpc, cpuBefore_append_single, cpuBefore_append_single]
  have htl := hinv.timeline
  simp only [PState.horizon, hcur] at htl
  have hsat := cpuBefore_saturated pc.ID s.timeline s.currentSegmentStart s.currentTime
    (fun seg hseg => (htl.1 seg hseg).2) (le_of_lt hlt)
  rw [hsat]
  simp only [if_true]
  omega

/-- A process of the input sits in the working copy, with the same id, arrival
and burst time. -/
theorem exists_record {procs ps0 : List Process} (h : procs.map static = ps0.map static)
    {P : Process} (hP : P ∈ ps0) :
    ∃ (i : Nat) (a : Process), ps0[i]? = some P ∧ procs[i]? = some a ∧ a.ID = P.ID ∧
      a.ArrivalTime = P.ArrivalTime ∧ a.BurstTime = P.BurstTime := by
  obtain ⟨i, hi, hPi⟩ := List.mem_iff_getElem.1 hP
  have hP2 : ps0[i]? = some P := by
    rw [List.getElem?_eq_some]
    exact ⟨hi, hPi⟩
  obtain ⟨a, ha, h1, h2, h3⟩ := exists_at h hP2
  exact ⟨i, a, hP2, ha, h1, h2, h3⟩

/-- A process of the working copy comes from the input, with the same id,
arrival and burst time. -/
theorem exists_input {procs ps0 : List Process} (h : procs.map static = ps0.map static)
    {a : Process} (ha : a ∈ procs) :
    ∃ P ∈ ps0, a.ID = P.ID ∧ a.ArrivalTime = P.ArrivalTime ∧ a.BurstTime = P.BurstTime := by
  obtain ⟨i, hi, hai⟩ := List.mem_iff_getElem.1 ha
  have ha2 : procs[i]? = some a := by
    rw [List.getElem?_eq_some]
    exact ⟨hi, hai⟩
  obtain ⟨P, hP, _⟩ := static_getElem? h ha2
  exact ⟨P, mem_of_getElem?_eq hP, static_at h ha2 hP⟩

/-- Every segment, the one in progress included, is non-empty. -/
theorem effective_nonempty (ps0 : List Process) (s : PState) (hinv : PInv ps0 s) :
    ∀ seg ∈ s.effective, seg.StartTime < seg.EndTime := by
  intro seg hseg
  cases hcp : s.currentProcess with
  | none =>
    rw [effective_of_none hcp] at hseg
    exact (hinv.timeline.1 seg hseg).1
  | some c =>
    obtain ⟨pc, hpc, _, hlt, _⟩ := hinv.current c hcp
    rw [effective_of_some hcp hpc] at hseg
    rcases List.mem_append.1 hseg with hseg | hseg
    · exact (hinv.timeline.1 seg hseg).1
    · simp only [List.mem_singleton] at hseg
      subst hseg
      exact hlt

/-- The segment in progress, closed at the clock, obeys the rule. -/
theorem rule_of_inProgress (ps0 : List Process) (hd : DistinctIds ps0) (s : PState)
    (hinv : PInv ps0 s) (hs : SRTFInv ps0 s) (hr : SRTFRun ps0 s)
    (c : Nat) (pc : Process) (hcur : s.currentProcess = some c) (hpc : s.procs[c]? = some pc) :
    RunLengthRule ps0 s.effective
      { ProcessID := pc.ID, StartTime := s.currentSegmentStart, EndTime := s.currentTime } := by
  obtain ⟨hall, q, hq, hqa, hqb⟩ := hr.inProgress c pc hcur hpc
  obtain ⟨pc2, hpc2, _, hlt, _⟩ := hinv.current c hcur
  have hacc := hs.account c pc hpc
  have hstart := cpuBefore_segment_start ps0 s hinv c pc hcur hpc
  have hrem := (hinv.rem pc (mem_of_getElem?_eq hpc)).2.1
  intro P hP hPid
  simp only at hPid
  obtain ⟨iP, a, hP2, ha, haid, haarr, hab⟩ := exists_record hinv.static_eq hP
  have hic : iP = c := index_eq_of_same_id hd hinv.static_eq ha hpc (by rw [haid, hPid])
  subst hic
  rw [hpc] at ha
  injection ha with ha
  subst ha
  have hA : remainingAt P s.currentSegmentStart s.effective =
      pc.RemainingTime + (s.currentTime - s.currentSegmentStart) := by
    unfold remainingAt
    rw [← haid, ← hab, hstart, hacc]
    omega
  simp only [TimelineSegment.duration]
  rw [hA]
  refine ⟨by omega, ?_, ?_⟩
  · intro Q hQ hQarr hQb
    obtain ⟨jQ, b, _, hb, _, hbarr, hbb⟩ := exists_record hinv.static_eq hQ
    have := hall b (mem_of_getElem?_eq hb) (by omega) (by omega)
    omega
  · right
    obtain ⟨Q, hQ, _, hQarr, hQb⟩ := exists_input hinv.static_eq hq
    exact ⟨Q, hQ, by omega, by omega, by omega⟩

theorem srtfRun_step (ps0 : List Process) (hd : DistinctIds ps0) (s t : PState)
    (hinv : PInv ps0 s) (hs : SRTFInv ps0 s) (hr : SRTFRun ps0 s)
    (h : pStep (fun p => p.RemainingTime) srtfPreempts s = .next t) : SRTFRun ps0 t := by
  obtain ⟨_, hc⟩ := pStep_cases _ _ s t h
  have hends := effective_ends ps0 s hinv
  have hnonempty := effective_nonempty ps0 s hinv
  rcases hc with ⟨hsel, hidle⟩ | ⟨i, p, hsel, hp, hrdy, hrun⟩
  · -- idle advance
    obtain ⟨hcur, rfl⟩ := pIdle_next _ ps0 s t hinv hsel hidle
    have heff : PState.effective { s with currentTime := nextArrival s.procs } = s.effective := by
      rw [effective_of_none (s := s) hcur]
      exact effective_of_none (s := { s with currentTime := nextArrival s.procs }) hcur
    refine ⟨?_, ?_⟩
    · rw [heff]
      exact hr.closed
    · intro c pc hc _
      have hc2 : s.currentProcess = some c := hc
      rw [hcur] at hc2
      simp at hc2
  · -- dispatch of `p`
    obtain ⟨tl1, start1, hsw, ts, hts, hfin⟩ := pRun_cases srtfPreempts s t i p hrun
    obtain ⟨htspos, htsle⟩ := timeSliceFrom_pos srtfPreempts (markStarted s.currentTime p)
      s.currentTime (s.procs.set i (markStarted s.currentTime p)) p.RemainingTime hrdy.1
    rw [← hts] at htspos htsle
    have hil : i < s.procs.length := by
      rw [List.getElem?_eq_some] at hp
      exact hp.1
    have hget : ∀ x : Process, (s.procs.set i x)[i]? = some x := by
      intro x
      simp [List.getElem?_set, hil]
    have hpm : p ∈ s.procs := mem_of_getElem?_eq hp
    have hselmin := selectIdx_min (fun p => p.RemainingTime) s.currentTime s.procs
      (fun q _ hq => by
        have := hq.1
        show q.RemainingTime ≠ -1
        omega) i p hsel hp
    -- a process that is later than the clock sits at another index than `p`
    have hother : ∀ q ∈ s.procs, s.currentTime < q.ArrivalTime →
        ∀ x : Process, q ∈ s.procs.set i x := by
      intro q hq hqa x
      obtain ⟨j, hj, hqj⟩ := List.mem_iff_getElem.1 hq
      have hq2 : s.procs[j]? = some q := by
        rw [List.getElem?_eq_some]
        exact ⟨hj, hqj⟩
      have hji : j ≠ i := by
        intro hji
        subst hji
        rw [hp] at hq2
        injection hq2 with hq2
        subst hq2
        have := hrdy.2
        omega
      have : (s.procs.set i x)[j]? = some q := by
        rw [List.getElem?_set_ne (Ne.symm hji)]
        exact hq2
      exact mem_of_getElem?_eq this
    -- no arrival that preempts lies inside the slice
    have hcut : ∀ q ∈ s.procs, s.currentTime < q.ArrivalTime →
        q.BurstTime < p.RemainingTime - (q.ArrivalTime - s.currentTime) →
        ts ≤ q.ArrivalTime - s.currentTime := by
      intro q hq hqa hqb
      by_contra hcon
      have hfresh := hs.fresh q hq (by omega)
      have hqpos := (hinv.rem q hq).1
      have hnp := timeSliceFrom_not_preempted srtfPreempts (markStarted s.currentTime p)
        s.currentTime (s.procs.set i (markStarted s.currentTime p)) p.RemainingTime
        hrdy.1 q (hother q hq hqa _) (by omega) (by omega) (by rw [← hts]; omega)
      simp only [srtfPreempts, markStarted_RemainingTime, decide_eq_false_iff_not,
        not_lt] at hnp
      omega
    -- a slice that does not complete `p` ends at an arrival that preempts
    have hpre : p.RemainingTime - ts ≠ 0 →
        ∃ q ∈ s.procs, q.ArrivalTime = s.currentTime + ts ∧
          q.BurstTime < p.RemainingTime - ts := by
      intro hne
      rcases timeSliceFrom_preempter srtfPreempts (markStarted s.currentTime p) s.currentTime
        (s.procs.set i (markStarted s.currentTime p)) p.RemainingTime with h1 | ⟨q, hq, _, hqa, hqe, hqp⟩
      · rw [← hts] at h1
        omega
      · rw [← hts] at hqe
        simp only [srtfPreempts, markStarted_RemainingTime, decide_eq_true_eq] at hqp
        rcases List.mem_or_eq_of_mem_set hq with hq | hq
        · exact ⟨q, hq, by omega, by omega⟩
        · subst hq
          have := hrdy.2
          simp only [markStarted_ArrivalTime] at hqa
          omega
    -- the dispatched process is not the one in progress
    have hnores : s.currentProcess ≠ some i := by
      intro hcur
      obtain ⟨_, q, hq, hqa, hqb⟩ := hr.inProgress i p hcur hp
      have hfresh := hs.fresh q hq (by omega)
      have hqpos := (hinv.rem q hq).1
      have := hselmin q hq ⟨by omega, by omega⟩
      simp only at this
      omega
    -- so the slice opens a new segment, after the segments closed so far
    have hopen : start1 = s.currentTime ∧ tl1 = s.effective ∧
        ∀ seg ∈ tl1, RunLengthRule ps0 s.effective seg := by
      rcases hsw with ⟨hcur, rfl, rfl⟩ | ⟨hcur, _, _⟩ | ⟨c, pc, hcur, hci, hpc, rfl, rfl⟩
      · refine ⟨rfl, (effective_of_none hcur).symm, ?_⟩
        intro seg hseg
        exact hr.closed seg hseg
      · exact absurd hcur hnores
      · refine ⟨rfl, (effective_of_some hcur hpc).symm, ?_⟩
        intro seg hseg
        rcases List.mem_append.1 hseg with hseg | hseg
        · exact hr.closed seg hseg
        · simp only [List.mem_singleton] at hseg
          subst hseg
          exact rule_of_inProgress ps0 hd s hinv hs hr c pc hcur hpc
    obtain ⟨rfl, rfl, hclosed1⟩ := hopen
    -- the timeline after the pass, with the segment in progress
    have heff : t.effective = s.effective ++
        [{ ProcessID := p.ID, StartTime := s.currentTime, EndTime := s.currentTime + ts }] := by
      rcases hfin with ⟨_, rfl⟩ | ⟨_, rfl⟩
      · exact effective_of_none rfl
      · rw [effective_of_some rfl (hget _)]
        simp
    have hstable : ∀ (id : String) (u : Int), u ≤ s.currentTime →
        cpuBefore id u t.effective = cpuBefore id u s.effective := by
      intro id u hu
      rw [heff, cpuBefore_append_single]
      simp only
      split
      · omega
      · omega
    have hold : ∀ seg ∈ s.effective, RunLengthRule ps0 t.effective seg := by
      intro seg hseg
      have h1 := hnonempty seg hseg
      have h2 := hends seg hseg
      exact runLengthRule_congr ps0 s.effective t.effective seg
        (fun id => hstable id seg.StartTime (by omega)) (hclosed1 seg hseg)
    rcases hfin with ⟨hz, rfl⟩ | ⟨hz, rfl⟩
    · -- `p` completes: its segment is closed
      refine ⟨?_, ?_⟩
      · intro seg hseg
        rcases List.mem_append.1 hseg with hseg | hseg
        · exact hold seg hseg
        · simp only [List.mem_singleton] at hseg
          subst hseg
          intro P hP hPid
          simp only at hPid
          obtain ⟨iP, a, hP2, ha, haid, haarr, hab⟩ := exists_record hinv.static_eq hP
          have hic : iP = i := index_eq_of_same_id hd hinv.static_eq ha hp (by rw [haid, hPid])
          subst hic
          rw [hp] at ha
          injection ha with ha
          subst ha
          have hA : remainingAt P s.currentTime
              (PState.effective
                { procs := s.procs.set iP (setMetrics (s.currentTime + ts)
                    { markStarted s.currentTime p with RemainingTime := p.RemainingTime - ts }),
                  timeline := s.effective ++
                    [{ ProcessID := p.ID, StartTime := s.currentTime,
                       EndTime := s.currentTime + ts }],
                  currentTime := s.currentTime + ts,
                  remainingProcesses := s.remainingProcesses - 1,
                  currentProcess := none,
                  currentSegmentStart := s.currentTime }) = p.RemainingTime := by
            unfold remainingAt
            rw [hstable _ _ le_rfl, ← haid, ← hab, hs.account iP p hp]
            omega
          simp only [TimelineSegment.duration]
          rw [hA]
          refine ⟨by omega, ?_, Or.inl (by omega)⟩
          intro Q hQ hQarr hQb
          obtain ⟨jQ, b, _, hb, _, hbarr, hbb⟩ := exists_record hinv.static_eq hQ
          have := hcut b (mem_of_getElem?_eq hb) (by omega) (by omega)
          omega
      · intro c pc hc _
        simp at hc
    · -- `p` stays in progress
      refine ⟨hold, ?_⟩
      intro c pc hc hpc
      simp only [Option.some.injEq] at hc
      subst hc
      rw [hget] at hpc
      injection hpc with hpc
      subst hpc
      simp only [markStarted_RemainingTime]
      obtain ⟨q, hq, hqa, hqb⟩ := hpre hz
      refine ⟨?_, q, hother q hq (by omega) _, hqa, hqb⟩
      intro b hb hba hbb
      rcases List.mem_or_eq_of_mem_set hb with hb | hb
      · have := hcut b hb hba (by omega)
        omega
      · subst hb
        have := hrdy.2
        simp only [markStarted_ArrivalTime] at hba
        omega

theorem srtfRun_init (ps0 : List Process) (s0 : PState) (ht0 : s0.timeline = [])
    (hc0 : s0.currentProcess = none) : SRTFRun ps0 s0 := by
  refine ⟨?_, ?_⟩
  · rw [ht0]
    intro seg hseg
    simp at hseg
  · intro c pc hc _
    rw [hc0] at hc
    simp at hc

end Exact

namespace Exact

/-! ## The remaining time of the working copy -/

theorem totalRemaining_resetStarted (ps : List Process) :
    totalRemaining (resetStarted ps) = totalRemaining ps := by
  unfold totalRemaining resetStarted
  rw [List.map_map]
  rfl

end Exact

namespace Exact

/-! ## Non-preemptive Priority against SJF -/

theorem selectFrom_congr (key1 key2 : Process → Int) (ct : Int) (ps : List Process)
    (h : ∀ p ∈ ps, key1 p = key2 p) :
    ∀ (i : Nat) (acc : Int × Option Nat),
      selectFrom key1 ct ps i acc = selectFrom key2 ct ps i acc := by
  induction ps with
  | nil => intro i acc; simp [selectFrom]
  | cons p ps ih =>
    intro i acc
    obtain ⟨best, sel⟩ := acc
    have hp := h p (by simp)
    have ih2 := ih (fun q hq => h q (by simp [hq]))
    simp only [selectFrom, hp, ih2]

theorem filter_set_perm {α : Type} (f : α → Bool) :
    ∀ (l : List α) (i : Nat) (p x : α), l[i]? = some p → f p = false → f x = true →
      ((l.set i x).filter f).Perm (x :: l.filter f) := by
  intro l
  induction l with
  | nil => intro i p x h; simp at h
  | cons a l ih =>
    intro i p x h hp hx
    cases i with
    | zero =>
      simp at h
      subst h
      simp [List.filter_cons, hp, hx]
    | succ i =>
      simp at h
      have := ih i p x h hp hx
      simp only [List.set_cons_succ, List.filter_cons]
      split
      · exact (List.Perm.cons a this).trans (List.Perm.swap x a _)
      · exact this

/-- The list `completed` of `runSJF` holds the finished processes of `procs`. -/
theorem npCompleted_step (key : Process → Int) (s t : NPState)
    (hc : s.completed.Perm (s.procs.filter fun p => decide (p.RemainingTime = 0)))
    (h : npStep key s = .next t) :
    t.completed.Perm (t.procs.filter fun p => decide (p.RemainingTime = 0)) := by
  obtain ⟨_, hcase⟩ := npStep_cases key s t h
  rcases hcase with ⟨_, rfl⟩ | ⟨i, p, _, hp, hr, rfl⟩
  · exact hc
  · have hx := filter_set_perm (fun p : Process => decide (p.RemainingTime = 0)) s.procs i p
      { setMetrics (s.currentTime + p.RemainingTime) (markStarted s.currentTime p)
        with RemainingTime := 0 } hp (by have := hr.1; simp; omega) (by simp)
    refine List.Perm.trans ?_ hx.symm
    exact (List.perm_append_singleton _ _).trans (List.Perm.cons _ hc)

end Exact

namespace Exact

/-! ## The states of a loop and its invariant -/

/-- A property that the entry state has and the passes keep holds at the head of
every pass. -/
theorem stateAt_inv {σ : Type} (step : σ → Step σ) (Inv : σ → Prop)
    (hnext : ∀ s t, Inv s → step s = .next t → Inv t) :
    ∀ (n : Nat) (s0 s : σ), Inv s0 → stateAt step n s0 = some s → Inv s := by
  intro n
  induction n with
  | zero =>
    intro s0 s h0 h
    simp only [stateAt, Option.some.injEq] at h
    subst h
    exact h0
  | succ n ih =>
    intro s0 s h0 h
    simp only [stateAt] at h
    cases hst : step s0 with
    | next t =>
      simp only [hst] at h
      exact ih t s (hnext s0 t h0 hst) h
    | done r => simp [hst] at h
    | fault => simp [hst] at h

/-! ## The ready queue of `runRoundRobin` -/

theorem rrRefill_of_cases (s : RRState) (ct : Int) (idx : Nat) (rest : List Nat)
    (h : (s.readyQueue = idx :: rest ∧ ct = s.currentTime) ∨
       (s.readyQueue = [] ∧ rest = [] ∧
          findNextFrom s.currentTime s.procs 0 (-1, none) = (ct, some idx))) :
    rrRefill s = some (ct, idx :: rest) := by
  unfold rrRefill
  rcases h with ⟨hq, rfl⟩ | ⟨hq, rfl, hf⟩
  · simp [hq]
  · simp [hq, hf]

/-- The queue after the scan for new arrivals: the queue before it and the new
arrivals. -/
theorem rrQueueAfterScan_eq (q : Int) (s : RRState) (ct : Int) (idx : Nat) (rest : List Nat)
    (p : Process) :
    ∃ ex x, ex = (if p.RemainingTime < q then p.RemainingTime else q) ∧
      x.ArrivalTime = p.ArrivalTime ∧
      rrQueueAfterScan q s ct idx rest p =
        rest ++ newArrivals (ct + ex) ex rest (s.procs.set idx x) 0 := by
  refine ⟨_, { markStarted ct p with RemainingTime := p.RemainingTime -
    (if p.RemainingTime < q then p.RemainingTime else q) }, rfl, by simp, ?_⟩
  unfold rrQueueAfterScan
  simp only [markStarted_RemainingTime, arrivalsFrom_eq_append]

theorem queueInvariant_of_inv (q : Int) (ps0 : List Process) (s : RRState)
    (hinv : RRInv ps0 s) : QueueInvariant q s := by
  refine ⟨hinv.queue_nodup, hinv.queue, ?_⟩
  intro t ht
  obtain ⟨_, ct, idx, rest, p, hc, hp, rfl⟩ := rrStep_cases q s t ht
  have hfacts : (idx :: rest).Nodup ∧ p.ArrivalTime ≤ ct := by
    rcases hc with ⟨hqueue, rfl⟩ | ⟨hqueue, rfl, hf⟩
    · have hnd := hinv.queue_nodup
      rw [hqueue] at hnd
      obtain ⟨a, ha, har⟩ := hinv.queue idx (by simp [hqueue])
      rw [hp] at ha
      injection ha with ha
      subst ha
      exact ⟨hnd, har.2⟩
    · rcases findNextFrom_some _ _ _ _ _ _ _ hf with ⟨h1, _⟩ | ⟨_, a, ha, _, _, h3⟩
      · simp at h1
      · simp only [Nat.sub_zero] at ha
        rw [hp] at ha
        injection ha with ha
        subst ha
        exact ⟨by simp, by omega⟩
  obtain ⟨hnd, hpa⟩ := hfacts
  have hnotin : idx ∉ rest := (List.nodup_cons.1 hnd).1
  refine ⟨ct, idx, rest, p, rrRefill_of_cases s ct idx rest hc, hp, rfl, hnotin, ?_⟩
  obtain ⟨ex, x, _, hx, heq⟩ := rrQueueAfterScan_eq q s ct idx rest p
  rw [heq, List.mem_append]
  rintro (h | h)
  · exact hnotin h
  · exact ((mem_newArrivals_dispatch s.procs ct ex idx rest p x hp hx hpa idx).1 h).2.1 rfl

/-- The loop of `runRoundRobin` is entered, and the ready-queue invariant holds
at the head of every pass. -/
theorem rr_queue_invariant (q : Int) (hq : 0 < q) (ps0 : List Process) (hne : ps0 ≠ [])
    (hwf : ∀ p ∈ ps0, 0 < p.BurstTime ∧ 0 ≤ p.ArrivalTime ∧ p.RemainingTime = p.BurstTime) :
    ∃ s0, rrInit ps0 = some s0 ∧
      ∀ (n : Nat) (s : RRState), stateAt (rrStep q) n s0 = some s → QueueInvariant q s := by
  obtain ⟨s0, hs0, hinv, _, _⟩ := rrInit_inv ps0 hne hwf
  refine ⟨s0, hs0, fun n s hs => ?_⟩
  exact queueInvariant_of_inv q ps0 s
    (stateAt_inv (rrStep q) (RRInv ps0) (fun a b ha hab => (rrInv_step q hq ps0 a b ha hab).1)
      n s0 s hinv hs)

end Exact

namespace Exact

/-! ## The selection scan: least key, lowest index -/

/-- What the selection scan returns when no ready process has the key `-1`:
the pair it started from, when no ready process beats it; or the first ready
process of least key. -/
theorem selectFrom_first (key : Process → Int) (ct : Int) (ps : List Process)
    (hkey : ∀ q ∈ ps, Ready ct q → key q ≠ -1) :
    ∀ (i : Nat) (b : Int) (sel : Option Nat),
      (selectFrom key ct ps i (b, sel) = (b, sel) ∧
        (b ≠ -1 → ∀ q ∈ ps, Ready ct q → b ≤ key q) ∧
        (b = -1 → ∀ q ∈ ps, ¬ Ready ct q)) ∨
      (∃ k p, selectFrom key ct ps i (b, sel) = (key p, some k) ∧ i ≤ k ∧
        ps[k - i]? = some p ∧ Ready ct p ∧ (b ≠ -1 → key p < b) ∧
        (∀ j q, i ≤ j → j < k → ps[j - i]? = some q → Ready ct q → key p < key q) ∧
        (∀ q ∈ ps, Ready ct q → key p ≤ key q)) := by
  induction ps with
  | nil =>
    intro i b sel
    left
    simp [selectFrom]
  | cons a ps ih =>
    intro i b sel
    have hkey2 : ∀ q ∈ ps, Ready ct q → key q ≠ -1 := fun q hq => hkey q (by simp [hq])
    have shift : ∀ (k : Nat) (x : Process), i + 1 ≤ k → ps[k - (i + 1)]? = some x →
        (a :: ps)[k - i]? = some x := by
      intro k x hk hx
      have : k - i = (k - (i + 1)) + 1 := by omega
      rw [this]
      simpa using hx
    have unshift : ∀ (j : Nat) (x : Process), i ≤ j → (a :: ps)[j - i]? = some x →
        (j = i ∧ x = a) ∨ (i + 1 ≤ j ∧ ps[j - (i + 1)]? = some x) := by
      intro j x hj hx
      by_cases hji : j = i
      · subst hji
        simp at hx
        exact Or.inl ⟨rfl, hx.symm⟩
      · right
        have : j - i = (j - (i + 1)) + 1 := by omega
        rw [this] at hx
        exact ⟨by omega, by simpa using hx⟩
    simp only [selectFrom]
    split
    · rename_i hr
      have hra : Ready ct a := hr
      have hka := hkey a (by simp) hra
      split
      · rename_i hb
        right
        rcases ih hkey2 (i + 1) (key a) (some i) with ⟨h1, h2, _⟩ | ⟨k, p, h1, h2, h3, h4, h5, h6, h7⟩
        · refine ⟨i, a, h1, le_rfl, by simp, hra, ?_, ?_, ?_⟩
          · intro hbne
            rcases hb with hb | hb
            · exact absurd hb hbne
            · exact hb
          · intro j q hj hjk
            omega
          · intro q hq hrq
            rcases List.mem_cons.1 hq with rfl | hq
            · exact le_rfl
            · exact h2 hka q hq hrq
        · have hlt := h5 hka
          refine ⟨k, p, h1, by omega, shift k p h2 h3, h4, ?_, ?_, ?_⟩
          · intro hbne
            rcases hb with hb | hb
            · exact absurd hb hbne
            · omega
          · intro j q hj hjk hq hrq
            rcases unshift j q hj hq with ⟨_, rfl⟩ | ⟨hj2, hq2⟩
            · exact hlt
            · exact h6 j q hj2 hjk hq2 hrq
          · intro q hq hrq
            rcases List.mem_cons.1 hq with rfl | hq
            · omega
            · exact h7 q hq hrq
      · rename_i hb
        have hbne : b ≠ -1 := fun h => hb (Or.inl h)
        have hble : b ≤ key a := by
          by_contra hc
          exact hb (Or.inr (by omega))
        rcases ih hkey2 (i + 1) b sel with ⟨h1, h2, _⟩ | ⟨k, p, h1, h2, h3, h4, h5, h6, h7⟩
        · left
          refine ⟨h1, ?_, fun h => absurd h hbne⟩
          intro _ q hq hrq
          rcases List.mem_cons.1 hq with rfl | hq
          · exact hble
          · exact h2 hbne q hq hrq
        · right
          have hlt := h5 hbne
          refine ⟨k, p, h1, by omega, shift k p h2 h3, h4, fun _ => hlt, ?_, ?_⟩
          · intro j q hj hjk hq hrq
            rcases unshift j q hj hq with ⟨_, rfl⟩ | ⟨hj2, hq2⟩
            · omega
            · exact h6 j q hj2 hjk hq2 hrq
          · intro q hq hrq
            rcases List.mem_cons.1 hq with rfl | hq
            · omega
            · exact h7 q hq hrq
    · rename_i hr
      have hra : ¬ Ready ct a := hr
      rcases ih hkey2 (i + 1) b sel with ⟨h1, h2, h3⟩ | ⟨k, p, h1, h2, h3, h4, h5, h6, h7⟩
      · left
        refine ⟨h1, ?_, ?_⟩
        · intro hbne q hq hrq
          rcases List.mem_cons.1 hq with rfl | hq
          · exact absurd hrq hra
          · exact h2 hbne q hq hrq
        · intro hbe q hq
          rcases List.mem_cons.1 hq with rfl | hq
          · exact hra
          · exact h3 hbe q hq
      · right
        refine ⟨k, p, h1, by omega, shift k p h2 h3, h4, h5, ?_, ?_⟩
        · intro j q hj hjk hq hrq
          rcases unshift j q hj hq with ⟨_, rfl⟩ | ⟨hj2, hq2⟩
          · exact absurd hrq hra
          · exact h6 j q hj2 hjk hq2 hrq
        · intro q hq hrq
          rcases List.mem_cons.1 hq with rfl | hq
          · exact absurd hrq hra
          · exact h7 q hq hrq

/-- When no ready process has the key `-1`, the selected process has the least
key among the ready processes, and every ready process at a lower index has a
greater key. -/
theorem selectIdx_first (key : Process → Int) (ct : Int) (procs : List Process)
    (hkey : ∀ q ∈ procs, Ready ct q → key q ≠ -1) (i : Nat) (p : Process)
    (hsel : selectIdx key ct procs = some i) (hp : procs[i]? = some p) :
    (∀ q ∈ procs, Ready ct q → key p ≤ key q) ∧
    ∀ (j : Nat) (q : Process), j < i → procs[j]? = some q → Ready ct q → key p < key q := by
  unfold selectIdx at hsel
  rcases selectFrom_first key ct procs hkey 0 (-1) none with ⟨h1, _⟩ | ⟨k, p2, h1, _, h3, _, _, h6, h7⟩
  · rw [h1] at hsel
    simp at hsel
  · rw [h1] at hsel
    simp only [Option.some.injEq] at hsel
    subst hsel
    simp only [Nat.sub_zero] at h3
    rw [hp] at h3
    injection h3 with h3
    subst h3
    exact ⟨h7, fun j q hj hq hrq => h6 j q (Nat.zero_le _) hj (by simpa using hq) hrq⟩

/-! ## The selection rule of `runSJF` -/

theorem sjfInv_step (ps0 : List Process) (hd : DistinctIds ps0) (s t : NPState)
    (hinv : NPInv ps0 s) (hs : SJFInv ps0 s)
    (h : npStep (fun p => p.BurstTime) s = .next t) : SJFInv ps0 t := by
  obtain ⟨_, hc⟩ := npStep_cases _ s t h
  rcases hc with ⟨_, rfl⟩ | ⟨i, p, hsel, hp, hr, rfl⟩
  · exact ⟨hs.segments, hs.duration, hs.selection⟩
  · have hpm : p ∈ s.procs := mem_of_getElem?_eq hp
    have hpb : p.RemainingTime = p.BurstTime := by
      rcases (hinv.rem p hpm).2 with h1 | h1
      · exact h1
      · have := hr.1; omega
    -- the process of the input that sits at an index of the working copy
    have hsame : ∀ (k : Nat) (P : Process), ps0[k]? = some P → P.ID = p.ID →
        k = i ∧ P.BurstTime = p.BurstTime := by
      intro k P hP hid
      obtain ⟨a, ha, haid, _, hab⟩ := exists_at hinv.static_eq hP
      have hki : k = i := index_eq_of_same_id hd hinv.static_eq ha hp (by rw [haid, hid])
      subst hki
      rw [hp] at ha
      injection ha with ha
      subst ha
      exact ⟨rfl, hab.symm⟩
    refine ⟨?_, ?_, ?_⟩
    · have hx := filter_set_perm (fun p : Process => decide (p.RemainingTime = 0)) s.procs i p
        { setMetrics (s.currentTime + p.RemainingTime) (markStarted s.currentTime p)
          with RemainingTime := 0 } hp (by have := hr.1; simp; omega) (by simp)
      have hx2 := hx.map fun p : Process => p.ID
      refine List.Perm.trans ?_ hx2.symm
      simp only [List.map_append, List.map_cons, List.map_nil, setMetrics_ID, markStarted_ID]
      exact (List.perm_append_singleton _ _).trans (List.Perm.cons _ hs.segments)
    · intro seg hseg P hP hid
      rcases List.mem_append.1 hseg with hseg | hseg
      · exact hs.duration seg hseg P hP hid
      · simp only [List.mem_singleton] at hseg
        subst hseg
        obtain ⟨k, hk, hPk⟩ := List.mem_iff_getElem.1 hP
        have hP2 : ps0[k]? = some P := by
          rw [List.getElem?_eq_some]
          exact ⟨hk, hPk⟩
        have := (hsame k P hP2 hid).2
        simp only [TimelineSegment.duration]
        omega
    · intro seg hseg k j P Q hP hQ hid harr hnot
      rcases List.mem_append.1 hseg with hseg | hseg
      · exact hs.selection seg hseg k j P Q hP hQ hid harr
          (fun x hx => hnot x (List.mem_append.2 (Or.inl hx)))
      · simp only [List.mem_singleton] at hseg
        subst hseg
        obtain ⟨hki, hPb⟩ := hsame k P hP hid
        subst hki
        obtain ⟨q, hq, hqid, hqa, hqb⟩ := exists_at hinv.static_eq hQ
        have hqm : q ∈ s.procs := mem_of_getElem?_eq hq
        have hqpos : q.RemainingTime > 0 := by
          rcases (hinv.rem q hqm).2 with h1 | h1
          · have := (hinv.rem q hqm).1; omega
          · exfalso
            have hmem : q.ID ∈ (s.procs.filter fun p => decide (p.RemainingTime = 0)).map
                fun p => p.ID :=
              List.mem_map.2 ⟨q, List.mem_filter.2 ⟨hqm, by simp [h1]⟩, rfl⟩
            have hmem2 := (hs.segments.mem_iff).2 hmem
            obtain ⟨x, hx, hxid⟩ := List.mem_map.1 hmem2
            have h2 := hnot x (List.mem_append.2 (Or.inl hx)) (by rw [hxid, hqid])
            have h3 := (hinv.timeline.1 x hx).2
            simp only at h2
            omega
        have hrq : Ready s.currentTime q := ⟨hqpos, by simp only at harr; omega⟩
        have hkey : ∀ a ∈ s.procs, Ready s.currentTime a →
            (fun p : Process => p.BurstTime) a ≠ -1 := by
          intro a ha _
          have := (hinv.rem a ha).1
          show a.BurstTime ≠ -1
          omega
        obtain ⟨hmin, hfirst⟩ := selectIdx_first (fun p => p.BurstTime) s.currentTime s.procs
          hkey k p hsel hp
        have h1 : p.BurstTime ≤ q.BurstTime := hmin q hqm hrq
        refine ⟨by omega, fun heq => ?_⟩
        by_contra hlt
        have h2 : p.BurstTime < q.BurstTime := hfirst j q (by omega) hq hrq
        omega

/-- The selection rule for `runSJF`: the loop ends, with one segment per process
in the timeline, each chosen by the rule. -/
theorem sjf_selection (ps0 : List Process) (hne : ps0 ≠ [])
    (hwf : ∀ p ∈ ps0, 0 < p.BurstTime ∧ 0 ≤ p.ArrivalTime ∧ p.RemainingTime = p.BurstTime)
    (hd : DistinctIds ps0) :
    ∃ s0 r, npInit ps0 = some s0 ∧
      Returns (fun fuel => iterate (npStep fun p => p.BurstTime) fuel s0) r ∧
      OneSegmentEach ps0 r.timeline ∧ SJFSelection ps0 r.timeline := by
  obtain ⟨s0, r, h0, hret, hinv, hs, hz⟩ :=
    np_returns_with (fun p => p.BurstTime) ps0 hne hwf (SJFInv ps0)
      (fun s0 hs0 => by
        unfold npInit at hs0
        split at hs0
        · simp at hs0
        · injection hs0 with hs0
          subst hs0
          have : ps0.filter (fun p => decide (p.RemainingTime = 0)) = [] := by
            rw [List.filter_eq_nil_iff]
            intro p hp
            have := hwf p hp
            simp
            omega
          refine ⟨by simp [this], by simp, ?_⟩
          intro seg hseg
          simp at hseg)
      (fun s t hi he hst => sjfInv_step ps0 hd s t hi he hst)
  refine ⟨s0, r, h0, hret, ⟨?_, hs.duration⟩, hs.selection⟩
  have hall0 : r.procs.filter (fun p => decide (p.RemainingTime = 0)) = r.procs := by
    rw [List.filter_eq_self]
    intro p hp
    have hc := hinv.count
    rw [hz] at hc
    have h0 := List.countP_eq_zero.1 hc.symm p hp
    have := (hinv.rem p hp)
    simp at h0 ⊢
    omega
  have hseg := hs.segments
  rw [hall0] at hseg
  have hids : r.procs.map (fun p => p.ID) = ps0.map fun p => p.ID := by
    have := congrArg (List.map fun x : String × Int × Int × Int => x.1) hinv.static_eq
    simpa [List.map_map, static, Function.comp] using this
  rw [hids] at hseg
  exact hseg

end Exact

namespace Exact

/-! ## The first dispatch of a process -/

theorem markStarted_IsStarted (t : Int) (p : Process) : (markStarted t p).IsStarted = true := by
  unfold markStarted
  split
  · assumption
  · rfl

theorem markStarted_of_started (t : Int) (p : Process) (h : p.IsStarted = true) :
    markStarted t p = p := by
  unfold markStarted
  simp [h]

theorem markStarted_of_not_started (t : Int) (p : Process) (h : p.IsStarted = false) :
    (markStarted t p).StartTime = t ∧
      (markStarted t p).ResponseTime = t - p.ArrivalTime := by
  unfold markStarted
  simp [h]

/-- The dispatch of `p = procs[i]` at the time `ct`, no earlier than the start of
every segment so far, with a new segment that starts at `ct`. -/
theorem started_append (ps0 procs : List Process) (tl : List TimelineSegment)
    (hd : DistinctIds ps0) (hst : procs.map static = ps0.map static)
    (hs : Started procs tl) (i : Nat) (p x : Process) (ct e : Int)
    (hp : procs[i]? = some p) (hct : ∀ seg ∈ tl, seg.StartTime ≤ ct)
    (hxid : x.ID = p.ID) (hxa : x.ArrivalTime = p.ArrivalTime)
    (hxs : x.IsStarted = true) (hxt : x.StartTime = (markStarted ct p).StartTime)
    (hxr : x.ResponseTime = (markStarted ct p).ResponseTime) :
    Started (procs.set i x) (tl ++ [{ ProcessID := p.ID, StartTime := ct, EndTime := e }]) := by
  have hil : i < procs.length := by
    rw [List.getElem?_eq_some] at hp
    exact hp.1
  intro j a ha
  by_cases hji : j = i
  · subst hji
    simp [List.getElem?_set, hil] at ha
    subst ha
    refine ⟨fun h => by rw [hxs] at h; simp at h, fun _ => ?_⟩
    obtain ⟨h0, h1⟩ := hs j p hp
    cases hps : p.IsStarted with
    | false =>
      obtain ⟨e1, e2⟩ := markStarted_of_not_started ct p hps
      rw [e1] at hxt
      rw [e2] at hxr
      refine ⟨⟨_, List.mem_append.2 (Or.inr (List.mem_singleton.2 rfl)), hxid.symm, hxt.symm⟩,
        ?_, by omega⟩
      intro seg hseg hid
      rcases List.mem_append.1 hseg with hseg | hseg
      · exact absurd (by rw [hid, hxid]) (h0 hps seg hseg)
      · simp only [List.mem_singleton] at hseg
        subst hseg
        simp only
        omega
    | true =>
      rw [markStarted_of_started ct p hps] at hxt hxr
      obtain ⟨⟨w, hw, hwid, hwt⟩, hmin, hresp⟩ := h1 hps
      refine ⟨⟨w, List.mem_append.2 (Or.inl hw), by rw [hwid, hxid], by omega⟩, ?_, by omega⟩
      intro seg hseg hid
      rcases List.mem_append.1 hseg with hseg | hseg
      · have := hmin seg hseg (by rw [hid, hxid])
        omega
      · simp only [List.mem_singleton] at hseg
        subst hseg
        have := hct w hw
        simp only
        omega
  · rw [List.getElem?_set_ne (Ne.symm hji)] at ha
    have hne : p.ID ≠ a.ID := fun hid =>
      hji (index_eq_of_same_id hd hst ha hp hid.symm)
    obtain ⟨h0, h1⟩ := hs j a ha
    constructor
    · intro hns seg hseg
      rcases List.mem_append.1 hseg with hseg | hseg
      · exact h0 hns seg hseg
      · simp only [List.mem_singleton] at hseg
        subst hseg
        exact hne
    · intro hstd
      obtain ⟨⟨w, hw, hwid, hwt⟩, hmin, hresp⟩ := h1 hstd
      refine ⟨⟨w, List.mem_append.2 (Or.inl hw), hwid, hwt⟩, ?_, hresp⟩
      intro seg hseg hid
      rcases List.mem_append.1 hseg with hseg | hseg
      · exact hmin seg hseg hid
      · simp only [List.mem_singleton] at hseg
        subst hseg
        exact absurd hid hne

/-- The invariant looks at a segment only through its id and its start. -/
theorem started_extend (procs : List Process) (tl : List TimelineSegment) (id : String)
    (a e e2 : Int)
    (hs : Started procs (tl ++ [{ ProcessID := id, StartTime := a, EndTime := e }])) :
    Started procs (tl ++ [{ ProcessID := id, StartTime := a, EndTime := e2 }]) := by
  have hmem : ∀ seg ∈ tl ++ [({ ProcessID := id, StartTime := a, EndTime := e2 } :
      TimelineSegment)],
      ∃ seg2 ∈ tl ++ [({ ProcessID := id, StartTime := a, EndTime := e } : TimelineSegment)],
        seg2.ProcessID = seg.ProcessID ∧ seg2.StartTime = seg.StartTime := by
    intro seg hseg
    rcases List.mem_append.1 hseg with hseg | hseg
    · exact ⟨seg, List.mem_append.2 (Or.inl hseg), rfl, rfl⟩
    · simp only [List.mem_singleton] at hseg
      subst hseg
      exact ⟨_, List.mem_append.2 (Or.inr (List.mem_singleton.2 rfl)), rfl, rfl⟩
  have hmem2 : ∀ seg ∈ tl ++ [({ ProcessID := id, StartTime := a, EndTime := e } :
      TimelineSegment)],
      ∃ seg2 ∈ tl ++ [({ ProcessID := id, StartTime := a, EndTime := e2 } : TimelineSegment)],
        seg2.ProcessID = seg.ProcessID ∧ seg2.StartTime = seg.StartTime := by
    intro seg hseg
    rcases List.mem_append.1 hseg with hseg | hseg
    · exact ⟨seg, List.mem_append.2 (Or.inl hseg), rfl, rfl⟩
    · simp only [List.mem_singleton] at hseg
      subst hseg
      exact ⟨_, List.mem_append.2 (Or.inr (List.mem_singleton.2 rfl)), rfl, rfl⟩
  intro i p hp
  obtain ⟨h0, h1⟩ := hs i p hp
  constructor
  · intro hns seg hseg
    obtain ⟨seg2, hseg2, hid, _⟩ := hmem seg hseg
    rw [← hid]
    exact h0 hns seg2 hseg2
  · intro hstd
    obtain ⟨⟨w, hw, hwid, hwt⟩, hmin, hresp⟩ := h1 hstd
    obtain ⟨w2, hw2, hid2, ht2⟩ := hmem2 w hw
    refine ⟨⟨w2, hw2, by rw [hid2, hwid], by rw [ht2, hwt]⟩, ?_, hresp⟩
    intro seg hseg hid
    obtain ⟨seg2, hseg2, hid3, ht3⟩ := hmem seg hseg
    rw [← ht3]
    exact hmin seg2 hseg2 (by rw [hid3, hid])

/-- A record may be replaced by one with the same id, arrival time, start time,
response time and started flag. -/
theorem started_set (procs : List Process) (tl : List TimelineSegment)
    (hs : Started procs tl) (i : Nat) (p x : Process) (hp : procs[i]? = some p)
    (hxid : x.ID = p.ID) (hxa : x.ArrivalTime = p.ArrivalTime)
    (hxs : x.IsStarted = p.IsStarted) (hxt : x.StartTime = p.StartTime)
    (hxr : x.ResponseTime = p.ResponseTime) : Started (procs.set i x) tl := by
  have hil : i < procs.length := by
    rw [List.getElem?_eq_some] at hp
    exact hp.1
  intro j a ha
  by_cases hji : j = i
  · subst hji
    simp [List.getElem?_set, hil] at ha
    subst ha
    obtain ⟨h0, h1⟩ := hs j p hp
    unfold FirstAt at h1 ⊢
    rw [hxid, hxa, hxs, hxt, hxr]
    exact ⟨h0, h1⟩
  · rw [List.getElem?_set_ne (Ne.symm hji)] at ha
    exact hs j a ha

theorem started_init (ps0 : List Process) : Started (resetStarted ps0) [] := by
  intro i p hp
  obtain ⟨q, _, rfl⟩ := mem_resetStarted (mem_of_getElem?_eq hp)
  exact ⟨fun _ seg hseg => by simp at hseg, fun h => by simp at h⟩

theorem firstDispatch_of_started (procs : List Process) (tl : List TimelineSegment)
    (hs : Started procs tl) : FirstDispatch procs tl := by
  intro p hp hseg
  obtain ⟨i, hi, hpi⟩ := List.mem_iff_getElem.1 hp
  have hp2 : procs[i]? = some p := by
    rw [List.getElem?_eq_some]
    exact ⟨hi, hpi⟩
  obtain ⟨h0, h1⟩ := hs i p hp2
  cases hps : p.IsStarted with
  | false =>
    obtain ⟨seg, hs1, hs2⟩ := hseg
    exact absurd hs2 (h0 hps seg hs1)
  | true => exact h1 hps

/-! ### Round Robin -/

theorem rrStarted_step (q : Int) (ps0 : List Process) (hd : DistinctIds ps0)
    (s t : RRState) (hinv : RRInv ps0 s) (hs : Started s.procs s.timeline)
    (h : rrStep q s = .next t) : Started t.procs t.timeline := by
  obtain ⟨ct, idx, rest, p, rfl, hct, hp, _, _, _, _⟩ := rrStep_dispatch q ps0 s t hinv h
  obtain ⟨ex, _, heq⟩ := rrDispatch_eq q s ct idx rest p
  rw [heq]
  have hstart : ∀ seg ∈ s.timeline, seg.StartTime ≤ ct := by
    intro seg hseg
    have := hinv.timeline.1 seg hseg
    omega
  split
  · exact started_append ps0 s.procs s.timeline hd hinv.static_eq hs idx p _ ct (ct + ex) hp
      hstart (by simp) (by simp) (by simp [markStarted_IsStarted]) (by simp) (by simp)
  · exact started_append ps0 s.procs s.timeline hd hinv.static_eq hs idx p _ ct (ct + ex) hp
      hstart (by simp) (by simp) (by simp [setMetrics, markStarted_IsStarted])
      (by simp [setMetrics]) (by simp [setMetrics])

/-- Response time at first dispatch for the loop of `runRoundRobin`. -/
theorem rr_first_dispatch (q : Int) (hq : 0 < q) (ps0 : List Process) (hne : ps0 ≠ [])
    (hwf : ∀ p ∈ ps0, 0 < p.BurstTime ∧ 0 ≤ p.ArrivalTime ∧ p.RemainingTime = p.BurstTime)
    (hd : DistinctIds ps0) :
    ∃ s0 r, rrInit ps0 = some s0 ∧
      Returns (fun fuel => iterate (rrStep q) fuel s0) r ∧
      FirstDispatch r.procs r.timeline := by
  obtain ⟨s0, r, h0, hret, _, hs, _⟩ :=
    rr_returns_with q hq ps0 hne hwf (fun s => Started s.procs s.timeline)
      (fun s0 _ hp0 ht0 => by
        simp only [hp0, ht0]
        exact started_init ps0)
      (fun s t hi he hst => rrStarted_step q ps0 hd s t hi he hst)
  exact ⟨s0, r, h0, hret, firstDispatch_of_started _ _ hs⟩

/-! ### The preemptive engines -/

/-- The record of the dispatched process after a dispatching pass. -/
theorem pRun_record (preempts : Process → Process → Int → Bool) (s t : PState) (i : Nat)
    (p : Process) (hp : s.procs[i]? = some p) (h : pRun preempts s i p = .next t) :
    ∀ a, t.procs[i]? = some a →
      a.IsStarted = true ∧ a.StartTime = (markStarted s.currentTime p).StartTime ∧
        a.ResponseTime = (markStarted s.currentTime p).ResponseTime := by
  have hil : i < s.procs.length := by
    rw [List.getElem?_eq_some] at hp
    exact hp.1
  obtain ⟨_, _, _, ts, _, hfin⟩ := pRun_cases preempts s t i p h
  intro a ha
  rcases hfin with ⟨_, rfl⟩ | ⟨_, rfl⟩
  · simp [List.getElem?_set, hil] at ha
    subst ha
    simp [setMetrics, markStarted_IsStarted]
  · simp [List.getElem?_set, hil] at ha
    subst ha
    simp [markStarted_IsStarted]

theorem pStarted_step (key : Process → Int) (preempts : Process → Process → Int → Bool)
    (ps0 : List Process) (hd : DistinctIds ps0) (s t : PState)
    (hinv : PInv ps0 s) (hs : Started s.procs s.effective)
    (h : pStep key preempts s = .next t) : Started t.procs t.effective := by
  obtain ⟨_, hc⟩ := pStep_cases key preempts s t h
  rcases hc with ⟨hsel, hidle⟩ | ⟨i, p, hsel, hp, hr, hrun⟩
  · obtain ⟨hcur, rfl⟩ := pIdle_next key ps0 s t hinv hsel hidle
    have e1 : ({ s with currentTime := nextArrival s.procs } : PState).effective = s.effective := by
      rw [effective_of_none hcur, effective_of_none (by simpa using hcur)]
    rw [e1]
    exact hs
  · have hil : i < s.procs.length := by
      rw [List.getElem?_eq_some] at hp
      exact hp.1
    obtain ⟨ts, x, _, _, _, _, hprocs, hxid, hxa, _, _, heff⟩ :=
      pRun_effective preempts ps0 s t i p hinv hp hr hrun
    have hx : t.procs[i]? = some x := by
      rw [hprocs]
      simp [List.getElem?_set, hil]
    obtain ⟨hxs, hxt, hxr⟩ := pRun_record preempts s t i p hp hrun x hx
    rw [hprocs]
    rcases heff with heff | ⟨tl, a, _, heff1, heff2⟩
    · rw [heff]
      have hstart : ∀ seg ∈ s.effective, seg.StartTime ≤ s.currentTime := by
        intro seg hseg
        have h1 := effective_ends ps0 s hinv seg hseg
        have h2 := effective_nonempty ps0 s hinv seg hseg
        omega
      exact started_append ps0 s.procs s.effective hd hinv.static_eq hs i p x s.currentTime _ hp
        hstart hxid hxa hxs hxt hxr
    · rw [heff2]
      rw [heff1] at hs
      have hps : p.IsStarted = true := by
        cases hps : p.IsStarted with
        | true => rfl
        | false =>
          exfalso
          exact (hs i p hp).1 hps _ (List.mem_append.2 (Or.inr (List.mem_singleton.2 rfl))) rfl
      rw [markStarted_of_started _ p hps] at hxt hxr
      exact started_set s.procs _ (started_extend s.procs tl p.ID a _ _ hs) i p x hp hxid hxa
        (by rw [hxs, hps]) hxt hxr

/-- Response time at first dispatch for the loop shared by `runSRTF` and
`runPreemptivePriority`. -/
theorem p_first_dispatch (key : Process → Int) (preempts : Process → Process → Int → Bool)
    (ps0 : List Process) (hne : ps0 ≠ [])
    (hwf : ∀ p ∈ ps0, 0 < p.BurstTime ∧ 0 ≤ p.ArrivalTime ∧ p.RemainingTime = p.BurstTime)
    (hd : DistinctIds ps0) :
    ∃ s0 r, pInit ps0 = some s0 ∧
      Returns (fun fuel => iterate (pStep key preempts) fuel s0) r ∧
      FirstDispatch r.procs r.timeline := by
  obtain ⟨s0, r, h0, hret, hinv, hs, hz⟩ :=
    p_returns_with key preempts ps0 hne hwf (fun s => Started s.procs s.effective)
      (fun s0 _ hp0 ht0 hc0 => by
        show Started s0.procs s0.effective
        rw [effective_of_none hc0, hp0, ht0]
        exact started_init ps0)
      (fun s t hi he hst => pStarted_step key preempts ps0 hd s t hi he hst)
  have hcur := (pInv_final ps0 r hinv hz).1
  rw [effective_of_none hcur] at hs
  exact ⟨s0, r, h0, hret, firstDispatch_of_started _ _ hs⟩

end Exact

namespace Exact

/-! ## The ready queue is first in, first out -/

/-- A dispatch keeps `TieState` for an earlier slice: the queue `idx :: rest`
(or the empty queue, refilled with `idx`) becomes `rest ++ new ++ tail`, where
`tail` is empty or holds `idx`, and the timeline gets the segment `segX` of
the process at `idx`. -/
theorem tieState_dispatch (readyQueue : List Nat) (timeline pre post : List TimelineSegment)
    (seg segX : TimelineSegment) (idP idQ : String) (iP jQ idx : Nat)
    (rest new tail : List Nat)
    (hq : readyQueue = idx :: rest ∨ readyQueue = [])
    (hnd : idx ∉ rest)
    (hXP : segX.ProcessID = idP ↔ idx = iP) (hXQ : segX.ProcessID = idQ ↔ idx = jQ)
    (hne : idQ ≠ idP) (hcut : timeline = pre ++ seg :: post)
    (hold : TieState readyQueue timeline pre post seg idP idQ iP jQ) :
    TieState (rest ++ new ++ tail) (timeline ++ [segX]) pre (post ++ [segX]) seg
      idP idQ iP jQ := by
  rcases hold with ⟨mid1, segQ, mid2, segP, post3, rfl, h1, h2, h3, h4⟩ |
    ⟨mid1, segQ, mid2, rfl, h1, h3, h4, hmem⟩ | ⟨hnoQ, hnoP, q1, q2, hsplit, hmem⟩
  · left
    exact ⟨mid1, segQ, mid2, segP, post3 ++ [segX], by simp, h1, h2, h3, h4⟩
  · have hqs : readyQueue = idx :: rest := by
      rcases hq with h5 | h5
      · exact h5
      · rw [h5] at hmem
        simp at hmem
    rw [hqs] at hmem
    by_cases hi : idx = iP
    · left
      exact ⟨mid1, segQ, mid2, segX, [], by simp, h1, hXP.2 hi, h3, h4⟩
    · right; left
      have hmr : iP ∈ rest := by
        rcases List.mem_cons.1 hmem with h5 | h5
        · exact absurd h5.symm hi
        · exact h5
      refine ⟨mid1, segQ, mid2 ++ [segX], by simp, h1, h3, ?_, ?_⟩
      · intro y hy
        rw [← List.cons_append, ← List.append_assoc] at hy
        rcases List.mem_append.1 hy with hy | hy
        · exact h4 y hy
        · simp only [List.mem_singleton] at hy
          subst hy
          exact fun h5 => hi (hXP.1 h5)
      · simp [hmr]
  · have hqs : readyQueue = idx :: rest := by
      rcases hq with h5 | h5
      · exact h5
      · rw [h5] at hsplit
        simp at hsplit
    rw [hqs] at hsplit
    cases q1 with
    | nil =>
      simp only [List.nil_append, List.cons.injEq] at hsplit
      obtain ⟨hij, hrq⟩ := hsplit
      right; left
      refine ⟨post, segX, [], by simp, hXQ.2 hij, ?_, ?_, ?_⟩
      · rw [← hcut]
        exact hnoQ
      · intro y hy
        rcases List.mem_append.1 hy with hy | hy
        · exact hnoP y hy
        · simp only [List.mem_singleton] at hy
          subst hy
          rw [hXQ.2 hij]
          exact hne
      · rw [hrq]
        simp [hmem]
    | cons c q1 =>
      simp only [List.cons_append, List.cons.injEq] at hsplit
      obtain ⟨_, hrq⟩ := hsplit
      have hjr : jQ ∈ rest := by rw [hrq]; simp
      have hir : iP ∈ rest := by rw [hrq]; simp [hmem]
      have hne1 : idx ≠ jQ := fun h5 => hnd (h5 ▸ hjr)
      have hne2 : idx ≠ iP := fun h5 => hnd (h5 ▸ hir)
      right; right
      refine ⟨?_, ?_, q1, q2 ++ new ++ tail, ?_, ?_⟩
      · intro y hy
        rcases List.mem_append.1 hy with hy | hy
        · exact hnoQ y hy
        · simp only [List.mem_singleton] at hy
          subst hy
          exact fun h5 => hne1 (hXQ.1 h5)
      · intro y hy
        rcases List.mem_append.1 hy with hy | hy
        · exact hnoP y hy
        · simp only [List.mem_singleton] at hy
          subst hy
          exact fun h5 => hne2 (hXP.1 h5)
      · rw [hrq]
        simp
      · simp [hmem]

/-! ## The arrivals of one slice -/

theorem rrOrder_step (q : Int) (ps0 : List Process) (hd : DistinctIds ps0)
    (s t : RRState) (hinv : RRInv ps0 s) (hacc : RRAccount s.procs s.timeline)
    (hord : RROrder ps0 s) (h : rrStep q s = .next t) : RROrder ps0 t := by
  obtain ⟨ct, idx, rest, p, rfl, hct, hp, hr, hnd, hrest, hsrc⟩ :=
    rrStep_dispatch q ps0 s t hinv h
  obtain ⟨ex, x, hex, hxa, htl, hqueue⟩ := rrDispatch_fields q s ct idx rest p
  obtain ⟨segX, hX⟩ : ∃ segX : TimelineSegment,
      segX = { ProcessID := p.ID, StartTime := ct, EndTime := ct + ex } := ⟨_, rfl⟩
  rw [← hX] at htl
  have hXid : segX.ProcessID = p.ID := by rw [hX]
  have hXs : segX.StartTime = ct := by rw [hX]
  have hXe : segX.EndTime = ct + ex := by rw [hX]
  have hnd2 := List.nodup_cons.1 hnd
  intro pre post seg i j Q1 Q2 hcut hQ1 hQ2 h1lo h1hi h2lo h2hi hij
  rw [hqueue, htl]
  rw [htl] at hcut
  obtain ⟨a, ha, haid, haarr, hab⟩ := exists_at hinv.static_eq hQ1
  obtain ⟨b, hb, hbid, hbarr, hbb⟩ := exists_at hinv.static_eq hQ2
  have hX1 : segX.ProcessID = Q1.ID ↔ idx = i := by
    constructor
    · intro hid
      exact index_eq_of_same_id hd hinv.static_eq hp ha (by rw [← hXid, hid, haid])
    · intro hi
      subst hi
      rw [hp] at ha
      injection ha with ha
      subst ha
      rw [hXid, haid]
  have hX2 : segX.ProcessID = Q2.ID ↔ idx = j := by
    constructor
    · intro hid
      exact index_eq_of_same_id hd hinv.static_eq hp hb (by rw [← hXid, hid, hbid])
    · intro hj
      subst hj
      rw [hp] at hb
      injection hb with hb
      subst hb
      rw [hXid, hbid]
  have hneid : Q1.ID ≠ Q2.ID := by
    intro hid
    have := index_eq_of_same_id hd hinv.static_eq ha hb (by rw [haid, hbid, hid])
    omega
  rcases split_append_single pre post s.timeline seg segX hcut with
    ⟨rfl, rfl, rfl⟩ | ⟨post2, rfl, hcut2⟩
  · -- the slice just dispatched: both processes are new arrivals
    rw [hXs] at h1lo h2lo
    rw [hXe] at h1hi h2hi
    have hnoseg : ∀ (Q : Process), Q ∈ ps0 → ct < Q.ArrivalTime →
        ∀ y ∈ s.timeline, y.ProcessID ≠ Q.ID := by
      intro Q hQ hlo y hy hyid
      obtain ⟨q2, hq2, hq2id, hq2arr⟩ := hinv.early y hy
      have : q2 = Q := eq_of_same_id hd hq2 hQ (by rw [hq2id, hyid])
      subst this
      have := hinv.timeline.1 y hy
      omega
    have hno1 := hnoseg Q1 (mem_of_getElem?_eq hQ1) h1lo
    have hno2 := hnoseg Q2 (mem_of_getElem?_eq hQ2) h2lo
    have hnew : ∀ (k : Nat) (c Q : Process), s.procs[k]? = some c → c.ID = Q.ID →
        c.ArrivalTime = Q.ArrivalTime → c.BurstTime = Q.BurstTime →
        (∀ y ∈ s.timeline, y.ProcessID ≠ Q.ID) → ct < Q.ArrivalTime →
        Q.ArrivalTime ≤ ct + ex →
        k ≠ idx ∧ k ∈ newArrivals (ct + ex) ex rest (s.procs.set idx x) 0 := by
      intro k c Q hc hcid hcarr hcb hno hlo hhi
      have hk : k ≠ idx := by
        intro hk
        subst hk
        rw [hp] at hc
        injection hc with hc
        subst hc
        have := hr.2
        omega
      refine ⟨hk, ?_⟩
      rw [mem_newArrivals_dispatch s.procs ct ex idx rest p x hp hxa hr.2]
      refine ⟨?_, hk, c, hc, ?_, by omega, by omega⟩
      · intro hkr
        obtain ⟨c2, hc2, hrc2⟩ := hrest k hkr
        rw [hc] at hc2
        injection hc2 with hc2
        subst hc2
        have := hrc2.2
        omega
      · have h1 := hacc k c hc
        rw [hcid, cpuTime_eq_zero_of_not_mem Q.ID s.timeline hno] at h1
        have := (hinv.rem c (mem_of_getElem?_eq hc)).1
        omega
    obtain ⟨hi1, hi2⟩ := hnew i a Q1 ha haid haarr hab hno1 h1lo h1hi
    obtain ⟨hj1, hj2⟩ := hnew j b Q2 hb hbid hbarr hbb hno2 h2lo h2hi
    obtain ⟨n1, n2, hn⟩ := List.append_of_mem hi2
    have hjn2 : j ∈ n2 := by
      have hsorted := newArrivals_sorted (ct + ex) ex rest (s.procs.set idx x) 0
      rw [hn] at hsorted hj2
      rcases List.mem_append.1 hj2 with h5 | h5
      · have := (List.pairwise_append.1 hsorted).2.2 j h5 i (by simp)
        omega
      · rcases List.mem_cons.1 h5 with h6 | h6
        · omega
        · exact h6
    constructor
    · intro y hy
      rcases List.mem_append.1 hy with hy | hy
      · exact hno2 y hy
      · simp only [List.mem_singleton] at hy
        subst hy
        exact fun h5 => hj1 (hX2.1 h5).symm
    · right; right
      refine ⟨?_, by simp, rest ++ n1,
        n2 ++ (if p.RemainingTime - ex > 0 then [idx] else []), ?_, by simp [hjn2]⟩
      · intro y hy
        rcases List.mem_append.1 hy with hy | hy
        · exact hno1 y hy
        · simp only [List.mem_singleton] at hy
          subst hy
          exact fun h5 => hi1 (hX1.1 h5).symm
      · rw [hn]
        simp
  · -- an earlier slice
    obtain ⟨hpre, htie⟩ := hord pre post2 seg i j Q1 Q2 hcut2 hQ1 hQ2 h1lo h1hi h2lo h2hi hij
    refine ⟨hpre, ?_⟩
    have hq : s.readyQueue = idx :: rest ∨ s.readyQueue = [] := by
      rcases hsrc with ⟨h5, _⟩ | ⟨h5, _⟩
      · exact Or.inl h5
      · exact Or.inr h5
    exact tieState_dispatch s.readyQueue s.timeline pre post2 seg segX Q2.ID Q1.ID j i idx rest
      _ _ hq hnd2.1 hX2 hX1 hneid hcut2 htie

/-- The order of the arrivals of one slice for the loop of `runRoundRobin`:
by index. -/
theorem rr_arrivals_in_index_order (q : Int) (hq : 0 < q) (ps0 : List Process)
    (hne : ps0 ≠ [])
    (hwf : ∀ p ∈ ps0, 0 < p.BurstTime ∧ 0 ≤ p.ArrivalTime ∧ p.RemainingTime = p.BurstTime)
    (hd : DistinctIds ps0) :
    ∃ s0 r, rrInit ps0 = some s0 ∧
      Returns (fun fuel => iterate (rrStep q) fuel s0) r ∧
      ArrivalsInIndexOrder ps0 r.timeline := by
  obtain ⟨s0, r, h0, hret, hinv, ⟨_, hord⟩, hdone⟩ :=
    rr_returns_with q hq ps0 hne hwf
      (fun s => RRAccount s.procs s.timeline ∧ RROrder ps0 s)
      (fun s0 _ hp0 ht0 => by
        constructor
        · intro i p hp
          rw [hp0] at hp
          obtain ⟨q, hq, rfl⟩ := mem_resetStarted (mem_of_getElem?_eq hp)
          have := (hwf q hq).2.2
          simp only [ht0, cpuTime_nil]
          omega
        · intro pre post seg i j Q1 Q2 hcut
          rw [ht0] at hcut
          simp at hcut)
      (fun s t hs he hst =>
        ⟨rrAccount_step q ps0 hd s t hs he.1 hst, rrOrder_step q ps0 hd s t hs he.1 he.2 hst⟩)
  refine ⟨s0, r, h0, hret, ?_⟩
  have hqe := rrStep_done_queue q ps0 r hinv hdone
  intro pre post seg i j Q1 Q2 hcut hQ1 hQ2 h1lo h1hi h2lo h2hi hij
  obtain ⟨hpre, htie⟩ := hord pre post seg i j Q1 Q2 hcut hQ1 hQ2 h1lo h1hi h2lo h2hi hij
  rcases htie with ⟨mid1, seg1, mid2, seg2, post2, hpost, h1, h2, h3, h4⟩ | hB | hC
  · refine ⟨mid1, seg1, mid2, seg2, post2, hpost, h1, h2, h3, ?_⟩
    intro y hy
    rcases List.mem_append.1 hy with hy | hy
    · exact hpre y (List.mem_append.2 (Or.inl hy))
    · rcases List.mem_cons.1 hy with hy | hy
      · exact hpre y (List.mem_append.2 (Or.inr (by simp [hy])))
      · exact h4 y hy
  · obtain ⟨_, _, _, _, _, _, _, hmem⟩ := hB
    rw [hqe] at hmem
    simp at hmem
  · obtain ⟨_, _, q1, q2, hsplit, _⟩ := hC
    rw [hqe] at hsplit
    simp at hsplit

end Exact

namespace Exact

/-! ## The order of the returned processes -/

/-- Equal `static` images give the order of the input. -/
theorem inputOrder_of_static {processes returned : List Process}
    (h : returned.map static = processes.map static) : InputOrder processes returned := by
  constructor
  · have := congrArg List.length h
    simpa using this
  · intro i p P hp hP
    obtain ⟨Q, hQ, hs⟩ := static_getElem? h hp
    rw [hP] at hQ
    injection hQ with hQ
    subst hQ
    simp only [static, Prod.mk.injEq] at hs
    exact ⟨hs.1.symm, hs.2.1.symm, hs.2.2.1.symm, hs.2.2.2.symm⟩

theorem sjfOrder_step (key : Process → Int) (ps0 : List Process) (s t : NPState)
    (hinv : NPInv ps0 s) (hs : SJFOrder s) (h : npStep key s = .next t) : SJFOrder t := by
  have hfin := npCompleted_step key s t hs.finished h
  obtain ⟨_, hc⟩ := npStep_cases key s t h
  rcases hc with ⟨_, rfl⟩ | ⟨i, p, _, hp, hr, rfl⟩
  · exact ⟨hs.finished, hs.increasing, hs.ids, hs.ends⟩
  · refine ⟨hfin, ?_, ?_, ?_⟩
    · rw [List.pairwise_append]
      refine ⟨hs.increasing, by simp, ?_⟩
      intro a ha b hb
      simp only [List.mem_singleton] at hb
      subst hb
      have hmem : a.CompletionTime ∈ s.completed.map fun p => p.CompletionTime :=
        List.mem_map.2 ⟨a, ha, rfl⟩
      rw [hs.ends] at hmem
      obtain ⟨seg, hseg, he⟩ := List.mem_map.1 hmem
      have h1 := (hinv.timeline.1 seg hseg).2
      have h2 := hr.1
      simp only [setMetrics]
      omega
    · simp [hs.ids]
    · simp [hs.ends, setMetrics]

/-- The list returned by `runSJF`. -/
theorem sjf_completion_order (ps0 : List Process) (hne : ps0 ≠ [])
    (hwf : ∀ p ∈ ps0, 0 < p.BurstTime ∧ 0 ≤ p.ArrivalTime ∧ p.RemainingTime = p.BurstTime) :
    ∃ s0 r, npInit ps0 = some s0 ∧
      Returns (fun fuel => iterate (npStep fun p => p.BurstTime) fuel s0) r ∧
      CompletionOrder ps0 r.completed r.timeline := by
  obtain ⟨s0, r, h0, hret, hinv, hs, hz⟩ :=
    np_returns_with (fun p => p.BurstTime) ps0 hne hwf SJFOrder
      (fun s0 hs0 => by
        unfold npInit at hs0
        split at hs0
        · simp at hs0
        · injection hs0 with hs0
          subst hs0
          have : ps0.filter (fun p => decide (p.RemainingTime = 0)) = [] := by
            rw [List.filter_eq_nil_iff]
            intro p hp
            have := hwf p hp
            simp
            omega
          exact ⟨by simp [this], by simp, by simp, by simp⟩)
      (fun s t hi he hst => sjfOrder_step _ ps0 s t hi he hst)
  refine ⟨s0, r, h0, hret, ?_, hs.increasing, hs.ids⟩
  have hall0 : r.procs.filter (fun p => decide (p.RemainingTime = 0)) = r.procs := by
    rw [List.filter_eq_self]
    intro p hp
    have hc := hinv.count
    rw [hz] at hc
    have h0 := List.countP_eq_zero.1 hc.symm p hp
    have := (hinv.rem p hp)
    simp at h0 ⊢
    omega
  have hfin := hs.finished
  rw [hall0] at hfin
  have := hfin.map static
  rw [hinv.static_eq] at this
  exact this

end Exact

/-! ## Go `int` arithmetic -/

/-- A sum that stays in range is kept as it is. -/
theorem wrap_eq {x : Int} (h1 : -2 ^ 63 ≤ x) (h2 : x < 2 ^ 63) : wrap x = x := by
  unfold wrap
  omega

theorem wrap_upper (x : Int) : wrap x < 2 ^ 63 := by
  unfold wrap
  omega

/-- Wrapping never raises a value that is not below the range. -/
theorem wrap_le_self {x : Int} (h : -2 ^ 63 ≤ x) : wrap x ≤ x := by
  unfold wrap
  omega

/-! ## Loops that take the same steps -/

/-- Two loop bodies that agree on the states of an invariant kept by one of
them run the same from a state of the invariant. -/
theorem iterate_congr_of_inv {σ : Type} (stepA stepB : σ → Step σ) (Inv : σ → Prop)
    (hstep : ∀ s t, Inv s → stepB s = .next t → Inv t)
    (heq : ∀ s, Inv s → stepA s = stepB s) :
    ∀ (fuel : Nat) (s : σ), Inv s → iterate stepA fuel s = iterate stepB fuel s := by
  intro fuel
  induction fuel with
  | zero =>
    intro s hs
    simp only [iterate, heq s hs]
  | succ n ih =>
    intro s hs
    simp only [iterate, heq s hs]
    cases hB : stepB s with
    | next t => exact ih t (hstep s t hs hB)
    | done r => rfl
    | fault => rfl

theorem stateAt_congr_of_inv {σ : Type} (stepA stepB : σ → Step σ) (Inv : σ → Prop)
    (hstep : ∀ s t, Inv s → stepB s = .next t → Inv t)
    (heq : ∀ s, Inv s → stepA s = stepB s) :
    ∀ (n : Nat) (s : σ), Inv s → stateAt stepA n s = stateAt stepB n s := by
  intro n
  induction n with
  | zero => intro s _; rfl
  | succ n ih =>
    intro s hs
    simp only [stateAt, heq s hs]
    cases hB : stepB s with
    | next t => exact ih t (hstep s t hs hB)
    | done r => rfl
    | fault => rfl

/-- The invariant holds in every state that the loop reaches. -/
theorem stateAt_keeps {σ : Type} (step : σ → Step σ) (Inv : σ → Prop)
    (hstep : ∀ s t, Inv s → step s = .next t → Inv t) :
    ∀ (n : Nat) (s t : σ), Inv s → stateAt step n s = some t → Inv t := by
  intro n
  induction n with
  | zero =>
    intro s t hs h
    simp only [stateAt, Option.some.injEq] at h
    exact h ▸ hs
  | succ n ih =>
    intro s t hs h
    simp only [stateAt] at h
    cases hB : step s with
    | next u =>
      rw [hB] at h
      exact ih u t (hstep s u hs hB) h
    | done r => rw [hB] at h; simp at h
    | fault => rw [hB] at h; simp at h

/-! ## Sums of remaining and burst times -/

theorem totalRemaining_eq_totalBurst {procs : List Process}
    (h : ∀ p ∈ procs, p.RemainingTime = p.BurstTime) : totalRemaining procs = totalBurst procs := by
  unfold totalRemaining totalBurst
  congr 1
  exact List.map_congr_left h

theorem burst_le_totalBurst {procs : List Process} (h : ∀ p ∈ procs, 0 < p.BurstTime)
    {p : Process} (hp : p ∈ procs) : p.BurstTime ≤ totalBurst procs := by
  unfold totalBurst
  induction procs with
  | nil => simp at hp
  | cons q qs ih =>
    simp only [List.map_cons, List.sum_cons]
    have hq := h q (by simp)
    have hnn : 0 ≤ (qs.map fun p => p.BurstTime).sum := by
      apply List.sum_nonneg
      intro x hx
      obtain ⟨y, hy, rfl⟩ := List.mem_map.1 hx
      exact le_of_lt (h y (by simp [hy]))
    rcases List.mem_cons.1 hp with rfl | hp
    · omega
    · have := ih (fun x hx => h x (by simp [hx])) hp
      omega

/-- A well-formed input in range starts every loop engine in range. -/
theorem clockInRange_init {ps : List Process}
    (hwf : ∀ p ∈ ps, 0 < p.BurstTime ∧ 0 ≤ p.ArrivalTime ∧ p.RemainingTime = p.BurstTime)
    (hr : InRange ps) {q : Process} (hq : q ∈ ps) : ClockInRange ps q.ArrivalTime := by
  have he : totalRemaining ps = totalBurst ps :=
    totalRemaining_eq_totalBurst fun p hp => (hwf p hp).2.2
  refine ⟨(hwf q hq).2.1, ?_, ?_⟩
  · rw [he]; exact hr q hq
  · intro p hp
    rw [he]
    refine ⟨hr p hp, ?_, (hwf p hp).2.1⟩
    have h1 := burst_le_totalBurst (fun p hp => (hwf p hp).1) hp
    have h2 := hr p hp
    have h3 := (hwf p hp).2.1
    omega

/-! ## The engines agree with their exact twins in range -/

theorem markStarted_exact (ct : Int) (p : Process) (h1 : -2 ^ 63 ≤ ct - p.ArrivalTime)
    (h2 : ct - p.ArrivalTime < 2 ^ 63) : markStarted ct p = Exact.markStarted ct p := by
  unfold markStarted Exact.markStarted
  rw [wrap_eq h1 h2]

theorem setMetrics_exact (now : Int) (p : Process) (h1 : -2 ^ 63 ≤ now - p.ArrivalTime)
    (h2 : now - p.ArrivalTime < 2 ^ 63) (h3 : -2 ^ 63 ≤ now - p.ArrivalTime - p.BurstTime)
    (h4 : now - p.ArrivalTime - p.BurstTime < 2 ^ 63) :
    setMetrics now p = Exact.setMetrics now p := by
  unfold setMetrics Exact.setMetrics
  rw [wrap_eq h1 h2, wrap_eq h3 h4]



/-! ### `runSJF` and `runNonPreemptivePriority` -/

theorem npStep_exact (key : Process → Int) (ps0 : List Process) (s : NPState)
    (hinv : NPInv ps0 s) (hr : ClockInRange s.procs s.currentTime) :
    npStep key s = Exact.npStep key s := by
  unfold npStep Exact.npStep
  by_cases hpos : s.remainingProcesses > 0
  · simp only [hpos, if_true]
    cases hsel : selectIdx key s.currentTime s.procs with
    | none => rfl
    | some i =>
      obtain ⟨p, hp, hrd⟩ := selectIdx_some key _ _ i hsel
      simp only [hp]
      have hpm : p ∈ s.procs := mem_of_getElem?_eq hp
      have ha := hinv.arrival p hpm
      have hrem := hinv.rem p hpm
      have hle := Exact.totalRemaining_ge_of_mem s.procs
        (fun q hq => by rcases (hinv.rem q hq).2 with h | h <;> have := (hinv.rem q hq).1 <;> omega)
        p hpm
      obtain ⟨h0, h1, h2⟩ := hr
      have h3 := h2 p hpm
      have hr1 := hrd.1
      have hr2 := hrd.2
      rw [markStarted_exact s.currentTime p (by omega) (by omega)]
      simp only [Exact.markStarted_RemainingTime]
      rw [wrap_eq (x := s.currentTime + p.RemainingTime) (by omega) (by omega)]
      rw [setMetrics_exact (s.currentTime + p.RemainingTime) (Exact.markStarted s.currentTime p)
        (by simp; omega) (by simp; omega) (by simp; omega) (by simp; omega)]
  · simp only [hpos, if_false]

/-- A pass of the exact loop keeps the clock in range. -/
theorem npClock_step (key : Process → Int) (ps0 : List Process) (s t : NPState)
    (hinv : NPInv ps0 s) (hr : ClockInRange s.procs s.currentTime)
    (h : Exact.npStep key s = .next t) : ClockInRange t.procs t.currentTime := by
  obtain ⟨hpos, hc⟩ := Exact.npStep_cases key s t h
  obtain ⟨h0, h1, h2⟩ := hr
  rcases hc with ⟨hsel, rfl⟩ | ⟨i, p, hsel, hp, hrd, rfl⟩
  · have hex : ∃ p ∈ s.procs, p.RemainingTime > 0 := by
      have hc := hinv.count
      have hc2 : 0 < s.procs.countP fun p => decide (p.RemainingTime > 0) := by omega
      obtain ⟨a, ha, hf⟩ := exists_of_countP_pos _ s.procs hc2
      exact ⟨a, ha, by simpa using hf⟩
    obtain ⟨_, q, hq, _, hqa⟩ := nextArrival_spec s.procs hinv.arrival hex
    refine ⟨?_, ?_, h2⟩
    · show 0 ≤ nextArrival s.procs
      rw [← hqa]; exact hinv.arrival q hq
    · show nextArrival s.procs + totalRemaining s.procs < 2 ^ 63
      rw [← hqa]; exact (h2 q hq).1
  · have hpm : p ∈ s.procs := mem_of_getElem?_eq hp
    have htr := Exact.totalRemaining_set s.procs i p
      { Exact.setMetrics (s.currentTime + p.RemainingTime) (Exact.markStarted s.currentTime p)
        with RemainingTime := 0 } hp
    have hr1 := hrd.1
    refine ⟨?_, ?_, ?_⟩
    · show 0 ≤ s.currentTime + p.RemainingTime
      omega
    · show s.currentTime + p.RemainingTime + totalRemaining (s.procs.set i _) < 2 ^ 63
      rw [htr]
      simp only
      omega
    · show ∀ q ∈ s.procs.set i _, q.ArrivalTime + totalRemaining (s.procs.set i _) < 2 ^ 63 ∧
        q.BurstTime < 2 ^ 63 ∧ 0 ≤ q.ArrivalTime
      rw [htr]
      apply forall_mem_set
      · intro q hq
        have := h2 q hq
        simp only
        omega
      · have := h2 p hpm
        simp
        omega

/-- In range, the loop of `runSJF` and `runNonPreemptivePriority` runs as its
exact twin. -/
theorem npIterate_exact (key : Process → Int) (ps0 : List Process) (s0 : NPState)
    (hinv : NPInv ps0 s0) (hr : ClockInRange s0.procs s0.currentTime) (fuel : Nat) :
    iterate (npStep key) fuel s0 = iterate (Exact.npStep key) fuel s0 :=
  iterate_congr_of_inv (npStep key) (Exact.npStep key)
    (fun s => NPInv ps0 s ∧ ClockInRange s.procs s.currentTime)
    (fun s t hs hst => ⟨(Exact.npInv_step key ps0 s t hs.1 hst).1,
      npClock_step key ps0 s t hs.1 hs.2 hst⟩)
    (fun s hs => npStep_exact key ps0 s hs.1 hs.2) fuel s0 ⟨hinv, hr⟩

/-! ### `runSRTF` and `runPreemptivePriority` -/

theorem timeSliceFrom_exact (pw pe : Process → Process → Int → Bool) (sel : Process)
    (ct bound : Int) (hct : 0 ≤ ct) (hb : ct + bound < 2 ^ 63) (ps : List Process)
    (hpre : ∀ p ∈ ps, ct < p.ArrivalTime → p.ArrivalTime < ct + bound →
      pw p sel ct = pe p sel ct) :
    ∀ ts, 0 < ts → ts ≤ bound →
      timeSliceFrom pw sel ct ts ps = Exact.timeSliceFrom pe sel ct ts ps := by
  induction ps with
  | nil => intro ts _ _; rfl
  | cons p ps ih =>
    intro ts h1 h2
    have ih2 := ih (fun q hq => hpre q (by simp [hq]))
    simp only [timeSliceFrom, Exact.timeSliceFrom]
    rw [wrap_eq (x := ct + ts) (by omega) (by omega)]
    by_cases hc : p.RemainingTime > 0 ∧ p.ArrivalTime > ct ∧ p.ArrivalTime < ct + ts
    · simp only [if_pos hc]
      rw [hpre p (by simp) (by omega) (by omega),
        wrap_eq (x := p.ArrivalTime - ct) (by omega) (by omega)]
      split
      · exact ih2 _ (by omega) (by omega)
      · exact ih2 ts h1 h2
    · simp only [if_neg hc]
      exact ih2 ts h1 h2

theorem srtfPreempts_exact (p sel : Process) (ct : Int) (h1 : ct < p.ArrivalTime)
    (h2 : p.ArrivalTime < ct + sel.RemainingTime) (h3 : sel.RemainingTime < 2 ^ 63) :
    srtfPreempts p sel ct = Exact.srtfPreempts p sel ct := by
  unfold srtfPreempts Exact.srtfPreempts
  rw [wrap_eq (x := p.ArrivalTime - ct) (by omega) (by omega),
    wrap_eq (x := sel.RemainingTime - (p.ArrivalTime - ct)) (by omega) (by omega)]

theorem pRun_exact (pw pe : Process → Process → Int → Bool) (hag : PreemptsAgree pw pe)
    (s : PState) (i : Nat) (p : Process)
    (hrd : Ready s.currentTime p) (ha : 0 ≤ p.ArrivalTime) (hb0 : 0 < p.BurstTime)
    (hb : p.BurstTime < 2 ^ 63) (hlim : s.currentTime + p.RemainingTime < 2 ^ 63) :
    pRun pw s i p = Exact.pRun pe s i p := by
  have hr1 := hrd.1
  have hr2 := hrd.2
  unfold pRun Exact.pRun
  rw [markStarted_exact s.currentTime p (by omega) (by omega)]
  simp only [Exact.markStarted_RemainingTime]
  rw [timeSliceFrom_exact pw pe (Exact.markStarted s.currentTime p) s.currentTime
    p.RemainingTime (by omega) hlim _
    (fun q _ h1 h2 => hag q _ s.currentTime h1 (by simpa using h2) (by simp; omega))
    p.RemainingTime hr1 le_rfl]
  obtain ⟨hts1, hts2⟩ := Exact.timeSliceFrom_pos pe (Exact.markStarted s.currentTime p)
    s.currentTime (s.procs.set i (Exact.markStarted s.currentTime p)) p.RemainingTime hr1
  generalize Exact.timeSliceFrom pe (Exact.markStarted s.currentTime p) s.currentTime
    p.RemainingTime (s.procs.set i (Exact.markStarted s.currentTime p)) = ts at hts1 hts2 ⊢
  rw [wrap_eq (x := s.currentTime + ts) (by omega) (by omega),
    wrap_eq (x := p.RemainingTime - ts) (by omega) (by omega)]
  have hsm : ∀ x : Process, x.ArrivalTime = p.ArrivalTime → x.BurstTime = p.BurstTime →
      setMetrics (s.currentTime + ts) x = Exact.setMetrics (s.currentTime + ts) x := by
    intro x hx1 hx2
    exact setMetrics_exact _ x (by omega) (by omega) (by omega) (by omega)
  rw [hsm _ (by simp) (by simp)]



theorem preemptsAgree_srtf : PreemptsAgree srtfPreempts Exact.srtfPreempts :=
  fun p sel ct h1 h2 h3 => srtfPreempts_exact p sel ct h1 h2 h3

theorem preemptsAgree_priority : PreemptsAgree priorityPreempts priorityPreempts :=
  fun _ _ _ _ _ _ => rfl

theorem pStep_exact (key : Process → Int) (pw pe : Process → Process → Int → Bool)
    (hag : PreemptsAgree pw pe) (ps0 : List Process) (s : PState)
    (hinv : PInv ps0 s) (hr : ClockInRange s.procs s.currentTime) :
    pStep key pw s = Exact.pStep key pe s := by
  unfold pStep Exact.pStep
  by_cases hpos : s.remainingProcesses > 0
  · simp only [hpos, if_true]
    cases hsel : selectIdx key s.currentTime s.procs with
    | none => rfl
    | some i =>
      obtain ⟨p, hp, hrd⟩ := selectIdx_some key _ _ i hsel
      simp only [hp]
      have hpm : p ∈ s.procs := mem_of_getElem?_eq hp
      have hle := Exact.totalRemaining_ge_of_mem s.procs (fun q hq => (hinv.rem q hq).2.1) p hpm
      obtain ⟨h0, h1, h2⟩ := hr
      exact pRun_exact pw pe hag s i p hrd (hinv.arrival p hpm) (hinv.rem p hpm).1
        (h2 p hpm).2.1 (by omega)
  · simp only [hpos, if_false]

/-- A pass of the exact loop keeps the clock in range. -/
theorem pClock_step (key : Process → Int) (pe : Process → Process → Int → Bool)
    (ps0 : List Process) (s t : PState)
    (hinv : PInv ps0 s) (hr : ClockInRange s.procs s.currentTime)
    (h : Exact.pStep key pe s = .next t) : ClockInRange t.procs t.currentTime := by
  obtain ⟨hpos, hc⟩ := Exact.pStep_cases key pe s t h
  obtain ⟨h0, h1, h2⟩ := hr
  rcases hc with ⟨hsel, hidle⟩ | ⟨i, p, hsel, hp, hrd, hrun⟩
  · obtain ⟨_, rfl⟩ := Exact.pIdle_next key ps0 s t hinv hsel hidle
    have hex : ∃ p ∈ s.procs, p.RemainingTime > 0 := by
      have hc := hinv.count
      have hc2 : 0 < s.procs.countP fun p => decide (p.RemainingTime > 0) := by omega
      obtain ⟨a, ha, hf⟩ := exists_of_countP_pos _ s.procs hc2
      exact ⟨a, ha, by simpa using hf⟩
    obtain ⟨_, q, hq, _, hqa⟩ := nextArrival_spec s.procs hinv.arrival hex
    refine ⟨?_, ?_, h2⟩
    · show 0 ≤ nextArrival s.procs
      rw [← hqa]; exact hinv.arrival q hq
    · show nextArrival s.procs + totalRemaining s.procs < 2 ^ 63
      rw [← hqa]; exact (h2 q hq).1
  · have hpm : p ∈ s.procs := mem_of_getElem?_eq hp
    have hr1 := hrd.1
    obtain ⟨tl1, start1, _, ts, hts, hcase⟩ := Exact.pRun_cases pe s t i p hrun
    obtain ⟨hts1, hts2⟩ := Exact.timeSliceFrom_pos pe (Exact.markStarted s.currentTime p)
      s.currentTime (s.procs.set i (Exact.markStarted s.currentTime p)) p.RemainingTime hr1
    rw [← hts] at hts1 hts2
    have key2 : ∀ x : Process, x.RemainingTime = p.RemainingTime - ts →
        x.ArrivalTime = p.ArrivalTime → x.BurstTime = p.BurstTime →
        ClockInRange (s.procs.set i x) (s.currentTime + ts) := by
      intro x hx1 hx2 hx3
      have htr := Exact.totalRemaining_set s.procs i p x hp
      refine ⟨by omega, by rw [htr]; omega, ?_⟩
      rw [htr]
      apply forall_mem_set
      · intro q hq
        have := h2 q hq
        omega
      · have := h2 p hpm
        omega
    rcases hcase with ⟨_, rfl⟩ | ⟨_, rfl⟩
    · exact key2 _ (by simp [Exact.setMetrics]) (by simp) (by simp)
    · exact key2 _ (by simp) (by simp) (by simp)

/-- In range, the loop of `runSRTF` and `runPreemptivePriority` runs as its exact
twin. -/
theorem pIterate_exact (key : Process → Int) (pw pe : Process → Process → Int → Bool)
    (hag : PreemptsAgree pw pe) (ps0 : List Process) (s0 : PState)
    (hinv : PInv ps0 s0) (hr : ClockInRange s0.procs s0.currentTime) (fuel : Nat) :
    iterate (pStep key pw) fuel s0 = iterate (Exact.pStep key pe) fuel s0 :=
  iterate_congr_of_inv (pStep key pw) (Exact.pStep key pe)
    (fun s => PInv ps0 s ∧ ClockInRange s.procs s.currentTime)
    (fun s t hs hst => ⟨(Exact.pInv_step key pe ps0 s t hs.1 hst).1,
      pClock_step key pe ps0 s t hs.1 hs.2 hst⟩)
    (fun s hs => pStep_exact key pw pe hag ps0 s hs.1 hs.2) fuel s0 ⟨hinv, hr⟩

/-! ### The engines -/

theorem clockInRange_reset {ps : List Process}
    (hwf : ∀ p ∈ ps, 0 < p.BurstTime ∧ 0 ≤ p.ArrivalTime ∧ p.RemainingTime = p.BurstTime)
    (hr : InRange ps) {t : Int} (ht : ∃ q ∈ resetStarted ps, q.ArrivalTime = t) :
    ClockInRange (resetStarted ps) t := by
  obtain ⟨q, hq, rfl⟩ := ht
  obtain ⟨q0, hq0, rfl⟩ := Exact.mem_resetStarted hq
  have h := clockInRange_init hwf hr hq0
  refine ⟨h.1, ?_, ?_⟩
  · rw [Exact.totalRemaining_resetStarted]; exact h.2.1
  · intro p hp
    obtain ⟨p0, hp0, rfl⟩ := Exact.mem_resetStarted hp
    rw [Exact.totalRemaining_resetStarted]
    exact h.2.2 p0 hp0

theorem runSJF_exact (processes : List Process) (hwf : WellFormed processes)
    (hr : InRange processes) (fuel : Nat) :
    runSJF fuel processes = Exact.runSJF fuel processes := by
  obtain ⟨hne, hall⟩ := hwf
  obtain ⟨s0, hs0, hinv⟩ := Exact.npInit_inv processes hne hall
  obtain ⟨t, ht, _, q, hq, hqt⟩ := earliestArrival_spec hne
  have hs : s0.procs = processes ∧ s0.currentTime = t := by
    simp only [npInit, ht, Option.some.injEq] at hs0
    subst hs0
    exact ⟨rfl, rfl⟩
  have hc : ClockInRange s0.procs s0.currentTime := by
    rw [hs.1, hs.2, ← hqt]
    exact clockInRange_init hall hr hq
  simp only [runSJF, Exact.runSJF, hs0, npIterate_exact _ processes s0 hinv hc fuel]

theorem runNonPreemptivePriority_exact (processes : List Process) (hwf : WellFormed processes)
    (hr : InRange processes) (fuel : Nat) :
    runNonPreemptivePriority fuel processes = Exact.runNonPreemptivePriority fuel processes := by
  obtain ⟨hne, hall⟩ := hwf
  obtain ⟨s0, hs0, hinv⟩ := Exact.npInit_inv processes hne hall
  obtain ⟨t, ht, _, q, hq, hqt⟩ := earliestArrival_spec hne
  have hs : s0.procs = processes ∧ s0.currentTime = t := by
    simp only [npInit, ht, Option.some.injEq] at hs0
    subst hs0
    exact ⟨rfl, rfl⟩
  have hc : ClockInRange s0.procs s0.currentTime := by
    rw [hs.1, hs.2, ← hqt]
    exact clockInRange_init hall hr hq
  simp only [runNonPreemptivePriority, Exact.runNonPreemptivePriority, hs0,
    npIterate_exact _ processes s0 hinv hc fuel]

theorem pInit_inRange (processes : List Process) (hwf : WellFormed processes)
    (hr : InRange processes) :
    ∃ s0, pInit processes = some s0 ∧ PInv processes s0 ∧
      ClockInRange s0.procs s0.currentTime := by
  obtain ⟨hne, hall⟩ := hwf
  obtain ⟨s0, hs0, hinv, hp0, _, _⟩ := Exact.pInit_inv processes hne hall
  obtain ⟨t, ht, _, hq⟩ := earliestArrival_spec (Exact.resetStarted_ne_nil hne)
  have hs : s0.currentTime = t := by
    simp only [pInit, ht, Option.some.injEq] at hs0
    subst hs0
    rfl
  refine ⟨s0, hs0, hinv, ?_⟩
  rw [hp0, hs]
  exact clockInRange_reset hall hr hq

theorem runSRTF_exact (processes : List Process) (hwf : WellFormed processes)
    (hr : InRange processes) (fuel : Nat) :
    runSRTF fuel processes = Exact.runSRTF fuel processes := by
  obtain ⟨s0, hs0, hinv, hc⟩ := pInit_inRange processes hwf hr
  simp only [runSRTF, Exact.runSRTF, hs0,
    pIterate_exact _ srtfPreempts Exact.srtfPreempts preemptsAgree_srtf processes s0 hinv hc fuel]

theorem runPreemptivePriority_exact (processes : List Process) (hwf : WellFormed processes)
    (hr : InRange processes) (fuel : Nat) :
    runPreemptivePriority fuel processes = Exact.runPreemptivePriority fuel processes := by
  obtain ⟨s0, hs0, hinv, hc⟩ := pInit_inRange processes hwf hr
  simp only [runPreemptivePriority, Exact.runPreemptivePriority, hs0,
    pIterate_exact _ priorityPreempts priorityPreempts preemptsAgree_priority processes s0
      hinv hc fuel]

/-! ### `runRoundRobin` -/

theorem arrivalsFrom_exact (now ex : Int) (h : wrap (now - ex) = now - ex) (ps : List Process) :
    ∀ (i : Nat) (queue : List Nat),
      arrivalsFrom now ex ps i queue = Exact.arrivalsFrom now ex ps i queue := by
  induction ps with
  | nil => intro i queue; rfl
  | cons p ps ih =>
    intro i queue
    simp only [arrivalsFrom, Exact.arrivalsFrom, h, ih]

theorem rrDispatch_exact (q : Int) (hq : 0 < q) (s : RRState) (ct : Int) (idx : Nat)
    (rest : List Nat) (p : Process) (hrd : Ready ct p) (ha : 0 ≤ p.ArrivalTime)
    (hb0 : 0 < p.BurstTime) (hb : p.BurstTime < 2 ^ 63)
    (hlim : ct + p.RemainingTime < 2 ^ 63) :
    rrDispatch q s ct idx rest p = Exact.rrDispatch q s ct idx rest p := by
  have hr1 := hrd.1
  have hr2 := hrd.2
  unfold rrDispatch Exact.rrDispatch
  rw [markStarted_exact ct p (by omega) (by omega)]
  simp only [Exact.markStarted_RemainingTime]
  have hex : 0 < (if p.RemainingTime < q then p.RemainingTime else q) ∧
      (if p.RemainingTime < q then p.RemainingTime else q) ≤ p.RemainingTime := by
    split <;> omega
  generalize (if p.RemainingTime < q then p.RemainingTime else q) = ex at hex ⊢
  rw [wrap_eq (x := ct + ex) (by omega) (by omega),
    wrap_eq (x := p.RemainingTime - ex) (by omega) (by omega)]
  rw [arrivalsFrom_exact (ct + ex) ex (by rw [wrap_eq (by omega) (by omega)])]
  have hsm : ∀ x : Process, x.ArrivalTime = p.ArrivalTime → x.BurstTime = p.BurstTime →
      setMetrics (ct + ex) x = Exact.setMetrics (ct + ex) x := by
    intro x hx1 hx2
    exact setMetrics_exact _ x (by omega) (by omega) (by omega) (by omega)
  rw [hsm _ (by simp) (by simp)]



theorem rrStep_exact (q : Int) (hq : 0 < q) (ps0 : List Process) (s : RRState)
    (hinv : RRInv ps0 s) (hr : ClockInRange s.procs s.currentTime) :
    rrStep q s = Exact.rrStep q s := by
  obtain ⟨h0, h1, h2⟩ := hr
  have hnn : ∀ p ∈ s.procs, 0 ≤ p.RemainingTime := fun p hp => (hinv.rem p hp).2.1
  have key2 : ∀ (ct : Int) (idx : Nat) (rest : List Nat) (p : Process),
      s.procs[idx]? = some p → Ready ct p → ct = s.currentTime ∨ ct = p.ArrivalTime →
      rrDispatch q s ct idx rest p = Exact.rrDispatch q s ct idx rest p := by
    intro ct idx rest p hp hrd hct
    have hpm : p ∈ s.procs := mem_of_getElem?_eq hp
    have hle := Exact.totalRemaining_ge_of_mem s.procs hnn p hpm
    have h3 := h2 p hpm
    exact rrDispatch_exact q hq s ct idx rest p hrd h3.2.2 (hinv.rem p hpm).1 h3.2.1
      (by rcases hct with h | h <;> omega)
  unfold rrStep Exact.rrStep
  by_cases hlt : s.completedCount < s.procs.length
  · simp only [hlt, if_true]
    cases hqu : s.readyQueue with
    | nil =>
      simp only []
      cases hf : findNextFrom s.currentTime s.procs 0 (-1, none) with
      | mk next oi =>
        cases oi with
        | none => rfl
        | some idx =>
          simp only []
          cases hp : s.procs[idx]? with
          | none => rfl
          | some p =>
            simp only []
            rcases Exact.findNextFrom_some _ _ _ _ _ _ _ hf with ⟨h, _⟩ | ⟨_, a, ha, hr1, hr2, hr3⟩
            · simp at h
            · simp only [Nat.sub_zero] at ha
              rw [hp] at ha
              injection ha with ha
              subst ha
              rw [key2 next idx [] p hp ⟨hr1, by omega⟩ (Or.inr hr3.symm)]
    | cons idx rest =>
      simp only []
      cases hp : s.procs[idx]? with
      | none => rfl
      | some p =>
        simp only []
        obtain ⟨a, ha, har⟩ := hinv.queue idx (by simp [hqu])
        rw [hp] at ha
        injection ha with ha
        subst ha
        rw [key2 s.currentTime idx rest p hp har (Or.inl rfl)]
  · simp only [hlt, if_false]

/-- A pass of the exact loop keeps the clock in range. -/
theorem rrClock_step (q : Int) (hq : 0 < q) (ps0 : List Process) (s t : RRState)
    (hinv : RRInv ps0 s) (hr : ClockInRange s.procs s.currentTime)
    (h : Exact.rrStep q s = .next t) : ClockInRange t.procs t.currentTime := by
  obtain ⟨ct, idx, rest, p, rfl, hct, hp, hrd, _, _, hcase⟩ :=
    Exact.rrStep_dispatch q ps0 s _ hinv h
  obtain ⟨h0, h1, h2⟩ := hr
  have hnn : ∀ p ∈ s.procs, 0 ≤ p.RemainingTime := fun p hp => (hinv.rem p hp).2.1
  have hpm : p ∈ s.procs := mem_of_getElem?_eq hp
  have hle := Exact.totalRemaining_ge_of_mem s.procs hnn p hpm
  have h3 := h2 p hpm
  have hr1 := hrd.1
  have hlim : ct + totalRemaining s.procs < 2 ^ 63 := by
    rcases hcase with ⟨_, h⟩ | ⟨_, _, _, h⟩ <;> omega
  obtain ⟨ex, hex, heq⟩ := Exact.rrDispatch_eq q s ct idx rest p
  have hex2 : 0 < ex ∧ ex ≤ p.RemainingTime := by
    rw [hex]; split <;> omega
  have key2 : ∀ x : Process, x.RemainingTime = p.RemainingTime - ex →
      x.ArrivalTime = p.ArrivalTime → x.BurstTime = p.BurstTime →
      ClockInRange (s.procs.set idx x) (ct + ex) := by
    intro x hx1 hx2 hx3
    have htr := Exact.totalRemaining_set s.procs idx p x hp
    refine ⟨by omega, by rw [htr]; omega, ?_⟩
    rw [htr]
    apply forall_mem_set
    · intro a ha
      have := h2 a ha
      omega
    · omega
  rw [heq]
  split
  · exact key2 _ (by simp) (by simp) (by simp)
  · exact key2 _ (by simp [Exact.setMetrics]) (by simp) (by simp)

/-- In range, the loop of `runRoundRobin` runs as its exact twin. -/
theorem rrIterate_exact (q : Int) (hq : 0 < q) (ps0 : List Process) (s0 : RRState)
    (hinv : RRInv ps0 s0) (hr : ClockInRange s0.procs s0.currentTime) (fuel : Nat) :
    iterate (rrStep q) fuel s0 = iterate (Exact.rrStep q) fuel s0 :=
  iterate_congr_of_inv (rrStep q) (Exact.rrStep q)
    (fun s => RRInv ps0 s ∧ ClockInRange s.procs s.currentTime)
    (fun s t hs hst => ⟨(Exact.rrInv_step q hq ps0 s t hs.1 hst).1,
      rrClock_step q hq ps0 s t hs.1 hs.2 hst⟩)
    (fun s hs => rrStep_exact q hq ps0 s hs.1 hs.2) fuel s0 ⟨hinv, hr⟩

theorem rrInit_inRange (processes : List Process) (hwf : WellFormed processes)
    (hr : InRange processes) :
    ∃ s0, rrInit processes = some s0 ∧ RRInv processes s0 ∧
      ClockInRange s0.procs s0.currentTime := by
  obtain ⟨hne, hall⟩ := hwf
  obtain ⟨s0, hs0, hinv, hp0, _⟩ := Exact.rrInit_inv processes hne hall
  obtain ⟨t, ht, _, hq⟩ := earliestArrival_spec (Exact.resetStarted_ne_nil hne)
  have hs : s0.currentTime = t := by
    simp only [rrInit, ht, Option.some.injEq] at hs0
    subst hs0
    rfl
  refine ⟨s0, hs0, hinv, ?_⟩
  rw [hp0, hs]
  exact clockInRange_reset hall hr hq

theorem runRoundRobin_exact (processes : List Process) (hwf : WellFormed processes)
    (hr : InRange processes) (timeQuantum : Int) (fuel : Nat) :
    runRoundRobin fuel processes timeQuantum = Exact.runRoundRobin fuel processes timeQuantum := by
  obtain ⟨s0, hs0, hinv, hc⟩ := rrInit_inRange processes hwf hr
  simp only [runRoundRobin, Exact.runRoundRobin, hs0,
    rrIterate_exact _ (Exact.clamp_pos timeQuantum) processes s0 hinv hc fuel]

/-! ### `runFCFS` -/

theorem fcfsLoop_exact (ps : List Process) :
    ∀ ct : Int, 0 ≤ ct → ct + totalBurst ps < 2 ^ 63 →
      (∀ p ∈ ps, 0 ≤ p.ArrivalTime ∧ 0 < p.BurstTime ∧
        p.ArrivalTime + totalBurst ps < 2 ^ 63) →
      fcfsLoop ct ps = Exact.fcfsLoop ct ps := by
  induction ps with
  | nil => intro ct _ _ _; rfl
  | cons p ps ih =>
    intro ct h0 h1 h2
    have hp := h2 p (by simp)
    have htb : totalBurst (p :: ps) = p.BurstTime + totalBurst ps := by
      simp [totalBurst]
    rw [htb] at h1 hp
    have hnn : 0 ≤ totalBurst ps := by
      unfold totalBurst
      apply List.sum_nonneg
      intro x hx
      obtain ⟨y, hy, rfl⟩ := List.mem_map.1 hx
      exact le_of_lt (h2 y (by simp [hy])).2.1
    have hst : 0 ≤ (if ct < p.ArrivalTime then p.ArrivalTime else ct) ∧
        p.ArrivalTime ≤ (if ct < p.ArrivalTime then p.ArrivalTime else ct) ∧
        (if ct < p.ArrivalTime then p.ArrivalTime else ct) + p.BurstTime + totalBurst ps
          < 2 ^ 63 := by
      split <;> omega
    simp only [fcfsLoop, Exact.fcfsLoop]
    generalize (if ct < p.ArrivalTime then p.ArrivalTime else ct) = start at hst ⊢
    rw [wrap_eq (x := start - p.ArrivalTime) (by omega) (by omega),
      wrap_eq (x := start + p.BurstTime) (by omega) (by omega)]
    have hsm : ∀ x : Process, x.ArrivalTime = p.ArrivalTime → x.BurstTime = p.BurstTime →
        setMetrics (start + p.BurstTime) x = Exact.setMetrics (start + p.BurstTime) x := by
      intro x hx1 hx2
      exact setMetrics_exact _ x (by omega) (by omega) (by omega) (by omega)
    rw [hsm _ (by simp) (by simp), ih (start + p.BurstTime) (by omega) (by omega)
      (fun x hx => by
        have := h2 x (by simp [hx])
        rw [htb] at this
        omega)]

theorem totalBurst_perm {l1 l2 : List Process} (h : l1.Perm l2) :
    totalBurst l1 = totalBurst l2 := by
  unfold totalBurst
  exact (h.map _).sum_eq

theorem runFCFS_exact
    (sortSlice : (Process → Process → Bool) → List Process → List Process)
    (hsort : SortSliceSpec sortSlice) (processes : List Process) (hwf : WellFormed processes)
    (hr : InRange processes) :
    runFCFS sortSlice processes = Exact.runFCFS sortSlice processes := by
  obtain ⟨hne, hall⟩ := hwf
  have hperm := (hsort (fun p => p.ArrivalTime) processes).1
  have htb := totalBurst_perm hperm
  obtain ⟨p0, hp0⟩ := List.exists_mem_of_ne_nil processes hne
  have hlim : 0 + totalBurst processes < 2 ^ 63 := by
    have := hr p0 hp0
    have := (hall p0 hp0).2.1
    omega
  unfold runFCFS Exact.runFCFS
  simp only []
  rw [fcfsLoop_exact _ 0 le_rfl (by rw [htb]; exact hlim) (fun p hp => by
    have hp2 := hperm.subset hp
    have := hall p hp2
    have := hr p hp2
    rw [htb]
    omega)]

/-! # The engines whatever the clock does

The theorems of this part hold for every well-formed input, in range or not:
they follow the code through a clock that may have wrapped around. -/

/-! ## Field lemmas -/

@[simp] theorem id_markStarted (t : Int) (p : Process) : (markStarted t p).ID = p.ID := by
  unfold markStarted; split <;> rfl

@[simp] theorem arrivalTime_markStarted (t : Int) (p : Process) :
    (markStarted t p).ArrivalTime = p.ArrivalTime := by
  unfold markStarted; split <;> rfl

@[simp] theorem burstTime_markStarted (t : Int) (p : Process) :
    (markStarted t p).BurstTime = p.BurstTime := by
  unfold markStarted; split <;> rfl

@[simp] theorem remainingTime_markStarted (t : Int) (p : Process) :
    (markStarted t p).RemainingTime = p.RemainingTime := by
  unfold markStarted; split <;> rfl

@[simp] theorem priority_markStarted (t : Int) (p : Process) :
    (markStarted t p).Priority = p.Priority := by
  unfold markStarted; split <;> rfl

@[simp] theorem static_markStarted (t : Int) (p : Process) :
    static (markStarted t p) = static p := by
  simp [static]

@[simp] theorem id_setMetrics (t : Int) (p : Process) : (setMetrics t p).ID = p.ID := rfl

@[simp] theorem arrivalTime_setMetrics (t : Int) (p : Process) :
    (setMetrics t p).ArrivalTime = p.ArrivalTime := rfl

@[simp] theorem burstTime_setMetrics (t : Int) (p : Process) :
    (setMetrics t p).BurstTime = p.BurstTime := rfl

@[simp] theorem remainingTime_setMetrics (t : Int) (p : Process) :
    (setMetrics t p).RemainingTime = p.RemainingTime := rfl

@[simp] theorem priority_setMetrics (t : Int) (p : Process) :
    (setMetrics t p).Priority = p.Priority := rfl

@[simp] theorem static_setMetrics (t : Int) (p : Process) :
    static (setMetrics t p) = static p := rfl

/-! ## The loop of `runSJF` and `runNonPreemptivePriority` -/

/-- The state after a pass: an idle advance, or the dispatch of `p = procs[i]`. -/
theorem npStep_next (key : Process → Int) (s t : NPState) (h : npStep key s = .next t) :
    0 < s.remainingProcesses ∧
    ((selectIdx key s.currentTime s.procs = none ∧
        t = { s with currentTime := nextArrival s.procs }) ∨
     (∃ i p, selectIdx key s.currentTime s.procs = some i ∧ s.procs[i]? = some p ∧
        Ready s.currentTime p ∧
        t = { procs := s.procs.set i
                { setMetrics (wrap (s.currentTime + p.RemainingTime))
                    (markStarted s.currentTime p) with RemainingTime := 0 },
              timeline := s.timeline ++
                [{ ProcessID := p.ID, StartTime := s.currentTime,
                   EndTime := wrap (s.currentTime + p.RemainingTime) }],
              completed := s.completed ++
                [{ setMetrics (wrap (s.currentTime + p.RemainingTime))
                    (markStarted s.currentTime p) with RemainingTime := 0 }],
              currentTime := wrap (s.currentTime + p.RemainingTime),
              remainingProcesses := s.remainingProcesses - 1 })) := by
  unfold npStep at h
  split at h
  · rename_i hpos
    refine ⟨hpos, ?_⟩
    split at h
    · rename_i hsel
      left
      exact ⟨hsel, by injection h with h; exact h.symm⟩
    · rename_i i hsel
      obtain ⟨p, hp, hr⟩ := selectIdx_some key _ _ i hsel
      right
      refine ⟨i, p, hsel, hp, hr, ?_⟩
      simp only [hp] at h
      injection h with h
      rw [← h]
      simp
  · exact absurd h (by simp)

theorem npStep_sound (key : Process → Int) (s : NPState) : npStep key s ≠ .fault := by
  unfold npStep
  split
  · split
    · simp
    · rename_i i hsel
      obtain ⟨p, hp, _⟩ := selectIdx_some key _ _ i hsel
      simp [hp]
  · simp

theorem npStep_left (key : Process → Int) (s r : NPState) (h : npStep key s = .done r) :
    r = s ∧ s.remainingProcesses = 0 := by
  unfold npStep at h
  split at h
  · split at h
    · simp at h
    · split at h <;> simp at h
  · rename_i hz
    injection h with h
    exact ⟨h.symm, by omega⟩

theorem npCore_of_inv {ps0 : List Process} {s : NPState} (h : NPInv ps0 s) : NPCore ps0 s :=
  ⟨h.static_eq, h.arrival, h.rem, h.count⟩

/-- A pass keeps the invariant and lowers the measure, whatever the clock. -/
theorem npCore_step (key : Process → Int) (ps0 : List Process) (s t : NPState)
    (hinv : NPCore ps0 s) (h : npStep key s = .next t) :
    NPCore ps0 t ∧ npMeasure key t < npMeasure key s := by
  obtain ⟨hpos, hc⟩ := npStep_next key s t h
  have hex : ∃ p ∈ s.procs, p.RemainingTime > 0 := by
    have hc := hinv.count
    have hc2 : 0 < s.procs.countP fun p => decide (p.RemainingTime > 0) := by omega
    obtain ⟨a, ha, hf⟩ := exists_of_countP_pos _ s.procs hc2
    exact ⟨a, ha, by simpa using hf⟩
  rcases hc with ⟨hsel, rfl⟩ | ⟨i, p, hsel, hp, hr, rfl⟩
  · obtain ⟨hmin, q, hq, hqr, hqa⟩ := nextArrival_spec s.procs hinv.arrival hex
    refine ⟨⟨hinv.static_eq, hinv.arrival, hinv.rem, hinv.count⟩, ?_⟩
    have hsel2 : selectIdx key (nextArrival s.procs) s.procs ≠ none := by
      intro hn
      have := (selectIdx_none key _ _).1 hn q hq
      exact this ⟨hqr, by omega⟩
    simp only [npMeasure, hsel, hsel2, if_true, if_false]
    omega
  · have hpm : p ∈ s.procs := mem_of_getElem?_eq hp
    have hrem := hinv.rem p hpm
    refine ⟨⟨?_, ?_, ?_, ?_⟩, ?_⟩
    · rw [map_set_same static s.procs i p _ hp (by simp [static])]
      exact hinv.static_eq
    · exact forall_mem_set hinv.arrival (by simpa using hinv.arrival p hpm)
    · exact forall_mem_set hinv.rem (by simpa using hrem.1)
    · have key2 : ∀ x : Process, x.RemainingTime = 0 → s.remainingProcesses - 1 =
          List.countP (fun p => decide (p.RemainingTime > 0)) (s.procs.set i x) := by
        intro x hx
        have := countP_set_drop (fun p : Process => decide (p.RemainingTime > 0)) s.procs i p x
          hp (by simpa using hr.1) (by simp [hx])
        have hc := hinv.count
        omega
      exact key2 _ rfl
    · simp only [npMeasure]
      split <;> split <;> omega

theorem npInit_core (ps0 : List Process) (hne : ps0 ≠ [])
    (hwf : ∀ p ∈ ps0, 0 < p.BurstTime ∧ 0 ≤ p.ArrivalTime ∧ p.RemainingTime = p.BurstTime) :
    ∃ s0, npInit ps0 = some s0 ∧ NPCore ps0 s0 ∧ s0.procs = ps0 ∧ s0.timeline = [] ∧
      s0.completed = [] ∧ s0.remainingProcesses = ps0.length ∧
      (∀ p ∈ ps0, s0.currentTime ≤ p.ArrivalTime) ∧ ∃ p ∈ ps0, p.ArrivalTime = s0.currentTime := by
  obtain ⟨s0, hs0, hinv⟩ := Exact.npInit_inv ps0 hne hwf
  obtain ⟨t, ht, hmin, hq⟩ := earliestArrival_spec hne
  simp only [npInit, ht, Option.some.injEq] at hs0
  subst hs0
  exact ⟨_, by simp [npInit, ht], npCore_of_inv hinv, rfl, rfl, rfl, rfl, hmin, hq⟩

/-- The loop of `runSJF` and `runNonPreemptivePriority` ends whatever the clock
does, in a state that satisfies the invariant, has no unfinished process, and
has any further property `Extra` that the entry state has and the passes
keep. -/
theorem np_ends_with (key : Process → Int) (ps0 : List Process) (hne : ps0 ≠ [])
    (hwf : ∀ p ∈ ps0, 0 < p.BurstTime ∧ 0 ≤ p.ArrivalTime ∧ p.RemainingTime = p.BurstTime)
    (Extra : NPState → Prop)
    (hinit : ∀ s0, npInit ps0 = some s0 → Extra s0)
    (hstep : ∀ s t, NPCore ps0 s → Extra s → npStep key s = .next t → Extra t) :
    ∃ s0 r, npInit ps0 = some s0 ∧
      Returns (fun fuel => iterate (npStep key) fuel s0) r ∧ NPCore ps0 r ∧ Extra r ∧
      r.remainingProcesses = 0 := by
  obtain ⟨s0, hs0, hinv, _⟩ := npInit_core ps0 hne hwf
  obtain ⟨r, hret, hr, hd⟩ := returns_of_inv (npStep key)
    (fun s => NPCore ps0 s ∧ Extra s) (npMeasure key)
    (fun s t hs hst =>
      ⟨⟨(npCore_step key ps0 s t hs.1 hst).1, hstep s t hs.1 hs.2 hst⟩,
        (npCore_step key ps0 s t hs.1 hst).2⟩)
    (fun s _ => npStep_sound key s)
    (fun s r h => (npStep_left key s r h).1) s0 ⟨hinv, hinit s0 hs0⟩
  exact ⟨s0, r, hs0, hret, hr.1, hr.2, (npStep_left key r r hd).2⟩

/-- The loop of `runSJF` and `runNonPreemptivePriority` is left after at most two
passes per process, and one more. -/
theorem np_passes (key : Process → Int) (ps0 : List Process) (hne : ps0 ≠ [])
    (hwf : ∀ p ∈ ps0, 0 < p.BurstTime ∧ 0 ≤ p.ArrivalTime ∧ p.RemainingTime = p.BurstTime)
    (fuel : Nat) (hfuel : 2 * ps0.length + 1 ≤ fuel) :
    ∃ s0 r, npInit ps0 = some s0 ∧ iterate (npStep key) fuel s0 = some r := by
  obtain ⟨s0, hs0, hinv, _, _, _, hn, _⟩ := npInit_core ps0 hne hwf
  have hμ : npMeasure key s0 ≤ fuel := by
    unfold npMeasure
    rw [hn]
    split <;> omega
  obtain ⟨r, hr, _, _⟩ := iterate_of_inv (npStep key) (NPCore ps0) (npMeasure key)
    (fun s t hs hst => npCore_step key ps0 s t hs hst)
    (fun s _ => npStep_sound key s)
    (fun s r h => (npStep_left key s r h).1) fuel s0 hinv hμ
  exact ⟨s0, r, hs0, hr⟩

theorem runSJF_of_loop {ps : List Process} {s0 r : NPState} (h0 : npInit ps = some s0)
    (h : Returns (fun fuel => iterate (npStep fun p => p.BurstTime) fuel s0) r) :
    Returns (fun fuel => runSJF fuel ps) { Processes := r.completed, Timeline := r.timeline } := by
  obtain ⟨N, hN⟩ := h
  exact ⟨N, fun fuel hf => by simp [runSJF, h0, hN fuel hf]⟩

theorem runNonPreemptivePriority_of_loop {ps : List Process} {s0 r : NPState}
    (h0 : npInit ps = some s0)
    (h : Returns (fun fuel => iterate (npStep fun p => p.Priority) fuel s0) r) :
    Returns (fun fuel => runNonPreemptivePriority fuel ps)
      { Processes := r.procs, Timeline := r.timeline } := by
  obtain ⟨N, hN⟩ := h
  exact ⟨N, fun fuel hf => by simp [runNonPreemptivePriority, h0, hN fuel hf]⟩

/-! ### Non-preemptive Priority against SJF -/

/-- The pass of the loop depends on the key only through its values on the
processes. -/
theorem npStep_key (key1 key2 : Process → Int) (s : NPState)
    (h : ∀ p ∈ s.procs, key1 p = key2 p) : npStep key1 s = npStep key2 s := by
  unfold npStep selectIdx
  rw [Exact.selectFrom_congr key1 key2 s.currentTime s.procs h]

theorem iterate_npStep_key (key1 key2 : Process → Int) (ps0 : List Process)
    (h : ∀ p ∈ ps0, key1 p = key2 p)
    (hkey : ∀ p q : Process, static p = static q → key1 p = key1 q ∧ key2 p = key2 q) :
    ∀ (fuel : Nat) (s : NPState), s.procs.map static = ps0.map static →
      iterate (npStep key1) fuel s = iterate (npStep key2) fuel s := by
  have hall : ∀ s : NPState, s.procs.map static = ps0.map static →
      ∀ p ∈ s.procs, key1 p = key2 p := by
    intro s hs p hp
    obtain ⟨i, hi, hpi⟩ := List.mem_iff_getElem.1 hp
    have hp2 : s.procs[i]? = some p := by
      rw [List.getElem?_eq_some]
      exact ⟨hi, hpi⟩
    obtain ⟨q, hq, hqs⟩ := static_getElem? hs hp2
    have := hkey q p hqs
    rw [← this.1, ← this.2]
    exact h q (mem_of_getElem?_eq hq)
  have hstat : ∀ s t : NPState, s.procs.map static = ps0.map static →
      npStep key2 s = .next t → t.procs.map static = ps0.map static := by
    intro s t hs hst
    obtain ⟨_, hc⟩ := npStep_next key2 s t hst
    rcases hc with ⟨_, rfl⟩ | ⟨i, p, _, hp, _, rfl⟩
    · exact hs
    · show (s.procs.set i _).map static = _
      rw [map_set_same static s.procs i p _ hp (by simp [static])]
      exact hs
  exact fun fuel s hs => iterate_congr_of_inv (npStep key1) (npStep key2)
    (fun s => s.procs.map static = ps0.map static) hstat
    (fun s hs => npStep_key key1 key2 s (hall s hs)) fuel s hs

/-- The list `completed` of `runSJF` holds the finished processes of `procs`. -/
theorem npCompleted_next (key : Process → Int) (s t : NPState)
    (hc : s.completed.Perm (s.procs.filter fun p => decide (p.RemainingTime = 0)))
    (h : npStep key s = .next t) :
    t.completed.Perm (t.procs.filter fun p => decide (p.RemainingTime = 0)) := by
  obtain ⟨_, hcase⟩ := npStep_next key s t h
  rcases hcase with ⟨_, rfl⟩ | ⟨i, p, _, hp, hr, rfl⟩
  · exact hc
  · have hx := Exact.filter_set_perm (fun p : Process => decide (p.RemainingTime = 0)) s.procs i p
      { setMetrics (wrap (s.currentTime + p.RemainingTime)) (markStarted s.currentTime p)
        with RemainingTime := 0 } hp (by have := hr.1; simp; omega) (by simp)
    refine List.Perm.trans ?_ hx.symm
    exact (List.perm_append_singleton _ _).trans (List.Perm.cons _ hc)

/-! ## The loop of `runSRTF` and `runPreemptivePriority` -/

/-- The time slice that the scan leaves is positive, at most the one it started
from, and either that one or the distance to an arrival that cuts it; the clock
plus a slice that was cut does not leave the range. -/
theorem timeSliceFrom_spec (preempts : Process → Process → Int → Bool) (sel : Process)
    (ct : Int) (hct : 0 ≤ ct) (all : List Process) (ts0 : Int) (ps : List Process)
    (hsub : ∀ q ∈ ps, q ∈ all) :
    ∀ ts, 0 < ts → ts ≤ ts0 → (ts = ts0 ∨ ∃ q ∈ all, Cuts preempts sel ct ts q) →
      0 < timeSliceFrom preempts sel ct ts ps ∧ timeSliceFrom preempts sel ct ts ps ≤ ts0 ∧
      (timeSliceFrom preempts sel ct ts ps = ts0 ∨
        ∃ q ∈ all, Cuts preempts sel ct (timeSliceFrom preempts sel ct ts ps) q) := by
  induction ps with
  | nil => intro ts h1 h2 h3; exact ⟨h1, h2, h3⟩
  | cons p ps ih =>
    intro ts h1 h2 h3
    have ih2 := ih (fun q hq => hsub q (by simp [hq]))
    simp only [timeSliceFrom]
    split
    · rename_i hc
      split
      · rename_i hpre
        obtain ⟨hc1, hc2, hc3⟩ := hc
        have hw := wrap_le_self (x := ct + ts) (by omega)
        have hu := wrap_upper (ct + ts)
        have he : wrap (p.ArrivalTime - ct) = p.ArrivalTime - ct :=
          wrap_eq (by omega) (by omega)
        rw [he]
        exact ih2 _ (by omega) (by omega)
          (Or.inr ⟨p, hsub p (by simp), hc1, hc2, by omega, by omega, hpre⟩)
      · exact ih2 ts h1 h2 h3
    · exact ih2 ts h1 h2 h3

/-- What a dispatching pass does: the segment closed by a process switch, then
the time slice, then the completion test. -/
theorem pRun_next (preempts : Process → Process → Int → Bool) (s t : PState) (i : Nat)
    (p : Process) (h : pRun preempts s i p = .next t) :
    ∃ tl1 start1,
      ((s.currentProcess = none ∧ tl1 = s.timeline ∧ start1 = s.currentTime) ∨
       (s.currentProcess = some i ∧ tl1 = s.timeline ∧ start1 = s.currentSegmentStart) ∨
       (∃ c pc, s.currentProcess = some c ∧ c ≠ i ∧ s.procs[c]? = some pc ∧
          tl1 = s.timeline ++ [{ ProcessID := pc.ID, StartTime := s.currentSegmentStart,
                                 EndTime := s.currentTime }] ∧
          start1 = s.currentTime)) ∧
      ∃ ts, ts = timeSliceFrom preempts (markStarted s.currentTime p) s.currentTime
                  p.RemainingTime (s.procs.set i (markStarted s.currentTime p)) ∧
        ((wrap (p.RemainingTime - ts) = 0 ∧
          t = { procs := s.procs.set i
                  (setMetrics (wrap (s.currentTime + ts))
                    { markStarted s.currentTime p with
                      RemainingTime := wrap (p.RemainingTime - ts) }),
                timeline := tl1 ++ [{ ProcessID := p.ID, StartTime := start1,
                                       EndTime := wrap (s.currentTime + ts) }],
                currentTime := wrap (s.currentTime + ts),
                remainingProcesses := s.remainingProcesses - 1,
                currentProcess := none,
                currentSegmentStart := start1 }) ∨
         (wrap (p.RemainingTime - ts) ≠ 0 ∧
          t = { procs := s.procs.set i
                  { markStarted s.currentTime p with
                    RemainingTime := wrap (p.RemainingTime - ts) },
                timeline := tl1,
                currentTime := wrap (s.currentTime + ts),
                remainingProcesses := s.remainingProcesses,
                currentProcess := some i,
                currentSegmentStart := start1 })) := by
  unfold pRun at h
  simp only at h
  split at h
  · exact absurd h (by simp)
  · rename_i tl1 start1 hsw
    refine ⟨tl1, start1, ?_, _, rfl, ?_⟩
    · split at hsw
      · rename_i hcur
        simp only [Option.some.injEq, Prod.mk.injEq] at hsw
        exact Or.inl ⟨hcur, hsw.1.symm, hsw.2.symm⟩
      · rename_i c hcur
        split at hsw
        · rename_i hci
          split at hsw
          · exact absurd hsw (by simp)
          · rename_i pc hpc
            simp only [Option.some.injEq, Prod.mk.injEq] at hsw
            rw [List.getElem?_set_ne (Ne.symm hci)] at hpc
            exact Or.inr (Or.inr ⟨c, pc, hcur, hci, hpc, hsw.1.symm, hsw.2.symm⟩)
        · rename_i hci
          simp only [Option.some.injEq, Prod.mk.injEq] at hsw
          have hci : c = i := by simpa using hci
          subst hci
          exact Or.inr (Or.inl ⟨hcur, hsw.1.symm, hsw.2.symm⟩)
    · simp only [remainingTime_markStarted] at h
      split at h
      · rename_i hz
        left
        refine ⟨hz, ?_⟩
        injection h with h
        rw [← h]
        simp [List.set_set]
      · rename_i hz
        right
        refine ⟨hz, ?_⟩
        injection h with h
        rw [← h]
        simp [List.set_set]



theorem pStep_left (key : Process → Int) (preempts : Process → Process → Int → Bool)
    (s r : PState) (h : pStep key preempts s = .done r) :
    r = s ∧ s.remainingProcesses = 0 := by
  unfold pStep at h
  split at h
  · split at h
    · unfold pIdle at h
      simp only at h
      split at h
      · simp at h
      · split at h <;> simp at h
    · split at h
      · simp at h
      · unfold pRun at h
        simp only at h
        split at h
        · simp at h
        · split at h <;> simp at h
  · injection h with h
    exact ⟨h.symm, by omega⟩

/-- A pass of the loop, whatever the clock: an idle advance with no segment in
progress, or the dispatch of `p = procs[i]` for a time slice `ts` that either
completes `p` or was cut by an arrival; a slice that was cut ends at that
arrival, inside the range. -/
theorem pStep_pass (key : Process → Int) (preempts : Process → Process → Int → Bool)
    (ps0 : List Process) (s t : PState) (hinv : PCore ps0 s)
    (h : pStep key preempts s = .next t) :
    0 < s.remainingProcesses ∧
    ((selectIdx key s.currentTime s.procs = none ∧ s.currentProcess = none ∧
        t = { s with currentTime := nextArrival s.procs }) ∨
     (∃ i p tl1 start1 ts, selectIdx key s.currentTime s.procs = some i ∧
        s.procs[i]? = some p ∧ Ready s.currentTime p ∧
        ((s.currentProcess = none ∧ tl1 = s.timeline ∧ start1 = s.currentTime) ∨
         (s.currentProcess = some i ∧ tl1 = s.timeline ∧ start1 = s.currentSegmentStart) ∨
         (∃ c pc, s.currentProcess = some c ∧ c ≠ i ∧ s.procs[c]? = some pc ∧
            tl1 = s.timeline ++ [{ ProcessID := pc.ID, StartTime := s.currentSegmentStart,
                                   EndTime := s.currentTime }] ∧
            start1 = s.currentTime)) ∧
        0 < ts ∧ ts ≤ p.RemainingTime ∧
        ((ts = p.RemainingTime ∧
          t = { procs := s.procs.set i
                  (setMetrics (wrap (s.currentTime + ts))
                    { markStarted s.currentTime p with RemainingTime := 0 }),
                timeline := tl1 ++ [{ ProcessID := p.ID, StartTime := start1,
                                       EndTime := wrap (s.currentTime + ts) }],
                currentTime := wrap (s.currentTime + ts),
                remainingProcesses := s.remainingProcesses - 1,
                currentProcess := none,
                currentSegmentStart := start1 }) ∨
         (ts < p.RemainingTime ∧
          (∃ q ∈ s.procs, Cuts preempts (markStarted s.currentTime p) s.currentTime ts q) ∧
          t = { procs := s.procs.set i
                  { markStarted s.currentTime p with RemainingTime := p.RemainingTime - ts },
                timeline := tl1,
                currentTime := s.currentTime + ts,
                remainingProcesses := s.remainingProcesses,
                currentProcess := some i,
                currentSegmentStart := start1 })))) := by
  unfold pStep at h
  split at h
  · rename_i hpos
    refine ⟨hpos, ?_⟩
    split at h
    · rename_i hsel
      left
      have hcur : s.currentProcess = none := by
        cases hcp : s.currentProcess with
        | none => rfl
        | some c =>
          obtain ⟨pc, hpc, hrc⟩ := hinv.current c hcp
          exact absurd hsel
            (Exact.selectIdx_ne_none_of_ready key _ _ pc (mem_of_getElem?_eq hpc) hrc)
      refine ⟨hsel, hcur, ?_⟩
      unfold pIdle at h
      simp only [hcur] at h
      injection h with h
      rw [← h, hcur]
    · rename_i i hsel
      obtain ⟨p, hp, hr⟩ := selectIdx_some key _ _ i hsel
      simp only [hp] at h
      right
      have hpm : p ∈ s.procs := mem_of_getElem?_eq hp
      have hrem := hinv.rem p hpm
      have ha := hinv.arrival p hpm
      have hr1 := hr.1
      have hr2 := hr.2
      obtain ⟨tl1, start1, hsw, ts, hts, hfin⟩ := pRun_next preempts s t i p h
      obtain ⟨hts1, hts2, hts3⟩ := timeSliceFrom_spec preempts (markStarted s.currentTime p)
        s.currentTime (by omega) (s.procs.set i (markStarted s.currentTime p)) p.RemainingTime
        (s.procs.set i (markStarted s.currentTime p)) (fun q hq => hq) p.RemainingTime hr1 le_rfl
        (Or.inl rfl)
      rw [← hts] at hts1 hts2 hts3
      have hw : wrap (p.RemainingTime - ts) = p.RemainingTime - ts :=
        wrap_eq (by omega) (by omega)
      rw [hw] at hfin
      refine ⟨i, p, tl1, start1, ts, hsel, hp, hr, hsw, hts1, hts2, ?_⟩
      rcases hfin with ⟨hz, rfl⟩ | ⟨hz, rfl⟩
      · left
        refine ⟨by omega, ?_⟩
        rw [hz]
      · right
        have hlt : ts < p.RemainingTime := by omega
        rcases hts3 with h3 | ⟨q, hq, hcut⟩
        · omega
        · have hq2 : q ∈ s.procs := by
            rcases List.mem_or_eq_of_mem_set hq with h4 | h4
            · exact h4
            · exfalso
              have h5 := hcut.2.1
              rw [h4] at h5
              simp at h5
              omega
          have hq3 := hcut.2.2.1
          have hq4 := hcut.2.1
          have hq5 := hinv.rem q hq2
          have hq6 := hcut.2.2.2.1
          have hin : wrap (s.currentTime + ts) = s.currentTime + ts :=
            wrap_eq (by omega) (by omega)
          rw [hin]
          exact ⟨hlt, ⟨q, hq2, hcut⟩, rfl⟩
  · exact absurd h (by simp)



theorem pStep_sound (key : Process → Int) (preempts : Process → Process → Int → Bool)
    (ps0 : List Process) (s : PState) (hinv : PCore ps0 s) :
    pStep key preempts s ≠ .fault := by
  unfold pStep
  split
  · split
    · rename_i hsel
      have hcur : s.currentProcess = none := by
        cases hcp : s.currentProcess with
        | none => rfl
        | some c =>
          obtain ⟨pc, hpc, hrc⟩ := hinv.current c hcp
          exact absurd hsel
            (Exact.selectIdx_ne_none_of_ready key _ _ pc (mem_of_getElem?_eq hpc) hrc)
      simp [pIdle, hcur]
    · rename_i i hsel
      obtain ⟨p, hp, _⟩ := selectIdx_some key _ _ i hsel
      simp only [hp]
      unfold pRun
      simp only
      split
      · rename_i hsw
        split at hsw
        · simp at hsw
        · rename_i c hcur
          split at hsw
          · rename_i hci
            obtain ⟨pc, hpc, _⟩ := hinv.current c hcur
            rw [List.getElem?_set_ne (Ne.symm hci), hpc] at hsw
            simp at hsw
          · simp at hsw
      · split <;> simp
  · simp

/-- A pass keeps the invariant and lowers the measure, whatever the clock. -/
theorem pCore_step (key : Process → Int) (preempts : Process → Process → Int → Bool)
    (ps0 : List Process) (s t : PState)
    (hinv : PCore ps0 s) (h : pStep key preempts s = .next t) :
    PCore ps0 t ∧ pMeasure key t < pMeasure key s := by
  obtain ⟨hpos, hc⟩ := pStep_pass key preempts ps0 s t hinv h
  have hex : ∃ p ∈ s.procs, p.RemainingTime > 0 := by
    have hc := hinv.count
    have hc2 : 0 < s.procs.countP fun p => decide (p.RemainingTime > 0) := by omega
    obtain ⟨a, ha, hf⟩ := exists_of_countP_pos _ s.procs hc2
    exact ⟨a, ha, by simpa using hf⟩
  rcases hc with ⟨hsel, hcur, rfl⟩ | ⟨i, p, tl1, start1, ts, hsel, hp, hr, hsw, hts1, hts2, hfin⟩
  · obtain ⟨hmin, q, hq, hqr, hqa⟩ := nextArrival_spec s.procs hinv.arrival hex
    refine ⟨⟨hinv.static_eq, hinv.arrival, hinv.rem, hinv.count, ?_⟩, ?_⟩
    · intro c hc
      simp [hcur] at hc
    · have hsel2 : selectIdx key (nextArrival s.procs) s.procs ≠ none :=
        Exact.selectIdx_ne_none_of_ready key _ _ q hq ⟨hqr, by omega⟩
      simp only [pMeasure, hsel, hsel2, if_true, if_false]
      omega
  · have hpm : p ∈ s.procs := mem_of_getElem?_eq hp
    have hrem := hinv.rem p hpm
    have hr1 := hr.1
    have hr2 := hr.2
    have hstat : ∀ x : Process, static x = static p →
        (s.procs.set i x).map static = ps0.map static := by
      intro x hx
      rw [map_set_same static s.procs i p x hp hx]
      exact hinv.static_eq
    have hremx : ∀ x : Process, x.BurstTime = p.BurstTime →
        x.RemainingTime = p.RemainingTime - ts →
        ∀ a ∈ s.procs.set i x,
          0 < a.BurstTime ∧ 0 ≤ a.RemainingTime ∧ a.RemainingTime ≤ a.BurstTime ∧
            a.BurstTime < 2 ^ 63 := by
      intro x hb hx
      exact forall_mem_set hinv.rem ⟨by omega, by omega, by omega, by omega⟩
    have hμ : ∀ x : Process, x.RemainingTime = p.RemainingTime - ts → ∀ k : Nat, k ≤ 1 →
        2 * (totalRemaining (s.procs.set i x)).toNat + k < pMeasure key s := by
      intro x hx k hk
      have h1 := Exact.totalRemaining_set s.procs i p x hp
      have h2 := Exact.totalRemaining_ge_of_mem s.procs (fun a ha => (hinv.rem a ha).2.1) p hpm
      simp only [pMeasure]
      split <;> omega
    rcases hfin with ⟨hz, rfl⟩ | ⟨hz, ⟨q, hq, hcut⟩, rfl⟩
    · refine ⟨⟨hstat _ (by simp [static]), ?_, hremx _ (by simp) (by simp; omega), ?_, ?_⟩, ?_⟩
      · exact forall_mem_set hinv.arrival (by simpa using hinv.arrival p hpm)
      · have key2 : ∀ x : Process, x.RemainingTime = 0 → s.remainingProcesses - 1 =
            List.countP (fun p => decide (p.RemainingTime > 0)) (s.procs.set i x) := by
          intro x hx
          have := countP_set_drop (fun p : Process => decide (p.RemainingTime > 0)) s.procs i p x
            hp (by simpa using hr.1) (by simp [hx])
          have hc := hinv.count
          omega
        exact key2 _ (by simp)
      · intro c hc
        simp at hc
      · simp only [pMeasure]
        have := hμ (setMetrics (wrap (s.currentTime + ts))
          { markStarted s.currentTime p with RemainingTime := 0 })
          (by simp; omega)
        split
        · exact this 1 le_rfl
        · exact this 0 (by omega)
    · refine ⟨⟨hstat _ (by simp [static]), ?_, hremx _ (by simp) (by simp), ?_, ?_⟩, ?_⟩
      · exact forall_mem_set hinv.arrival (by simpa using hinv.arrival p hpm)
      · have key2 : ∀ x : Process, x.RemainingTime > 0 → s.remainingProcesses =
            List.countP (fun p => decide (p.RemainingTime > 0)) (s.procs.set i x) := by
          intro x hx
          have := countP_set_same (fun p : Process => decide (p.RemainingTime > 0)) s.procs i p x
            hp (by have := hr.1; simp [hx, this])
          have hc := hinv.count
          omega
        exact key2 _ (by simp; omega)
      · intro c hc
        simp only [Option.some.injEq] at hc
        subst hc
        have hil : i < s.procs.length := by
          rw [List.getElem?_eq_some] at hp
          exact hp.1
        have hget : ∀ x : Process, (s.procs.set i x)[i]? = some x := by
          intro x
          simp [List.getElem?_set, hil]
        refine ⟨_, hget _, ⟨?_, ?_⟩⟩
        · simp only [remainingTime_markStarted]
          omega
        · simp only [arrivalTime_markStarted]
          omega
      · simp only [pMeasure]
        have := hμ
          { markStarted s.currentTime p with RemainingTime := p.RemainingTime - ts } (by simp)
        split
        · exact this 1 le_rfl
        · exact this 0 (by omega)

/-- The state in which `runSRTF` and `runPreemptivePriority` enter their loop. -/
theorem pInit_core (ps0 : List Process) (hne : ps0 ≠ [])
    (hwf : ∀ p ∈ ps0, 0 < p.BurstTime ∧ 0 ≤ p.ArrivalTime ∧ p.RemainingTime = p.BurstTime)
    (hgo : GoInts ps0) :
    ∃ s0, pInit ps0 = some s0 ∧ PCore ps0 s0 ∧ s0.procs = resetStarted ps0 ∧
      s0.timeline = [] ∧ s0.currentProcess = none ∧
      (∀ p ∈ ps0, s0.currentTime ≤ p.ArrivalTime) ∧ ∃ p ∈ ps0, p.ArrivalTime = s0.currentTime := by
  obtain ⟨s0, hs0, hinv, hp0, ht0, hc0⟩ := Exact.pInit_inv ps0 hne hwf
  obtain ⟨t, ht, hmin, q, hq, hqt⟩ := earliestArrival_spec (Exact.resetStarted_ne_nil hne)
  have hs : s0.currentTime = t := by
    simp only [pInit, ht, Option.some.injEq] at hs0
    subst hs0
    rfl
  refine ⟨s0, hs0, ⟨hinv.static_eq, hinv.arrival, ?_, hinv.count, ?_⟩, hp0, ht0, hc0, ?_, ?_⟩
  · intro p hp
    have h1 := hinv.rem p hp
    rw [hp0] at hp
    obtain ⟨p0, hp0m, rfl⟩ := Exact.mem_resetStarted hp
    exact ⟨h1.1, h1.2.1, h1.2.2, (hgo p0 hp0m).2.1.2⟩
  · intro c hc
    rw [hc0] at hc
    simp at hc
  · intro p hp
    rw [hs]
    have : ({ p with IsStarted := false } : Process) ∈ resetStarted ps0 := by
      unfold resetStarted
      exact List.mem_map.2 ⟨p, hp, rfl⟩
    exact hmin { p with IsStarted := false } this
  · obtain ⟨q0, hq0, rfl⟩ := Exact.mem_resetStarted hq
    exact ⟨q0, hq0, by rw [hs]; exact hqt⟩

/-- The loop of `runSRTF` and `runPreemptivePriority` ends whatever the clock
does, in a state that satisfies the invariant, has no unfinished process, and
has any further property `Extra` that the entry state has and the passes
keep. -/
theorem p_ends_with (key : Process → Int) (preempts : Process → Process → Int → Bool)
    (ps0 : List Process) (hne : ps0 ≠ [])
    (hwf : ∀ p ∈ ps0, 0 < p.BurstTime ∧ 0 ≤ p.ArrivalTime ∧ p.RemainingTime = p.BurstTime)
    (hgo : GoInts ps0) (Extra : PState → Prop)
    (hinit : ∀ s0, pInit ps0 = some s0 → Extra s0)
    (hstep : ∀ s t, PCore ps0 s → Extra s → pStep key preempts s = .next t → Extra t) :
    ∃ s0 r, pInit ps0 = some s0 ∧
      Returns (fun fuel => iterate (pStep key preempts) fuel s0) r ∧ PCore ps0 r ∧ Extra r ∧
      r.remainingProcesses = 0 := by
  obtain ⟨s0, hs0, hinv, _⟩ := pInit_core ps0 hne hwf hgo
  obtain ⟨r, hret, hr, hd⟩ := returns_of_inv (pStep key preempts)
    (fun s => PCore ps0 s ∧ Extra s) (pMeasure key)
    (fun s t hs hst =>
      ⟨⟨(pCore_step key preempts ps0 s t hs.1 hst).1, hstep s t hs.1 hs.2 hst⟩,
        (pCore_step key preempts ps0 s t hs.1 hst).2⟩)
    (fun s hs => pStep_sound key preempts ps0 s hs.1)
    (fun s r h => (pStep_left key preempts s r h).1) s0 ⟨hinv, hinit s0 hs0⟩
  exact ⟨s0, r, hs0, hret, hr.1, hr.2, (pStep_left key preempts r r hd).2⟩

/-- The loop of `runSRTF` and `runPreemptivePriority` is left after at most two
passes per unit of burst time, and one more. -/
theorem p_passes (key : Process → Int) (preempts : Process → Process → Int → Bool)
    (ps0 : List Process) (hne : ps0 ≠ [])
    (hwf : ∀ p ∈ ps0, 0 < p.BurstTime ∧ 0 ≤ p.ArrivalTime ∧ p.RemainingTime = p.BurstTime)
    (hgo : GoInts ps0) (fuel : Nat) (hfuel : 2 * (totalRemaining ps0).toNat + 1 ≤ fuel) :
    ∃ s0 r, pInit ps0 = some s0 ∧ iterate (pStep key preempts) fuel s0 = some r := by
  obtain ⟨s0, hs0, hinv, hp0, _⟩ := pInit_core ps0 hne hwf hgo
  have hμ : pMeasure key s0 ≤ fuel := by
    unfold pMeasure
    rw [hp0, Exact.totalRemaining_resetStarted]
    split <;> omega
  obtain ⟨r, hr, _, _⟩ := iterate_of_inv (pStep key preempts) (PCore ps0) (pMeasure key)
    (fun s t hs hst => pCore_step key preempts ps0 s t hs hst)
    (fun s hs => pStep_sound key preempts ps0 s hs)
    (fun s r h => (pStep_left key preempts s r h).1) fuel s0 hinv hμ
  exact ⟨s0, r, hs0, hr⟩

theorem runSRTF_of_loop {ps : List Process} {s0 r : PState} (h0 : pInit ps = some s0)
    (h : Returns (fun fuel =>
      iterate (pStep (fun p => p.RemainingTime) srtfPreempts) fuel s0) r) :
    Returns (fun fuel => runSRTF fuel ps) { Processes := r.procs, Timeline := r.timeline } := by
  obtain ⟨N, hN⟩ := h
  exact ⟨N, fun fuel hf => by simp [runSRTF, h0, hN fuel hf]⟩

theorem runPreemptivePriority_of_loop {ps : List Process} {s0 r : PState}
    (h0 : pInit ps = some s0)
    (h : Returns (fun fuel =>
      iterate (pStep (fun p => p.Priority) priorityPreempts) fuel s0) r) :
    Returns (fun fuel => runPreemptivePriority fuel ps)
      { Processes := r.procs, Timeline := r.timeline } := by
  obtain ⟨N, hN⟩ := h
  exact ⟨N, fun fuel hf => by simp [runPreemptivePriority, h0, hN fuel hf]⟩

/-! ## The loop of `runRoundRobin` -/

theorem rrStep_next (q : Int) (s t : RRState) (h : rrStep q s = .next t) :
    s.completedCount < s.procs.length ∧
    ∃ ct idx rest p,
      ((s.readyQueue = idx :: rest ∧ ct = s.currentTime) ∨
       (s.readyQueue = [] ∧ rest = [] ∧
          findNextFrom s.currentTime s.procs 0 (-1, none) = (ct, some idx))) ∧
      s.procs[idx]? = some p ∧ t = rrDispatch q s ct idx rest p := by
  unfold rrStep at h
  split at h
  · rename_i hlt
    refine ⟨hlt, ?_⟩
    simp only at h
    split at h
    · simp at h
    · simp at h
    · rename_i ct idx rest href
      split at h
      · simp at h
      · rename_i p hp
        injection h with h
        refine ⟨ct, idx, rest, p, ?_, hp, h.symm⟩
        split at href
        · rename_i hq
          split at href
          · simp at href
          · rename_i a j hf
            simp only [Option.some.injEq, Prod.mk.injEq, List.cons.injEq] at href
            obtain ⟨h1, h2, h3⟩ := href
            subst h1 h2 h3
            exact Or.inr ⟨hq, rfl, hf⟩
        · rename_i a b hq
          simp only [Option.some.injEq, Prod.mk.injEq, List.cons.injEq] at href
          obtain ⟨h1, h2, h3⟩ := href
          subst h1 h2 h3
          exact Or.inl ⟨hq, rfl⟩
  · simp at h

theorem rrStep_left (q : Int) (s r : RRState) (h : rrStep q s = .done r) : r = s := by
  unfold rrStep at h
  split at h
  · simp only at h
    split at h
    · injection h with h; exact h.symm
    · simp at h
    · split at h <;> simp at h
  · injection h with h; exact h.symm

theorem rrStep_sound (q : Int) (ps0 : List Process) (s : RRState) (hinv : RRCore ps0 s) :
    rrStep q s ≠ .fault := by
  unfold rrStep
  split
  · simp only
    split
    · simp
    · rename_i href
      split at href
      · split at href <;> simp at href
      · simp at href
    · rename_i ct idx rest href
      have hidx : ∃ p, s.procs[idx]? = some p := by
        split at href
        · split at href
          · simp at href
          · rename_i a j hf
            simp only [Option.some.injEq, Prod.mk.injEq, List.cons.injEq] at href
            obtain ⟨h1, h2, h3⟩ := href
            subst h1 h2 h3
            rcases Exact.findNextFrom_some _ _ _ _ _ _ _ hf with ⟨h1, _⟩ | ⟨_, p, hp, _⟩
            · simp at h1
            · exact ⟨p, by simpa using hp⟩
        · rename_i a b hq
          simp only [Option.some.injEq, Prod.mk.injEq, List.cons.injEq] at href
          obtain ⟨h1, h2, h3⟩ := href
          subst h1 h2 h3
          have := hinv.queue a (by simp [hq])
          exact ⟨s.procs[a], by simp [List.getElem?_eq_getElem this]⟩
      obtain ⟨p, hp⟩ := hidx
      simp [hp]
  · simp

/-- The arrival scan appends indices into the working copy. -/
theorem arrivalsFrom_valid (now ex : Int) (ps : List Process) :
    ∀ (i : Nat) (queue : List Nat), ∀ j ∈ arrivalsFrom now ex ps i queue,
      j ∈ queue ∨ j < i + ps.length := by
  induction ps with
  | nil => intro i queue j hj; exact Or.inl hj
  | cons p ps ih =>
    intro i queue j hj
    simp only [arrivalsFrom] at hj
    split at hj
    · rcases ih (i + 1) _ j hj with h | h
      · rcases List.mem_append.1 h with h | h
        · exact Or.inl h
        · simp at h
          right
          simp only [List.length_cons]
          omega
      · right
        simp only [List.length_cons]
        omega
    · rcases ih (i + 1) _ j hj with h | h
      · exact Or.inl h
      · right
        simp only [List.length_cons]
        omega

/-- Unfinished processes have at least one unit of remaining time each. -/
theorem unfinished_le_totalRemaining (procs : List Process)
    (h : ∀ p ∈ procs, 0 ≤ p.RemainingTime) :
    ((procs.countP fun p => decide (p.RemainingTime > 0) : Nat) : Int) ≤ totalRemaining procs := by
  unfold totalRemaining
  induction procs with
  | nil => simp
  | cons p ps ih =>
    have hp := h p (by simp)
    have ih2 := ih (fun x hx => h x (by simp [hx]))
    simp only [List.countP_cons, List.map_cons, List.sum_cons]
    split
    · rename_i hpos
      simp at hpos
      push_cast
      omega
    · push_cast
      omega

/-- What the dispatch of `p = procs[idx]` leaves, for an unfinished and for a
finished `p`. -/
theorem rrDispatch_form (q : Int) (hq : 0 < q) (s : RRState) (ct : Int) (idx : Nat)
    (rest : List Nat) (p : Process) (hrem : 0 ≤ p.RemainingTime)
    (hb : p.RemainingTime < 2 ^ 63) :
    ∃ ex, ex = (if p.RemainingTime < q then p.RemainingTime else q) ∧ 0 ≤ ex ∧
      ex ≤ p.RemainingTime ∧ (0 < p.RemainingTime → 0 < ex) ∧
      rrDispatch q s ct idx rest p =
        if p.RemainingTime - ex > 0 then
          { procs := s.procs.set idx
              { markStarted ct p with RemainingTime := p.RemainingTime - ex },
            timeline := s.timeline ++
              [{ ProcessID := p.ID, StartTime := ct, EndTime := wrap (ct + ex) }],
            readyQueue := arrivalsFrom (wrap (ct + ex)) ex (s.procs.set idx
              { markStarted ct p with RemainingTime := p.RemainingTime - ex }) 0 rest ++ [idx],
            currentTime := wrap (ct + ex),
            completedCount := s.completedCount }
        else
          { procs := s.procs.set idx (setMetrics (wrap (ct + ex))
              { markStarted ct p with RemainingTime := p.RemainingTime - ex }),
            timeline := s.timeline ++
              [{ ProcessID := p.ID, StartTime := ct, EndTime := wrap (ct + ex) }],
            readyQueue := arrivalsFrom (wrap (ct + ex)) ex (s.procs.set idx
              { markStarted ct p with RemainingTime := p.RemainingTime - ex }) 0 rest,
            currentTime := wrap (ct + ex),
            completedCount := s.completedCount + 1 } := by
  have hex : 0 ≤ (if p.RemainingTime < q then p.RemainingTime else q) ∧
      (if p.RemainingTime < q then p.RemainingTime else q) ≤ p.RemainingTime ∧
      (0 < p.RemainingTime → 0 < (if p.RemainingTime < q then p.RemainingTime else q)) := by
    split <;> omega
  refine ⟨_, rfl, hex.1, hex.2.1, hex.2.2, ?_⟩
  unfold rrDispatch
  simp only [remainingTime_markStarted, id_markStarted]
  generalize (if p.RemainingTime < q then p.RemainingTime else q) = ex at hex ⊢
  rw [wrap_eq (x := p.RemainingTime - ex) (by omega) (by omega)]



/-- A pass keeps the invariant and lowers the measure, whatever the clock. -/
theorem rrCore_step (q : Int) (hq : 0 < q) (ps0 : List Process) (s t : RRState)
    (hinv : RRCore ps0 s) (h : rrStep q s = .next t) :
    RRCore ps0 t ∧ rrPasses t < rrPasses s := by
  obtain ⟨hlt, ct, idx, rest, p, hcase, hp, rfl⟩ := rrStep_next q s t h
  have hpm : p ∈ s.procs := mem_of_getElem?_eq hp
  have hrem := hinv.rem p hpm
  have hnn : ∀ a ∈ s.procs, 0 ≤ a.RemainingTime := fun a ha => (hinv.rem a ha).2.1
  have hrest : ∀ i ∈ rest, i < s.procs.length := by
    rcases hcase with ⟨hqu, _⟩ | ⟨_, hr, _⟩
    · intro i hi
      exact hinv.queue i (by simp [hqu, hi])
    · intro i hi
      simp [hr] at hi
  have hidx : idx < s.procs.length := by
    rw [List.getElem?_eq_some] at hp
    exact hp.1
  obtain ⟨ex, _, hex0, hex1, hex2, hform⟩ :=
    rrDispatch_form q hq s ct idx rest p hrem.2.1 (by omega)
  have hun := unfinished_le_totalRemaining s.procs hnn
  have hcore : ∀ x : Process, static x = static p → x.BurstTime = p.BurstTime →
      x.RemainingTime = p.RemainingTime - ex →
      (s.procs.set idx x).map static = ps0.map static ∧
      (∀ a ∈ s.procs.set idx x, 0 < a.BurstTime ∧ 0 ≤ a.RemainingTime ∧
        a.RemainingTime ≤ a.BurstTime ∧ a.BurstTime < 2 ^ 63) ∧
      totalRemaining (s.procs.set idx x) = totalRemaining s.procs - ex := by
    intro x hx1 hx2 hx3
    refine ⟨?_, ?_, ?_⟩
    · rw [map_set_same static s.procs idx p x hp hx1]
      exact hinv.static_eq
    · exact forall_mem_set hinv.rem ⟨by omega, by omega, by omega, by omega⟩
    · rw [Exact.totalRemaining_set s.procs idx p x hp]
      omega
  have hqueue : ∀ (x : Process) (now : Int),
      ∀ j ∈ arrivalsFrom now ex (s.procs.set idx x) 0 rest, j < (s.procs.set idx x).length := by
    intro x now j hj
    rcases arrivalsFrom_valid now ex _ 0 rest j hj with h1 | h1
    · simpa using hrest j h1
    · simpa using h1
  have hμ : ∀ (x : Process) (tl : List TimelineSegment) (queue : List Nat) (now : Int)
      (c : Nat), x.RemainingTime = p.RemainingTime - ex →
      totalRemaining (s.procs.set idx x) = totalRemaining s.procs - ex →
      ((0 < x.RemainingTime ∧ c = s.completedCount) ∨
        (x.RemainingTime = 0 ∧ c = s.completedCount + 1)) →
      rrPasses { procs := s.procs.set idx x, timeline := tl, readyQueue := queue,
                 currentTime := now, completedCount := c } < rrPasses s := by
    intro x tl queue now c hx htr hc
    have hun2 := unfinished_le_totalRemaining (s.procs.set idx x)
      (forall_mem_set hnn (by omega))
    show (totalRemaining (s.procs.set idx x) -
        ((s.procs.set idx x).countP fun p => decide (p.RemainingTime > 0) : Nat)).toNat +
      ((s.procs.set idx x).length - c) < rrPasses s
    rw [htr] at hun2 ⊢
    simp only [rrPasses, List.length_set]
    rcases hc with ⟨hpos, rfl⟩ | ⟨hz, rfl⟩
    · have hc := countP_set_same (fun p : Process => decide (p.RemainingTime > 0)) s.procs idx p
        x hp (by have : p.RemainingTime > 0 := by omega
                 simp [this, hpos])
      have hpe : 0 < ex := hex2 (by omega)
      rw [hc] at hun2 ⊢
      omega
    · by_cases hp0 : p.RemainingTime > 0
      · have hc := countP_set_drop (fun p : Process => decide (p.RemainingTime > 0)) s.procs idx p
          x hp (by simp [hp0]) (by simp [hz])
        have hpe : 0 < ex := hex2 hp0
        omega
      · have hc := countP_set_same (fun p : Process => decide (p.RemainingTime > 0)) s.procs idx p
          x hp (by simp [hp0, hz])
        rw [hc] at hun2 ⊢
        omega
  rw [hform]
  split
  · rename_i hpos
    obtain ⟨h1, h2, h3⟩ := hcore
      { markStarted ct p with RemainingTime := p.RemainingTime - ex }
      (by simp [static]) (by simp) (by simp)
    refine ⟨⟨h1, h2, ?_⟩, ?_⟩
    · intro i hi
      rcases List.mem_append.1 hi with hi | hi
      · exact hqueue _ _ i hi
      · simp at hi
        subst hi
        simpa using hidx
    · exact hμ _ _ _ _ _ (by simp) h3 (Or.inl ⟨by simpa using hpos, rfl⟩)
  · rename_i hpos
    obtain ⟨h1, h2, h3⟩ := hcore
      (setMetrics (wrap (ct + ex)) { markStarted ct p with RemainingTime := p.RemainingTime - ex })
      (by simp [static]) (by simp) (by simp)
    refine ⟨⟨h1, h2, ?_⟩, ?_⟩
    · intro i hi
      have := hqueue { markStarted ct p with RemainingTime := p.RemainingTime - ex }
        (wrap (ct + ex)) i hi
      simpa using this
    · exact hμ _ _ _ _ _ (by simp) h3 (Or.inr ⟨by simp; omega, rfl⟩)

/-- Indices of the initial ready queue. -/
theorem initialQueueFrom_valid (t : Int) (ps : List Process) :
    ∀ (i : Nat) (queue : List Nat), ∀ j ∈ initialQueueFrom t ps i queue,
      j ∈ queue ∨ j < i + ps.length := by
  induction ps with
  | nil => intro i queue j hj; exact Or.inl hj
  | cons p ps ih =>
    intro i queue j hj
    simp only [initialQueueFrom] at hj
    split at hj
    · rcases ih (i + 1) _ j hj with h | h
      · rcases List.mem_append.1 h with h | h
        · exact Or.inl h
        · simp at h
          right
          simp only [List.length_cons]
          omega
      · right
        simp only [List.length_cons]
        omega
    · rcases ih (i + 1) _ j hj with h | h
      · exact Or.inl h
      · right
        simp only [List.length_cons]
        omega

/-- The state in which `runRoundRobin` enters its loop. -/
theorem rrInit_core (ps0 : List Process) (hne : ps0 ≠ [])
    (hwf : ∀ p ∈ ps0, 0 < p.BurstTime ∧ 0 ≤ p.ArrivalTime ∧ p.RemainingTime = p.BurstTime)
    (hgo : GoInts ps0) :
    ∃ s0, rrInit ps0 = some s0 ∧ RRCore ps0 s0 ∧ s0.procs = resetStarted ps0 ∧
      s0.timeline = [] ∧ s0.completedCount = 0 := by
  obtain ⟨t, ht, _, _⟩ := earliestArrival_spec (Exact.resetStarted_ne_nil hne)
  refine ⟨{ procs := resetStarted ps0, timeline := [],
            readyQueue := initialQueueFrom t (resetStarted ps0) 0 [],
            currentTime := t, completedCount := 0 }, by simp [rrInit, ht],
    ⟨Exact.resetStarted_static ps0, ?_, ?_⟩, rfl, rfl, rfl⟩
  · intro p hp
    obtain ⟨p0, hp0, rfl⟩ := Exact.mem_resetStarted hp
    have := hwf p0 hp0
    exact ⟨this.1, by simp; omega, by simp; omega, (hgo p0 hp0).2.1.2⟩
  · intro i hi
    rcases initialQueueFrom_valid _ _ _ _ i hi with h | h
    · simp at h
    · simpa using h

/-- The loop of `runRoundRobin` ends whatever the clock does, in a state that
satisfies the invariant and has any further property `Extra` that the entry
state has and the passes keep. -/
theorem rr_ends_with (q : Int) (hq : 0 < q) (ps0 : List Process) (hne : ps0 ≠ [])
    (hwf : ∀ p ∈ ps0, 0 < p.BurstTime ∧ 0 ≤ p.ArrivalTime ∧ p.RemainingTime = p.BurstTime)
    (hgo : GoInts ps0) (Extra : RRState → Prop)
    (hinit : ∀ s0, rrInit ps0 = some s0 → Extra s0)
    (hstep : ∀ s t, RRCore ps0 s → Extra s → rrStep q s = .next t → Extra t) :
    ∃ s0 r, rrInit ps0 = some s0 ∧
      Returns (fun fuel => iterate (rrStep q) fuel s0) r ∧ RRCore ps0 r ∧ Extra r := by
  obtain ⟨s0, hs0, hinv, _⟩ := rrInit_core ps0 hne hwf hgo
  obtain ⟨r, hret, hr, _⟩ := returns_of_inv (rrStep q)
    (fun s => RRCore ps0 s ∧ Extra s) rrPasses
    (fun s t hs hst =>
      ⟨⟨(rrCore_step q hq ps0 s t hs.1 hst).1, hstep s t hs.1 hs.2 hst⟩,
        (rrCore_step q hq ps0 s t hs.1 hst).2⟩)
    (fun s hs => rrStep_sound q ps0 s hs.1)
    (fun s r h => rrStep_left q s r h) s0 ⟨hinv, hinit s0 hs0⟩
  exact ⟨s0, r, hs0, hret, hr.1, hr.2⟩

/-- The loop of `runRoundRobin` is left after at most one pass per unit of burst
time. -/
theorem rr_passes (q : Int) (hq : 0 < q) (ps0 : List Process) (hne : ps0 ≠ [])
    (hwf : ∀ p ∈ ps0, 0 < p.BurstTime ∧ 0 ≤ p.ArrivalTime ∧ p.RemainingTime = p.BurstTime)
    (hgo : GoInts ps0) (fuel : Nat) (hfuel : (totalRemaining ps0).toNat ≤ fuel) :
    ∃ s0 r, rrInit ps0 = some s0 ∧ iterate (rrStep q) fuel s0 = some r := by
  obtain ⟨s0, hs0, hinv, hp0, _, hc0⟩ := rrInit_core ps0 hne hwf hgo
  have hμ : rrPasses s0 ≤ fuel := by
    have hun := unfinished_le_totalRemaining s0.procs (fun a ha => (hinv.rem a ha).2.1)
    have hle : (s0.procs.countP fun p => decide (p.RemainingTime > 0)) ≤ s0.procs.length :=
      List.countP_le_length _
    have hall : (s0.procs.countP fun p => decide (p.RemainingTime > 0)) = s0.procs.length := by
      rw [List.countP_eq_length]
      intro p hp
      rw [hp0] at hp
      obtain ⟨p0, hp0m, rfl⟩ := Exact.mem_resetStarted hp
      have := hwf p0 hp0m
      simp
      omega
    have htr : totalRemaining s0.procs = totalRemaining ps0 := by
      rw [hp0, Exact.totalRemaining_resetStarted]
    simp only [rrPasses, hc0, hall, htr] at hun ⊢
    omega
  obtain ⟨r, hr, _, _⟩ := iterate_of_inv (rrStep q) (RRCore ps0) rrPasses
    (fun s t hs hst => rrCore_step q hq ps0 s t hs hst)
    (fun s hs => rrStep_sound q ps0 s hs)
    (fun s r h => rrStep_left q s r h) fuel s0 hinv hμ
  exact ⟨s0, r, hs0, hr⟩

theorem runRoundRobin_of_loop {ps : List Process} {s0 r : RRState} (timeQuantum : Int)
    (h0 : rrInit ps = some s0)
    (h : Returns (fun fuel =>
      iterate (rrStep (if timeQuantum ≤ 0 then 1 else timeQuantum)) fuel s0) r) :
    Returns (fun fuel => runRoundRobin fuel ps timeQuantum)
      { Processes := r.procs, Timeline := r.timeline } := by
  obtain ⟨N, hN⟩ := h
  exact ⟨N, fun fuel hf => by simp [runRoundRobin, h0, hN fuel hf]⟩

/-! ## Records of the working copy and processes of the input -/

/-- A process of the working copy comes from the input, with the same id,
arrival time, burst time and priority. -/
theorem exists_input_static {procs ps0 : List Process} (h : procs.map static = ps0.map static)
    {a : Process} (ha : a ∈ procs) : ∃ P ∈ ps0, static P = static a := by
  obtain ⟨i, hi, hai⟩ := List.mem_iff_getElem.1 ha
  have ha2 : procs[i]? = some a := by
    rw [List.getElem?_eq_some]
    exact ⟨hi, hai⟩
  obtain ⟨P, hP, hs⟩ := static_getElem? h ha2
  exact ⟨P, mem_of_getElem?_eq hP, hs⟩

/-- With distinct ids, the process of the input that carries the id of a record
of the working copy is the one the record comes from. -/
theorem record_static {procs ps0 : List Process} (hd : DistinctIds ps0)
    (h : procs.map static = ps0.map static) {a P : Process} (ha : a ∈ procs) (hP : P ∈ ps0)
    (hid : P.ID = a.ID) : static P = static a := by
  obtain ⟨Q, hQ, hs⟩ := exists_input_static h ha
  have hQid : Q.ID = a.ID := by
    have := congrArg Prod.fst hs
    simpa [static] using this
  have : P = Q := eq_of_same_id hd hP hQ (by rw [hid, hQid])
  rw [this]
  exact hs

theorem static_fields {a b : Process} (h : static a = static b) :
    a.ID = b.ID ∧ a.ArrivalTime = b.ArrivalTime ∧ a.BurstTime = b.BurstTime ∧
      a.Priority = b.Priority := by
  simpa [static] using h

theorem eq_nil_or_append_singleton {α : Type} (l : List α) :
    l = [] ∨ ∃ (init : List α) (last : α), l = init ++ [last] := by
  rcases List.eq_nil_or_concat l with h | ⟨init, last, h⟩
  · exact Or.inl h
  · exact Or.inr ⟨init, last, by rw [h, List.concat_eq_append]⟩

/-! ## Finished processes -/

/-- A finished process stays finished when the record of an unfinished process
is replaced. -/
theorem doneIn_set {procs : List Process} {i : Nat} {p x : Process} (hp : procs[i]? = some p)
    (hrem : p.RemainingTime > 0) (hx : x.ID = p.ID) {id : String} (h : DoneIn procs id) :
    DoneIn (procs.set i x) id := by
  intro q hq hqid
  rcases List.mem_or_eq_of_mem_set hq with h1 | h1
  · exact h q h1 hqid
  · subst h1
    have := h p (mem_of_getElem?_eq hp) (by rw [← hx]; exact hqid)
    omega

/-- With distinct ids, the process whose record is replaced by a finished one is
finished. -/
theorem doneIn_set_self {procs ps0 : List Process} (hd : DistinctIds ps0)
    (hs : procs.map static = ps0.map static) {i : Nat} {p x : Process}
    (hp : procs[i]? = some p) (hx0 : x.RemainingTime = 0) :
    DoneIn (procs.set i x) p.ID := by
  intro q hq hqid
  obtain ⟨j, hj, hqj⟩ := List.mem_iff_getElem.1 hq
  rw [List.getElem_set] at hqj
  split at hqj
  · rw [← hqj]
    exact hx0
  · rename_i hij
    have hj2 : j < procs.length := by simpa using hj
    have hq2 : procs[j]? = some q := by
      rw [List.getElem?_eq_some]
      exact ⟨hj2, hqj⟩
    exact absurd (index_eq_of_same_id hd hs hp hq2 hqid.symm) hij

/-! ## The closed segments -/

theorem closedSegments_mono (ps0 procs procs2 : List Process) (tl : List TimelineSegment)
    (h : ClosedSegments ps0 procs tl) (hmono : ∀ id, DoneIn procs id → DoneIn procs2 id) :
    ClosedSegments ps0 procs2 tl := by
  intro pre post seg hdec
  rcases h pre post seg hdec with h1 | ⟨h1, h2⟩
  · exact Or.inl h1
  · exact Or.inr ⟨hmono _ h1, h2⟩

/-- A segment of an unfinished process is appended: it ends at a trigger, or it
finishes its process. -/
theorem closedSegments_append (ps0 procs procs2 : List Process) (tl : List TimelineSegment)
    (n : TimelineSegment) (h : ClosedSegments ps0 procs tl)
    (hx : ∃ x ∈ procs, x.RemainingTime > 0 ∧ x.ID = n.ProcessID)
    (hmono : ∀ id, DoneIn procs id → DoneIn procs2 id)
    (hn : TriggerAt ps0 n ∨ DoneIn procs2 n.ProcessID) :
    ClosedSegments ps0 procs2 (tl ++ [n]) := by
  intro pre post seg hdec
  rcases eq_nil_or_append_singleton post with rfl | ⟨post1, y, rfl⟩
  · have h1 := List.append_inj_right' hdec rfl
    have h2 : seg = n := by simpa using h1.symm
    subst h2
    rcases hn with hn | hn
    · exact Or.inl hn
    · exact Or.inr ⟨hn, by simp⟩
  · have hdec2 : tl ++ [n] = (pre ++ seg :: post1) ++ [y] := by
      rw [hdec]
      simp
    have h1 := List.append_inj_left' hdec2 rfl
    have h2 : n = y := by simpa using List.append_inj_right' hdec2 rfl
    subst h2
    rcases h pre post1 seg h1 with h3 | ⟨h3, h4⟩
    · exact Or.inl h3
    · obtain ⟨x, hxm, hxr, hxid⟩ := hx
      have hne : n.ProcessID ≠ seg.ProcessID := by
        intro he
        have := h3 x hxm (by rw [hxid, he])
        omega
      refine Or.inr ⟨hmono _ h3, ?_⟩
      intro z hz
      rcases List.mem_append.1 hz with hz | hz
      · exact h4 z hz
      · simp only [List.mem_singleton] at hz
        rw [hz]
        exact hne

/-! ## The preemption trigger of `runPreemptivePriority` -/

/-- The passes of `runPreemptivePriority` keep `PriorityInv`. -/
theorem priorityInv_step (ps0 : List Process) (hd : DistinctIds ps0) (s t : PState)
    (hcore : PCore ps0 s) (hinv : PriorityInv ps0 s)
    (h : pStep (fun p => p.Priority) priorityPreempts s = .next t) : PriorityInv ps0 t := by
  obtain ⟨_, hpass⟩ := pStep_pass _ _ ps0 s t hcore h
  rcases hpass with ⟨_, hcur, rfl⟩ | ⟨i, p, tl1, start1, ts, _, hp, hready, hsw, _, _, hrun⟩
  · exact ⟨hinv.closed, fun c pc hc => by simp [hcur] at hc⟩
  · have hpm : p ∈ s.procs := mem_of_getElem?_eq hp
    -- the segments closed before the slice
    have hcl : ClosedSegments ps0 s.procs tl1 := by
      rcases hsw with ⟨_, h1, _⟩ | ⟨_, h1, _⟩ | ⟨c, pc, hc, _, hpc, h1, _⟩
      · rw [h1]; exact hinv.closed
      · rw [h1]; exact hinv.closed
      · rw [h1]
        obtain ⟨pc2, hpc2, hr2⟩ := hcore.current c hc
        rw [hpc] at hpc2
        cases hpc2
        exact closedSegments_append ps0 s.procs s.procs s.timeline _ hinv.closed
          ⟨pc, mem_of_getElem?_eq hpc, hr2.1, rfl⟩ (fun _ hdone => hdone)
          (Or.inl (hinv.inProgress c pc hc hpc))
    rcases hrun with ⟨_, rfl⟩ | ⟨_, ⟨q, hq, hcut⟩, rfl⟩
    · refine ⟨?_, fun c pc hc => by simp at hc⟩
      exact closedSegments_append ps0 s.procs _ tl1 _ hcl ⟨p, hpm, hready.1, rfl⟩
        (fun _ hdone => doneIn_set hp hready.1 (by simp) hdone)
        (Or.inr (doneIn_set_self hd hcore.static_eq hp (by simp)))
    · refine ⟨closedSegments_mono ps0 s.procs _ tl1 hcl
        (fun _ hdone => doneIn_set hp hready.1 (by simp) hdone), ?_⟩
      intro c pc hc hpc
      simp only [Option.some.injEq] at hc
      subst hc
      have hi : i < s.procs.length := by
        rw [List.getElem?_eq_some] at hp
        exact hp.1
      simp only [List.getElem?_set_self hi, Option.some.injEq] at hpc
      subst hpc
      obtain ⟨_, _, harr, _, hpre⟩ := hcut
      have hlt : q.Priority < p.Priority := by
        simpa [priorityPreempts] using hpre
      obtain ⟨Q, hQ, hsQ⟩ := exists_input_static hcore.static_eq hq
      obtain ⟨hQid, hQarr, _, hQpr⟩ := static_fields hsQ
      refine ⟨Q, hQ, by simp [hQarr, harr], ?_⟩
      intro P hP hPid
      have hsP := record_static hd hcore.static_eq hpm hP (by simpa using hPid)
      obtain ⟨_, _, _, hPpr⟩ := static_fields hsP
      have hlt2 : Q.Priority < P.Priority := by omega
      refine ⟨fun he => ?_, hlt2⟩
      have := eq_of_same_id hd hQ hP he
      rw [this] at hlt2
      omega

/-- Claim C13 on the loop: `runPreemptivePriority` returns, and its timeline
obeys the trigger. -/
theorem priority_trigger (ps0 : List Process) (hne : ps0 ≠ [])
    (hwf : ∀ p ∈ ps0, 0 < p.BurstTime ∧ 0 ≤ p.ArrivalTime ∧ p.RemainingTime = p.BurstTime)
    (hgo : GoInts ps0) (hd : DistinctIds ps0) :
    ∃ s0 r, pInit ps0 = some s0 ∧
      Returns (fun fuel => iterate (pStep (fun p => p.Priority) priorityPreempts) fuel s0) r ∧
      PreemptionTrigger ps0 r.timeline ∧ NoOtherTrigger ps0 r.timeline := by
  obtain ⟨s0, r, h0, hret, _, hinv, _⟩ := p_ends_with (fun p => p.Priority) priorityPreempts
    ps0 hne hwf hgo (PriorityInv ps0)
    (fun s0 hs0 => by
      obtain ⟨s1, hs1, _, _, htl, hcur, _⟩ := pInit_core ps0 hne hwf hgo
      rw [hs0] at hs1
      cases hs1
      refine ⟨?_, fun c pc hc => by simp [hcur] at hc⟩
      intro pre post seg hdec
      rw [htl] at hdec
      simp at hdec)
    (fun s t hcore hinv hst => priorityInv_step ps0 hd s t hcore hinv hst)
  have htrig : PreemptionTrigger ps0 r.timeline := by
    intro pre post seg P hdec hP hPid ⟨x, hx, hxid⟩
    rcases hinv.closed pre post seg hdec with ⟨Q, hQ, hQarr, hQall⟩ | ⟨_, hno⟩
    · exact ⟨Q, hQ, (hQall P hP hPid).1, hQarr, (hQall P hP hPid).2⟩
    · exact absurd (hxid.trans hPid) (hno x hx)
  refine ⟨s0, r, h0, hret, htrig, ?_⟩
  intro pre post seg P hdec hP hPid hall x hx hxid
  obtain ⟨Q, hQ, hQid, hQarr, hQpr⟩ := htrig pre post seg P hdec hP hPid ⟨x, hx, hxid⟩
  have := hall Q hQ hQid hQarr
  omega

/-! ## The idle advance, whatever the clock does -/

namespace Exact

/-! ## The properties of the schedules in exact arithmetic -/

/-- In exact arithmetic.  Total CPU time under the preemptive engines: for every non-empty
process list with `burstTime > 0`, `arrivalTime >= 0`,
`remainingTime = burstTime` and pairwise distinct ids (whatever the
priorities), `runSRTF` and `runPreemptivePriority` return, in the returned
timeline the durations of the segments carrying a process's id sum to that
process's `burstTime`, for every process of the input, and every returned
process has `remainingTime = 0`. -/
theorem preemptive_total_cpu_time_exact (processes : List Process) (hwf : WellFormed processes)
    (hid : DistinctIds processes) :
    (∃ r, Returns (fun fuel => runSRTF fuel processes) r ∧
      (∀ p ∈ processes, cpuTime p.ID r.Timeline = p.BurstTime) ∧
      ∀ p ∈ r.Processes, p.RemainingTime = 0) ∧
    (∃ r, Returns (fun fuel => runPreemptivePriority fuel processes) r ∧
      (∀ p ∈ processes, cpuTime p.ID r.Timeline = p.BurstTime) ∧
      ∀ p ∈ r.Processes, p.RemainingTime = 0) := by
  obtain ⟨hne, hall⟩ := hwf
  constructor
  · obtain ⟨s0, r, h0, hret, h1, h2⟩ :=
      preemptive_accounts (fun p => p.RemainingTime) srtfPreempts processes hne hall hid
    exact ⟨_, runSRTF_returns h0 hret, h1, h2⟩
  · obtain ⟨s0, r, h0, hret, h1, h2⟩ :=
      preemptive_accounts (fun p => p.Priority) priorityPreempts processes hne hall hid
    exact ⟨_, runPreemptivePriority_returns h0 hret, h1, h2⟩

/-- In exact arithmetic.  Non-overlap: for every non-empty process list with `burstTime > 0`,
`arrivalTime >= 0` and `remainingTime = burstTime`, each of the six engine
functions (`runFCFS` with any sort that meets the contract of `sort.Slice`,
`runRoundRobin` with any `timeQuantum`) returns, and in the returned timeline
every segment has `startTime < endTime` and, of two consecutive segments, the
first ends no later than the second starts. -/
theorem timeline_non_overlapping_exact
    (sortSlice : (Process → Process → Bool) → List Process → List Process)
    (hsort : SortSliceSpec sortSlice) (processes : List Process)
    (hwf : WellFormed processes) (timeQuantum : Int) :
    NonOverlapping (runFCFS sortSlice processes).Timeline ∧
    (∃ r, Returns (fun fuel => runSJF fuel processes) r ∧ NonOverlapping r.Timeline) ∧
    (∃ r, Returns (fun fuel => runSRTF fuel processes) r ∧ NonOverlapping r.Timeline) ∧
    (∃ r, Returns (fun fuel => runRoundRobin fuel processes timeQuantum) r ∧
      NonOverlapping r.Timeline) ∧
    (∃ r, Returns (fun fuel => runNonPreemptivePriority fuel processes) r ∧
      NonOverlapping r.Timeline) ∧
    (∃ r, Returns (fun fuel => runPreemptivePriority fuel processes) r ∧
      NonOverlapping r.Timeline) := by
  obtain ⟨hne, hall⟩ := hwf
  refine ⟨?_, ?_, ?_, ?_, ?_, ?_⟩
  · have hperm := (hsort (fun p => p.ArrivalTime) processes).1
    have hb : ∀ p ∈ sortSlice (fun a b => decide (a.ArrivalTime < b.ArrivalTime)) processes,
        0 < p.BurstTime := fun p hp => (hall p (hperm.subset hp)).1
    obtain ⟨h1, h2⟩ := fcfsLoop_timeline _ hb 0
    exact ⟨fun seg hs => (h1 seg hs).1, h2⟩
  · obtain ⟨s0, r, h0, hret, hinv, _⟩ := np_returns (fun p => p.BurstTime) processes hne hall
    exact ⟨_, runSJF_returns h0 hret, nonOverlapping_of_timelineOK hinv.timeline⟩
  · obtain ⟨s0, r, h0, hret, hinv, _⟩ :=
      p_returns (fun p => p.RemainingTime) srtfPreempts processes hne hall
    exact ⟨_, runSRTF_returns h0 hret, nonOverlapping_of_timelineOK hinv.timeline⟩
  · obtain ⟨s0, r, h0, hret, hinv⟩ :=
      rr_returns _ (clamp_pos timeQuantum) processes hne hall
    exact ⟨_, runRoundRobin_returns timeQuantum h0 hret,
      nonOverlapping_of_timelineOK hinv.timeline⟩
  · obtain ⟨s0, r, h0, hret, hinv, _⟩ := np_returns (fun p => p.Priority) processes hne hall
    exact ⟨_, runNonPreemptivePriority_returns h0 hret,
      nonOverlapping_of_timelineOK hinv.timeline⟩
  · obtain ⟨s0, r, h0, hret, hinv, _⟩ :=
      p_returns (fun p => p.Priority) priorityPreempts processes hne hall
    exact ⟨_, runPreemptivePriority_returns h0 hret,
      nonOverlapping_of_timelineOK hinv.timeline⟩

/-- In exact arithmetic.  No early dispatch: for every non-empty process list with
`burstTime > 0`, `arrivalTime >= 0`, `remainingTime = burstTime` and pairwise
distinct ids, each of the six engine functions returns, and every segment of
the returned timeline carries the id of a process of the input and starts no
earlier than that process arrives. -/
theorem no_early_dispatch_exact
    (sortSlice : (Process → Process → Bool) → List Process → List Process)
    (hsort : SortSliceSpec sortSlice) (processes : List Process)
    (hwf : WellFormed processes) (hid : DistinctIds processes) (timeQuantum : Int) :
    NoEarlyDispatch processes (runFCFS sortSlice processes).Timeline ∧
    (∃ r, Returns (fun fuel => runSJF fuel processes) r ∧
      NoEarlyDispatch processes r.Timeline) ∧
    (∃ r, Returns (fun fuel => runSRTF fuel processes) r ∧
      NoEarlyDispatch processes r.Timeline) ∧
    (∃ r, Returns (fun fuel => runRoundRobin fuel processes timeQuantum) r ∧
      NoEarlyDispatch processes r.Timeline) ∧
    (∃ r, Returns (fun fuel => runNonPreemptivePriority fuel processes) r ∧
      NoEarlyDispatch processes r.Timeline) ∧
    (∃ r, Returns (fun fuel => runPreemptivePriority fuel processes) r ∧
      NoEarlyDispatch processes r.Timeline) := by
  obtain ⟨hne, hall⟩ := hwf
  refine ⟨?_, ?_, ?_, ?_, ?_, ?_⟩
  · have hperm := (hsort (fun p => p.ArrivalTime) processes).1
    apply noEarlyDispatch_of_early hid
    intro seg hseg
    obtain ⟨q, hq, h⟩ := fcfsLoop_early _ 0 seg hseg
    exact ⟨q, hperm.subset hq, h⟩
  · obtain ⟨s0, r, h0, hret, hinv, _⟩ := np_returns (fun p => p.BurstTime) processes hne hall
    exact ⟨_, runSJF_returns h0 hret, noEarlyDispatch_of_early hid hinv.early⟩
  · obtain ⟨s0, r, h0, hret, hinv, _⟩ :=
      p_returns (fun p => p.RemainingTime) srtfPreempts processes hne hall
    exact ⟨_, runSRTF_returns h0 hret, noEarlyDispatch_of_early hid hinv.early⟩
  · obtain ⟨s0, r, h0, hret, hinv⟩ :=
      rr_returns _ (clamp_pos timeQuantum) processes hne hall
    exact ⟨_, runRoundRobin_returns timeQuantum h0 hret,
      noEarlyDispatch_of_early hid hinv.early⟩
  · obtain ⟨s0, r, h0, hret, hinv, _⟩ := np_returns (fun p => p.Priority) processes hne hall
    exact ⟨_, runNonPreemptivePriority_returns h0 hret,
      noEarlyDispatch_of_early hid hinv.early⟩
  · obtain ⟨s0, r, h0, hret, hinv, _⟩ :=
      p_returns (fun p => p.Priority) priorityPreempts processes hne hall
    exact ⟨_, runPreemptivePriority_returns h0 hret,
      noEarlyDispatch_of_early hid hinv.early⟩

/-- In exact arithmetic.  SRTF always runs a shortest-remaining process: for every non-empty
process list with `burstTime > 0`, `arrivalTime >= 0`,
`remainingTime = burstTime` and pairwise distinct ids, `runSRTF` returns, and
for every segment `[s, e)` of its timeline and every integer time `t` with
`s <= t < e`, the process occupying the segment has at `t` a remaining time
(`burstTime` minus the CPU time the timeline gave it before `t`) that is at most
the remaining time at `t` of every process with `arrivalTime <= t` that is not
complete at `t`; and the length of every segment is the minimum of the time to
completion and the time to the earliest later arrival whose `burstTime` is
strictly less than the running process's remaining time at that arrival. -/
theorem srtf_shortest_remaining_first_exact (processes : List Process) (hwf : WellFormed processes)
    (hid : DistinctIds processes) :
    ∃ r, Returns (fun fuel => runSRTF fuel processes) r ∧
      ShortestRemainingFirst processes r.Timeline ∧
      ∀ seg ∈ r.Timeline, RunLengthRule processes r.Timeline seg := by
  obtain ⟨hne, hall⟩ := hwf
  obtain ⟨s0, r, h0, hret, hinv, ⟨hs, hr⟩, hz⟩ :=
    p_returns_with (fun p => p.RemainingTime) srtfPreempts processes hne hall
      (fun s => SRTFInv processes s ∧ SRTFRun processes s)
      (fun s0 _ hp0 ht0 hc0 =>
        ⟨srtfInv_init processes hall s0 hp0 ht0 hc0, srtfRun_init processes s0 ht0 hc0⟩)
      (fun s t hi he hst =>
        ⟨srtfInv_step processes hid s t hi he.1 hst,
         srtfRun_step processes hid s t hi he.1 he.2 hst⟩)
  refine ⟨_, runSRTF_returns h0 hret, ?_, ?_⟩
  · have hcur := (pInv_final processes r hinv hz).1
    have := hs.optimal
    rw [effective_of_none hcur] at this
    exact this
  · have hcur := (pInv_final processes r hinv hz).1
    have := hr.closed
    rw [effective_of_none hcur] at this
    exact this

/-- In exact arithmetic.  The Round-Robin tie-break between new arrivals and the returning
process: for every well-formed input (non-empty, `burstTime > 0`,
`arrivalTime >= 0`, `remainingTime = burstTime`, distinct ids) and every
`timeQuantum`, `runRoundRobin` returns, and whenever its timeline has a slice
of a process `P` from `oldClock` to `newClock` after which `P` is unfinished,
and `Q` is another process with `oldClock < arrivalTime(Q) <= newClock`, the
first segment of `Q` in the timeline comes after that slice and before the
next segment of `P`, which exists. -/
theorem roundRobin_tie_break_exact (processes : List Process) (hwf : WellFormed processes)
    (hid : DistinctIds processes) (timeQuantum : Int) :
    ∃ r, Returns (fun fuel => runRoundRobin fuel processes timeQuantum) r ∧
      TieBreakOrder processes r.Timeline := by
  obtain ⟨hne, hall⟩ := hwf
  obtain ⟨s0, r, h0, hret, hinv, ⟨_, htie⟩, hdone⟩ :=
    rr_returns_with _ (clamp_pos timeQuantum) processes hne hall
      (fun s => RRAccount s.procs s.timeline ∧ RRTie processes s)
      (fun s0 _ hp0 ht0 => by
        constructor
        · intro i p hp
          rw [hp0] at hp
          obtain ⟨q, hq, rfl⟩ := mem_resetStarted (mem_of_getElem?_eq hp)
          have := (hall q hq).2.2
          simp only [ht0, cpuTime_nil]
          omega
        · intro pre post seg iP jQ P Q hcut
          rw [ht0] at hcut
          simp at hcut)
      (fun s t hs he hst =>
        ⟨rrAccount_step _ processes hid s t hs he.1 hst,
         rrTie_step _ processes hid s t hs he.1 he.2 hst⟩)
  refine ⟨_, runRoundRobin_returns timeQuantum h0 hret, ?_⟩
  have hq := rrStep_done_queue _ processes r hinv hdone
  intro pre post seg P Q hcut hP hQ hsegP hcpu hne2 hlo hhi
  obtain ⟨iP, hiP, hPi⟩ := List.mem_iff_getElem.1 hP
  obtain ⟨jQ, hjQ, hQj⟩ := List.mem_iff_getElem.1 hQ
  have hP2 : processes[iP]? = some P := by
    rw [List.getElem?_eq_some]
    exact ⟨hiP, hPi⟩
  have hQ2 : processes[jQ]? = some Q := by
    rw [List.getElem?_eq_some]
    exact ⟨hjQ, hQj⟩
  rcases htie pre post seg iP jQ P Q hcut hP2 hQ2 hsegP hcpu hne2 hlo hhi with hA | hB | hC
  · exact hA
  · obtain ⟨_, _, _, _, _, _, _, hmem⟩ := hB
    rw [hq] at hmem
    simp at hmem
  · obtain ⟨_, _, q1, q2, hsplit, _⟩ := hC
    rw [hq] at hsplit
    simp at hsplit

/-- In exact arithmetic.  Round-Robin quantum bound: for every non-empty process list with
`burstTime > 0`, `arrivalTime >= 0`, `remainingTime = burstTime` and distinct
ids, and every `timeQuantum`, with `q = timeQuantum` if `timeQuantum > 0` and
`q = 1` otherwise, `runRoundRobin` returns, every segment of its timeline has
duration `<= q`, and every segment that is followed by a later segment of the
same process has duration exactly `q`. -/
theorem roundRobin_quantum_bound_exact (processes : List Process) (hwf : WellFormed processes)
    (hid : DistinctIds processes) (timeQuantum : Int) :
    ∃ r, Returns (fun fuel => runRoundRobin fuel processes timeQuantum) r ∧
      QuantumBound (if timeQuantum > 0 then timeQuantum else 1) r.Timeline := by
  obtain ⟨hne, hall⟩ := hwf
  have hqe : (if timeQuantum > 0 then timeQuantum else 1) =
      (if timeQuantum ≤ 0 then 1 else timeQuantum) := by
    split <;> split <;> omega
  rw [hqe]
  obtain ⟨s0, r, h0, hret, hinv, hq, _⟩ :=
    rr_returns_with _ (clamp_pos timeQuantum) processes hne hall
      (fun s => RRQuantum (if timeQuantum ≤ 0 then 1 else timeQuantum) s.procs s.timeline)
      (fun s0 _ _ ht => by
        simp only [ht]
        exact ⟨by simp, by simp, List.Pairwise.nil⟩)
      (fun s t hs he hst => rrQuantum_step _ processes hid s t hs he hst)
  exact ⟨_, runRoundRobin_returns timeQuantum h0 hret, hq.bound, hq.full⟩

end Exact

/-! # The claims -/

/-- A call that agrees with another on every amount of fuel returns what the
other returns. -/
theorem returns_of_agree {α : Type} {f g : Nat → Option α} (h : ∀ fuel, f fuel = g fuel)
    {r : α} (hr : Returns g r) : Returns f r := by
  obtain ⟨N, hN⟩ := hr
  exact ⟨N, fun fuel hf => (h fuel).trans (hN fuel hf)⟩

/-! ## Claim C3: total CPU time under the preemptive engines -/

/-- C3, as the code has it.  Total CPU time under the preemptive engines: for
every non-empty process list with `burstTime > 0`, `arrivalTime >= 0`,
`remainingTime = burstTime` and pairwise distinct ids (whatever the priorities)
whose times stay in the range of a Go `int` (every arrival time plus the sum of
all burst times is at most `2^63 - 1`), `runSRTF` and `runPreemptivePriority`
return, in the returned timeline the durations of the segments carrying a
process's id sum to that process's `burstTime`, for every process of the input,
and every returned process has `remainingTime = 0`. -/
theorem preemptive_total_cpu_time (processes : List Process) (hwf : WellFormed processes)
    (hid : DistinctIds processes) (hr : InRange processes) :
    (∃ r, Returns (fun fuel => runSRTF fuel processes) r ∧
      (∀ p ∈ processes, cpuTime p.ID r.Timeline = p.BurstTime) ∧
      ∀ p ∈ r.Processes, p.RemainingTime = 0) ∧
    (∃ r, Returns (fun fuel => runPreemptivePriority fuel processes) r ∧
      (∀ p ∈ processes, cpuTime p.ID r.Timeline = p.BurstTime) ∧
      ∀ p ∈ r.Processes, p.RemainingTime = 0) := by
  obtain ⟨⟨r1, h1, h1b⟩, ⟨r2, h2, h2b⟩⟩ := Exact.preemptive_total_cpu_time_exact processes hwf hid
  exact ⟨⟨r1, returns_of_agree (runSRTF_exact processes hwf hr) h1, h1b⟩,
    ⟨r2, returns_of_agree (runPreemptivePriority_exact processes hwf hr) h2, h2b⟩⟩

/-- C3 at the input `[{A,0,5,priority 2}, {B,1,2,priority 1}]`, on which both
engines preempt `A` at time 1. -/
theorem preemptive_total_cpu_time_witness :
    WellFormed [mkProcess "A" 0 5 2, mkProcess "B" 1 2 1] ∧
    DistinctIds [mkProcess "A" 0 5 2, mkProcess "B" 1 2 1] ∧
    InRange [mkProcess "A" 0 5 2, mkProcess "B" 1 2 1] ∧
    (∃ r, Returns (fun fuel => runSRTF fuel [mkProcess "A" 0 5 2, mkProcess "B" 1 2 1]) r ∧
      (∀ p ∈ [mkProcess "A" 0 5 2, mkProcess "B" 1 2 1],
        cpuTime p.ID r.Timeline = p.BurstTime) ∧
      ∀ p ∈ r.Processes, p.RemainingTime = 0) ∧
    (∃ r, Returns (fun fuel =>
        runPreemptivePriority fuel [mkProcess "A" 0 5 2, mkProcess "B" 1 2 1]) r ∧
      (∀ p ∈ [mkProcess "A" 0 5 2, mkProcess "B" 1 2 1],
        cpuTime p.ID r.Timeline = p.BurstTime) ∧
      ∀ p ∈ r.Processes, p.RemainingTime = 0) :=
  ⟨by decide, by decide, by decide,
   preemptive_total_cpu_time [mkProcess "A" 0 5 2, mkProcess "B" 1 2 1] (by decide) (by decide)
     (by decide)⟩

/-- C3 as stated fails where the clock leaves the range of a Go `int`.  On the
well-formed input `[{A, arrival 2^63 - 1, burst 1}]` both `runSRTF` and
`runPreemptivePriority` return the timeline `[(A, 2^63 - 1, -2^63)]`: the clock
has wrapped around, and the duration `endTime - startTime` of the only segment
of `A` is `-(2^64 - 1)`, not its burst time 1. -/
theorem preemptive_total_cpu_time_overflow :
    WellFormed lastInstant ∧ DistinctIds lastInstant ∧
    (∀ p ∈ lastInstant, 0 ≤ p.Priority) ∧
    Returns (fun fuel => (runSRTF fuel lastInstant).map fun r => r.Timeline)
      [⟨"A", 9223372036854775807, -9223372036854775808⟩] ∧
    Returns (fun fuel => (runPreemptivePriority fuel lastInstant).map fun r => r.Timeline)
      [⟨"A", 9223372036854775807, -9223372036854775808⟩] ∧
    cpuTime "A" [⟨"A", 9223372036854775807, -9223372036854775808⟩] = -18446744073709551615 ∧
    ∀ p ∈ lastInstant, p.ID = "A" ∧ p.BurstTime = 1 := by
  refine ⟨by decide, by decide, by decide, ⟨2, ?_⟩, ⟨2, ?_⟩, by decide, by decide⟩
  · intro fuel h
    obtain ⟨k, rfl⟩ := Nat.exists_eq_add_of_le h
    rw [Nat.add_comm]
    rfl
  · intro fuel h
    obtain ⟨k, rfl⟩ := Nat.exists_eq_add_of_le h
    rw [Nat.add_comm]
    rfl



/-! ## Claim C4: non-overlap -/

/-- C4, as the code has it.  Non-overlap: for every non-empty process list with
`burstTime > 0`, `arrivalTime >= 0` and `remainingTime = burstTime` whose times
stay in the range of a Go `int` (every arrival time plus the sum of all burst
times is at most `2^63 - 1`), each of the six engine functions (`runFCFS` with
any sort that meets the contract of `sort.Slice`, `runRoundRobin` with any
`timeQuantum`) returns, and in the returned timeline every segment has
`startTime < endTime` and, of two consecutive segments, the first ends no later
than the second starts. -/
theorem timeline_non_overlapping
    (sortSlice : (Process → Process → Bool) → List Process → List Process)
    (hsort : SortSliceSpec sortSlice) (processes : List Process)
    (hwf : WellFormed processes) (hr : InRange processes) (timeQuantum : Int) :
    NonOverlapping (runFCFS sortSlice processes).Timeline ∧
    (∃ r, Returns (fun fuel => runSJF fuel processes) r ∧ NonOverlapping r.Timeline) ∧
    (∃ r, Returns (fun fuel => runSRTF fuel processes) r ∧ NonOverlapping r.Timeline) ∧
    (∃ r, Returns (fun fuel => runRoundRobin fuel processes timeQuantum) r ∧
      NonOverlapping r.Timeline) ∧
    (∃ r, Returns (fun fuel => runNonPreemptivePriority fuel processes) r ∧
      NonOverlapping r.Timeline) ∧
    (∃ r, Returns (fun fuel => runPreemptivePriority fuel processes) r ∧
      NonOverlapping r.Timeline) := by
  obtain ⟨h1, ⟨r2, h2, h2b⟩, ⟨r3, h3, h3b⟩, ⟨r4, h4, h4b⟩, ⟨r5, h5, h5b⟩, ⟨r6, h6, h6b⟩⟩ :=
    Exact.timeline_non_overlapping_exact sortSlice hsort processes hwf timeQuantum
  refine ⟨?_, ⟨r2, returns_of_agree (runSJF_exact processes hwf hr) h2, h2b⟩,
    ⟨r3, returns_of_agree (runSRTF_exact processes hwf hr) h3, h3b⟩,
    ⟨r4, returns_of_agree (runRoundRobin_exact processes hwf hr timeQuantum) h4, h4b⟩,
    ⟨r5, returns_of_agree (runNonPreemptivePriority_exact processes hwf hr) h5, h5b⟩,
    ⟨r6, returns_of_agree (runPreemptivePriority_exact processes hwf hr) h6, h6b⟩⟩
  rw [runFCFS_exact sortSlice hsort processes hwf hr]
  exact h1

/-- C4 at the input `[{A,0,5,priority 2}, {B,1,2,priority 1}]`, quantum 2. -/
theorem timeline_non_overlapping_witness :
    WellFormed [mkProcess "A" 0 5 2, mkProcess "B" 1 2 1] ∧ InRange [mkProcess "A" 0 5 2, mkProcess "B" 1 2 1] ∧
    NonOverlapping (runFCFS stableSortSlice [mkProcess "A" 0 5 2, mkProcess "B" 1 2 1]).Timeline ∧
    (∃ r, Returns (fun fuel => runSJF fuel [mkProcess "A" 0 5 2, mkProcess "B" 1 2 1]) r ∧
      NonOverlapping r.Timeline) ∧
    (∃ r, Returns (fun fuel => runSRTF fuel [mkProcess "A" 0 5 2, mkProcess "B" 1 2 1]) r ∧
      NonOverlapping r.Timeline) ∧
    (∃ r, Returns (fun fuel => runRoundRobin fuel [mkProcess "A" 0 5 2, mkProcess "B" 1 2 1] 2) r ∧
      NonOverlapping r.Timeline) ∧
    (∃ r, Returns (fun fuel =>
        runNonPreemptivePriority fuel [mkProcess "A" 0 5 2, mkProcess "B" 1 2 1]) r ∧
      NonOverlapping r.Timeline) ∧
    (∃ r, Returns (fun fuel =>
        runPreemptivePriority fuel [mkProcess "A" 0 5 2, mkProcess "B" 1 2 1]) r ∧
      NonOverlapping r.Timeline) :=
  ⟨by decide, by decide,
   timeline_non_overlapping stableSortSlice Exact.stableSortSlice_spec
     [mkProcess "A" 0 5 2, mkProcess "B" 1 2 1] (by decide) (by decide) 2⟩

/-- On a request of one process, every sort that meets the contract of
`sort.Slice` leaves the slice as it is. -/
theorem sortSlice_singleton
    (sortSlice : (Process → Process → Bool) → List Process → List Process)
    (hsort : SortSliceSpec sortSlice) (p : Process) :
    sortSlice (fun a b => decide (a.ArrivalTime < b.ArrivalTime)) [p] = [p] :=
  List.perm_singleton.1 (hsort (fun p => p.ArrivalTime) [p]).1

/-- C4 as stated fails where the clock leaves the range of a Go `int`.  On the
well-formed input `[{A, arrival 2^63 - 2, burst 5}]`, `runFCFS` (with whatever
sort that meets the contract of `sort.Slice`) and `runSJF` return the timeline
`[(A, 2^63 - 2, -2^63 + 3)]`: the end of the segment has wrapped around and lies
before its start. -/
theorem timeline_overlaps_past_the_range :
    WellFormed nearLastInstant ∧
    (∀ sortSlice, SortSliceSpec sortSlice →
      (runFCFS sortSlice nearLastInstant).Timeline =
        [⟨"A", 9223372036854775806, -9223372036854775805⟩]) ∧
    Returns (fun fuel => (runSJF fuel nearLastInstant).map fun r => r.Timeline)
      [⟨"A", 9223372036854775806, -9223372036854775805⟩] ∧
    ¬ NonOverlapping [⟨"A", 9223372036854775806, -9223372036854775805⟩] := by
  refine ⟨by decide, ?_, ⟨2, ?_⟩, ?_⟩
  · intro sortSlice hsort
    unfold runFCFS nearLastInstant
    rw [sortSlice_singleton sortSlice hsort]
    rfl
  · intro fuel h
    obtain ⟨k, rfl⟩ := Nat.exists_eq_add_of_le h
    rw [Nat.add_comm]
    rfl
  · unfold NonOverlapping
    decide

/-! ## Claim C5: no early dispatch -/

/-- C5, as the code has it.  No early dispatch: for every non-empty process list
with `burstTime > 0`, `arrivalTime >= 0`, `remainingTime = burstTime` and
pairwise distinct ids whose times stay in the range of a Go `int` (every arrival
time plus the sum of all burst times is at most `2^63 - 1`), each of the six
engine functions returns, and every segment of the returned timeline carries the
id of a process of the input and starts no earlier than that process arrives. -/
theorem no_early_dispatch
    (sortSlice : (Process → Process → Bool) → List Process → List Process)
    (hsort : SortSliceSpec sortSlice) (processes : List Process)
    (hwf : WellFormed processes) (hid : DistinctIds processes) (hr : InRange processes)
    (timeQuantum : Int) :
    NoEarlyDispatch processes (runFCFS sortSlice processes).Timeline ∧
    (∃ r, Returns (fun fuel => runSJF fuel processes) r ∧
      NoEarlyDispatch processes r.Timeline) ∧
    (∃ r, Returns (fun fuel => runSRTF fuel processes) r ∧
      NoEarlyDispatch processes r.Timeline) ∧
    (∃ r, Returns (fun fuel => runRoundRobin fuel processes timeQuantum) r ∧
      NoEarlyDispatch processes r.Timeline) ∧
    (∃ r, Returns (fun fuel => runNonPreemptivePriority fuel processes) r ∧
      NoEarlyDispatch processes r.Timeline) ∧
    (∃ r, Returns (fun fuel => runPreemptivePriority fuel processes) r ∧
      NoEarlyDispatch processes r.Timeline) := by
  obtain ⟨h1, ⟨r2, h2, h2b⟩, ⟨r3, h3, h3b⟩, ⟨r4, h4, h4b⟩, ⟨r5, h5, h5b⟩, ⟨r6, h6, h6b⟩⟩ :=
    Exact.no_early_dispatch_exact sortSlice hsort processes hwf hid timeQuantum
  refine ⟨?_, ⟨r2, returns_of_agree (runSJF_exact processes hwf hr) h2, h2b⟩,
    ⟨r3, returns_of_agree (runSRTF_exact processes hwf hr) h3, h3b⟩,
    ⟨r4, returns_of_agree (runRoundRobin_exact processes hwf hr timeQuantum) h4, h4b⟩,
    ⟨r5, returns_of_agree (runNonPreemptivePriority_exact processes hwf hr) h5, h5b⟩,
    ⟨r6, returns_of_agree (runPreemptivePriority_exact processes hwf hr) h6, h6b⟩⟩
  rw [runFCFS_exact sortSlice hsort processes hwf hr]
  exact h1

/-- C5 at the input `[{A,0,5,priority 2}, {B,1,2,priority 1}]`, quantum 2. -/
theorem no_early_dispatch_witness :
    WellFormed [mkProcess "A" 0 5 2, mkProcess "B" 1 2 1] ∧ DistinctIds [mkProcess "A" 0 5 2, mkProcess "B" 1 2 1] ∧ InRange [mkProcess "A" 0 5 2, mkProcess "B" 1 2 1] ∧
    NoEarlyDispatch [mkProcess "A" 0 5 2, mkProcess "B" 1 2 1]
      (runFCFS stableSortSlice [mkProcess "A" 0 5 2, mkProcess "B" 1 2 1]).Timeline ∧
    (∃ r, Returns (fun fuel => runSJF fuel [mkProcess "A" 0 5 2, mkProcess "B" 1 2 1]) r ∧
      NoEarlyDispatch [mkProcess "A" 0 5 2, mkProcess "B" 1 2 1] r.Timeline) ∧
    (∃ r, Returns (fun fuel => runSRTF fuel [mkProcess "A" 0 5 2, mkProcess "B" 1 2 1]) r ∧
      NoEarlyDispatch [mkProcess "A" 0 5 2, mkProcess "B" 1 2 1] r.Timeline) ∧
    (∃ r, Returns (fun fuel => runRoundRobin fuel [mkProcess "A" 0 5 2, mkProcess "B" 1 2 1] 2) r ∧
      NoEarlyDispatch [mkProcess "A" 0 5 2, mkProcess "B" 1 2 1] r.Timeline) ∧
    (∃ r, Returns (fun fuel =>
        runNonPreemptivePriority fuel [mkProcess "A" 0 5 2, mkProcess "B" 1 2 1]) r ∧
      NoEarlyDispatch [mkProcess "A" 0 5 2, mkProcess "B" 1 2 1] r.Timeline) ∧
    (∃ r, Returns (fun fuel =>
        runPreemptivePriority fuel [mkProcess "A" 0 5 2, mkProcess "B" 1 2 1]) r ∧
      NoEarlyDispatch [mkProcess "A" 0 5 2, mkProcess "B" 1 2 1] r.Timeline) :=
  ⟨by decide, by decide, by decide,
   no_early_dispatch stableSortSlice Exact.stableSortSlice_spec
     [mkProcess "A" 0 5 2, mkProcess "B" 1 2 1] (by decide) (by decide) (by decide) 2⟩

/-- C5 as stated fails where the clock leaves the range of a Go `int`.  On the
well-formed input `[{A, arrival 2^63 - 1, burst 2}]` with quantum 1,
`runRoundRobin` returns the timeline `[(A, 2^63 - 1, -2^63), (A, -2^63,
-2^63 + 1)]`: after the first slice the clock has wrapped around, and the second
slice of `A` starts at `-2^63`, before `A` arrives. -/
theorem early_dispatch_past_the_range :
    WellFormed lastInstantTwice ∧ DistinctIds lastInstantTwice ∧
    Returns (fun fuel => (runRoundRobin fuel lastInstantTwice 1).map fun r => r.Timeline)
      [⟨"A", 9223372036854775807, -9223372036854775808⟩,
       ⟨"A", -9223372036854775808, -9223372036854775807⟩] ∧
    ¬ NoEarlyDispatch lastInstantTwice
      [⟨"A", 9223372036854775807, -9223372036854775808⟩,
       ⟨"A", -9223372036854775808, -9223372036854775807⟩] := by
  refine ⟨by decide, by decide, ⟨3, ?_⟩, ?_⟩
  · intro fuel h
    obtain ⟨k, rfl⟩ := Nat.exists_eq_add_of_le h
    rw [Nat.add_comm]
    rfl
  · unfold NoEarlyDispatch
    decide

/-! ## Claim C6: SRTF runs a shortest-remaining process -/

/-- C6, as the code has it.  SRTF always runs a shortest-remaining process: for
every non-empty process list with `burstTime > 0`, `arrivalTime >= 0`,
`remainingTime = burstTime` and pairwise distinct ids whose times stay in the
range of a Go `int` (every arrival time plus the sum of all burst times is at
most `2^63 - 1`), `runSRTF` returns, and for every segment `[s, e)` of its
timeline and every integer time `t` with `s <= t < e`, the process occupying the
segment has at `t` a remaining time (`burstTime` minus the CPU time the timeline
gave it before `t`) that is at most the remaining time at `t` of every process
with `arrivalTime <= t` that is not complete at `t`; and the length of every
segment is the minimum of the time to completion and the time to the earliest
later arrival whose `burstTime` is strictly less than the running process's
remaining time at that arrival. -/
theorem srtf_shortest_remaining_first (processes : List Process) (hwf : WellFormed processes)
    (hid : DistinctIds processes) (hr : InRange processes) :
    ∃ r, Returns (fun fuel => runSRTF fuel processes) r ∧
      ShortestRemainingFirst processes r.Timeline ∧
      ∀ seg ∈ r.Timeline, RunLengthRule processes r.Timeline seg := by
  obtain ⟨r, h1, h2⟩ := Exact.srtf_shortest_remaining_first_exact processes hwf hid
  exact ⟨r, returns_of_agree (runSRTF_exact processes hwf hr) h1, h2⟩

/-- C6 at the scenario of the specification: `[{A,0,5}, {B,1,2}]` gives
`A [0,1)`, `B [1,3)`, `A [3,7)`. -/
theorem srtf_shortest_remaining_first_witness :
    WellFormed [mkProcess "A" 0 5 0, mkProcess "B" 1 2 0] ∧
    DistinctIds [mkProcess "A" 0 5 0, mkProcess "B" 1 2 0] ∧
    InRange [mkProcess "A" 0 5 0, mkProcess "B" 1 2 0] ∧
    (∃ r, Returns (fun fuel => runSRTF fuel [mkProcess "A" 0 5 0, mkProcess "B" 1 2 0]) r ∧
      ShortestRemainingFirst [mkProcess "A" 0 5 0, mkProcess "B" 1 2 0] r.Timeline ∧
      ∀ seg ∈ r.Timeline,
        RunLengthRule [mkProcess "A" 0 5 0, mkProcess "B" 1 2 0] r.Timeline seg) ∧
    (runSRTF 3 [mkProcess "A" 0 5 0, mkProcess "B" 1 2 0]).map (fun r => r.Timeline) =
      some [⟨"A", 0, 1⟩, ⟨"B", 1, 3⟩, ⟨"A", 3, 7⟩] :=
  ⟨by decide, by decide, by decide,
   srtf_shortest_remaining_first [mkProcess "A" 0 5 0, mkProcess "B" 1 2 0] (by decide)
     (by decide) (by decide),
   by decide⟩

/-- C6 as stated fails where the clock leaves the range of a Go `int`.  On the
well-formed input `[{A, arrival 2^63 - 1, burst 1}]`, `runSRTF` returns the
timeline `[(A, 2^63 - 1, -2^63)]`: the length `endTime - startTime` of the run is
`-(2^64 - 1)`, which is not the time to completion 1 of `A` (and there is no
later arrival). -/
theorem srtf_run_length_past_the_range :
    WellFormed lastInstant ∧ DistinctIds lastInstant ∧
    Returns (fun fuel => (runSRTF fuel lastInstant).map fun r => r.Timeline)
      [⟨"A", 9223372036854775807, -9223372036854775808⟩] ∧
    ¬ ∀ seg ∈ [(⟨"A", 9223372036854775807, -9223372036854775808⟩ : TimelineSegment)],
      RunLengthRule lastInstant [⟨"A", 9223372036854775807, -9223372036854775808⟩] seg := by
  refine ⟨by decide, by decide, ⟨2, ?_⟩, ?_⟩
  · intro fuel h
    obtain ⟨k, rfl⟩ := Nat.exists_eq_add_of_le h
    rw [Nat.add_comm]
    rfl
  · unfold RunLengthRule
    decide

/-! ## Claim C7: the Round-Robin tie-break -/

/-- C7, as the code has it.  The Round-Robin tie-break between new arrivals and
the returning process: for every well-formed input (non-empty, `burstTime > 0`,
`arrivalTime >= 0`, `remainingTime = burstTime`, distinct ids) whose times stay
in the range of a Go `int` (every arrival time plus the sum of all burst times
is at most `2^63 - 1`) and every `timeQuantum`, `runRoundRobin` returns, and
whenever its timeline has a slice of a process `P` from `oldClock` to `newClock`
after which `P` is unfinished, and `Q` is another process with
`oldClock < arrivalTime(Q) <= newClock`, the first segment of `Q` in the
timeline comes after that slice and before the next segment of `P`, which
exists. -/
theorem roundRobin_tie_break (processes : List Process) (hwf : WellFormed processes)
    (hid : DistinctIds processes) (hr : InRange processes) (timeQuantum : Int) :
    ∃ r, Returns (fun fuel => runRoundRobin fuel processes timeQuantum) r ∧
      TieBreakOrder processes r.Timeline := by
  obtain ⟨r, h1, h2⟩ := Exact.roundRobin_tie_break_exact processes hwf hid timeQuantum
  exact ⟨r, returns_of_agree (runRoundRobin_exact processes hwf hr timeQuantum) h1, h2⟩

/-- C7 at the scenario of the specification: quantum 2 and `[{A,0,4}, {B,1,3}]`
give the timeline `[(A,0,2), (B,2,4), (A,4,6), (B,6,7)]`: `B` arrives during the
first slice of `A` and runs before `A` returns. -/
theorem roundRobin_tie_break_witness :
    WellFormed [mkProcess "A" 0 4 0, mkProcess "B" 1 3 0] ∧
    DistinctIds [mkProcess "A" 0 4 0, mkProcess "B" 1 3 0] ∧
    InRange [mkProcess "A" 0 4 0, mkProcess "B" 1 3 0] ∧
    (∃ r, Returns (fun fuel => runRoundRobin fuel [mkProcess "A" 0 4 0, mkProcess "B" 1 3 0] 2) r ∧
      TieBreakOrder [mkProcess "A" 0 4 0, mkProcess "B" 1 3 0] r.Timeline) ∧
    (runRoundRobin 4 [mkProcess "A" 0 4 0, mkProcess "B" 1 3 0] 2).map (fun r => r.Timeline) =
      some [⟨"A", 0, 2⟩, ⟨"B", 2, 4⟩, ⟨"A", 4, 6⟩, ⟨"B", 6, 7⟩] :=
  ⟨by decide, by decide, by decide,
   roundRobin_tie_break [mkProcess "A" 0 4 0, mkProcess "B" 1 3 0] (by decide) (by decide)
     (by decide) 2,
   by decide⟩

/-- C7 as stated fails where the clock leaves the range of a Go `int`.  On the
well-formed input `[{A,3,2^63-1}, {B,3,10}, {C,3,2^63-1}, {D,4,1}]` with the
quantum `2^63 - 3`, the first slice of `A` takes the clock around to `-2^63`,
passing over the arrival of `D`; the first slice of `C` then runs from
`-2^63 + 10` to 7, before `C` has arrived.  After that slice (the third pass of
the loop) `C` is unfinished (`RemainingTime = 2`), `D` is unfinished and has
arrived inside the slice, and the ready queue is `[0, 2, 3, 2]`: the scan for
new arrivals has enqueued `C` itself, ahead of `D`.  So in the returned
timeline the next segment of `C`, `(C,9,11)`, comes before the first segment of
`D`, `(D,11,12)`. -/
theorem roundRobin_tie_break_past_the_range :
    WellFormed aroundTheClock ∧ DistinctIds aroundTheClock ∧
    Returns (fun fuel =>
      (runRoundRobin fuel aroundTheClock 9223372036854775805).map fun r => r.Timeline)
      aroundTheClockTimeline ∧
    ((rrInit aroundTheClock).bind (stateAt (rrStep 9223372036854775805) 3)).map
        (fun s => (s.procs.map (fun p => (p.ID, p.RemainingTime)), s.readyQueue,
          s.timeline)) =
      some ([("A", 2), ("B", 0), ("C", 2), ("D", 1)], [0, 2, 3, 2],
        aroundTheClockTimeline.take 3) ∧
    ¬ TieBreakOrder aroundTheClock aroundTheClockTimeline := by
  refine ⟨by decide, by decide, ⟨7, ?_⟩, by decide, ?_⟩
  · intro fuel h
    obtain ⟨k, rfl⟩ := Nat.exists_eq_add_of_le h
    rw [Nat.add_comm]
    rfl
  · intro h
    obtain ⟨mid1, segQ, mid2, segP, post2, hpost, hQ, hP, _, h5⟩ :=
      h [⟨"A", 3, -9223372036854775808⟩, ⟨"B", -9223372036854775808, -9223372036854775798⟩]
        [⟨"A", 7, 9⟩, ⟨"C", 9, 11⟩, ⟨"D", 11, 12⟩] ⟨"C", -9223372036854775798, 7⟩
        (mkProcess "C" 3 9223372036854775807 0) (mkProcess "D" 4 1 0) rfl
        (by decide) (by decide) (by decide) (by decide) (by decide) (by decide) (by decide)
    -- the first segment of `D` is the last segment of the timeline
    match mid1, hpost with
    | [], hpost =>
      simp only [List.nil_append, List.cons.injEq] at hpost
      exact absurd (hpost.1 ▸ hQ) (by decide)
    | [a], hpost =>
      simp only [List.cons_append, List.nil_append, List.cons.injEq] at hpost
      exact absurd (hpost.2.1 ▸ hQ) (by decide)
    | [a, b], hpost =>
      simp only [List.cons_append, List.nil_append, List.cons.injEq] at hpost
      have := congrArg List.length hpost.2.2.2
      simp at this
      omega
    | a :: b :: c :: rest, hpost =>
      have := congrArg List.length hpost
      simp at this



/-! ## Claim C8: the Round-Robin quantum bound -/

/-- C8, as the code has it.  Round-Robin quantum bound: for every non-empty
process list with `burstTime > 0`, `arrivalTime >= 0`, `remainingTime =
burstTime` and distinct ids whose times stay in the range of a Go `int` (every
arrival time plus the sum of all burst times is at most `2^63 - 1`), and every
`timeQuantum`, with `q = timeQuantum` if `timeQuantum > 0` and `q = 1`
otherwise, `runRoundRobin` returns, every segment of its timeline has duration
`<= q`, and every segment that is followed by a later segment of the same
process has duration exactly `q`. -/
theorem roundRobin_quantum_bound (processes : List Process) (hwf : WellFormed processes)
    (hid : DistinctIds processes) (hr : InRange processes) (timeQuantum : Int) :
    ∃ r, Returns (fun fuel => runRoundRobin fuel processes timeQuantum) r ∧
      QuantumBound (if timeQuantum > 0 then timeQuantum else 1) r.Timeline := by
  obtain ⟨r, h1, h2⟩ := Exact.roundRobin_quantum_bound_exact processes hwf hid timeQuantum
  exact ⟨r, returns_of_agree (runRoundRobin_exact processes hwf hr timeQuantum) h1, h2⟩

/-- C8 at the scenario of the specification: quantum 2 and `[{A,0,4}, {B,1,3}]`,
whose timeline is `[(A,0,2), (B,2,4), (A,4,6), (B,6,7)]`. -/
theorem roundRobin_quantum_bound_witness :
    WellFormed [mkProcess "A" 0 4 0, mkProcess "B" 1 3 0] ∧
    DistinctIds [mkProcess "A" 0 4 0, mkProcess "B" 1 3 0] ∧
    InRange [mkProcess "A" 0 4 0, mkProcess "B" 1 3 0] ∧
    ∃ r, Returns (fun fuel => runRoundRobin fuel [mkProcess "A" 0 4 0, mkProcess "B" 1 3 0] 2) r ∧
      QuantumBound (if (2 : Int) > 0 then 2 else 1) r.Timeline :=
  ⟨by decide, by decide, by decide,
   roundRobin_quantum_bound [mkProcess "A" 0 4 0, mkProcess "B" 1 3 0] (by decide) (by decide)
     (by decide) 2⟩

/-- C8 as stated fails where the clock leaves the range of a Go `int`.  On the
well-formed input `[{A, arrival 2^63 - 1, burst 2}]` with quantum 1,
`runRoundRobin` returns the timeline `[(A, 2^63 - 1, -2^63), (A, -2^63,
-2^63 + 1)]`: the first segment is not the last segment of `A`, and its duration
`endTime - startTime` is `-(2^64 - 1)`, not the quantum 1. -/
theorem roundRobin_quantum_past_the_range :
    WellFormed lastInstantTwice ∧ DistinctIds lastInstantTwice ∧
    Returns (fun fuel => (runRoundRobin fuel lastInstantTwice 1).map fun r => r.Timeline)
      [⟨"A", 9223372036854775807, -9223372036854775808⟩,
       ⟨"A", -9223372036854775808, -9223372036854775807⟩] ∧
    ¬ QuantumBound (if (1 : Int) > 0 then 1 else 1)
      [⟨"A", 9223372036854775807, -9223372036854775808⟩,
       ⟨"A", -9223372036854775808, -9223372036854775807⟩] := by
  refine ⟨by decide, by decide, ⟨3, ?_⟩, ?_⟩
  · intro fuel h
    obtain ⟨k, rfl⟩ := Nat.exists_eq_add_of_le h
    rw [Nat.add_comm]
    rfl
  · unfold QuantumBound
    decide

/-! ## Claim C10: the FCFS schedule -/

/-- C11, as the code has it.  The SJF selection rule: for every non-empty
process list with `burstTime > 0`, `arrivalTime >= 0`, `remainingTime =
burstTime` and distinct ids whose times stay in the range of a Go `int` (every
arrival time plus the sum of all burst times is at most `2^63 - 1`), `runSJF`
returns, its timeline has exactly one segment per process, of duration
`burstTime`, and for every segment starting at time `s` the process it carries
has the minimum `burstTime` among all processes with `arrivalTime <= s` that
were not completed before `s`, and among those of minimum `burstTime` it is the
one with the lowest index in the input list. -/
theorem sjf_selection_rule (processes : List Process) (hwf : WellFormed processes)
    (hid : DistinctIds processes) (hr : InRange processes) :
    ∃ r, Returns (fun fuel => runSJF fuel processes) r ∧
      OneSegmentEach processes r.Timeline ∧ SJFSelection processes r.Timeline := by
  obtain ⟨s0, r, h0, hret, h1, h2⟩ := Exact.sjf_selection processes hwf.1 hwf.2 hid
  exact ⟨_, returns_of_agree (runSJF_exact processes hwf hr) (Exact.runSJF_returns h0 hret),
    h1, h2⟩

/-- C11 at the input `[{A,0,5}, {B,1,3}, {C,2,3}, {D,20,1}]`: after `A`, the
processes `B` and `C` tie on the burst time and `B`, at the lower index, runs
first; `D` runs after an idle gap. -/
theorem sjf_selection_rule_witness :
    WellFormed [mkProcess "A" 0 5 0, mkProcess "B" 1 3 0, mkProcess "C" 2 3 0,
      mkProcess "D" 20 1 0] ∧
    DistinctIds [mkProcess "A" 0 5 0, mkProcess "B" 1 3 0, mkProcess "C" 2 3 0,
      mkProcess "D" 20 1 0] ∧
    InRange [mkProcess "A" 0 5 0, mkProcess "B" 1 3 0, mkProcess "C" 2 3 0,
      mkProcess "D" 20 1 0] ∧
    (∃ r, Returns (fun fuel => runSJF fuel [mkProcess "A" 0 5 0, mkProcess "B" 1 3 0,
        mkProcess "C" 2 3 0, mkProcess "D" 20 1 0]) r ∧
      OneSegmentEach [mkProcess "A" 0 5 0, mkProcess "B" 1 3 0, mkProcess "C" 2 3 0,
        mkProcess "D" 20 1 0] r.Timeline ∧
      SJFSelection [mkProcess "A" 0 5 0, mkProcess "B" 1 3 0, mkProcess "C" 2 3 0,
        mkProcess "D" 20 1 0] r.Timeline) ∧
    (runSJF 5 [mkProcess "A" 0 5 0, mkProcess "B" 1 3 0, mkProcess "C" 2 3 0,
        mkProcess "D" 20 1 0]).map (fun r => r.Timeline) =
      some [⟨"A", 0, 5⟩, ⟨"B", 5, 8⟩, ⟨"C", 8, 11⟩, ⟨"D", 20, 21⟩] :=
  ⟨by decide, by decide, by decide,
   sjf_selection_rule [mkProcess "A" 0 5 0, mkProcess "B" 1 3 0, mkProcess "C" 2 3 0,
     mkProcess "D" 20 1 0] (by decide) (by decide) (by decide),
   by decide⟩

/-- C11 as stated fails where the clock leaves the range of a Go `int`.  On the
well-formed input `[{A, arrival 2^63 - 1, burst 1}]`, `runSJF` returns the
timeline `[(A, 2^63 - 1, -2^63)]`, whose only segment has the duration
`-(2^64 - 1)`, not the burst time 1 of `A`. -/
theorem sjf_duration_past_the_range :
    WellFormed lastInstant ∧ DistinctIds lastInstant ∧
    (∀ p ∈ lastInstant, p.IsStarted = false) ∧
    Returns (fun fuel => (runSJF fuel lastInstant).map fun r => r.Timeline)
      [⟨"A", 9223372036854775807, -9223372036854775808⟩] ∧
    ¬ OneSegmentEach lastInstant [⟨"A", 9223372036854775807, -9223372036854775808⟩] := by
  refine ⟨by decide, by decide, by decide, ⟨2, ?_⟩, ?_⟩
  · intro fuel h
    obtain ⟨k, rfl⟩ := Nat.exists_eq_add_of_le h
    rw [Nat.add_comm]
    rfl
  · unfold OneSegmentEach
    decide

/-! ## Claim C15: response time at first dispatch -/

/-- C15, as the code has it.  Response time is captured at first dispatch only:
for every non-empty process list with `burstTime > 0`, `arrivalTime >= 0`,
`remainingTime = burstTime` and distinct ids whose times stay in the range of a
Go `int` (every arrival time plus the sum of all burst times is at most
`2^63 - 1`), each of `runSRTF`, `runPreemptivePriority` and `runRoundRobin` (any
`timeQuantum`) returns, and every returned process that has at least one
timeline segment has `startTime` equal to the smallest `startTime` among its
segments and `responseTime = startTime - arrivalTime`, whatever resumptions came
later. -/
theorem response_time_at_first_dispatch (processes : List Process)
    (hwf : WellFormed processes) (hid : DistinctIds processes) (hr : InRange processes)
    (timeQuantum : Int) :
    (∃ r, Returns (fun fuel => runSRTF fuel processes) r ∧
      FirstDispatch r.Processes r.Timeline) ∧
    (∃ r, Returns (fun fuel => runPreemptivePriority fuel processes) r ∧
      FirstDispatch r.Processes r.Timeline) ∧
    (∃ r, Returns (fun fuel => runRoundRobin fuel processes timeQuantum) r ∧
      FirstDispatch r.Processes r.Timeline) := by
  refine ⟨?_, ?_, ?_⟩
  · obtain ⟨s0, r, h0, hret, h1⟩ :=
      Exact.p_first_dispatch (fun p => p.RemainingTime) Exact.srtfPreempts processes
        hwf.1 hwf.2 hid
    exact ⟨_, returns_of_agree (runSRTF_exact processes hwf hr)
      (Exact.runSRTF_returns h0 hret), h1⟩
  · obtain ⟨s0, r, h0, hret, h1⟩ :=
      Exact.p_first_dispatch (fun p => p.Priority) priorityPreempts processes hwf.1 hwf.2 hid
    exact ⟨_, returns_of_agree (runPreemptivePriority_exact processes hwf hr)
      (Exact.runPreemptivePriority_returns h0 hret), h1⟩
  · obtain ⟨s0, r, h0, hret, h1⟩ :=
      Exact.rr_first_dispatch _ (Exact.clamp_pos timeQuantum) processes hwf.1 hwf.2 hid
    exact ⟨_, returns_of_agree (runRoundRobin_exact processes hwf hr timeQuantum)
      (Exact.runRoundRobin_returns timeQuantum h0 hret), h1⟩

/-- C15 at the scenario of the specification: SRTF on `[{A,0,5}, {B,1,2}]`, where
`A` is resumed at time 3, gives the response times `A = 0` and `B = 0` (and the
start times 0 and 1). -/
theorem response_time_at_first_dispatch_witness :
    WellFormed [mkProcess "A" 0 5 0, mkProcess "B" 1 2 0] ∧
    DistinctIds [mkProcess "A" 0 5 0, mkProcess "B" 1 2 0] ∧
    InRange [mkProcess "A" 0 5 0, mkProcess "B" 1 2 0] ∧
    ((∃ r, Returns (fun fuel => runSRTF fuel [mkProcess "A" 0 5 0, mkProcess "B" 1 2 0]) r ∧
      FirstDispatch r.Processes r.Timeline) ∧
    (∃ r, Returns (fun fuel =>
        runPreemptivePriority fuel [mkProcess "A" 0 5 0, mkProcess "B" 1 2 0]) r ∧
      FirstDispatch r.Processes r.Timeline) ∧
    (∃ r, Returns (fun fuel =>
        runRoundRobin fuel [mkProcess "A" 0 5 0, mkProcess "B" 1 2 0] 2) r ∧
      FirstDispatch r.Processes r.Timeline)) ∧
    (runSRTF 3 [mkProcess "A" 0 5 0, mkProcess "B" 1 2 0]).map
        (fun r => (r.Timeline, r.Processes.map fun p => (p.ID, p.StartTime, p.ResponseTime))) =
      some ([⟨"A", 0, 1⟩, ⟨"B", 1, 3⟩, ⟨"A", 3, 7⟩], [("A", 0, 0), ("B", 1, 0)]) :=
  ⟨by decide, by decide, by decide,
   response_time_at_first_dispatch [mkProcess "A" 0 5 0, mkProcess "B" 1 2 0] (by decide)
     (by decide) (by decide) 2,
   by decide⟩

/-- C15 as stated fails where the clock leaves the range of a Go `int`.  On the
well-formed input `[{A, arrival 2^63 - 1, burst 2}]` with quantum 1,
`runRoundRobin` returns the timeline `[(A, 2^63 - 1, -2^63), (A, -2^63,
-2^63 + 1)]` and the process `A` with `startTime = 2^63 - 1`: the resumption of
`A` starts at `-2^63`, so `startTime` is not the smallest `startTime` among the
segments of `A`. -/
theorem first_dispatch_past_the_range :
    WellFormed lastInstantTwice ∧ DistinctIds lastInstantTwice ∧
    Returns (fun fuel => (runRoundRobin fuel lastInstantTwice 1).map fun r =>
        (r.Timeline, r.Processes.map fun p => (p.ID, p.StartTime)))
      ([⟨"A", 9223372036854775807, -9223372036854775808⟩,
        ⟨"A", -9223372036854775808, -9223372036854775807⟩],
       [("A", 9223372036854775807)]) ∧
    ∀ r, Returns (fun fuel => runRoundRobin fuel lastInstantTwice 1) r →
      ¬ FirstDispatch r.Processes r.Timeline := by
  have hrun : ∀ fuel, 3 ≤ fuel → ∃ r, runRoundRobin fuel lastInstantTwice 1 = some r ∧
      r.Timeline = [⟨"A", 9223372036854775807, -9223372036854775808⟩,
        ⟨"A", -9223372036854775808, -9223372036854775807⟩] ∧
      r.Processes.map (fun p => (p.ID, p.StartTime)) = [("A", 9223372036854775807)] := by
    intro fuel h
    obtain ⟨k, rfl⟩ := Nat.exists_eq_add_of_le h
    rw [Nat.add_comm]
    exact ⟨_, rfl, rfl, rfl⟩
  refine ⟨by decide, by decide, ⟨3, ?_⟩, ?_⟩
  · intro fuel h
    obtain ⟨r, h1, h2, h3⟩ := hrun fuel h
    show (runRoundRobin fuel lastInstantTwice 1).map _ = _
    rw [h1]
    simp [h2, h3]
  · rintro r ⟨N, hN⟩ hfd
    obtain ⟨r1, h1, h2, h3⟩ := hrun (max N 3) (le_max_right _ _)
    have h5 : runRoundRobin (max N 3) lastInstantTwice 1 = some r := hN _ (le_max_left _ _)
    rw [h5] at h1
    cases h1
    have hlen : r.Processes.length = 1 := by simpa using congrArg List.length h3
    obtain ⟨p, hp⟩ := List.length_eq_one.mp hlen
    rw [hp] at h3
    simp only [List.map_cons, List.map_nil, List.cons.injEq, Prod.mk.injEq, and_true] at h3
    have := hfd p (by rw [hp]; simp) ⟨_, by rw [h2]; exact List.mem_cons_self _ _, h3.1.symm⟩
    have h4 := this.2.1 ⟨"A", -9223372036854775808, -9223372036854775807⟩
      (by rw [h2]; simp) h3.1.symm
    rw [h3.2] at h4
    exact absurd h4 (by decide)

/-! ## Claim C1: conservation -/

/-- C1. Conservation fails for `runRoundRobin` on the well-formed input
`[{A,0,1}, {B,5,1}, {C,5,1}]`, quantum 2: after an idle gap the refill of the
empty ready queue enqueues only `B`, the first process that arrives at time 5;
`C`, which arrives at the same time, is never enqueued, the loop leaves by its
`break`, and `C` is returned with the metrics it came with:
`turnaroundTime = 0` but `completionTime - arrivalTime = -5`. -/
theorem roundRobin_conservation_violated :
    WellFormed idleThenTwoArrivals ∧ DistinctIds idleThenTwoArrivals ∧
    (∀ p ∈ idleThenTwoArrivals, p.IsStarted = false) ∧
    Returns (fun fuel => runRoundRobin fuel idleThenTwoArrivals 2) idleThenTwoArrivalsResult ∧
    ∃ p ∈ idleThenTwoArrivalsResult.Processes,
      p.ID = "C" ∧ p.TurnaroundTime = 0 ∧ p.CompletionTime - p.ArrivalTime = -5 := by
  refine ⟨by decide, by decide, by decide, ⟨3, ?_⟩, ?_⟩
  · intro fuel h
    obtain ⟨k, rfl⟩ := Nat.exists_eq_add_of_le h
    rw [Nat.add_comm]
    rfl
  · exact ⟨mkProcess "C" 5 1 0, by decide, by decide⟩

/-! ## Claim C2: total CPU time under Round Robin -/

/-- C2. Total CPU time fails for `runRoundRobin` on the well-formed input
`[{A,0,1}, {B,5,1}, {C,5,1}]`, quantum 2: the returned timeline is
`[(A,0,1), (B,5,6)]`, so the segments of `C` sum to 0 and not to its burst
time 1, and the loop has stopped although `C` is returned with
`RemainingTime = 1`. -/
theorem roundRobin_total_cpu_time_violated :
    WellFormed idleThenTwoArrivals ∧ DistinctIds idleThenTwoArrivals ∧
    Returns (fun fuel => runRoundRobin fuel idleThenTwoArrivals 2) idleThenTwoArrivalsResult ∧
    cpuTime "C" idleThenTwoArrivalsResult.Timeline = 0 ∧
    ∃ p ∈ idleThenTwoArrivalsResult.Processes,
      p.ID = "C" ∧ p.BurstTime = 1 ∧ p.RemainingTime = 1 := by
  refine ⟨by decide, by decide, ⟨3, ?_⟩, by decide, ?_⟩
  · intro fuel h
    obtain ⟨k, rfl⟩ := Nat.exists_eq_add_of_le h
    rw [Nat.add_comm]
    rfl
  · exact ⟨mkProcess "C" 5 1 0, by decide, by decide⟩

/-! ## Claim C9: the degenerate quantum -/

/-- C9. A degenerate quantum is clamped to 1: for every process list, every
`timeQuantum <= 0` and every amount of fuel, `runRoundRobin` does exactly what
it does with quantum 1 (the same processes and timeline, or no result). -/
theorem degenerate_quantum_clamped (fuel : Nat) (processes : List Process) (timeQuantum : Int)
    (h : timeQuantum ≤ 0) :
    runRoundRobin fuel processes timeQuantum = runRoundRobin fuel processes 1 := by
  unfold runRoundRobin
  simp [h]

/-- C9 at `[{A,0,4}, {B,1,3}]` with quantum `-3`: the run with quantum 1. -/
theorem degenerate_quantum_clamped_witness :
    runRoundRobin 7 [mkProcess "A" 0 4 0, mkProcess "B" 1 3 0] (-3) =
      runRoundRobin 7 [mkProcess "A" 0 4 0, mkProcess "B" 1 3 0] 1 ∧
    (runRoundRobin 7 [mkProcess "A" 0 4 0, mkProcess "B" 1 3 0] (-3)).map
        (fun r => r.Timeline) =
      some [⟨"A", 0, 1⟩, ⟨"B", 1, 2⟩, ⟨"A", 2, 3⟩, ⟨"B", 3, 4⟩, ⟨"A", 4, 5⟩, ⟨"B", 5, 6⟩,
            ⟨"A", 6, 7⟩] :=
  ⟨degenerate_quantum_clamped 7 [mkProcess "A" 0 4 0, mkProcess "B" 1 3 0] (-3) (by decide),
   by decide⟩

/-! ## Claim C12: the tie-break of non-preemptive Priority -/

/-- The selection scan on two ready processes of equal priority other than `-1`
selects the first. -/
theorem selectIdx_pair (p0 p1 : Process) (ct : Int) (h0 : Ready ct p0) (h1 : Ready ct p1)
    (heq : p0.Priority = p1.Priority) (hne : p0.Priority ≠ -1) :
    selectIdx (fun p => p.Priority) ct [p0, p1] = some 0 := by
  obtain ⟨a0, b0⟩ := h0
  obtain ⟨a1, b1⟩ := h1
  have hne1 : ¬ p1.Priority = -1 := by rw [← heq]; exact hne
  simp [selectIdx, selectFrom, a0, b0, a1, b1, heq, hne1]

/-- A pass of the loop keeps the first segment of the timeline. -/
theorem npStep_head (key : Process → Int) (s t : NPState) (seg : TimelineSegment)
    (rest : List TimelineSegment) (hs : s.timeline = seg :: rest)
    (h : npStep key s = .next t) : ∃ rest2, t.timeline = seg :: rest2 := by
  obtain ⟨_, hc⟩ := npStep_next key s t h
  rcases hc with ⟨_, rfl⟩ | ⟨i, p, _, _, _, rfl⟩
  · exact ⟨rest, hs⟩
  · exact ⟨rest ++ [{ ProcessID := p.ID, StartTime := s.currentTime,
                        EndTime := wrap (s.currentTime + p.RemainingTime) }], by simp [hs]⟩

/-- The tie-break of non-preemptive Priority away from the value `-1`: of two
processes that arrive at time 0 with the same priority, other than `-1`, the
one at index 0 of the input is dispatched first. -/
theorem priority_tie_break_without_sentinel (p0 p1 : Process)
    (hwf : WellFormed [p0, p1]) (ha0 : p0.ArrivalTime = 0) (ha1 : p1.ArrivalTime = 0)
    (heq : p0.Priority = p1.Priority) (hne : p0.Priority ≠ -1) :
    ∃ r, Returns (fun fuel => runNonPreemptivePriority fuel [p0, p1]) r ∧
      ∃ seg rest, r.Timeline = seg :: rest ∧ seg.ProcessID = p0.ID := by
  obtain ⟨hnil, hall⟩ := hwf
  obtain ⟨s0, r, h0, hret, hinv, hextra, hz⟩ :=
    np_ends_with (fun p => p.Priority) [p0, p1] hnil hall
      (fun s => (s.timeline = [] ∧ s.procs = [p0, p1] ∧ s.currentTime = 0) ∨
        ∃ seg rest, s.timeline = seg :: rest ∧ seg.ProcessID = p0.ID)
      (fun s0 hs0 => by
        left
        simp only [npInit, earliestArrival, earliestArrivalFrom, ha0, ha1, lt_self_iff_false,
          if_false, Option.some.injEq] at hs0
        subst hs0
        exact ⟨rfl, rfl, rfl⟩)
      (fun s t _ he hst => by
        right
        rcases he with ⟨htl, hprocs, hct⟩ | ⟨seg, rest, htl, hid⟩
        · have hr0 : Ready s.currentTime p0 := by
            have := hall p0 (by simp)
            exact ⟨by omega, by omega⟩
          have hr1 : Ready s.currentTime p1 := by
            have := hall p1 (by simp)
            exact ⟨by omega, by omega⟩
          have hsel := selectIdx_pair p0 p1 s.currentTime hr0 hr1 heq hne
          rw [← hprocs] at hsel
          obtain ⟨_, hc⟩ := npStep_next _ s t hst
          rcases hc with ⟨hnone, _⟩ | ⟨i, p, hsome, hp, _, rfl⟩
          · rw [hsel] at hnone
            simp at hnone
          · rw [hsel] at hsome
            injection hsome with hsome
            subst hsome
            rw [hprocs] at hp
            simp at hp
            subst hp
            exact ⟨{ ProcessID := p0.ID, StartTime := s.currentTime,
                     EndTime := wrap (s.currentTime + p0.RemainingTime) }, [], by simp [htl], rfl⟩
        · obtain ⟨rest2, h2⟩ := npStep_head _ s t seg rest htl hst
          exact ⟨seg, rest2, h2, hid⟩)
  refine ⟨_, runNonPreemptivePriority_of_loop h0 hret, ?_⟩
  rcases hextra with ⟨_, hprocs, _⟩ | h
  · exfalso
    have hc := hinv.count
    rw [hz, hprocs] at hc
    have a := (hall p0 (by simp))
    have b := (hall p1 (by simp))
    have ha : 0 < p0.RemainingTime := by omega
    have hb : 0 < p1.RemainingTime := by omega
    simp [List.countP_cons, ha, hb] at hc
  · exact h

/-- C12. The tie-break of non-preemptive Priority fails at the priority `-1`: on
`[{A, arrival 0, burst 2, priority -1}, {B, arrival 0, burst 3, priority -1}]`
`runNonPreemptivePriority` returns the timeline `[(B,0,3), (A,3,5)]`, whose first
segment carries the id of the process at index 1, not of the one at index 0.
The scan holds `highestPriority == -1` for "nothing selected yet", so after it
has selected `A`, whose priority is `-1`, it takes `B` as if nothing were
selected.  (For every other common priority the process at index 0 is first:
`priority_tie_break_without_sentinel`.) -/
theorem priority_tie_break_violated :
    WellFormed tiedAtMinusOne ∧ DistinctIds tiedAtMinusOne ∧
    (∀ p ∈ tiedAtMinusOne, p.ArrivalTime = 0 ∧ p.Priority = -1) ∧
    (tiedAtMinusOne.map fun p => p.ID) = ["A", "B"] ∧
    ∀ fuel, 3 ≤ fuel →
      (runNonPreemptivePriority fuel tiedAtMinusOne).map (fun r => r.Timeline) =
        some [⟨"B", 0, 3⟩, ⟨"A", 3, 5⟩] := by
  refine ⟨by decide, by decide, by decide, by decide, ?_⟩
  intro fuel h
  obtain ⟨k, rfl⟩ := Nat.exists_eq_add_of_le h
  rw [Nat.add_comm]
  rfl

/-! ## Claim C13: the preemption trigger of preemptive Priority -/

/-- C13. The preemption trigger of preemptive Priority: for every non-empty
process list with `burstTime > 0`, `arrivalTime >= 0`, `remainingTime =
burstTime` and distinct ids (a list of Go values: every `int` field holds a
value of Go `int`), `runPreemptivePriority` returns, and every segment of its
timeline that ends at a time `e` at which its process is not yet complete (a
later segment of the timeline is its own) ends exactly at the `arrivalTime` `e`
of some other process whose priority value is strictly lower than that of the
segment's process; so an arrival with equal or greater priority value, whatever
its `burstTime`, never ends a segment early: when no other process of strictly
lower priority value arrives at the end of a segment, its process is complete
there.  This holds whatever the clock does, also when it wraps around. -/
theorem priority_preemption_trigger (processes : List Process) (hwf : WellFormed processes)
    (hid : DistinctIds processes) (hgo : GoInts processes) :
    ∃ r, Returns (fun fuel => runPreemptivePriority fuel processes) r ∧
      PreemptionTrigger processes r.Timeline ∧ NoOtherTrigger processes r.Timeline := by
  obtain ⟨s0, r, h0, hret, h1, h2⟩ := priority_trigger processes hwf.1 hwf.2 hgo hid
  exact ⟨_, runPreemptivePriority_of_loop h0 hret, h1, h2⟩

/-- C13 at the input `[{A,0,5,priority 2}, {B,1,2,priority 1}, {C,2,1,priority
2}]`: the arrival of `B` ends the first segment of `A` at time 1; the arrival of
`C`, whose priority value equals that of `A` and whose burst time is shorter,
ends no segment. -/
theorem priority_preemption_trigger_witness :
    WellFormed [mkProcess "A" 0 5 2, mkProcess "B" 1 2 1, mkProcess "C" 2 1 2] ∧
    DistinctIds [mkProcess "A" 0 5 2, mkProcess "B" 1 2 1, mkProcess "C" 2 1 2] ∧
    GoInts [mkProcess "A" 0 5 2, mkProcess "B" 1 2 1, mkProcess "C" 2 1 2] ∧
    (∃ r, Returns (fun fuel => runPreemptivePriority fuel
        [mkProcess "A" 0 5 2, mkProcess "B" 1 2 1, mkProcess "C" 2 1 2]) r ∧
      PreemptionTrigger [mkProcess "A" 0 5 2, mkProcess "B" 1 2 1, mkProcess "C" 2 1 2]
        r.Timeline ∧
      NoOtherTrigger [mkProcess "A" 0 5 2, mkProcess "B" 1 2 1, mkProcess "C" 2 1 2]
        r.Timeline) ∧
    (runPreemptivePriority 5
        [mkProcess "A" 0 5 2, mkProcess "B" 1 2 1, mkProcess "C" 2 1 2]).map
        (fun r => r.Timeline) =
      some [⟨"A", 0, 1⟩, ⟨"B", 1, 3⟩, ⟨"A", 3, 7⟩, ⟨"C", 7, 8⟩] :=
  ⟨by decide, by decide, by decide,
   priority_preemption_trigger [mkProcess "A" 0 5 2, mkProcess "B" 1 2 1, mkProcess "C" 2 1 2]
     (by decide) (by decide) (by decide),
   by decide⟩

/-! ## Claim C14: work conservation -/

theorem fcfsLoop_timeline_length (ps : List Process) :
    ∀ ct : Int, (fcfsLoop ct ps).2.length = ps.length := by
  induction ps with
  | nil => intro ct; simp [fcfsLoop]
  | cons p ps ih =>
    intro ct
    simp only [fcfsLoop, List.length_cons, ih]

/-- C16. Termination: for every non-empty process list with `burstTime > 0`,
`arrivalTime >= 0` and `remainingTime = burstTime` (a list of Go values: every
`int` field holds a value of Go `int`), every engine function returns, whatever
the clock does.  The loop of `runFCFS` makes one pass per process.  The loops of
`runSJF` and `runNonPreemptivePriority` are left after at most `2 * n + 1`
passes (the measure is the number of unfinished processes), those of `runSRTF`
and `runPreemptivePriority` after at most `2 * B + 1` passes and that of
`runRoundRobin`, for every integer `timeQuantum`, after at most `B` passes,
where `B` is the sum of the burst times (the measure is the total remaining
time): with that much fuel each of them returns a result. -/
theorem engines_terminate
    (sortSlice : (Process → Process → Bool) → List Process → List Process)
    (hsort : SortSliceSpec sortSlice) (processes : List Process)
    (hwf : WellFormed processes) (hgo : GoInts processes) (timeQuantum : Int) (fuel : Nat) :
    (runFCFS sortSlice processes).Timeline.length = processes.length ∧
    (2 * processes.length + 1 ≤ fuel →
      (∃ r, runSJF fuel processes = some r) ∧
      ∃ r, runNonPreemptivePriority fuel processes = some r) ∧
    (2 * (totalRemaining processes).toNat + 1 ≤ fuel →
      (∃ r, runSRTF fuel processes = some r) ∧
      ∃ r, runPreemptivePriority fuel processes = some r) ∧
    ((totalRemaining processes).toNat ≤ fuel →
      ∃ r, runRoundRobin fuel processes timeQuantum = some r) := by
  obtain ⟨hne, hall⟩ := hwf
  refine ⟨?_, ?_, ?_, ?_⟩
  · show (fcfsLoop 0 _).2.length = _
    rw [fcfsLoop_timeline_length]
    exact (hsort (fun p => p.ArrivalTime) processes).1.length_eq
  · intro hf
    constructor
    · obtain ⟨s0, r, h0, hr⟩ := np_passes (fun p => p.BurstTime) processes hne hall fuel hf
      exact ⟨{ Processes := r.completed, Timeline := r.timeline }, by simp [runSJF, h0, hr]⟩
    · obtain ⟨s0, r, h0, hr⟩ := np_passes (fun p => p.Priority) processes hne hall fuel hf
      exact ⟨{ Processes := r.procs, Timeline := r.timeline },
        by simp [runNonPreemptivePriority, h0, hr]⟩
  · intro hf
    constructor
    · obtain ⟨s0, r, h0, hr⟩ :=
        p_passes (fun p => p.RemainingTime) srtfPreempts processes hne hall hgo fuel hf
      exact ⟨{ Processes := r.procs, Timeline := r.timeline }, by simp [runSRTF, h0, hr]⟩
    · obtain ⟨s0, r, h0, hr⟩ :=
        p_passes (fun p => p.Priority) priorityPreempts processes hne hall hgo fuel hf
      exact ⟨{ Processes := r.procs, Timeline := r.timeline },
        by simp [runPreemptivePriority, h0, hr]⟩
  · intro hf
    obtain ⟨s0, r, h0, hr⟩ :=
      rr_passes _ (Exact.clamp_pos timeQuantum) processes hne hall hgo fuel hf
    exact ⟨{ Processes := r.procs, Timeline := r.timeline }, by simp [runRoundRobin, h0, hr]⟩

/-- C16 at the input `[{A,0,5,priority 2}, {B,1,2,priority 1}]` with the
degenerate quantum 0 and fuel 15 (`n = 2`, `B = 7`). -/
theorem engines_terminate_witness :
    WellFormed [mkProcess "A" 0 5 2, mkProcess "B" 1 2 1] ∧
    GoInts [mkProcess "A" 0 5 2, mkProcess "B" 1 2 1] ∧
    (runFCFS stableSortSlice [mkProcess "A" 0 5 2, mkProcess "B" 1 2 1]).Timeline.length = 2 ∧
    (∃ r, runSJF 15 [mkProcess "A" 0 5 2, mkProcess "B" 1 2 1] = some r) ∧
    (∃ r, runNonPreemptivePriority 15 [mkProcess "A" 0 5 2, mkProcess "B" 1 2 1] = some r) ∧
    (∃ r, runSRTF 15 [mkProcess "A" 0 5 2, mkProcess "B" 1 2 1] = some r) ∧
    (∃ r, runPreemptivePriority 15 [mkProcess "A" 0 5 2, mkProcess "B" 1 2 1] = some r) ∧
    (∃ r, runRoundRobin 15 [mkProcess "A" 0 5 2, mkProcess "B" 1 2 1] 0 = some r) :=
  have h := engines_terminate stableSortSlice Exact.stableSortSlice_spec
    [mkProcess "A" 0 5 2, mkProcess "B" 1 2 1] (by decide) (by decide) 0 15
  ⟨by decide, by decide, h.1, (h.2.1 (by decide)).1, (h.2.1 (by decide)).2,
   (h.2.2.1 (by decide)).1, (h.2.2.1 (by decide)).2, h.2.2.2 (by decide)⟩

/-! ## Claim C20: non-preemptive Priority with `priority = burstTime` -/

/-- C20. Non-preemptive Priority with `priority := burstTime` coincides with
SJF: for every non-empty process list with `burstTime > 0`, `arrivalTime >= 0`
and `remainingTime = burstTime` in which every process's priority equals its
`burstTime`, `runSJF` and `runNonPreemptivePriority` return, with exactly the
same timeline, and the processes returned by the one are the processes returned
by the other, field by field (start, completion, turnaround, waiting and
response time included), up to the order of the list: `runSJF` returns them in
the order of completion, `runNonPreemptivePriority` in the order of the input.
This holds whatever the clock does, also when it wraps around. -/
theorem priority_as_burst_is_sjf (processes : List Process) (hwf : WellFormed processes)
    (hprio : ∀ p ∈ processes, p.Priority = p.BurstTime) :
    ∃ rSJF rPriority,
      Returns (fun fuel => runSJF fuel processes) rSJF ∧
      Returns (fun fuel => runNonPreemptivePriority fuel processes) rPriority ∧
      rPriority.Timeline = rSJF.Timeline ∧
      rSJF.Processes.Perm rPriority.Processes := by
  obtain ⟨hne, hall⟩ := hwf
  obtain ⟨s1, hs1, _, hp1, _, hc1, _⟩ := npInit_core processes hne hall
  obtain ⟨s0, r, h0, hret, hinv, hdone, hz⟩ :=
    np_ends_with (fun p => p.BurstTime) processes hne hall
      (fun s => s.completed.Perm (s.procs.filter fun p => decide (p.RemainingTime = 0)))
      (fun s0 hs0 => by
        rw [hs0] at hs1
        cases hs1
        have : processes.filter (fun p => decide (p.RemainingTime = 0)) = [] := by
          rw [List.filter_eq_nil_iff]
          intro p hp
          have := hall p hp
          simp
          omega
        rw [hc1, hp1, this])
      (fun s t _ he hst => npCompleted_next _ s t he hst)
  have hs0 : s0.procs.map static = processes.map static := by
    rw [h0] at hs1
    cases hs1
    rw [hp1]
  have hret2 : Returns (fun fuel => iterate (npStep fun p => p.Priority) fuel s0) r := by
    obtain ⟨N, hN⟩ := hret
    refine ⟨N, fun fuel hf => ?_⟩
    show iterate (npStep fun p => p.Priority) fuel s0 = some r
    rw [iterate_npStep_key (fun p => p.Priority) (fun p => p.BurstTime) processes hprio
      (fun p q hpq => by
        simp only [static, Prod.mk.injEq] at hpq
        exact ⟨hpq.2.2.2, hpq.2.2.1⟩) fuel s0 hs0]
    exact hN fuel hf
  refine ⟨_, _, runSJF_of_loop h0 hret, runNonPreemptivePriority_of_loop h0 hret2, rfl, ?_⟩
  have hall0 : r.procs.filter (fun p => decide (p.RemainingTime = 0)) = r.procs := by
    rw [List.filter_eq_self]
    intro p hp
    have hc := hinv.count
    rw [hz] at hc
    have h0 := List.countP_eq_zero.1 hc.symm p hp
    have := (hinv.rem p hp)
    simp at h0 ⊢
    omega
  rw [hall0] at hdone
  exact hdone

/-- C20 at the input `[{A,0,5}, {B,1,2}, {C,2,5}]` with `priority = burstTime`:
both engines give the timeline `[(A,0,5), (B,5,7), (C,7,12)]`. -/
theorem priority_as_burst_is_sjf_witness :
    WellFormed [mkProcess "A" 0 5 5, mkProcess "B" 1 2 2, mkProcess "C" 2 5 5] ∧
    (∀ p ∈ [mkProcess "A" 0 5 5, mkProcess "B" 1 2 2, mkProcess "C" 2 5 5],
      p.Priority = p.BurstTime) ∧
    (∃ rSJF rPriority,
      Returns (fun fuel =>
        runSJF fuel [mkProcess "A" 0 5 5, mkProcess "B" 1 2 2, mkProcess "C" 2 5 5]) rSJF ∧
      Returns (fun fuel => runNonPreemptivePriority fuel
        [mkProcess "A" 0 5 5, mkProcess "B" 1 2 2, mkProcess "C" 2 5 5]) rPriority ∧
      rPriority.Timeline = rSJF.Timeline ∧
      rSJF.Processes.Perm rPriority.Processes) ∧
    (runSJF 3 [mkProcess "A" 0 5 5, mkProcess "B" 1 2 2, mkProcess "C" 2 5 5]).map
        (fun r => r.Timeline) = some [⟨"A", 0, 5⟩, ⟨"B", 5, 7⟩, ⟨"C", 7, 12⟩] :=
  ⟨by decide, by decide,
   priority_as_burst_is_sjf [mkProcess "A" 0 5 5, mkProcess "B" 1 2 2, mkProcess "C" 2 5 5]
     (by decide) (by decide),
   by decide⟩

/-! ## Claim C17: the averages -/

theorem wrap_add_wrap (x y : Int) : wrap (wrap x + y) = wrap (x + y) := by
  unfold wrap
  omega

/-- The totals of `handleSimulation` are the sums, reduced to 64 bits. -/
theorem totalsFrom_sum (ps : List Process) :
    ∀ a b c : Int, totalsFrom (wrap a, wrap b, wrap c) ps =
      (wrap (a + (ps.map fun p => p.WaitingTime).sum),
       wrap (b + (ps.map fun p => p.TurnaroundTime).sum),
       wrap (c + (ps.map fun p => p.ResponseTime).sum)) := by
  induction ps with
  | nil => intro a b c; simp [totalsFrom]
  | cons p ps ih =>
    intro a b c
    simp only [totalsFrom, wrap_add_wrap, ih, List.map_cons, List.sum_cons, add_assoc]

theorem totalsFrom_zero (ps : List Process) :
    totalsFrom (0, 0, 0) ps =
      (wrap (ps.map fun p => p.WaitingTime).sum, wrap (ps.map fun p => p.TurnaroundTime).sum,
       wrap (ps.map fun p => p.ResponseTime).sum) := by
  have h0 : wrap 0 = 0 := by decide
  have := totalsFrom_sum ps 0 0 0
  simpa [h0] using this

/-- C17, as the code has it.  Average computation: for every non-empty returned
process list whose three sums of the per-process `waitingTime`,
`turnaroundTime` and `responseTime` are values of Go `int` (between `-2^63` and
`2^63 - 1`), the three averages computed by `handleSimulation` equal those sums,
over all returned processes, divided by the number of returned processes: they
are `float64(sum) / float64(len)`, whatever the type `F` of the floating-point
values, the conversion `float64` and the division `div` are; with the rationals
for them, the averages are the exact means. -/
theorem averages_are_means {F : Type} (float64 : Int → F) (div : F → F → F)
    (processes : List Process) (hne : processes ≠ [])
    (hw : IsInt (processes.map fun p => p.WaitingTime).sum)
    (ht : IsInt (processes.map fun p => p.TurnaroundTime).sum)
    (hr : IsInt (processes.map fun p => p.ResponseTime).sum) :
    0 < processes.length ∧
    (averageTimes float64 div processes).AverageWaitingTime =
      div (float64 (processes.map fun p => p.WaitingTime).sum)
        (float64 (processes.length : Int)) ∧
    (averageTimes float64 div processes).AverageTurnaroundTime =
      div (float64 (processes.map fun p => p.TurnaroundTime).sum)
        (float64 (processes.length : Int)) ∧
    (averageTimes float64 div processes).AverageResponseTime =
      div (float64 (processes.map fun p => p.ResponseTime).sum)
        (float64 (processes.length : Int)) := by
  refine ⟨List.length_pos.2 hne, ?_, ?_, ?_⟩
  all_goals
    unfold averageTimes
    simp only [totalsFrom_zero, wrap_eq hw.1 hw.2, wrap_eq ht.1 ht.2, wrap_eq hr.1 hr.2]

/-- C17 at the scenario of the specification, with the rationals for `float64`:
FCFS on `[{A,0,3}, {B,1,2}]` returns the waiting times 0 and 2, the turnaround
times 3 and 4 and the response times 0 and 2, whose averages are 1, 7/2 and
1. -/
theorem averages_are_means_witness :
    (runFCFS stableSortSlice [mkProcess "A" 0 3 0, mkProcess "B" 1 2 0]).Processes ≠ [] ∧
    IsInt ((runFCFS stableSortSlice [mkProcess "A" 0 3 0, mkProcess "B" 1 2 0]).Processes.map
      fun p => p.WaitingTime).sum ∧
    IsInt ((runFCFS stableSortSlice [mkProcess "A" 0 3 0, mkProcess "B" 1 2 0]).Processes.map
      fun p => p.TurnaroundTime).sum ∧
    IsInt ((runFCFS stableSortSlice [mkProcess "A" 0 3 0, mkProcess "B" 1 2 0]).Processes.map
      fun p => p.ResponseTime).sum ∧
    (averageTimes (fun x : Int => (x : ℚ)) (fun a b : ℚ => a / b)
      (runFCFS stableSortSlice [mkProcess "A" 0 3 0, mkProcess "B" 1 2 0]).Processes
      ).AverageWaitingTime = 1 ∧
    (averageTimes (fun x : Int => (x : ℚ)) (fun a b : ℚ => a / b)
      (runFCFS stableSortSlice [mkProcess "A" 0 3 0, mkProcess "B" 1 2 0]).Processes
      ).AverageTurnaroundTime = 7 / 2 ∧
    (averageTimes (fun x : Int => (x : ℚ)) (fun a b : ℚ => a / b)
      (runFCFS stableSortSlice [mkProcess "A" 0 3 0, mkProcess "B" 1 2 0]).Processes
      ).AverageResponseTime = 1 := by
  have hw : ((runFCFS stableSortSlice [mkProcess "A" 0 3 0, mkProcess "B" 1 2 0]).Processes.map
      fun p => p.WaitingTime).sum = 2 := by decide
  have ht : ((runFCFS stableSortSlice [mkProcess "A" 0 3 0, mkProcess "B" 1 2 0]).Processes.map
      fun p => p.TurnaroundTime).sum = 7 := by decide
  have hr : ((runFCFS stableSortSlice [mkProcess "A" 0 3 0, mkProcess "B" 1 2 0]).Processes.map
      fun p => p.ResponseTime).sum = 2 := by decide
  have hl : (runFCFS stableSortSlice [mkProcess "A" 0 3 0, mkProcess "B" 1 2 0]).Processes.length
      = 2 := by decide
  have h := averages_are_means (fun x : Int => (x : ℚ)) (fun a b : ℚ => a / b)
    (runFCFS stableSortSlice [mkProcess "A" 0 3 0, mkProcess "B" 1 2 0]).Processes (by decide)
    (by rw [hw]; decide) (by rw [ht]; decide) (by rw [hr]; decide)
  rw [hw, ht, hr, hl] at h
  refine ⟨by decide, by rw [hw]; decide, by rw [ht]; decide, by rw [hr]; decide, ?_, ?_, ?_⟩
  · rw [h.2.1]; norm_num
  · rw [h.2.2.1]; norm_num
  · rw [h.2.2.2]; norm_num

/-- C17 as stated fails where a sum leaves the range of a Go `int`.  On the
well-formed request `[{A,0,2^62,priority 0}, {B,0,2^61,1}, {C,0,1,2}, {D,0,1,3}]`
`runNonPreemptivePriority` runs the processes in this order, the clock staying
below `2^63`, and returns the waiting times `0`, `2^62`, `2^62 + 2^61` and
`2^62 + 2^61 + 1`.  Their sum is `2^64 + 1`, but the total that
`handleSimulation` accumulates and divides is 1: with the rationals for
`float64`, the average waiting time is `1/4`, not the mean. -/
theorem averages_past_the_range :
    WellFormed longWaits ∧ InRange longWaits ∧
    ∃ r, Returns (fun fuel => runNonPreemptivePriority fuel longWaits) r ∧
      r.Processes ≠ [] ∧
      (r.Processes.map fun p => p.WaitingTime) =
        [0, 4611686018427387904, 6917529027641081856, 6917529027641081857] ∧
      (r.Processes.map fun p => p.WaitingTime).sum = 18446744073709551617 ∧
      totalsFrom (0, 0, 0) r.Processes = (1, 6917529027641081859, 1) ∧
      (averageTimes (fun x : Int => (x : ℚ)) (fun a b : ℚ => a / b)
        r.Processes).AverageWaitingTime = 1 / 4 ∧
      (averageTimes (fun x : Int => (x : ℚ)) (fun a b : ℚ => a / b)
        r.Processes).AverageWaitingTime ≠
        (((r.Processes.map fun p => p.WaitingTime).sum : Int) : ℚ) / (r.Processes.length : Int) := by
  have h5 : ∃ r, runNonPreemptivePriority 5 longWaits = some r ∧
      (r.Processes.map fun p => p.WaitingTime) =
        [0, 4611686018427387904, 6917529027641081856, 6917529027641081857] ∧
      totalsFrom (0, 0, 0) r.Processes = (1, 6917529027641081859, 1) :=
    ⟨_, rfl, rfl, rfl⟩
  have hall : ∀ fuel, 5 ≤ fuel →
      runNonPreemptivePriority fuel longWaits = runNonPreemptivePriority 5 longWaits := by
    intro fuel h
    obtain ⟨k, rfl⟩ := Nat.exists_eq_add_of_le h
    rw [Nat.add_comm]
    rfl
  obtain ⟨r, h5, hw, htot⟩ := h5
  have hret : Returns (fun fuel => runNonPreemptivePriority fuel longWaits) r := by
    refine ⟨5, fun fuel hf => ?_⟩
    show runNonPreemptivePriority fuel longWaits = some r
    rw [hall fuel hf]
    exact h5
  have hlen : r.Processes.length = 4 := by
    have := congrArg List.length hw
    simpa using this
  have hne : r.Processes ≠ [] := by
    intro h
    rw [h] at hlen
    simp at hlen
  have havg : (averageTimes (fun x : Int => (x : ℚ)) (fun a b : ℚ => a / b)
      r.Processes).AverageWaitingTime = 1 / 4 := by
    unfold averageTimes
    simp only [htot, hlen]
    norm_num
  refine ⟨by decide, by decide, r, hret, hne, hw, by rw [hw]; decide, htot, havg, ?_⟩
  rw [havg, hw, hlen]
  norm_num

/-! ## Claim C18: the order of the arrivals of one Round-Robin slice -/

/-- C18, as the code has it.  For every well-formed input (non-empty,
`burstTime > 0`, `arrivalTime >= 0`, `remainingTime = burstTime`, distinct ids)
whose times stay in the range of a Go `int` (every arrival time plus the sum of
all burst times is at most `2^63 - 1`) and every `timeQuantum`, `runRoundRobin`
returns, and if two processes `Q1` and `Q2` both have their `arrivalTime` inside
the same slice `(oldClock, newClock]` and `Q1` stands at a lower index of the
input than `Q2`, then both run after the slice and the first timeline segment of
`Q1` precedes the first segment of `Q2`: the scan for new arrivals appends them
to the ready queue in the order of the input, whatever their arrival times
inside the slice. -/
theorem roundRobin_arrivals_in_index_order (processes : List Process)
    (hwf : WellFormed processes) (hid : DistinctIds processes) (hr : InRange processes)
    (timeQuantum : Int) :
    ∃ r, Returns (fun fuel => runRoundRobin fuel processes timeQuantum) r ∧
      ArrivalsInIndexOrder processes r.Timeline := by
  obtain ⟨s0, r, h0, hret, h1⟩ :=
    Exact.rr_arrivals_in_index_order _ (Exact.clamp_pos timeQuantum) processes hwf.1 hwf.2 hid
  exact ⟨_, returns_of_agree (runRoundRobin_exact processes hwf hr timeQuantum)
    (Exact.runRoundRobin_returns timeQuantum h0 hret), h1⟩

/-- C18 as amended, at `[{A,0,3}, {B,2,1}, {C,1,1}]` with quantum 3: `B` and `C`
arrive during the slice `[0, 3)` of `A`, and `B`, at the lower index, runs
first. -/
theorem roundRobin_arrivals_in_index_order_witness :
    WellFormed laterAtLowerIndex ∧ DistinctIds laterAtLowerIndex ∧
    InRange laterAtLowerIndex ∧
    (∃ r, Returns (fun fuel => runRoundRobin fuel laterAtLowerIndex 3) r ∧
      ArrivalsInIndexOrder laterAtLowerIndex r.Timeline) ∧
    (runRoundRobin 4 laterAtLowerIndex 3).map (fun r => r.Timeline) =
      some laterAtLowerIndexTimeline :=
  ⟨by decide, by decide, by decide,
   roundRobin_arrivals_in_index_order laterAtLowerIndex (by decide) (by decide) (by decide) 3,
   by decide⟩

/-- C18 as stated fails.  On the well-formed input `[{A,0,3}, {B,2,1}, {C,1,1}]`
with quantum 3, whose times stay in range, `C` (arrival 1) and `B` (arrival 2)
both arrive inside the slice `(0, 3]` of `A`, `C` before `B`; `runRoundRobin`
returns the timeline `[(A,0,3), (B,3,4), (C,4,5)]`, in which the first segment
of `B` precedes the first segment of `C`: the scan takes the arrivals in the
order of the input.  And where the clock leaves the range of a Go `int` that
order is not kept either: on `[{Q1,3,2^63-1}, {Q2,0,2^63-1}, {R,0,10}]` with the
quantum `2^63 - 1`, `runRoundRobin` returns `[(Q2,0,2^63-1), (R,2^63-1,-2^63+9),
(Q1,-2^63+9,8)]`; the arrival times of `Q1` and `Q2` lie inside the last slice,
`Q1` stands at the lower index, and `Q2` has run first. -/
theorem roundRobin_arrivals_not_in_time_order :
    (WellFormed laterAtLowerIndex ∧ DistinctIds laterAtLowerIndex ∧
      InRange laterAtLowerIndex ∧
      Returns (fun fuel => (runRoundRobin fuel laterAtLowerIndex 3).map fun r => r.Timeline)
        laterAtLowerIndexTimeline ∧
      ¬ ArrivalsInTimeOrder laterAtLowerIndex laterAtLowerIndexTimeline) ∧
    (WellFormed wrappedSlice ∧ DistinctIds wrappedSlice ∧
      Returns (fun fuel =>
        (runRoundRobin fuel wrappedSlice 9223372036854775807).map fun r => r.Timeline)
        wrappedSliceTimeline ∧
      ¬ ArrivalsInIndexOrder wrappedSlice wrappedSliceTimeline) := by
  refine ⟨⟨by decide, by decide, by decide, ⟨4, ?_⟩, ?_⟩, by decide, by decide, ⟨4, ?_⟩, ?_⟩
  · intro fuel h
    obtain ⟨k, rfl⟩ := Nat.exists_eq_add_of_le h
    rw [Nat.add_comm]
    rfl
  · intro h
    obtain ⟨mid1, seg1, mid2, seg2, post2, hpost, h1, _, _, h4⟩ :=
      h [] [⟨"B", 3, 4⟩, ⟨"C", 4, 5⟩] ⟨"A", 0, 3⟩ (mkProcess "C" 1 1 0) (mkProcess "B" 2 1 0) rfl
        (by decide) (by decide) (by decide) (by decide) (by decide) (by decide) (by decide)
    cases mid1 with
    | nil =>
      simp only [List.nil_append, List.cons.injEq] at hpost
      rw [← hpost.1] at h1
      revert h1
      decide
    | cons y mid1 =>
      simp only [List.cons_append, List.cons.injEq] at hpost
      have := h4 y (by simp)
      rw [← hpost.1] at this
      revert this
      decide
  · intro fuel h
    obtain ⟨k, rfl⟩ := Nat.exists_eq_add_of_le h
    rw [Nat.add_comm]
    rfl
  · intro h
    obtain ⟨mid1, seg1, mid2, seg2, post2, hpost, _⟩ :=
      h [⟨"Q2", 0, 9223372036854775807⟩, ⟨"R", 9223372036854775807, -9223372036854775799⟩] []
        ⟨"Q1", -9223372036854775799, 8⟩ 0 1 (mkProcess "Q1" 3 9223372036854775807 0)
        (mkProcess "Q2" 0 9223372036854775807 0) rfl rfl rfl
        (by decide) (by decide) (by decide) (by decide) (by decide)
    simp at hpost

/-! ## Claim C19: the ready queue of Round Robin -/

theorem rrQueueAfterScan_exact (q : Int) (hq : 0 < q) (s : RRState) (ct : Int) (idx : Nat)
    (rest : List Nat) (p : Process) (hrd : Ready ct p) (ha : 0 ≤ p.ArrivalTime)
    (hlim : ct + p.RemainingTime < 2 ^ 63) :
    rrQueueAfterScan q s ct idx rest p = Exact.rrQueueAfterScan q s ct idx rest p := by
  have hr1 := hrd.1
  have hr2 := hrd.2
  unfold rrQueueAfterScan Exact.rrQueueAfterScan
  rw [markStarted_exact ct p (by omega) (by omega)]
  simp only [Exact.markStarted_RemainingTime]
  have hex : 0 < (if p.RemainingTime < q then p.RemainingTime else q) ∧
      (if p.RemainingTime < q then p.RemainingTime else q) ≤ p.RemainingTime := by
    split <;> omega
  generalize (if p.RemainingTime < q then p.RemainingTime else q) = ex at hex ⊢
  rw [wrap_eq (x := ct + ex) (by omega) (by omega),
    wrap_eq (x := p.RemainingTime - ex) (by omega) (by omega)]
  rw [arrivalsFrom_exact (ct + ex) ex (by rw [wrap_eq (by omega) (by omega)])]

/-- The process that a pass dispatches is ready at the clock of its dispatch,
which is the clock of the state or the arrival time of the process. -/
theorem rrRefill_ready (ps0 : List Process) (s : RRState) (hinv : RRInv ps0 s)
    (ct : Int) (idx : Nat) (rest : List Nat) (p : Process)
    (h : rrRefill s = some (ct, idx :: rest)) (hp : s.procs[idx]? = some p) :
    Ready ct p ∧ (ct = s.currentTime ∨ ct = p.ArrivalTime) := by
  unfold rrRefill at h
  cases hqu : s.readyQueue with
  | nil =>
    rw [hqu] at h
    simp only [] at h
    cases hf : findNextFrom s.currentTime s.procs 0 (-1, none) with
    | mk next oi =>
      rw [hf] at h
      cases oi with
      | none => simp at h
      | some j =>
        simp only [Option.some.injEq, Prod.mk.injEq, List.cons.injEq] at h
        obtain ⟨h1, h2, _⟩ := h
        subst h1
        subst h2
        rcases Exact.findNextFrom_some _ _ _ _ _ _ _ hf with ⟨h, _⟩ | ⟨_, a, ha, hr1, hr2, hr3⟩
        · simp at h
        · simp only [Nat.sub_zero] at ha
          rw [hp] at ha
          injection ha with ha
          subst ha
          exact ⟨⟨hr1, by omega⟩, Or.inr hr3.symm⟩
  | cons j js =>
    rw [hqu] at h
    simp only [Option.some.injEq, Prod.mk.injEq, List.cons.injEq] at h
    obtain ⟨h1, h2, _⟩ := h
    subst h1
    subst h2
    obtain ⟨a, ha, har⟩ := hinv.queue j (by simp [hqu])
    rw [hp] at ha
    injection ha with ha
    subst ha
    exact ⟨har, Or.inl rfl⟩

/-- In range, the ready-queue invariant of the exact twin is that of the code. -/
theorem queueInvariant_exact (q : Int) (hq : 0 < q) (ps0 : List Process) (s : RRState)
    (hinv : RRInv ps0 s) (hr : ClockInRange s.procs s.currentTime)
    (h : Exact.QueueInvariant q s) : QueueInvariant q s := by
  obtain ⟨h1, h2, h3⟩ := h
  refine ⟨h1, h2, ?_⟩
  intro t ht
  rw [rrStep_exact q hq ps0 s hinv hr] at ht
  obtain ⟨ct, idx, rest, p, hrefill, hp, ht2, hn1, hn2⟩ := h3 t ht
  obtain ⟨hrd, hct⟩ := rrRefill_ready ps0 s hinv ct idx rest p hrefill hp
  obtain ⟨h0, hc1, hc2⟩ := hr
  have hnn : ∀ p ∈ s.procs, 0 ≤ p.RemainingTime := fun p hp => (hinv.rem p hp).2.1
  have hpm : p ∈ s.procs := mem_of_getElem?_eq hp
  have hle := Exact.totalRemaining_ge_of_mem s.procs hnn p hpm
  have hc3 := hc2 p hpm
  have hlim : ct + p.RemainingTime < 2 ^ 63 := by
    rcases hct with h | h <;> omega
  refine ⟨ct, idx, rest, p, hrefill, hp, ?_, hn1, ?_⟩
  · rw [ht2]
    exact (rrDispatch_exact q hq s ct idx rest p hrd hc3.2.2 (hinv.rem p hpm).1 hc3.2.1
      hlim).symm
  · rw [rrQueueAfterScan_exact q hq s ct idx rest p hrd hc3.2.2 hlim]
    exact hn2

/-- C19, as the code has it.  The ready-queue invariant of Round Robin: for
every non-empty process list with `burstTime > 0`, `arrivalTime >= 0` and
`remainingTime = burstTime` whose times stay in the range of a Go `int` (every
arrival time plus the sum of all burst times is at most `2^63 - 1`), and every
`timeQuantum`, `runRoundRobin` enters its dispatch loop, and at the head of
every pass of the loop the ready queue contains no index twice and contains
only indices of processes with `remainingTime > 0` and `arrivalTime <=` the
current clock; and the process that the pass dispatches is neither in the queue
from which it was taken nor in the queue after the scan for new arrivals. -/
theorem roundRobin_ready_queue (processes : List Process) (hwf : WellFormed processes)
    (hr : InRange processes) (timeQuantum : Int) :
    ∃ s0, rrInit processes = some s0 ∧
      ∀ (n : Nat) (s : RRState),
        stateAt (rrStep (if timeQuantum ≤ 0 then 1 else timeQuantum)) n s0 = some s →
        QueueInvariant (if timeQuantum ≤ 0 then 1 else timeQuantum) s := by
  have hq := Exact.clamp_pos timeQuantum
  obtain ⟨s0, hs0, hinv, hc⟩ := rrInit_inRange processes hwf hr
  obtain ⟨s1, hs1, hall⟩ := Exact.rr_queue_invariant _ hq processes hwf.1 hwf.2
  rw [hs0] at hs1
  cases hs1
  refine ⟨s0, hs0, fun n s hs => ?_⟩
  have hstep : ∀ a b : RRState, RRInv processes a ∧ ClockInRange a.procs a.currentTime →
      Exact.rrStep (if timeQuantum ≤ 0 then 1 else timeQuantum) a = .next b →
      RRInv processes b ∧ ClockInRange b.procs b.currentTime :=
    fun a b ha hab => ⟨(Exact.rrInv_step _ hq processes a b ha.1 hab).1,
      rrClock_step _ hq processes a b ha.1 ha.2 hab⟩
  rw [stateAt_congr_of_inv (rrStep _) (Exact.rrStep _)
    (fun s => RRInv processes s ∧ ClockInRange s.procs s.currentTime) hstep
    (fun a ha => rrStep_exact _ hq processes a ha.1 ha.2) n s0 ⟨hinv, hc⟩] at hs
  have hs2 := stateAt_keeps (Exact.rrStep _)
    (fun s => RRInv processes s ∧ ClockInRange s.procs s.currentTime) hstep n s0 s
    ⟨hinv, hc⟩ hs
  exact queueInvariant_exact _ hq processes s hs2.1 hs2.2 (hall n s hs)

/-- C19 at the scenario of the specification, quantum 2 and `[{A,0,4}, {B,1,3}]`:
the ready queue is `[0]` when the loop is entered and `[1, 0]`, `[0, 1]`, `[1]`
at the head of the passes after it. -/
theorem roundRobin_ready_queue_witness :
    WellFormed [mkProcess "A" 0 4 0, mkProcess "B" 1 3 0] ∧
    InRange [mkProcess "A" 0 4 0, mkProcess "B" 1 3 0] ∧
    (∃ s0, rrInit [mkProcess "A" 0 4 0, mkProcess "B" 1 3 0] = some s0 ∧
      ∀ (n : Nat) (s : RRState),
        stateAt (rrStep (if (2 : Int) ≤ 0 then 1 else 2)) n s0 = some s →
        QueueInvariant (if (2 : Int) ≤ 0 then 1 else 2) s) ∧
    (List.range 4).map (fun n =>
      ((rrInit [mkProcess "A" 0 4 0, mkProcess "B" 1 3 0]).bind
        (stateAt (rrStep 2) n)).map fun s => s.readyQueue) =
      [some [0], some [1, 0], some [0, 1], some [1]] :=
  ⟨by decide, by decide,
   roundRobin_ready_queue [mkProcess "A" 0 4 0, mkProcess "B" 1 3 0] (by decide) (by decide) 2,
   by decide⟩

/-- C19 as stated fails where the clock leaves the range of a Go `int`.  On the
well-formed input `[{A, arrival 2^63 - 1, burst 2}]` with quantum 1, the first
pass of the loop of `runRoundRobin` takes the clock around to `-2^63` and puts
`A` back, so at the head of the second pass the ready queue is `[0]` while the
clock stands before the arrival time of `A`: the queue holds the index of a
process with `arrivalTime >` the current clock. -/
theorem ready_queue_past_the_range :
    WellFormed lastInstantTwice ∧
    ((rrInit lastInstantTwice).bind (stateAt (rrStep 1) 1)).map
        (fun s => (s.readyQueue, s.currentTime,
          s.procs.map fun p => (p.ArrivalTime, p.RemainingTime))) =
      some ([0], -9223372036854775808, [(9223372036854775807, 1)]) ∧
    ∀ s0 s, rrInit lastInstantTwice = some s0 →
      stateAt (rrStep (if (1 : Int) ≤ 0 then 1 else 1)) 1 s0 = some s →
      ¬ QueueInvariant (if (1 : Int) ≤ 0 then 1 else 1) s := by
  have hc : ((rrInit lastInstantTwice).bind (stateAt (rrStep 1) 1)).map
        (fun s => (s.readyQueue, s.currentTime,
          s.procs.map fun p => (p.ArrivalTime, p.RemainingTime))) =
      some ([0], -9223372036854775808, [(9223372036854775807, 1)]) := by decide
  refine ⟨by decide, hc, ?_⟩
  intro s0 s h0 h1 hq
  have h1b : stateAt (rrStep 1) 1 s0 = some s := h1
  rw [h0] at hc
  simp only [Option.some_bind, h1b, Option.map_some', Option.some.injEq, Prod.mk.injEq] at hc
  obtain ⟨hqueue, hclock, hprocs⟩ := hc
  obtain ⟨p, hp, _, harr⟩ := hq.2.1 0 (by rw [hqueue]; simp)
  have hlen : s.procs.length = 1 := by simpa using congrArg List.length hprocs
  obtain ⟨a, ha⟩ := List.length_eq_one.mp hlen
  rw [ha] at hprocs hp
  simp only [List.map_cons, List.map_nil, List.cons.injEq, Prod.mk.injEq, and_true] at hprocs
  simp only [List.getElem?_cons_zero, Option.some.injEq] at hp
  subst hp
  rw [hclock, hprocs.1] at harr
  exact absurd harr (by decide)

/-! ## Claim C21: the order of the returned process list -/

/-- The list `completed` of `runSJF` carries the ids of the segments. -/
theorem npCompleted_ids (key : Process → Int) (s t : NPState)
    (hc : s.completed.map (fun p => p.ID) = s.timeline.map fun seg => seg.ProcessID)
    (h : npStep key s = .next t) :
    t.completed.map (fun p => p.ID) = t.timeline.map fun seg => seg.ProcessID := by
  obtain ⟨_, hcase⟩ := npStep_next key s t h
  rcases hcase with ⟨_, rfl⟩ | ⟨i, p, _, _, _, rfl⟩
  · exact hc
  · simp [hc]

/-- C21, as the code has it.  The order of the returned process list: for every
non-empty process list with `burstTime > 0`, `arrivalTime >= 0` and
`remainingTime = burstTime` (a list of Go values: every `int` field holds a
value of Go `int`), `runSJF` returns a permutation of the input processes whose
i-th element carries the id of the i-th timeline segment, ordered by strictly
increasing `completionTime` when the times stay in the range of a Go `int`
(every arrival time plus the sum of all burst times is at most `2^63 - 1`),
whereas `runSRTF`, `runRoundRobin` (any `timeQuantum`),
`runNonPreemptivePriority` and `runPreemptivePriority` return a list of the same
length as the input whose i-th element has the id, `arrivalTime`, `burstTime`
and priority of the i-th input process. -/
theorem returned_process_order (processes : List Process) (hwf : WellFormed processes)
    (hgo : GoInts processes) (timeQuantum : Int) :
    (∃ r, Returns (fun fuel => runSJF fuel processes) r ∧
      (r.Processes.map static).Perm (processes.map static) ∧
      r.Processes.map (fun p => p.ID) = r.Timeline.map (fun seg => seg.ProcessID) ∧
      (InRange processes →
        r.Processes.Pairwise (fun a b => a.CompletionTime < b.CompletionTime))) ∧
    (∃ r, Returns (fun fuel => runSRTF fuel processes) r ∧
      InputOrder processes r.Processes) ∧
    (∃ r, Returns (fun fuel => runRoundRobin fuel processes timeQuantum) r ∧
      InputOrder processes r.Processes) ∧
    (∃ r, Returns (fun fuel => runNonPreemptivePriority fuel processes) r ∧
      InputOrder processes r.Processes) ∧
    (∃ r, Returns (fun fuel => runPreemptivePriority fuel processes) r ∧
      InputOrder processes r.Processes) := by
  obtain ⟨hne, hall⟩ := hwf
  refine ⟨?_, ?_, ?_, ?_, ?_⟩
  · obtain ⟨s1, hs1, _, hp1, ht1, hc1, _⟩ := npInit_core processes hne hall
    obtain ⟨s0, r, h0, hret, hcore, ⟨hperm, hids⟩, hz⟩ :=
      np_ends_with (fun p => p.BurstTime) processes hne hall
        (fun s => s.completed.Perm (s.procs.filter fun p => decide (p.RemainingTime = 0)) ∧
          s.completed.map (fun p => p.ID) = s.timeline.map fun seg => seg.ProcessID)
        (fun s0 hs0 => by
          rw [hs0] at hs1
          cases hs1
          have : processes.filter (fun p => decide (p.RemainingTime = 0)) = [] := by
            rw [List.filter_eq_nil_iff]
            intro p hp
            have := hall p hp
            simp
            omega
          rw [hc1, hp1, ht1, this]
          exact ⟨List.Perm.refl _, rfl⟩)
        (fun s t _ he hst =>
          ⟨npCompleted_next _ s t he.1 hst, npCompleted_ids _ s t he.2 hst⟩)
    have hall0 : r.procs.filter (fun p => decide (p.RemainingTime = 0)) = r.procs := by
      rw [List.filter_eq_self]
      intro p hp
      have hc := hcore.count
      rw [hz] at hc
      have h0 := List.countP_eq_zero.1 hc.symm p hp
      have := (hcore.rem p hp)
      simp at h0 ⊢
      omega
    rw [hall0] at hperm
    have hret2 := runSJF_of_loop h0 hret
    refine ⟨_, hret2, ?_, hids, ?_⟩
    · rw [← hcore.static_eq]
      exact hperm.map static
    · intro hr
      obtain ⟨s2, r2, h2, hret3, _, hinc, _⟩ := Exact.sjf_completion_order processes hne hall
      have hret4 := returns_of_agree (runSJF_exact processes ⟨hne, hall⟩ hr)
        (Exact.runSJF_returns h2 hret3)
      have := Returns.unique hret2 hret4
      rw [this]
      exact hinc
  · obtain ⟨s0, r, h0, hret, hcore, _⟩ :=
      p_ends_with (fun p => p.RemainingTime) srtfPreempts processes hne hall hgo
        (fun _ => True) (fun _ _ => trivial) (fun _ _ _ _ _ => trivial)
    exact ⟨_, runSRTF_of_loop h0 hret, Exact.inputOrder_of_static hcore.static_eq⟩
  · obtain ⟨s0, r, h0, hret, hcore, _⟩ :=
      rr_ends_with _ (Exact.clamp_pos timeQuantum) processes hne hall hgo
        (fun _ => True) (fun _ _ => trivial) (fun _ _ _ _ _ => trivial)
    exact ⟨_, runRoundRobin_of_loop timeQuantum h0 hret,
      Exact.inputOrder_of_static hcore.static_eq⟩
  · obtain ⟨s0, r, h0, hret, hcore, _⟩ :=
      np_ends_with (fun p => p.Priority) processes hne hall
        (fun _ => True) (fun _ _ => trivial) (fun _ _ _ _ _ => trivial)
    exact ⟨_, runNonPreemptivePriority_of_loop h0 hret,
      Exact.inputOrder_of_static hcore.static_eq⟩
  · obtain ⟨s0, r, h0, hret, hcore, _⟩ :=
      p_ends_with (fun p => p.Priority) priorityPreempts processes hne hall hgo
        (fun _ => True) (fun _ _ => trivial) (fun _ _ _ _ _ => trivial)
    exact ⟨_, runPreemptivePriority_of_loop h0 hret,
      Exact.inputOrder_of_static hcore.static_eq⟩

/-- C21 at the input `[{A,0,5,priority 2}, {B,1,4,priority 1}, {C,2,2,priority
0}]`, quantum 2: `runSJF` returns the processes in the order `A`, `C`, `B` of
their completion times 5, 7, 11; `runNonPreemptivePriority`, which runs them in
the same order, returns them in the order `A`, `B`, `C` of the input. -/
theorem returned_process_order_witness :
    WellFormed [mkProcess "A" 0 5 2, mkProcess "B" 1 4 1, mkProcess "C" 2 2 0] ∧
    GoInts [mkProcess "A" 0 5 2, mkProcess "B" 1 4 1, mkProcess "C" 2 2 0] ∧
    InRange [mkProcess "A" 0 5 2, mkProcess "B" 1 4 1, mkProcess "C" 2 2 0] ∧
    ((∃ r, Returns (fun fuel =>
        runSJF fuel [mkProcess "A" 0 5 2, mkProcess "B" 1 4 1, mkProcess "C" 2 2 0]) r ∧
      (r.Processes.map static).Perm
        ([mkProcess "A" 0 5 2, mkProcess "B" 1 4 1, mkProcess "C" 2 2 0].map static) ∧
      r.Processes.map (fun p => p.ID) = r.Timeline.map (fun seg => seg.ProcessID) ∧
      (InRange [mkProcess "A" 0 5 2, mkProcess "B" 1 4 1, mkProcess "C" 2 2 0] →
        r.Processes.Pairwise (fun a b => a.CompletionTime < b.CompletionTime))) ∧
    (∃ r, Returns (fun fuel =>
        runSRTF fuel [mkProcess "A" 0 5 2, mkProcess "B" 1 4 1, mkProcess "C" 2 2 0]) r ∧
      InputOrder [mkProcess "A" 0 5 2, mkProcess "B" 1 4 1, mkProcess "C" 2 2 0]
        r.Processes) ∧
    (∃ r, Returns (fun fuel =>
        runRoundRobin fuel [mkProcess "A" 0 5 2, mkProcess "B" 1 4 1, mkProcess "C" 2 2 0] 2) r ∧
      InputOrder [mkProcess "A" 0 5 2, mkProcess "B" 1 4 1, mkProcess "C" 2 2 0]
        r.Processes) ∧
    (∃ r, Returns (fun fuel => runNonPreemptivePriority fuel
        [mkProcess "A" 0 5 2, mkProcess "B" 1 4 1, mkProcess "C" 2 2 0]) r ∧
      InputOrder [mkProcess "A" 0 5 2, mkProcess "B" 1 4 1, mkProcess "C" 2 2 0]
        r.Processes) ∧
    (∃ r, Returns (fun fuel => runPreemptivePriority fuel
        [mkProcess "A" 0 5 2, mkProcess "B" 1 4 1, mkProcess "C" 2 2 0]) r ∧
      InputOrder [mkProcess "A" 0 5 2, mkProcess "B" 1 4 1, mkProcess "C" 2 2 0]
        r.Processes)) ∧
    (runSJF 3 [mkProcess "A" 0 5 2, mkProcess "B" 1 4 1, mkProcess "C" 2 2 0]).map
        (fun r => r.Processes.map fun p => (p.ID, p.CompletionTime)) =
      some [("A", 5), ("C", 7), ("B", 11)] ∧
    (runNonPreemptivePriority 3
        [mkProcess "A" 0 5 2, mkProcess "B" 1 4 1, mkProcess "C" 2 2 0]).map
        (fun r => r.Processes.map fun p => (p.ID, p.CompletionTime)) =
      some [("A", 5), ("B", 11), ("C", 7)] :=
  ⟨by decide, by decide, by decide,
   returned_process_order [mkProcess "A" 0 5 2, mkProcess "B" 1 4 1, mkProcess "C" 2 2 0]
     (by decide) (by decide) 2,
   by decide, by decide⟩

/-- C21 as stated fails where the clock leaves the range of a Go `int`.  On the
well-formed input `[{A, arrival 5, burst 1}, {B, arrival 2^63 - 1, burst 1}]`
`runSJF` returns `A` with `completionTime = 6` and then `B` with
`completionTime = -2^63`: the completion time of `B` has wrapped around, and the
returned list is not in increasing order of `completionTime`. -/
theorem completion_order_past_the_range :
    WellFormed lateArrival ∧ DistinctIds lateArrival ∧ GoInts lateArrival ∧
    Returns (fun fuel => (runSJF fuel lateArrival).map fun r =>
        r.Processes.map fun p => (p.ID, p.CompletionTime))
      [("A", 6), ("B", -9223372036854775808)] ∧
    ∀ r, Returns (fun fuel => runSJF fuel lateArrival) r →
      ¬ CompletionOrder lateArrival r.Processes r.Timeline := by
  have hrun : ∀ fuel, 4 ≤ fuel → ∃ r, runSJF fuel lateArrival = some r ∧
      r.Processes.map (fun p => (p.ID, p.CompletionTime)) =
        [("A", 6), ("B", -9223372036854775808)] := by
    intro fuel h
    obtain ⟨k, rfl⟩ := Nat.exists_eq_add_of_le h
    rw [Nat.add_comm]
    exact ⟨_, rfl, rfl⟩
  refine ⟨by decide, by decide, by decide, ⟨4, ?_⟩, ?_⟩
  · intro fuel h
    obtain ⟨r, h1, h2⟩ := hrun fuel h
    show (runSJF fuel lateArrival).map _ = _
    rw [h1]
    simp [h2]
  · rintro r ⟨N, hN⟩ ⟨_, hinc, _⟩
    obtain ⟨r1, h1, h2⟩ := hrun (max N 4) (le_max_right _ _)
    have h5 : runSJF (max N 4) lateArrival = some r := hN _ (le_max_left _ _)
    rw [h5] at h1
    cases h1
    have hlen : r.Processes.length = 2 := by simpa using congrArg List.length h2
    obtain ⟨a, b, hab⟩ := List.length_eq_two.mp hlen
    rw [hab] at h2 hinc
    simp only [List.map_cons, List.map_nil, List.cons.injEq, Prod.mk.injEq, and_true] at h2
    simp only [List.pairwise_cons, List.mem_singleton, forall_eq, List.not_mem_nil,
      false_implies, implies_true, List.Pairwise.nil, and_true] at hinc
    rw [h2.1.2, h2.2.2] at hinc
    exact absurd hinc (by decide)

end CPUScheduler
